import Mathlib

/-!
# MCOCA: the omega-automaton engine

A shallow embedding of the automaton core of the repository (`NBW.cpp`,
`SafraTree.cpp`, `DRW.cpp`) together with theorems about it.

Conventions of the embedding.

* `state_set_t` (a `boost::dynamic_bitset`) is the finite set of the positions
  of its set bits; the width of a bitset is the `size` of the automaton that
  owns it, and every loop of the source that scans a bitset scans
  `0 .. size - 1`, which the embedding keeps as a fold over `List.range`.
* A C array is a function from the flat index to the cell, written to with
  `Function.update`; the transition matrix keeps the source's flat index
  `state * alphabet_size + character`.
* Mutating member functions return the new object.
* Loops whose trip count is not a loop bound (`while` over a growing queue)
  take fuel.
-/

namespace MCOCA

/-! ## Configuration constants (`utils.hpp`, `SafraTree.hpp`) -/

/-- `#define NBW_USE_CACHE false` of `utils.hpp`. -/
def NBW_USE_CACHE : Bool := false

/-- `#define NBW_MAX_CACHED_SIZE 10` of `utils.hpp`. -/
def NBW_MAX_CACHED_SIZE : ℕ := 10

/-- `#define MARK_NEW_CHILDREN true` of `SafraTree.hpp`. -/
def MARK_NEW_CHILDREN : Bool := true

/-! ## Bit sets -/

/-- `dynamic_bitset::to_ulong`: the number whose binary digits are the set. -/
def to_ulong (s : Finset ℕ) : ℕ := ∑ i in s, 2 ^ i

/-- `dynamic_bitset::resize(n)` on a set of bit positions: positions from `n`
on are dropped (growing adds cleared bits only). -/
def resize (s : Finset ℕ) (n : ℕ) : Finset ℕ := s.filter (fun i => i < n)

/-- `cells[index].set(bit)` on an array of bitsets. -/
def set_bit (cells : ℕ → Finset ℕ) (index bit : ℕ) : ℕ → Finset ℕ :=
  Function.update cells index (insert bit (cells index))

/-- `cells[index] |= s` on an array of bitsets. -/
def or_into (cells : ℕ → Finset ℕ) (index : ℕ) (s : Finset ℕ) : ℕ → Finset ℕ :=
  Function.update cells index (cells index ∪ s)

/-! ## NBW -/

/-- The fields of `class NBW` that the automaton operations read or write.
`projected_tracks`, `alphabet`, `char_labels` and `state_labels` only feed the
printers and are left out. -/
structure NBW where
  size : ℕ
  alphabet_size : ℕ
  transition_matrix : ℕ → Finset ℕ
  initial : Finset ℕ
  final : Finset ℕ
  num_transitions : ℕ
  trimmed : Bool
  use_cache : Bool
  transition_cache : ℕ → Finset ℕ

/-- The successor set `transition_matrix[s * alphabet_size + c]`. -/
def NBW.delta (A : NBW) (s c : ℕ) : Finset ℕ :=
  A.transition_matrix (s * A.alphabet_size + c)

/-- One cell of the cache loop: starting from the cell's old content, or in
`transition_matrix[i * alphabet_size + c]` for every `i` with bit `i` of
`states` set. -/
def cache_cell (size alphabet_size : ℕ) (tm : ℕ → Finset ℕ) (old : Finset ℕ)
    (states c : ℕ) : Finset ℕ :=
  (List.range size).foldl
    (fun acc i => if states.testBit i then acc ∪ tm (i * alphabet_size + c) else acc) old

/-- The cache loop shared by the constructor, `project` and `trim`:
`for states < (1 << size)`, `for c < alphabet_size`, fill
`cache[states * alphabet_size + c]`. -/
def build_cache (size alphabet_size : ℕ) (tm cache : ℕ → Finset ℕ) : ℕ → Finset ℕ :=
  (List.range (2 ^ size)).foldl
    (fun cache states =>
      (List.range alphabet_size).foldl
        (fun cache c =>
          Function.update cache (states * alphabet_size + c)
            (cache_cell size alphabet_size tm (cache (states * alphabet_size + c)) states c))
        cache)
    cache

/-- The constructor `NBW::NBW(size, alphabet_size, adjacency_list, initial, final, ..)`. -/
def NBW.ctor (size alphabet_size : ℕ) (adjacency_list : List (ℕ × ℕ × ℕ))
    (initial final : Finset ℕ) : NBW :=
  let tm : ℕ → Finset ℕ :=
    adjacency_list.foldl (fun tm t => set_bit tm (t.1 * alphabet_size + t.2.1) t.2.2)
      (fun _ => ∅)
  let use_cache := NBW_USE_CACHE && decide (size ≤ NBW_MAX_CACHED_SIZE)
  { size := size
    alphabet_size := alphabet_size
    transition_matrix := tm
    initial := initial
    final := final
    num_transitions := adjacency_list.length
    trimmed := false
    use_cache := use_cache
    transition_cache :=
      if use_cache then build_cache size alphabet_size tm (fun _ => ∅) else fun _ => ∅ }

/-- `NBW::transition(states_from, character)`; `character` is 1-based. The
result is the new value of `states_from`. -/
def NBW.transition (A : NBW) (states_from : Finset ℕ) (character : ℕ) : Finset ℕ :=
  if A.use_cache then
    A.transition_cache (to_ulong states_from * A.alphabet_size + (character - 1))
  else
    (List.range A.size).foldl
      (fun temp i =>
        if i ∈ states_from then
          temp ∪ A.transition_matrix (i * A.alphabet_size + (character - 1))
        else temp)
      ∅

/-! ### Accessible and coaccessible states -/

/-- The body of both search loops: `if(!seen[x]){ seen.set(x); queue.push_back(x); }`
on the pair (queue, seen set). -/
def search_push (st : List ℕ × Finset ℕ) (x : ℕ) : List ℕ × Finset ℕ :=
  if x ∈ st.2 then st else (st.1 ++ [x], insert x st.2)

/-- One pass of the outer loop body of `NBW::accessible_states` for the queue
entry `q`: `for c`, `for new_state`, push every unseen target. -/
def NBW.accessible_visit (A : NBW) (q : ℕ) (st : List ℕ × Finset ℕ) : List ℕ × Finset ℕ :=
  (List.range A.alphabet_size).foldl
    (fun st c =>
      (List.range A.size).foldl
        (fun st new_state =>
          if new_state ∈ A.transition_matrix (q * A.alphabet_size + c) then
            search_push st new_state
          else st)
        st)
    st

/-- The loop `for(i = 0; i < bfs_queue.size(); i++)` of `NBW::accessible_states`. -/
def NBW.accessible_loop (A : NBW) : ℕ → ℕ → List ℕ × Finset ℕ → Finset ℕ
  | 0, _, st => st.2
  | fuel + 1, i, st =>
    match st.1[i]? with
    | some q => NBW.accessible_loop A fuel (i + 1) (A.accessible_visit q st)
    | none => st.2

/-- `NBW::accessible_states`. Every state enters the queue at most once, so
`size` passes of the outer loop exhaust it. -/
def NBW.accessible_states (A : NBW) : Finset ℕ :=
  A.accessible_loop A.size 0 ((List.range A.size).filter (fun i => i ∈ A.initial), A.initial)

/-- First loop of `NBW::coaccessible_states`: accepting states with a self-loop. -/
def NBW.self_loop_alive (A : NBW) : Finset ℕ :=
  (List.range A.size).foldl
    (fun alive i =>
      if i ∈ A.final then
        (List.range A.alphabet_size).foldl
          (fun alive j =>
            if i ∉ alive ∧ i ∈ A.transition_matrix (i * A.alphabet_size + j) then
              insert i alive
            else alive)
          alive
      else alive)
    ∅

/-- Modelled from the spec: `boost::strong_components` (Boost Graph Library, not
part of the repository) on the graph with an edge `i -> target` whenever
`transition_matrix[i * alphabet_size + j][target]`. The callers use a component
number only as a key, so the component of `v` is named by its least member: the
least `u` such that `u` and `v` reach each other. Reachability is computed with
the repository's own forward search started at a single state. -/
def NBW.strong_components (A : NBW) (v : ℕ) : ℕ :=
  ((List.range A.size).find?
    (fun u =>
      decide (v ∈ NBW.accessible_states { A with initial := {u} }) &&
      decide (u ∈ NBW.accessible_states { A with initial := {v} }))).getD v

/-- The body of the second loop of `NBW::coaccessible_states` ("Determine which
of the connected components are alive") for the state `i`. The loop state is
`(alive, nontrivial_component, component_satisfied)`, the two flag arrays as
the sets of component numbers whose flag is set. -/
def NBW.component_step (A : NBW) (sccs : ℕ → ℕ) (st : Finset ℕ × Finset ℕ × Finset ℕ)
    (i : ℕ) : Finset ℕ × Finset ℕ × Finset ℕ :=
  let alive := st.1
  let nontrivial := st.2.1
  let satisfied := st.2.2
  if i ∈ A.final then
    (if sccs i ∈ nontrivial then insert i alive else alive,
      insert (sccs i) nontrivial, insert (sccs i) satisfied)
  else
    (if sccs i ∈ satisfied then insert i alive else alive,
      insert (sccs i) nontrivial, satisfied)

/-- Second loop of `NBW::coaccessible_states`, started with the set `alive` of
the first loop and both flag arrays cleared. -/
def NBW.component_scan (A : NBW) (sccs : ℕ → ℕ) (alive : Finset ℕ) :
    Finset ℕ × Finset ℕ × Finset ℕ :=
  (List.range A.size).foldl (A.component_step sccs) (alive, ∅, ∅)

/-- The list `reverse_accessible[i]` of `NBW::coaccessible_states`: the states
`j`, in increasing order, with a transition into `i` on some character. -/
def NBW.reverse_accessible (A : NBW) (i : ℕ) : List ℕ :=
  (List.range A.size).filter
    (fun j => (List.range A.alphabet_size).any
      (fun k => decide (i ∈ A.transition_matrix (j * A.alphabet_size + k))))

/-- The loop `for(i = 0; i < search_queue.size(); i++)` of
`NBW::coaccessible_states`. -/
def NBW.coaccessible_loop (A : NBW) : ℕ → ℕ → List ℕ × Finset ℕ → Finset ℕ
  | 0, _, st => st.2
  | fuel + 1, i, st =>
    match st.1[i]? with
    | some q =>
      NBW.coaccessible_loop A fuel (i + 1) ((A.reverse_accessible q).foldl search_push st)
    | none => st.2

/-- `NBW::coaccessible_states`. -/
def NBW.coaccessible_states (A : NBW) : Finset ℕ :=
  let alive := (A.component_scan A.strong_components A.self_loop_alive).1
  A.coaccessible_loop A.size 0 ((List.range A.size).filter (fun i => i ∈ alive), alive)

/-! ### trim, is_empty, project, disjoint_sum -/

/-- The array `old_labels` of `NBW::trim`: the kept states in increasing order. -/
def old_labels (size : ℕ) (keep : Finset ℕ) : List ℕ :=
  (List.range size).filter (fun i => i ∈ keep)

/-- The loop "Calculate the new transition matrix" of `NBW::trim`; the state is
`(new_tm, new_transitions)`. -/
def NBW.trim_matrix (A : NBW) (labels : List ℕ) (new_size : ℕ) : (ℕ → Finset ℕ) × ℕ :=
  (List.range new_size).foldl
    (fun st s1 =>
      (List.range A.alphabet_size).foldl
        (fun st c =>
          (List.range new_size).foldl
            (fun st s2 =>
              if labels.getD s2 0 ∈
                  A.transition_matrix (labels.getD s1 0 * A.alphabet_size + c) then
                (set_bit st.1 (s1 * A.alphabet_size + c) s2, st.2 + 1)
              else st)
            st)
        st)
    (fun _ => ∅, 0)

/-- `NBW::trim`: the returned pair is (states saved, the automaton afterwards). -/
def NBW.trim (A : NBW) : ℕ × NBW :=
  if A.trimmed then (0, A)
  else if A.size ≤ 1 then (0, A)
  else
    let acc := A.accessible_states
    let coacc := A.coaccessible_states
    let keep := acc ∩ coacc
    let new_size := keep.card
    if new_size = 0 then
      let use_cache := NBW_USE_CACHE && decide (1 ≤ NBW_MAX_CACHED_SIZE)
      (A.size - 1,
        { A with
          size := 1
          transition_matrix := fun _ => ∅
          initial := insert 0 (resize A.initial 1)
          final := (resize A.final 1).erase 0
          num_transitions := 0
          use_cache := use_cache
          transition_cache := if use_cache then fun _ => ∅ else A.transition_cache })
    else
      let labels := old_labels A.size keep
      let new := A.trim_matrix labels new_size
      let new_initial :=
        (List.range new_size).foldl
          (fun s i => if labels.getD i 0 ∈ A.initial then insert i s else s) ∅
      let new_final :=
        (List.range new_size).foldl
          (fun s i => if labels.getD i 0 ∈ A.final then insert i s else s) ∅
      let use_cache := NBW_USE_CACHE && decide (new_size ≤ NBW_MAX_CACHED_SIZE)
      (A.size - new_size,
        { size := new_size
          alphabet_size := A.alphabet_size
          transition_matrix := new.1
          initial := new_initial
          final := new_final
          num_transitions := new.2
          trimmed := true
          use_cache := use_cache
          transition_cache :=
            if use_cache then build_cache new_size A.alphabet_size new.1 (fun _ => ∅)
            else A.transition_cache })

/-- `NBW::is_empty`: the returned pair is (answer, the automaton afterwards). -/
def NBW.is_empty (A : NBW) : Bool × NBW :=
  let B := A.trim.2
  if 1 < B.size then (false, B)
  else (!(decide (0 ∈ B.initial) && decide (0 ∈ B.final) && decide (0 < B.num_transitions)), B)

/-- `NBW::project(track_index)`. -/
def NBW.project (A : NBW) (track_index : ℕ) : NBW :=
  let tm :=
    (List.range A.alphabet_size).foldl
      (fun tm c1 =>
        let c2 := c1 ^^^ (1 <<< track_index)
        if c1 < c2 then
          (List.range A.size).foldl
            (fun tm s =>
              let tm1 := or_into tm (s * A.alphabet_size + c1) (tm (s * A.alphabet_size + c2))
              or_into tm1 (s * A.alphabet_size + c2) (tm1 (s * A.alphabet_size + c1)))
            tm
        else tm)
      A.transition_matrix
  { A with
    trimmed := false
    transition_matrix := tm
    transition_cache :=
      if A.use_cache then build_cache A.size A.alphabet_size tm A.transition_cache
      else A.transition_cache }

/-- The body of `NBW::disjoint_sum(one, two)` after its first two statements
`one->trim(); two->trim();`. -/
def NBW.sum_of_trimmed (one two : NBW) : NBW :=
  let size := one.size + two.size
  let alphabet_size := one.alphabet_size
  let initial :=
    (List.range two.size).foldl
      (fun s i => if i ∈ two.initial then insert (i + one.size) s else s)
      (resize one.initial size)
  let final1 :=
    (List.range one.size).foldl (fun s i => if i ∈ one.final then insert i s else s) ∅
  let final :=
    (List.range two.size).foldl
      (fun s i => if i ∈ two.final then insert (one.size + i) s else s) final1
  let tm1 : ℕ → Finset ℕ :=
    (List.range one.size).foldl
      (fun tm s0 =>
        (List.range one.alphabet_size).foldl
          (fun tm c =>
            Function.update tm (s0 * alphabet_size + c)
              (resize (one.transition_matrix (s0 * one.alphabet_size + c)) size))
          tm)
      (fun _ => ∅)
  let tm2 : ℕ → Finset ℕ :=
    (List.range two.size).foldl
      (fun tm s0 =>
        (List.range two.alphabet_size).foldl
          (fun tm c =>
            (List.range two.size).foldl
              (fun tm s1 =>
                if s1 ∈ two.transition_matrix (s0 * two.alphabet_size + c) then
                  set_bit tm ((s0 + one.size) * alphabet_size + c) (s1 + one.size)
                else tm)
              tm)
          tm)
      tm1
  let use_cache := NBW_USE_CACHE && decide (size ≤ NBW_MAX_CACHED_SIZE)
  { size := size
    alphabet_size := alphabet_size
    transition_matrix := tm2
    initial := initial
    final := final
    num_transitions := one.num_transitions + two.num_transitions
    trimmed := false
    use_cache := use_cache
    transition_cache :=
      if use_cache then build_cache size alphabet_size tm2 (fun _ => ∅) else fun _ => ∅ }

/-- `NBW::disjoint_sum(one, two)`: both operands are trimmed, then the sum is
built from the trimmed operands. -/
def NBW.disjoint_sum (one two : NBW) : NBW :=
  NBW.sum_of_trimmed one.trim.2 two.trim.2

/-! ### Infinite words and Buchi acceptance -/

/-- `w` is an infinite word over the alphabet `[0, alphabet_size)`. -/
def NBW.IsWord (A : NBW) (w : ℕ → ℕ) : Prop := ∀ n, w n < A.alphabet_size

/-- `rho` is a run of `A` on `w`: a sequence of states of `A` that starts in an
initial state and follows the transition matrix. -/
def NBW.IsRun (A : NBW) (w rho : ℕ → ℕ) : Prop :=
  (∀ n, rho n < A.size) ∧ rho 0 ∈ A.initial ∧ ∀ n, rho (n + 1) ∈ A.delta (rho n) (w n)

/-- Buchi acceptance: some run on `w` visits accepting states infinitely often. -/
def NBW.Accepts (A : NBW) (w : ℕ → ℕ) : Prop :=
  ∃ rho, A.IsRun w rho ∧ ∀ n, ∃ m, n ≤ m ∧ rho m ∈ A.final

/-! ## Safra trees (`SafraTree.hpp`, `SafraTree.cpp`) -/

/-- `class SafraNode`: name, label (`states`), mark and the ordered children.
The debugging counter `ID` and the back pointer `tree` are left out; the tree a
node belongs to is passed to every function that needs it. -/
inductive SafraNode where
  | mk (name : ℕ) (states : Finset ℕ) (marked : Bool) (children : List SafraNode)

/-- Field `name` of a node. -/
def SafraNode.name : SafraNode → ℕ
  | .mk name _ _ _ => name

/-- Field `states` of a node. -/
def SafraNode.states : SafraNode → Finset ℕ
  | .mk _ states _ _ => states

/-- Field `marked` of a node. -/
def SafraNode.marked : SafraNode → Bool
  | .mk _ _ marked _ => marked

/-- Field `children` of a node. -/
def SafraNode.children : SafraNode → List SafraNode
  | .mk _ _ _ children => children

/-- `class SafraTree`. `treeID` (object identity), `name` (the position of the
tree in the list of reached trees), `targets` (kept by the determinization
state below) and `node_storage` (the arena; nodes are values here) are left
out. The three name sets are bitsets of width `2 * buchi_size` holding
`name - 1`. -/
structure SafraTree where
  root : Option SafraNode
  hvalue : ℕ
  marked_nodes : Finset ℕ
  used_node_names : Finset ℕ
  temp_node_names : Finset ℕ

/-- The tree that `SafraTree::SafraTree(buchi_size, alphabet_size)` leaves: all
name sets cleared. `root` and `hvalue` are assigned by the callers. -/
def SafraTree.fresh : SafraTree :=
  { root := none, hvalue := 0, marked_nodes := ∅, used_node_names := ∅, temp_node_names := ∅ }

/-- Modelled from the spec: `boost::hash_combine` (Boost, not part of the
repository) on 64-bit `size_t`:
`seed ^= v + 0x9e3779b9 + (seed << 6) + (seed >> 2)`. -/
def hash_combine (seed v : ℕ) : ℕ :=
  seed ^^^ ((v + 0x9e3779b9 + (seed <<< 6) % 2 ^ 64 + (seed >>> 2)) % 2 ^ 64)

/-- The vector `bit_bucket` of `SafraNode::hash_value`: it is created with
`num_blocks` zero entries and `to_block_range` inserts the `num_blocks` 64-bit
blocks of the label in front of them. -/
def bit_bucket (width : ℕ) (states : Finset ℕ) : List ℕ :=
  (List.range ((width + 63) / 64)).map (fun b => to_ulong states / 2 ^ (64 * b) % 2 ^ 64) ++
    List.replicate ((width + 63) / 64) 0

mutual
/-- `SafraNode::hash_value`; `width` is the width of the label bitsets. -/
def SafraNode.hash_value (width : ℕ) : SafraNode → ℕ
  | .mk name states _ children =>
    SafraNode.hash_children width children
      ((bit_bucket width states).foldl hash_combine (hash_combine 0 name))
/-- The loop over the children in `SafraNode::hash_value`. -/
def SafraNode.hash_children (width : ℕ) : List SafraNode → ℕ → ℕ
  | [], seed => seed
  | c :: cs, seed =>
    SafraNode.hash_children width cs (hash_combine seed (SafraNode.hash_value width c))
end

mutual
/-- `SafraNode::operator==`: name, label and children in order; marks are not
compared. -/
def SafraNode.beq : SafraNode → SafraNode → Bool
  | .mk n1 s1 _ c1, .mk n2 s2 _ c2 =>
    if n1 ≠ n2 then false
    else if ¬ (s1 = s2) then false
    else SafraNode.beq_children c1 c2
/-- The size test and the loop over the children in `SafraNode::operator==`. -/
def SafraNode.beq_children : List SafraNode → List SafraNode → Bool
  | [], [] => true
  | c1 :: cs1, c2 :: cs2 => SafraNode.beq c1 c2 && SafraNode.beq_children cs1 cs2
  | _, _ => false
end

/-- `SafraTree::operator==`. -/
def SafraTree.beq (a b : SafraTree) : Bool :=
  match a.root, b.root with
  | some ra, some rb =>
    if a.hvalue ≠ b.hvalue then false
    else if a.used_node_names ≠ b.used_node_names then false
    else SafraNode.beq ra rb
  | none, none => true
  | _, _ => false

/-- The search `while(used_node_names[i]) i++` of `SafraTree::name_node`,
started at `i`. A set with `fuel` members has a free position among
`i .. i + fuel`. -/
def first_unused (used : Finset ℕ) : ℕ → ℕ → ℕ
  | 0, i => i
  | fuel + 1, i => if i ∈ used then first_unused used fuel (i + 1) else i

/-- `SafraTree::name_node`: the returned pair is (the name, the tree afterwards). -/
def SafraTree.name_node (t : SafraTree) : ℕ × SafraTree :=
  let i := first_unused t.used_node_names t.used_node_names.card 0
  (i + 1, { t with used_node_names := insert i t.used_node_names })

/-- `SafraTree::free_node_name`. -/
def SafraTree.free_node_name (t : SafraTree) (name : ℕ) : SafraTree :=
  { t with
    used_node_names := t.used_node_names.erase (name - 1)
    marked_nodes := t.marked_nodes.erase (name - 1) }

/-- `SafraTree::mark_node`. -/
def SafraTree.mark_node (t : SafraTree) (name : ℕ) : SafraTree :=
  { t with marked_nodes := insert (name - 1) t.marked_nodes }

/-- `SafraTree::temp_name_node`. -/
def SafraTree.temp_name_node (t : SafraTree) (name : ℕ) : SafraTree :=
  { t with temp_node_names := insert (name - 1) t.temp_node_names }

/-- `SafraTree::free_temp_names`. -/
def SafraTree.free_temp_names (t : SafraTree) : SafraTree :=
  { t with
    used_node_names := t.used_node_names \ t.temp_node_names
    temp_node_names := ∅ }

mutual
/-- `SafraNode::kill_node`, on the tree the node belongs to. -/
def SafraNode.kill_node : SafraNode → SafraTree → SafraTree
  | .mk name _ _ children, t => SafraNode.kill_nodes children (t.free_node_name name)
/-- The loop over the children in `SafraNode::kill_node`. -/
def SafraNode.kill_nodes : List SafraNode → SafraTree → SafraTree
  | [], t => t
  | c :: cs, t => SafraNode.kill_nodes cs (SafraNode.kill_node c t)
end

mutual
/-- `SafraNode::accumulate_subtree_names`. -/
def SafraNode.accumulate_subtree_names : SafraNode → Finset ℕ → Finset ℕ
  | .mk name _ _ children, subtree_names =>
    SafraNode.accumulate_names_list children (insert (name - 1) subtree_names)
/-- The loop over the children in `SafraNode::accumulate_subtree_names`. -/
def SafraNode.accumulate_names_list : List SafraNode → Finset ℕ → Finset ℕ
  | [], subtree_names => subtree_names
  | c :: cs, subtree_names =>
    SafraNode.accumulate_names_list cs (SafraNode.accumulate_subtree_names c subtree_names)
end

/-- `SafraTree::build_initial_tree`. -/
def SafraTree.build_initial_tree (input : NBW) : SafraTree :=
  let nbw_initial_states := input.initial
  let nbw_final_states := input.final
  let r1 := SafraTree.fresh.name_node
  let copy := nbw_initial_states ∩ nbw_final_states
  let built : SafraNode × SafraTree :=
    if copy = ∅ then (SafraNode.mk r1.1 nbw_initial_states false [], r1.2)
    else if nbw_initial_states ⊆ nbw_final_states then
      (SafraNode.mk r1.1 nbw_initial_states true [], r1.2)
    else
      let r2 := r1.2.name_node
      (SafraNode.mk r1.1 nbw_initial_states false [SafraNode.mk r2.1 copy true []], r2.2)
  { built.2 with
    root := some built.1
    hvalue := SafraNode.hash_value input.size built.1 }

mutual
/-- `SafraNode::clone_spawn_and_transition`. The new tree and the kill set are
threaded through; the result is (the clone or NULL, the new tree, the kill
set). `new_tree->root` is written once, with the finished clone. -/
def SafraNode.clone_spawn_and_transition (input : NBW) (character : ℕ)
    (nbw_final_states : Finset ℕ) :
    SafraNode → Bool → SafraTree → Finset ℕ → Option SafraNode × SafraTree × Finset ℕ
  | .mk name states marked children, root, new_tree, kill_set =>
    let transitioned := input.transition states character
    if transitioned ⊆ kill_set then
      if root then (none, { new_tree with root := none }, kill_set)
      else
        (none,
          { new_tree with
            temp_node_names :=
              new_tree.temp_node_names ∪
                SafraNode.accumulate_subtree_names (.mk name states marked children) ∅ },
          kill_set)
    else
      let named := new_tree.name_node
      let new_child_name := named.1
      let ret_states := transitioned \ kill_set
      let rec_result :=
        SafraNode.clone_children input character nbw_final_states children named.2 kill_set
      let new_child_states := (ret_states ∩ nbw_final_states) \ rec_result.2.2
      let kill_set1 := rec_result.2.2 ∪ new_child_states
      let finished : SafraNode × SafraTree :=
        if ret_states ⊆ kill_set1 then
          (SafraNode.mk name ret_states true [],
            (SafraNode.kill_nodes rec_result.1 (rec_result.2.1.mark_node name)).temp_name_node
              new_child_name)
        else if new_child_states.Nonempty then
          (SafraNode.mk name ret_states false
              (rec_result.1 ++
                [SafraNode.mk new_child_name new_child_states MARK_NEW_CHILDREN []]),
            if MARK_NEW_CHILDREN then rec_result.2.1.mark_node new_child_name
            else rec_result.2.1)
        else
          (SafraNode.mk name ret_states false rec_result.1,
            rec_result.2.1.temp_name_node new_child_name)
      let kill_set2 := kill_set1 ∪ ret_states
      (some finished.1,
        if root then { finished.2.free_temp_names with root := some finished.1 }
        else finished.2,
        kill_set2)
/-- The loop "Recursion!" over the children in `clone_spawn_and_transition`:
the clones that are not NULL, in order. -/
def SafraNode.clone_children (input : NBW) (character : ℕ) (nbw_final_states : Finset ℕ) :
    List SafraNode → SafraTree → Finset ℕ → List SafraNode × SafraTree × Finset ℕ
  | [], new_tree, kill_set => ([], new_tree, kill_set)
  | c :: cs, new_tree, kill_set =>
    let r :=
      SafraNode.clone_spawn_and_transition input character nbw_final_states c false
        new_tree kill_set
    let rs := SafraNode.clone_children input character nbw_final_states cs r.2.1 r.2.2
    (match r.1 with
      | some cloned_child => cloned_child :: rs.1
      | none => rs.1,
      rs.2.1, rs.2.2)
end

/-- `SafraTree::get_transition`. -/
def SafraTree.get_transition (old_tree : SafraTree) (input : NBW) (character : ℕ) :
    SafraTree :=
  match old_tree.root with
  | none => { SafraTree.fresh with root := none, hvalue := 0 }
  | some old_root =>
    let ret :=
      (SafraNode.clone_spawn_and_transition input character input.final old_root true
        { SafraTree.fresh with used_node_names := old_tree.used_node_names } ∅).2.1
    match ret.root with
    | none => { ret with hvalue := 0 }
    | some r => { ret with hvalue := SafraNode.hash_value input.size r }

/-! ## DRW (`DRW.hpp`, `DRW.cpp`) -/

/-- `class RabinPair`. -/
structure RabinPair where
  infinite : Finset ℕ
  finite : Finset ℕ

/-- The fields of `class DRW` that the automaton operations read or write;
`transition_matrix[state][character]` is a function of the two indices. -/
structure DRW where
  size : ℕ
  alphabet_size : ℕ
  initial_state : ℕ
  pairs : List RabinPair
  transition_matrix : ℕ → ℕ → ℕ

/-! ### Determinization (`NBW::determinize`) -/

/-- The state of the exploration loop of `NBW::determinize`: `tree_list` (the
position of a tree is its `name`, and the hash set `trees` holds the same
trees), the `targets` arrays of the listed trees as names of canonical trees,
and the work queue as positions in `tree_list`. -/
structure DetState where
  tree_list : List SafraTree
  targets : ℕ → ℕ → ℕ
  work_queue : List ℕ

/-- The body of the loop "reduce (name states)" for work unit `i` and character
`j`, fused with the transition loop before it (`get_transition` reads only
its arguments). `trees.find` is a search of `tree_list` with
`SafraTree::operator==`. The pair is (the state, `new_work_queue`). -/
def NBW.determinize_step (A : NBW) (i j : ℕ) (st : DetState × List ℕ) :
    DetState × List ℕ :=
  let result := SafraTree.get_transition (st.1.tree_list.getD i SafraTree.fresh) A (j + 1)
  match st.1.tree_list.findIdx? (fun t => SafraTree.beq t result) with
  | none =>
    ({ st.1 with
        tree_list := st.1.tree_list ++ [result]
        targets :=
          Function.update st.1.targets i
            (Function.update (st.1.targets i) j st.1.tree_list.length) },
      st.2 ++ [st.1.tree_list.length])
  | some loc =>
    ({ st.1 with
        targets := Function.update st.1.targets i (Function.update (st.1.targets i) j loc) },
      st.2)

/-- One pass of `while(!work_queue.empty())` in `NBW::determinize`. -/
def NBW.determinize_round (A : NBW) (st : DetState) : DetState :=
  let r :=
    st.work_queue.foldl
      (fun acc i => (List.range A.alphabet_size).foldl (fun acc j => A.determinize_step i j acc) acc)
      (st, [])
  { r.1 with work_queue := r.2 }

/-- The loop `while(!work_queue.empty())` of `NBW::determinize`; `none` when the
fuel runs out before the queue is empty. -/
def NBW.determinize_loop (A : NBW) : ℕ → DetState → Option DetState
  | 0, st => if st.work_queue.isEmpty then some st else none
  | fuel + 1, st =>
    if st.work_queue.isEmpty then some st
    else NBW.determinize_loop A fuel (A.determinize_round st)

/-- The loop that builds the Rabin pairs in `NBW::determinize`. -/
def rabin_pairs (buchi_size : ℕ) (tree_list : List SafraTree) : List RabinPair :=
  (List.range (2 * buchi_size)).foldl
    (fun pairs i =>
      let pair : RabinPair :=
        (List.range tree_list.length).foldl
          (fun pair j =>
            let t := tree_list.getD j SafraTree.fresh
            if i ∈ t.marked_nodes then { pair with infinite := insert j pair.infinite }
            else if i ∉ t.used_node_names then { pair with finite := insert j pair.finite }
            else pair)
          { infinite := ∅, finite := ∅ }
      if pair.infinite.Nonempty then pairs ++ [pair] else pairs)
    []

/-- `NBW::determinize`, with the fuel of the exploration loop. For `size == 0`
the source returns a DRW whose `size` was never assigned; the embedding puts 0
there. -/
def NBW.determinize (A : NBW) (fuel : ℕ) : Option DRW :=
  if A.size = 0 then
    some
      { size := 0, alphabet_size := A.alphabet_size, initial_state := 0, pairs := [],
        transition_matrix := fun _ _ => 0 }
  else
    let initial_state := SafraTree.build_initial_tree A
    match
      A.determinize_loop fuel
        { tree_list := [initial_state], targets := fun _ _ => 0,
          work_queue := List.replicate A.alphabet_size 0 } with
    | none => none
    | some st =>
      some
        { size := st.tree_list.length
          alphabet_size := A.alphabet_size
          initial_state := 0
          pairs := rabin_pairs A.size st.tree_list
          transition_matrix := st.targets }

/-! ### Complementation (`DRW::complement`) -/

/-- `class DRW::CompState`. -/
structure CompState where
  rabin_state : ℕ
  in_initial_part : Bool
  s1 : Finset ℕ
  s2 : Finset ℕ
  buchi_index : ℕ

/-- `DRW::CompState::operator==`. -/
def CompState.beq (a b : CompState) : Bool :=
  decide (a.rabin_state = b.rabin_state) && decide (a.in_initial_part = b.in_initial_part) &&
    (a.in_initial_part || (decide (a.s1 = b.s1) && decide (a.s2 = b.s2)))

/-- The state of the exploration loop of `DRW::complement`. -/
structure CompExplore where
  seen : List CompState
  adjacency_list : List (ℕ × ℕ × ℕ)
  new_work_queue : List CompState

/-- The block that `DRW::complement` repeats for each successor: look
`next_state` up with `CompState::get_index` (which appends it to `seen` and
numbers it when it is new), queue it when it is new, and push the transition
from `source` on `a`. -/
def comp_visit (source a : ℕ) (next_state : CompState) (st : CompExplore) : CompExplore :=
  match st.seen.findIdx? (fun c => CompState.beq c next_state) with
  | some index =>
    { st with adjacency_list := st.adjacency_list ++ [(source, a, index)] }
  | none =>
    let added := { next_state with buchi_index := st.seen.length }
    { seen := st.seen ++ [added]
      adjacency_list := st.adjacency_list ++ [(source, a, st.seen.length)]
      new_work_queue := st.new_work_queue ++ [added] }

/-- The body of the loop `for(pair = 0; pair < pairs.size(); pair++)` in the
tracking branch of `DRW::complement`, on the pair `(s1, s2)` of the state under
construction. -/
def DRW.track_step (D : DRW) (q : ℕ) (s : Finset ℕ × Finset ℕ) (pair : ℕ) :
    Finset ℕ × Finset ℕ :=
  match D.pairs.get? pair with
  | some rp =>
    if q ∈ rp.finite then (insert pair s.1, s.2)
    else if q ∈ rp.infinite then (s.1, insert pair s.2)
    else s
  | none => s

/-- The loop over the pairs in the tracking branch of `DRW::complement`: the
hits of `q` added to `(s1, s2)`. -/
def DRW.track_hits (D : DRW) (q : ℕ) (s1 s2 : Finset ℕ) : Finset ℕ × Finset ℕ :=
  (List.range D.pairs.length).foldl (D.track_step q) (s1, s2)

/-- The tracking successor `(q, s1', s2')` of `(p, s1, s2)` in `DRW::complement`:
the loop over the pairs, then the subset test. -/
def DRW.track (D : DRW) (q : ℕ) (s1 s2 : Finset ℕ) : Finset ℕ × Finset ℕ :=
  let hit := D.track_hits q s1 s2
  if hit.2 ⊆ hit.1 then (hit.1 \ hit.2, ∅) else hit

/-- The body of the loop over the alphabet in `DRW::complement` for the work
unit `current` and the character `a`. -/
def DRW.complement_step (D : DRW) (current : CompState) (a : ℕ) (st : CompExplore) :
    CompExplore :=
  let q := D.transition_matrix current.rabin_state a
  if current.in_initial_part then
    let st1 :=
      comp_visit current.buchi_index a
        { rabin_state := q, in_initial_part := true, s1 := ∅, s2 := ∅, buchi_index := 0 } st
    comp_visit current.buchi_index a
      { rabin_state := q, in_initial_part := false, s1 := ∅, s2 := ∅, buchi_index := 0 } st1
  else
    let s := D.track q current.s1 current.s2
    comp_visit current.buchi_index a
      { rabin_state := q, in_initial_part := false, s1 := s.1, s2 := s.2, buchi_index := 0 } st

/-- One pass of `while(!work_queue.empty())` in `DRW::complement`. -/
def DRW.complement_round (D : DRW) (work_queue : List CompState) (st : CompExplore) :
    CompExplore :=
  work_queue.foldl
    (fun st current =>
      (List.range D.alphabet_size).foldl (fun st a => D.complement_step current a st) st)
    { st with new_work_queue := [] }

/-- The loop `while(!work_queue.empty())` of `DRW::complement`. -/
def DRW.complement_loop (D : DRW) : ℕ → List CompState → CompExplore → CompExplore
  | 0, _, st => st
  | fuel + 1, work_queue, st =>
    if work_queue.isEmpty then st
    else
      let st1 := D.complement_round work_queue st
      DRW.complement_loop D fuel st1.new_work_queue st1

/-- A bound on the number of passes of the exploration loop of
`DRW::complement`: every pass but the last adds a state, and the states are
initial-part states `p` or tracking states `(p, s1, s2)`. -/
def DRW.complement_fuel (D : DRW) : ℕ :=
  D.size * 2 * (2 ^ D.pairs.length * 2 ^ D.pairs.length) + 1

/-- The states found by the exploration of `DRW::complement`. -/
def DRW.complement_explore (D : DRW) : CompExplore :=
  let initial : CompState :=
    { rabin_state := D.initial_state, in_initial_part := true, s1 := ∅, s2 := ∅,
      buchi_index := 0 }
  D.complement_loop D.complement_fuel [initial]
    { seen := [initial], adjacency_list := [], new_work_queue := [] }

/-- `DRW::complement`. -/
def DRW.complement (D : DRW) : NBW :=
  let ex := D.complement_explore
  let nbw_size := ex.seen.length
  let nbw_final :=
    (List.range nbw_size).foldl
      (fun s i =>
        match ex.seen.get? i with
        | some c => if !c.in_initial_part && decide (c.s2 = ∅) then insert i s else s
        | none => s)
      ∅
  NBW.ctor nbw_size D.alphabet_size ex.adjacency_list {0} nbw_final

/-- `NBW::get_complement`, with the fuel of the determinization. -/
def NBW.get_complement (A : NBW) (fuel : ℕ) : Option NBW :=
  match A.trim.2.determinize fuel with
  | none => none
  | some det => some det.complement

/-! ### Rabin acceptance -/

/-- The run of the deterministic automaton `D` on `w`, from its initial state. -/
def DRW.run (D : DRW) (w : ℕ → ℕ) : ℕ → ℕ
  | 0 => D.initial_state
  | n + 1 => D.transition_matrix (DRW.run D w n) (w n)

/-- The run of `D` on `w` satisfies the pair: it visits `infinite` infinitely
often and `finite` only finitely often. -/
def DRW.Satisfies (D : DRW) (w : ℕ → ℕ) (p : RabinPair) : Prop :=
  (∀ n, ∃ m, n ≤ m ∧ D.run w m ∈ p.infinite) ∧ ∃ n, ∀ m, n ≤ m → D.run w m ∉ p.finite

/-- Rabin acceptance: the run of `D` on `w` satisfies some pair. -/
def DRW.Accepts (D : DRW) (w : ℕ → ℕ) : Prop := ∃ p ∈ D.pairs, D.Satisfies w p

/-! ## Notions used to state and prove the theorems -/

/-- The underlying directed graph of `A`: an edge `s -> t` between two states
when `t` is in `delta(s, c)` for some character `c`. -/
def NBW.Edge (A : NBW) (s t : ℕ) : Prop :=
  s < A.size ∧ t < A.size ∧ ∃ c, c < A.alphabet_size ∧ t ∈ A.delta s c

/-- A path of length `>= 0` in the graph of `A`. -/
def NBW.Reach (A : NBW) : ℕ → ℕ → Prop := Relation.ReflTransGen A.Edge

/-- The state `s` is reachable from an initial state. -/
def NBW.Accessible (A : NBW) (s : ℕ) : Prop :=
  ∃ i, i ∈ A.initial ∧ i < A.size ∧ A.Reach i s

/-- The state `s` has a path to an accepting state that lies on a cycle. -/
def NBW.Coaccessible (A : NBW) (s : ℕ) : Prop :=
  s < A.size ∧ ∃ f, f ∈ A.final ∧ A.Reach s f ∧ Relation.TransGen A.Edge f f

/-- The width invariant of the data model: the initial set and every successor
set are bitsets of width `size`, so they hold states only. -/
def NBW.WellFormed (A : NBW) : Prop :=
  (∀ s, s ∈ A.initial → s < A.size) ∧
    ∀ s, s < A.size → ∀ c, c < A.alphabet_size → ∀ t, t ∈ A.delta s c → t < A.size

/-- The targets of `q` in the order in which the loops of
`NBW::accessible_states` test them. -/
def NBW.successors (A : NBW) (q : ℕ) : List ℕ :=
  (List.range A.alphabet_size).flatMap
    (fun c => (List.range A.size).filter (fun t => t ∈ A.transition_matrix (q * A.alphabet_size + c)))

/-- The common shape of the two search loops: entry `i` of the queue pushes its
unseen successors. -/
def search_loop (succ : ℕ → List ℕ) : ℕ → ℕ → List ℕ × Finset ℕ → Finset ℕ
  | 0, _, st => st.2
  | fuel + 1, i, st =>
    match st.1[i]? with
    | some q => search_loop succ fuel (i + 1) ((succ q).foldl search_push st)
    | none => st.2

/-- The invariant of a search loop that started with the queue `q0` and the seen
set `v0`, after entries `0 .. i - 1` of the queue have been processed. -/
structure SearchInv (succ : ℕ → List ℕ) (bound : ℕ) (q0 : List ℕ) (v0 : Finset ℕ)
    (i : ℕ) (st : List ℕ × Finset ℕ) : Prop where
  nodup : st.1.Nodup
  lt : ∀ x ∈ st.1, x < bound
  seen : ∀ x, x ∈ st.2 ↔ x ∈ v0 ∨ x ∈ st.1
  start : ∀ x ∈ q0, x ∈ st.1
  closed : ∀ k, k < i → ∀ q, st.1[k]? = some q → ∀ x ∈ succ q, x ∈ st.2
  sound : ∀ x ∈ st.1, ∃ s ∈ q0, Relation.ReflTransGen (fun a b => b ∈ succ a) s x
  le : i ≤ st.1.length

/-- The transition table of `D` is total: the initial state and every entry of
the table are states. -/
def DRW.Total (D : DRW) : Prop :=
  D.initial_state < D.size ∧
    ∀ s, s < D.size → ∀ a, a < D.alphabet_size → D.transition_matrix s a < D.size

/-- What `CompState::operator==` compares on states built by `DRW::complement`. -/
def CompState.key (c : CompState) : ℕ × Bool × Finset ℕ × Finset ℕ :=
  (c.rabin_state, c.in_initial_part, c.s1, c.s2)

/-- The shape of the states that `DRW::complement` builds: the Rabin state is a
state of `D`, an initial-part state carries empty bookkeeping, and the
bookkeeping of a tracking state holds pair indices. -/
def CompState.Valid (D : DRW) (c : CompState) : Prop :=
  c.rabin_state < D.size ∧ (c.in_initial_part = true → c.s1 = ∅ ∧ c.s2 = ∅) ∧
    (∀ i, i ∈ c.s1 → i < D.pairs.length) ∧ ∀ i, i ∈ c.s2 → i < D.pairs.length

/-- The successors that `DRW::complement` looks up for `current` on `a`, in
the order of the source. -/
def DRW.comp_successors (D : DRW) (current : CompState) (a : ℕ) : List CompState :=
  if current.in_initial_part then
    [{ rabin_state := D.transition_matrix current.rabin_state a, in_initial_part := true,
        s1 := ∅, s2 := ∅, buchi_index := 0 },
      { rabin_state := D.transition_matrix current.rabin_state a, in_initial_part := false,
        s1 := ∅, s2 := ∅, buchi_index := 0 }]
  else
    [{ rabin_state := D.transition_matrix current.rabin_state a, in_initial_part := false,
        s1 := (D.track (D.transition_matrix current.rabin_state a) current.s1 current.s2).1,
        s2 := (D.track (D.transition_matrix current.rabin_state a) current.s1 current.s2).2,
        buchi_index := 0 }]

/-- The lookups of one pass of the exploration loop as a list of
(source index, character, successor). -/
def DRW.comp_requests (D : DRW) (work_queue : List CompState) : List (ℕ × ℕ × CompState) :=
  work_queue.flatMap
    (fun current =>
      (List.range D.alphabet_size).flatMap
        (fun a => (D.comp_successors current a).map (fun next => (current.buchi_index, a, next))))

/-- The part of the exploration state that every lookup keeps in shape. -/
structure CompGood (D : DRW) (st : CompExplore) : Prop where
  valid : ∀ c ∈ st.seen, CompState.Valid D c
  nodup : (st.seen.map CompState.key).Nodup
  index : ∀ (i : ℕ) (c : CompState), st.seen[i]? = some c → c.buchi_index = i

/-- How a run of lookups `reqs` changes the exploration state. -/
structure VisitRel (reqs : List (ℕ × ℕ × CompState)) (st st' : CompExplore) : Prop where
  grow : ∃ new, st'.seen = st.seen ++ new ∧ st'.new_work_queue = st.new_work_queue ++ new
  mono : ∀ t ∈ st.adjacency_list, t ∈ st'.adjacency_list
  sound : ∀ t ∈ st'.adjacency_list, t ∈ st.adjacency_list ∨
    ∃ r ∈ reqs, t.1 = r.1 ∧ t.2.1 = r.2.1 ∧
      ∃ c : CompState, st'.seen[t.2.2]? = some c ∧ c.key = r.2.2.key
  complete : ∀ r ∈ reqs, ∃ (j : ℕ) (c : CompState), st'.seen[j]? = some c ∧
    c.key = r.2.2.key ∧ (r.1, r.2.1, j) ∈ st'.adjacency_list

/-- The invariant of the exploration loop of `DRW::complement` at the head of
the loop: `processed` are the states whose successors have been looked up,
`work_queue` the states still to process. -/
structure CompInv (D : DRW) (processed work_queue : List CompState) (st : CompExplore) :
    Prop where
  good : CompGood D st
  seen_eq : st.seen = processed ++ work_queue
  sound : ∀ t ∈ st.adjacency_list, ∃ c ∈ processed, c.buchi_index = t.1 ∧
    t.2.1 < D.alphabet_size ∧ ∃ next ∈ D.comp_successors c t.2.1,
      ∃ c' : CompState, st.seen[t.2.2]? = some c' ∧ c'.key = next.key
  complete : ∀ c ∈ processed, ∀ a, a < D.alphabet_size → ∀ next ∈ D.comp_successors c a,
    ∃ (j : ℕ) (c' : CompState), st.seen[j]? = some c' ∧ c'.key = next.key ∧
      (c.buchi_index, a, j) ∈ st.adjacency_list

/-- State `q` is in the `finite` set of pair number `i` of `D`. -/
def DRW.InFin (D : DRW) (i q : ℕ) : Prop :=
  ∃ rp, D.pairs.get? i = some rp ∧ q ∈ rp.finite

/-- State `q` is in the `infinite` set of pair number `i` of `D`. -/
def DRW.InInf (D : DRW) (i q : ℕ) : Prop :=
  ∃ rp, D.pairs.get? i = some rp ∧ q ∈ rp.infinite

/-- The bookkeeping of the tracking part along the run `r` of `D` when the
tracking part is entered at time `t0 + 1`: entry `k` is the pair `(s1, s2)` at
time `t0 + 1 + k`. -/
def DRW.track_seq (D : DRW) (r : ℕ → ℕ) (t0 : ℕ) : ℕ → Finset ℕ × Finset ℕ
  | 0 => (∅, ∅)
  | k + 1 =>
    D.track (r (t0 + 1 + (k + 1))) (DRW.track_seq D r t0 k).1 (DRW.track_seq D r t0 k).2

/-- The state of the complement automaton at time `n` on the path that follows
the run `r` of `D`, stays in the initial part up to time `t0` and tracks from
time `t0 + 1` on. -/
def DRW.comp_conf (D : DRW) (r : ℕ → ℕ) (t0 n : ℕ) : CompState :=
  if n ≤ t0 then
    { rabin_state := r n, in_initial_part := true, s1 := ∅, s2 := ∅, buchi_index := 0 }
  else
    { rabin_state := r n, in_initial_part := false, s1 := (D.track_seq r t0 (n - (t0 + 1))).1,
      s2 := (D.track_seq r t0 (n - (t0 + 1))).2, buchi_index := 0 }

/-- A two-state automaton over `{0, 1}` whose state is the last letter read,
with the one pair `infinite = {1}`, `finite = {0}`: it accepts the words with
finitely many `0`. -/
def DRW.last_letter : DRW :=
  { size := 2, alphabet_size := 2, initial_state := 0,
    pairs := [{ infinite := {1}, finite := {0} }], transition_matrix := fun _ a => a }

/-- `NBW::coaccessible_states` with the array `sccs` that
`boost::strong_components` fills as a parameter: the function reads a component
number only to compare it with another one. -/
def NBW.coaccessible_states_with (A : NBW) (sccs : ℕ → ℕ) : Finset ℕ :=
  let alive := (A.component_scan sccs A.self_loop_alive).1
  A.coaccessible_loop A.size 0 ((List.range A.size).filter (fun i => i ∈ alive), alive)

/-- What the function `sccs` has to be to number the strongly connected
components of the graph of `A`: two states get the same number exactly when
each reaches the other. -/
def NBW.IsComponentMap (A : NBW) (sccs : ℕ → ℕ) : Prop :=
  ∀ u v, u < A.size → v < A.size → (sccs u = sccs v ↔ A.Reach u v ∧ A.Reach v u)

/-- Some infinite path of the graph of `A` starts in `s` and visits accepting
states infinitely often. -/
def NBW.LivePath (A : NBW) (s : ℕ) : Prop :=
  ∃ p : ℕ → ℕ, p 0 = s ∧ (∀ n, A.Edge (p n) (p (n + 1))) ∧ ∀ n, ∃ m, n ≤ m ∧ p m ∈ A.final

/-- The body of `NBW::product(one, two)` after its first two statements
`one->trim(); two->trim();`. The loop over `i` that sets `initial` and `final`
is written as one fold for each of the two sets. -/
def NBW.product_of_trimmed (one two : NBW) : NBW :=
  let size := one.size * two.size
  let alphabet_size := one.alphabet_size
  let initial :=
    (List.range size).foldl
      (fun s i =>
        if i / two.size ∈ one.initial ∧ i % two.size ∈ two.initial then insert i s else s)
      ∅
  let final :=
    (List.range size).foldl
      (fun s i =>
        if i / two.size ∈ one.final ∧ i % two.size ∈ two.final then insert i s else s)
      ∅
  let tm : ℕ → Finset ℕ :=
    (List.range size).foldl
      (fun tm state =>
        (List.range alphabet_size).foldl
          (fun tm c =>
            let s1 := state / two.size
            let s2 := state % two.size
            let t1 := one.transition_matrix (s1 * one.alphabet_size + c)
            let t2 := two.transition_matrix (s2 * two.alphabet_size + c)
            (List.range size).foldl
              (fun tm target =>
                if target / two.size ∈ t1 ∧ target % two.size ∈ t2 then
                  set_bit tm (state * alphabet_size + c) target
                else tm)
              tm)
          tm)
      (fun _ => ∅)
  let use_cache := NBW_USE_CACHE && decide (size ≤ NBW_MAX_CACHED_SIZE)
  { size := size
    alphabet_size := alphabet_size
    transition_matrix := tm
    initial := initial
    final := final
    num_transitions := one.num_transitions * two.size + two.num_transitions * one.size
    trimmed := false
    use_cache := use_cache
    transition_cache :=
      if use_cache then build_cache size alphabet_size tm (fun _ => ∅) else fun _ => ∅ }

/-- `NBW::product(one, two)`: both operands are trimmed, then the product is
built from the trimmed operands. -/
def NBW.product (one two : NBW) : NBW :=
  NBW.product_of_trimmed one.trim.2 two.trim.2

/-! ### Emptiness of a DRW (`DRW::is_empty`) -/

/-- The loop "look for single states with loops" of `DRW::is_empty` for one
pair. The test `if(this->transition_matrix[i][j] = i)` is an assignment: it
stores `i` in the table and is true when `i` is not 0. The loop state is the
table and whether `return false` has been executed. -/
def DRW.self_loop_scan (D : DRW) (rp : RabinPair) (tm : ℕ → ℕ → ℕ) : (ℕ → ℕ → ℕ) × Bool :=
  (List.range D.size).foldl
    (fun st i =>
      if i ∈ rp.infinite then
        (List.range D.alphabet_size).foldl
          (fun st j =>
            if st.2 then st
            else (Function.update st.1 i (Function.update (st.1 i) j i), decide (i ≠ 0)))
          st
      else st)
    (tm, false)

/-- The last loop of `DRW::is_empty` for one pair, over the array `sccs` that
`boost::strong_components` filled for the graph without the states of
`finite`: whether `return false` is executed. The loop state is the set of
component numbers whose flag `nontrivial_component` is set, and the answer. -/
def DRW.component_scan (D : DRW) (rp : RabinPair) (sccs : ℕ → ℕ) : Bool :=
  ((List.range D.size).foldl
    (fun (st : Finset ℕ × Bool) i =>
      if st.2 then st
      else if i ∈ rp.infinite ∧ sccs i ∈ st.1 then (st.1, true)
      else (insert (sccs i) st.1, false))
    (∅, false)).2

/-- The body of the loop over the pairs in `DRW::is_empty`; `sccs` is the array
that `boost::strong_components` fills for this pair. The result is the table
afterwards and whether `return false` was executed. -/
def DRW.is_empty_pair (D : DRW) (rp : RabinPair) (sccs : ℕ → ℕ) (tm : ℕ → ℕ → ℕ) :
    (ℕ → ℕ → ℕ) × Bool :=
  let scan := D.self_loop_scan rp tm
  if scan.2 then scan else (scan.1, D.component_scan rp sccs)

/-- `DRW::is_empty`; `sccs p` is the array that `boost::strong_components` fills
in the pass for pair number `p`. The returned pair is (answer, the automaton
afterwards). -/
def DRW.is_empty (D : DRW) (sccs : ℕ → ℕ → ℕ) : Bool × DRW :=
  let r :=
    (List.range D.pairs.length).foldl
      (fun (st : (ℕ → ℕ → ℕ) × Bool) p =>
        if st.2 then st
        else
          match D.pairs.get? p with
          | some rp => D.is_empty_pair rp (sccs p) st.1
          | none => st)
      (D.transition_matrix, false)
  (!r.2, { D with transition_matrix := r.1 })

/-- The graph that `DRW::is_empty` means for the pair `rp`: the states outside
`finite`, with an edge `p -> delta(p, a)` for every symbol `a`. -/
def DRW.PairEdge (D : DRW) (rp : RabinPair) (p q : ℕ) : Prop :=
  p < D.size ∧ p ∉ rp.finite ∧ q ∉ rp.finite ∧ ∃ a, a < D.alphabet_size ∧
    D.transition_matrix p a = q

/-- The pair `rp` is satisfiable: in the graph on the states outside `finite`,
some state of `infinite` has a self-loop or lies in a strongly connected
component with at least two states. -/
def DRW.PairSatisfiable (D : DRW) (rp : RabinPair) : Prop :=
  ∃ q, q < D.size ∧ q ∈ rp.infinite ∧ q ∉ rp.finite ∧
    (D.PairEdge rp q q ∨
      ∃ q2, q2 ≠ q ∧ Relation.ReflTransGen (D.PairEdge rp) q q2 ∧
        Relation.ReflTransGen (D.PairEdge rp) q2 q)

/-- A two-state automaton over one symbol, `1 -> 0 -> 0`, started in state 1,
with the one pair `infinite = {1}`, `finite = {}`: state 1 is left at once and
never seen again. -/
def DRW.leave_once : DRW :=
  { size := 2, alphabet_size := 1, initial_state := 1,
    pairs := [{ infinite := {1}, finite := ∅ }], transition_matrix := fun _ _ => 0 }

/-- A two-state automaton over one symbol, `0 -> 1 -> 0`, with the one pair
`infinite = {0}`, `finite = {}`. -/
def DRW.flip_flop : DRW :=
  { size := 2, alphabet_size := 1, initial_state := 0,
    pairs := [{ infinite := {0}, finite := ∅ }], transition_matrix := fun s _ => 1 - s }

/-! ### Notions for the invariants of Safra trees -/

mutual
/-- The nodes of the subtree rooted at a node, the node itself first, in
depth-first order. -/
def SafraNode.subnodes : SafraNode → List SafraNode
  | .mk name states marked children =>
    .mk name states marked children :: SafraNode.subnodes_list children
/-- The nodes of the subtrees rooted at the nodes of a list. -/
def SafraNode.subnodes_list : List SafraNode → List SafraNode
  | [] => []
  | c :: cs => SafraNode.subnodes c ++ SafraNode.subnodes_list cs
end

/-- The positions `name - 1` that the nodes of a subtree occupy in the name
bitsets of their tree. -/
def SafraNode.indices (r : SafraNode) : List ℕ :=
  r.subnodes.map (fun p => p.name - 1)

/-- The positions `name - 1` of the nodes of the subtrees of a list. -/
def SafraNode.indices_list (cs : List SafraNode) : List ℕ :=
  (SafraNode.subnodes_list cs).map (fun p => p.name - 1)

/-- The trees that `NBW::determinize` reaches: the initial tree, and every tree
that `SafraTree::get_transition` builds from a reached tree on a character
`1 .. alphabet_size`. -/
inductive SafraTree.Reached (A : NBW) : SafraTree → Prop
  | initial : SafraTree.Reached A (SafraTree.build_initial_tree A)
  | step (t : SafraTree) (c : ℕ) :
    SafraTree.Reached A t → 1 ≤ c → c ≤ A.alphabet_size →
      SafraTree.Reached A (SafraTree.get_transition t A c)

mutual
/-- The calls of `SafraTree::name_node` that `clone_spawn_and_transition` makes
on a node, in order: each call is given by the state of the new tree it is
made on. The call of a node is made when its transitioned label is not inside
the kill set; the calls do not depend on the flag `root`. -/
def SafraNode.name_calls (input : NBW) (character : ℕ) (nbw_final_states : Finset ℕ) :
    SafraNode → SafraTree → Finset ℕ → List SafraTree
  | .mk _ states _ children, new_tree, kill_set =>
    if input.transition states character ⊆ kill_set then []
    else
      new_tree ::
        SafraNode.name_calls_children input character nbw_final_states children
          new_tree.name_node.2 kill_set
/-- The calls of `SafraTree::name_node` made in the loop over the children. -/
def SafraNode.name_calls_children (input : NBW) (character : ℕ)
    (nbw_final_states : Finset ℕ) : List SafraNode → SafraTree → Finset ℕ → List SafraTree
  | [], _, _ => []
  | c :: cs, new_tree, kill_set =>
    SafraNode.name_calls input character nbw_final_states c new_tree kill_set ++
      SafraNode.name_calls_children input character nbw_final_states cs
        (SafraNode.clone_spawn_and_transition input character nbw_final_states c false
          new_tree kill_set).2.1
        (SafraNode.clone_spawn_and_transition input character nbw_final_states c false
          new_tree kill_set).2.2
end

/-- The calls of `SafraTree::name_node` made by `SafraTree::get_transition`. -/
def SafraTree.transition_name_calls (old_tree : SafraTree) (input : NBW) (character : ℕ) :
    List SafraTree :=
  match old_tree.root with
  | none => []
  | some old_root =>
    SafraNode.name_calls input character input.final old_root
      { SafraTree.fresh with used_node_names := old_tree.used_node_names } ∅

/-- The calls of `SafraTree::name_node` made by `SafraTree::build_initial_tree`:
one for the root, and one for the child when it is created. -/
def SafraTree.initial_name_calls (input : NBW) : List SafraTree :=
  if input.initial ∩ input.final = ∅ then [SafraTree.fresh]
  else if input.initial ⊆ input.final then [SafraTree.fresh]
  else [SafraTree.fresh, SafraTree.fresh.name_node.2]

/-- Siblings have disjoint non-empty labels, and a node with children has a
state in its label that is in no child's label; for every node of the subtree. -/
def SafraNode.SiblingInv (r : SafraNode) : Prop :=
  ∀ p ∈ r.subnodes,
    p.children.Pairwise (fun a b => Disjoint a.states b.states) ∧
      (∀ c ∈ p.children, c.states.Nonempty) ∧
      (p.children ≠ [] → ∃ x ∈ p.states, ∀ c ∈ p.children, x ∉ c.states)

/-- The label of every child is inside the label of its parent, for every node
of the subtree. -/
def SafraNode.Nested (r : SafraNode) : Prop :=
  ∀ p ∈ r.subnodes, ∀ c ∈ p.children, c.states ⊆ p.states

/-- How a run of `clone_spawn_and_transition` over old subtrees occupying the
positions `O` changes the name sets `(U, M)` (used, temporary) of the new tree
into `(U2, M2)` and which positions the clones `rs` occupy. -/
structure NameFrame (O : List ℕ) (U M : Finset ℕ) (rs : List SafraNode) (U2 M2 : Finset ℕ) :
    Prop where
  keep : ∀ x ∈ U, x ∉ O → x ∈ U2
  temp_mono : ∀ x ∈ M, x ∈ M2
  temp_new : ∀ x ∈ M2, x ∈ M ∨ x ∉ U ∨ x ∈ O
  temp_used : ∀ x ∈ M2, x ∈ U2
  nodup : (SafraNode.indices_list rs).Nodup
  pos : ∀ p ∈ SafraNode.subnodes_list rs, 1 ≤ p.name
  res_used : ∀ x ∈ SafraNode.indices_list rs, x ∈ U2
  res_temp : ∀ x ∈ SafraNode.indices_list rs, x ∉ M2
  res_new : ∀ x ∈ SafraNode.indices_list rs, x ∈ O ∨ x ∉ U
  exact : ∀ x ∈ U2, (x ∈ U ∧ x ∉ O) ∨ x ∈ M2 ∨ x ∈ SafraNode.indices_list rs

/-- A three-state automaton over one symbol, `0 -> {0, 1}`, `1 -> {2}`, with
states 1 and 2 accepting: after two transitions the root of its Safra tree has
two children. -/
def NBW.branching : NBW := NBW.ctor 3 1 [(0, 0, 0), (0, 0, 1), (1, 0, 2)] {0} {1, 2}

/-! ## Formulas (`logic.hpp`, `logic.cpp`) -/

/-- `class Literal`: the assertion that track `i1` goes to track `i2` under the
elementary cellular automaton `eca`. `eca` is a bitset of width 8, kept as the
number whose binary digits are its bits. -/
structure Literal where
  negated : Bool
  i1 : ℕ
  i2 : ℕ
  eca : ℕ

/-- `Literal::Literal(v1, v2, eca_num, negated)`, with the indices of the two
variables in the symbol table: `eca` is
`boost::dynamic_bitset(8, eca_num)`, the low 8 bits of `eca_num`. -/
def Literal.ctor (i1 i2 eca_num : ℕ) (negated : Bool) : Literal :=
  { negated := negated, i1 := i1, i2 := i2, eca := eca_num % 2 ^ 8 }

/-- `Literal::check(x, y, z)`; a slice is the number whose binary digits are its
bits, a bit used as an `int` is 0 or 1. -/
def Literal.check (l : Literal) (x y z : ℕ) : Bool :=
  l.eca.testBit
      (4 * (x.testBit l.i1).toNat + 2 * (y.testBit l.i1).toNat + (z.testBit l.i1).toNat) ==
    y.testBit l.i2

/-- `class Quantifier`, with the index of the variable in the symbol table. -/
structure Quantifier where
  negated : Bool
  universal : Bool
  variable_index : ℕ

/-- `class Conjunction`. -/
structure Conjunction where
  literals : List Literal
  quantifiers : List Quantifier
  neg_literals : List Literal

/-- `Conjunction::check`: every positive literal holds. -/
def Conjunction.check (f : Conjunction) (x y z : ℕ) : Bool :=
  f.literals.all (fun l => l.check x y z)

/-! ## The quantifier loop of `NBW::build_conjunction_automaton` (`buchi_gen.cpp`) -/

/-- The body of the loop over the quantifiers in
`NBW::build_conjunction_automaton`, for the automaton operations
`get_complement`, `project` and `trim` given as parameters. The state is
(`ret`, `current_formula_needs_negated`). -/
def build_quantifier_step {α : Type} (get_complement : α → α) (project : ℕ → α → α)
    (trim : α → α) (q : Quantifier) (st : α × Bool) : α × Bool :=
  let r : α × Bool :=
    if q.universal then
      if q.negated then
        if st.2 then (project q.variable_index st.1, false)
        else (project q.variable_index (get_complement st.1), false)
      else
        if st.2 then (project q.variable_index st.1, true)
        else (project q.variable_index (get_complement st.1), true)
    else
      if q.negated then
        if st.2 then (project q.variable_index (get_complement st.1), true)
        else (project q.variable_index st.1, true)
      else
        if st.2 then (project q.variable_index (get_complement st.1), false)
        else (project q.variable_index st.1, false)
  (trim r.1, r.2)

/-- `NBW::build_conjunction_automaton` after the call of `build_helper`: the
loop over the quantifiers from the last to the first, and the final
complement. -/
def build_quantifiers {α : Type} (get_complement : α → α) (project : ℕ → α → α)
    (trim : α → α) (quantifiers : List Quantifier) (base : α) : α :=
  let st :=
    quantifiers.reverse.foldl
      (fun st q => build_quantifier_step get_complement project trim q st) (base, false)
  if st.2 then trim (get_complement st.1) else st.1

/-- Existential quantification of variable `x` in a set of valuations. -/
def lang_exists {V : Type} (x : ℕ) (L : Set (ℕ → V)) : Set (ℕ → V) :=
  {w | ∃ v, Function.update w x v ∈ L}

/-- Universal quantification of variable `x` in a set of valuations. -/
def lang_forall {V : Type} (x : ℕ) (L : Set (ℕ → V)) : Set (ℕ → V) :=
  {w | ∀ v, Function.update w x v ∈ L}

/-- The language of `q L`: the quantifier with its optional negation in front. -/
def Quantifier.language {V : Type} (q : Quantifier) (L : Set (ℕ → V)) : Set (ℕ → V) :=
  if q.negated then
    (if q.universal then lang_forall q.variable_index L else lang_exists q.variable_index L)ᶜ
  else if q.universal then lang_forall q.variable_index L
  else lang_exists q.variable_index L

/-- The language of `q_1 .. q_n B`. -/
def quantified_language {V : Type} (quantifiers : List Quantifier) (B : Set (ℕ → V)) :
    Set (ℕ → V) :=
  quantifiers.foldr (fun q L => q.language L) B

/-- The two-state automaton for "infinitely often a" over the symbols `a = 0`
and `b = 1`: state 0 is initial, state 1 is accepting, every state goes to 1 on
`a` and to 0 on `b`. -/
def NBW.infinitely_often_a : NBW :=
  NBW.ctor 2 2 [(0, 0, 1), (1, 0, 1), (0, 1, 0), (1, 1, 0)] {0} {1}

/-- State `q` is in the `finite` set of pair number `i` of `D`, as a test. -/
def DRW.in_fin (D : DRW) (i q : ℕ) : Bool :=
  match D.pairs.get? i with
  | some rp => decide (q ∈ rp.finite)
  | none => false

/-- State `q` is in the `infinite` set of pair number `i` of `D`, as a test. -/
def DRW.in_inf (D : DRW) (i q : ℕ) : Bool :=
  match D.pairs.get? i with
  | some rp => decide (q ∈ rp.infinite)
  | none => false

/-- The update of the bookkeeping of a tracking state as the specification
words it: start from `s1`, `s2`; for every pair index `i` add `i` to `s1` if `q`
is in `Fin_i`, otherwise add `i` to `s2` if `q` is in `Inf_i`; finally, if the
resulting `s2` is a subset of the resulting `s1`, remove its members from `s1`
and empty it. -/
def DRW.track_described (D : DRW) (q : ℕ) (s1 s2 : Finset ℕ) : Finset ℕ × Finset ℕ :=
  let h1 := s1 ∪ (Finset.range D.pairs.length).filter (fun i => D.in_fin i q = true)
  let h2 :=
    s2 ∪ (Finset.range D.pairs.length).filter
      (fun i => D.in_fin i q = false ∧ D.in_inf i q = true)
  if h2 ⊆ h1 then (h1 \ h2, ∅) else (h1, h2)

mutual
/-- The node with every `marked` flag cleared: what `SafraNode::operator==`
compares. -/
def SafraNode.unmarked : SafraNode → SafraNode
  | .mk name states _ children => .mk name states false (SafraNode.unmarked_list children)
/-- The list of children with every `marked` flag cleared. -/
def SafraNode.unmarked_list : List SafraNode → List SafraNode
  | [] => []
  | c :: cs => SafraNode.unmarked c :: SafraNode.unmarked_list cs
end

/-- What `SafraTree::operator==` compares: nothing for a tree without root,
otherwise the root without the marks, `hvalue` and `used_node_names`. -/
def SafraTree.key (t : SafraTree) : Option (SafraNode × ℕ × Finset ℕ) :=
  t.root.map (fun r => (r.unmarked, t.hvalue, t.used_node_names))

/-- The exploration loop of `NBW::determinize`, from its initial state. -/
def NBW.determinize_explore (A : NBW) (fuel : ℕ) : Option DetState :=
  A.determinize_loop fuel
    { tree_list := [SafraTree.build_initial_tree A], targets := fun _ _ => 0,
      work_queue := List.replicate A.alphabet_size 0 }

/-- Entry `(i, j)` of `targets` is the first position of `tree_list` whose tree
equals (`operator==`) the successor of tree `i` on character `j + 1`. -/
def DetState.TargetOK (A : NBW) (st : DetState) (i j : ℕ) : Prop :=
  ∃ t, st.tree_list[i]? = some t ∧
    st.tree_list.findIdx? (fun u => SafraTree.beq u (SafraTree.get_transition t A (j + 1))) =
      some (st.targets i j)

/-- The part of the exploration state of `NBW::determinize` that every step
keeps in shape. -/
structure DetGood (A : NBW) (st : DetState) : Prop where
  first : st.tree_list[0]? = some (SafraTree.build_initial_tree A)
  reached : ∀ t ∈ st.tree_list, SafraTree.Reached A t
  distinct : st.tree_list.Pairwise (fun a b => SafraTree.beq a b = false)

/-- The invariant of the exploration loop of `NBW::determinize` at the head of
the loop: every listed tree is in the work queue or has all its targets. -/
structure DetInv (A : NBW) (st : DetState) : Prop where
  good : DetGood A st
  queue_lt : ∀ i ∈ st.work_queue, i < st.tree_list.length
  done : ∀ i, i < st.tree_list.length →
    i ∈ st.work_queue ∨ ∀ j, j < A.alphabet_size → st.TargetOK A i j

/-- The set `Inf_k` as the specification words it: the states whose tree has
the name `k` in its marked-names set (the set holds `k - 1`). -/
def rabin_inf_described (tree_list : List SafraTree) (k : ℕ) : Finset ℕ :=
  (Finset.range tree_list.length).filter
    (fun s => k - 1 ∈ (tree_list.getD s SafraTree.fresh).marked_nodes)

/-- The set `Fin_k` as the specification words it: the states whose tree does
not have the name `k` in its used-names set (the set holds `k - 1`). -/
def rabin_fin_described (tree_list : List SafraTree) (k : ℕ) : Finset ℕ :=
  (Finset.range tree_list.length).filter
    (fun s => k - 1 ∉ (tree_list.getD s SafraTree.fresh).used_node_names)

/-! ## Text output and input (`utils.cpp`, `NBW::to_string`, `NBW::parse`)

A text is the list of its characters. -/

/-- `INT_TO_STR(x)` for a number that is not negative: its decimal digits. -/
def INT_TO_STR (x : ℕ) : List Char := Nat.toDigits 10 x

/-- The loops "write state semantics if present" and "write character labels
if present" of `NBW::to_string`. -/
def label_lines (labels : List (List Char)) : List Char :=
  (List.range labels.length).flatMap
    (fun i => "\n# ".toList ++ INT_TO_STR (i + 1) ++ ":".toList ++ labels.getD i [])

/-- `NBW::to_string`; the vectors `state_labels` and `char_labels`, which are
not fields of the embedded automaton, are parameters. -/
def NBW.to_string (A : NBW) (state_labels char_labels : List (List Char)) : List Char :=
  "#\x2d\x2d\x2d\x2d\x2d omega\x2dautomaton (NBW) \x2d\x2d\x2d\x2d\x2d \n".toList ++
    "BUECHI\n".toList ++ "# Number of states: \n".toList ++ INT_TO_STR A.size ++
    label_lines state_labels ++
    "\n# Size of alphabet: \n".toList ++ INT_TO_STR A.alphabet_size ++
    label_lines char_labels ++
    "\n# Number of transitions: \n".toList ++ INT_TO_STR A.num_transitions ++
    "\n# List of transitions: \n".toList ++
    (List.range A.size).flatMap
      (fun i =>
        (List.range A.alphabet_size).flatMap
          (fun j =>
            (List.range A.size).flatMap
              (fun k =>
                if k ∈ A.transition_matrix (i * A.alphabet_size + j) then
                  INT_TO_STR (i + 1) ++ " > ".toList ++ INT_TO_STR (j + 1) ++ " > ".toList ++
                    INT_TO_STR (k + 1) ++ "\n".toList
                else []))) ++
    "# Initial state(s)\n".toList ++
    (List.range A.size).flatMap
      (fun i => if i ∈ A.initial then INT_TO_STR (i + 1) ++ "\n".toList else []) ++
    "# Final state(s)\n".toList ++
    (List.range A.size).flatMap
      (fun i => if i ∈ A.final then INT_TO_STR (i + 1) ++ " ".toList else []) ++
    "\n".toList ++ "# EOF\n".toList

/-- An input stream (`std::ifstream`, `std::istringstream`): the characters not
yet read, `eofbit` and `failbit`. -/
structure IStream where
  rest : List Char
  eofbit : Bool
  failbit : Bool

/-- The stream over a text, before anything is read. -/
def IStream.open (text : List Char) : IStream :=
  { rest := text, eofbit := false, failbit := false }

/-- Modelled from the spec: the extraction of `std::getline(input, str, delim)`
(C++ standard library, not part of the repository): characters go to the
result until `delim` is found and discarded, or until the input ends. The
result is (the characters, the rest, whether the input ended first). -/
def getline_chars (delim : Char) : List Char → List Char × List Char × Bool
  | [] => ([], [], true)
  | c :: cs =>
    if c = delim then ([], cs, false)
    else ((getline_chars delim cs).1.cons c, (getline_chars delim cs).2.1,
      (getline_chars delim cs).2.2)

/-- Modelled from the spec: `std::getline(input, str, delim)` (C++ standard
library): on a stream that is not good it sets `failbit` and leaves `str`;
otherwise it replaces `str` by the extracted characters, sets `eofbit` when the
input ended before a delimiter, and sets `failbit` when nothing was extracted.
The result is (the stream afterwards, `str` afterwards). -/
def IStream.getline (s : IStream) (delim : Char) (str : List Char) : IStream × List Char :=
  if s.eofbit || s.failbit then ({ s with failbit := true }, str)
  else
    ({ rest := (getline_chars delim s.rest).2.1
       eofbit := (getline_chars delim s.rest).2.2
       failbit := (getline_chars delim s.rest).2.2 && (getline_chars delim s.rest).1.isEmpty },
      (getline_chars delim s.rest).1)

/-- `get_next_line(input, buffer)` of `utils.cpp`; every pass of the loop but
the last reads a line that starts with `#`, so `fuel` above the number of
characters left is enough. The result is (the stream, `buffer`). -/
def get_next_line : ℕ → IStream → List Char → IStream × List Char
  | 0, input, buffer => (input, buffer)
  | fuel + 1, input, buffer =>
    if !input.eofbit && !input.failbit then
      if ((input.getline '\n' buffer).2.head? = some '#') then
        get_next_line fuel (input.getline '\n' buffer).1 (input.getline '\n' buffer).2
      else input.getline '\n' buffer
    else (input, buffer)

/-- Modelled from the spec: `atoi` (C standard library) on a text without
leading white space or sign: the value of the leading decimal digits, 0 when
there is none. -/
def atoi (cs : List Char) : ℕ :=
  (cs.takeWhile Char.isDigit).foldl (fun n c => 10 * n + (c.toNat - 48)) 0

/-- The loop "process transitions" of `NBW::parse`, `count` lines from the
stream. `none` stands for a write outside the matrix or outside a bitset. -/
def parse_transitions (size alphabet_size : ℕ) :
    ℕ → IStream → List Char → (ℕ → Finset ℕ) → Option (IStream × List Char × (ℕ → Finset ℕ))
  | 0, inf, s, tm => some (inf, s, tm)
  | count + 1, inf, s, tm =>
    let line := get_next_line (inf.rest.length + 1) inf s
    let iss := IStream.open line.2
    let p1 := iss.getline ' ' []
    let state_from := atoi p1.2
    let p2 := p1.1.getline ' ' p1.2
    let p3 := p2.1.getline ' ' p2.2
    let char_on := atoi p3.2
    let p4 := p3.1.getline ' ' p3.2
    let p5 := p4.1.getline ' ' p4.2
    let state_to := atoi p5.2
    if 1 ≤ state_from ∧ 1 ≤ char_on ∧ 1 ≤ state_to ∧
        (state_from - 1) * alphabet_size + (char_on - 1) < alphabet_size * size ∧
        state_to - 1 < size then
      parse_transitions size alphabet_size count line.1 line.2
        (set_bit tm ((state_from - 1) * alphabet_size + (char_on - 1)) (state_to - 1))
    else none

/-- The loop `do { .. } while(!iss.eof() && part.size() > 0)` that assigns the
initial states in `NBW::parse`; the result is (`initial`, `part`). `none`
stands for a write outside the bitset. -/
def parse_initial (size : ℕ) :
    ℕ → IStream → List Char → Finset ℕ → Option (Finset ℕ × List Char)
  | 0, _, part, initial => some (initial, part)
  | fuel + 1, iss, part, initial =>
    if 1 ≤ atoi part ∧ atoi part - 1 < size then
      if !(iss.getline ' ' part).1.eofbit && decide (0 < (iss.getline ' ' part).2.length) then
        parse_initial size fuel (iss.getline ' ' part).1 (iss.getline ' ' part).2
          (insert (atoi part - 1) initial)
      else some (insert (atoi part - 1) initial, (iss.getline ' ' part).2)
    else none

/-- The loop `while(!iss2.eof() && part.size() > 0)` that assigns the final
states in `NBW::parse`. `none` stands for a write outside the bitset. -/
def parse_final (size : ℕ) : ℕ → IStream → List Char → Finset ℕ → Option (Finset ℕ)
  | 0, _, _, final => some final
  | fuel + 1, iss2, part, final =>
    if !iss2.eofbit && decide (0 < part.length) then
      if 1 ≤ atoi part ∧ atoi part - 1 < size then
        parse_final size fuel (iss2.getline ' ' part).1 (iss2.getline ' ' part).2
          (insert (atoi part - 1) final)
      else none
    else some final

/-- `NBW::parse` on a file that holds `text`. The branch `parse_from_GASt`, for
a file whose first line is not `BUECHI` or `BUCHI`, is not embedded and gives
`none`, as a write outside an array does. -/
def NBW.parse (text : List Char) : Option NBW :=
  let inf := IStream.open text
  let l0 := get_next_line (text.length + 1) inf []
  if l0.2 ≠ "BUECHI".toList ∧ l0.2 ≠ "BUCHI".toList then none
  else
    let l1 := get_next_line (text.length + 1) l0.1 l0.2
    let size := atoi l1.2
    let use_cache := NBW_USE_CACHE && decide (size ≤ NBW_MAX_CACHED_SIZE)
    let l2 := get_next_line (text.length + 1) l1.1 l1.2
    let alphabet_size := atoi l2.2
    let l3 := get_next_line (text.length + 1) l2.1 l2.2
    let num_transitions := atoi l3.2
    match parse_transitions size alphabet_size num_transitions l3.1 l3.2 (fun _ => ∅) with
    | none => none
    | some tr =>
      let l4 := get_next_line (text.length + 1) tr.1 tr.2.1
      let iss := IStream.open l4.2
      let p := iss.getline ' ' []
      match parse_initial size (l4.2.length + 1) p.1 p.2 ∅ with
      | none => none
      | some init =>
        let l5 := get_next_line (text.length + 1) l4.1 l4.2
        let iss2 := IStream.open l5.2
        let p2 := iss2.getline ' ' init.2
        match parse_final size (l5.2.length + 1) p2.1 p2.2 ∅ with
        | none => none
        | some final =>
          some
            { size := size
              alphabet_size := alphabet_size
              transition_matrix := tr.2.2
              initial := init.1
              final := final
              num_transitions := num_transitions
              trimmed := false
              use_cache := use_cache
              transition_cache :=
                if use_cache then build_cache size alphabet_size tr.2.2 (fun _ => ∅)
                else fun _ => ∅ }

/-! ## Automata from formulas (`buchi_gen.hpp`, `buchi_gen.cpp`) -/

/-- `enum Boundary { OMEGA, ZETA }` of `utils.hpp`. -/
inductive Boundary where
  | OMEGA
  | ZETA
  deriving DecidableEq

/-- `class BuchiState`. A slice is the number whose binary digits are its bits;
`neg_lits_sat` is a bitset. -/
structure BuchiState where
  accept : Bool
  sink : Bool
  state_id : ℕ
  old_slice : ℕ
  current_slice : ℕ
  neg_lits_sat : Finset ℕ

/-- The static members `state_list` and `next_state_id` of `BuchiState`;
`current_formula` and `formula_tracks` do not change after
`BuchiState::initialize` and are parameters. -/
structure BuchiGen where
  state_list : List BuchiState
  next_state_id : ℕ

/-- `BuchiState::FIRST_REAL_STATE`. -/
def FIRST_REAL_STATE : ℕ := 2

/-- `BuchiState::initialize`: the sink state, then the initial state (whose id
is stored in the global `initial_state_id`). -/
def BuchiState.initialize : BuchiGen :=
  { state_list :=
      [{ accept := false, sink := true, state_id := 0, old_slice := 0, current_slice := 0,
         neg_lits_sat := ∅ },
       { accept := false, sink := false, state_id := 1, old_slice := 0, current_slice := 0,
         neg_lits_sat := ∅ }]
    next_state_id := 2 }

/-- The global `initial_state_id` after `BuchiState::initialize`. -/
def initial_state_id : ℕ := 1

/-- `BuchiState::get_state(x, y, neg_lits_sat)`; the result is (the state, the
static members afterwards). -/
def BuchiState.get_state (f : Conjunction) (g : BuchiGen) (x y : ℕ) (neg_lits_sat : Finset ℕ) :
    BuchiState × BuchiGen :=
  match
    (g.state_list.drop FIRST_REAL_STATE).find?
      (fun s =>
        decide (s.old_slice = x) && decide (s.current_slice = y) &&
          decide (s.neg_lits_sat = neg_lits_sat)) with
  | some s => (s, g)
  | none =>
    let new_state : BuchiState :=
      { accept := decide (neg_lits_sat.card = f.neg_literals.length)
        sink := false
        state_id := g.next_state_id
        old_slice := x
        current_slice := y
        neg_lits_sat := neg_lits_sat }
    (new_state, { state_list := g.state_list ++ [new_state], next_state_id := g.next_state_id + 1 })

/-- `BuchiState::get_sink`; `none` for an empty `state_list`. -/
def BuchiState.get_sink (g : BuchiGen) : Option BuchiState := g.state_list.get? 0

/-- `BuchiState::get_target(next_slice)` on the state `b`; the result is (the
target, the static members afterwards). -/
def BuchiState.get_target (f : Conjunction) (g : BuchiGen) (b : BuchiState) (next_slice : ℕ) :
    Option (BuchiState × BuchiGen) :=
  if f.check b.old_slice b.current_slice next_slice then
    let neg_lits_sat :=
      (List.range f.neg_literals.length).foldl
        (fun sat i =>
          match f.neg_literals.get? i with
          | some l => if !l.check b.old_slice b.current_slice next_slice then insert i sat else sat
          | none => sat)
        b.neg_lits_sat
    some (BuchiState.get_state f g b.current_slice next_slice neg_lits_sat)
  else (BuchiState.get_sink g).map (fun s => (s, g))

/-- The state of the loops of `NBW::build_helper`: the static members of
`BuchiState`, `adjacency_list` and the work queue under construction. -/
structure HelperState where
  gen : BuchiGen
  adjacency_list : List (ℕ × ℕ × ℕ)
  queue : List BuchiState

/-- The start of the exploration in `NBW::build_helper` for the boundary
condition `conditions`; `characters[i]` is the slice with value `i`. -/
def NBW.build_helper_start (f : Conjunction) (formula_tracks : ℕ) (conditions : Boundary) :
    HelperState :=
  match conditions with
  | Boundary.OMEGA =>
    (List.range (2 ^ formula_tracks)).foldl
      (fun st i =>
        let b := BuchiState.get_state f st.gen 0 i ∅
        { gen := b.2
          adjacency_list := st.adjacency_list ++ [(initial_state_id, i, b.1.state_id)]
          queue := st.queue ++ [b.1] })
      { gen := BuchiState.initialize, adjacency_list := [], queue := [] }
  | Boundary.ZETA =>
    (List.range (2 ^ formula_tracks)).foldl
      (fun st i =>
        (List.range (2 ^ formula_tracks)).foldl
          (fun st j =>
            let b := BuchiState.get_state f st.gen i j ∅
            { gen := b.2
              adjacency_list := st.adjacency_list ++ [(initial_state_id, j, b.1.state_id)]
              queue := st.queue ++ [b.1] })
          st)
      { gen := BuchiState.initialize, adjacency_list := [], queue := [] }

/-- One pass of `while( !work_queue.empty() )` in `NBW::build_helper`: the field
`queue` of the argument is empty and collects `new_work_queue`. -/
def NBW.build_helper_round (f : Conjunction) (formula_tracks : ℕ)
    (work_queue : List BuchiState) (st : HelperState) : Option HelperState :=
  work_queue.foldl
    (fun acc b =>
      (List.range (2 ^ formula_tracks)).foldl
        (fun acc j =>
          match acc with
          | none => none
          | some st =>
            match BuchiState.get_target f st.gen b j with
            | none => none
            | some r =>
              some
                { gen := r.2
                  adjacency_list := st.adjacency_list ++ [(b.state_id, j, r.1.state_id)]
                  queue :=
                    if st.gen.next_state_id < r.2.next_state_id then st.queue ++ [r.1]
                    else st.queue })
        acc)
    (some st)

/-- The loop `while( !work_queue.empty() )` of `NBW::build_helper`; `none` when
the fuel runs out before the queue is empty. -/
def NBW.build_helper_loop (f : Conjunction) (formula_tracks : ℕ) :
    ℕ → HelperState → Option HelperState
  | 0, st => if st.queue.isEmpty then some st else none
  | fuel + 1, st =>
    if st.queue.isEmpty then some st
    else
      match NBW.build_helper_round f formula_tracks st.queue { st with queue := [] } with
      | none => none
      | some st1 => NBW.build_helper_loop f formula_tracks fuel st1

/-- `NBW::build_helper`, with `SymbolTable::var_count()` as `formula_tracks` and
the fuel of the exploration loop. -/
def NBW.build_helper (f : Conjunction) (formula_tracks : ℕ) (conditions : Boundary)
    (fuel : ℕ) : Option NBW :=
  match
    NBW.build_helper_loop f formula_tracks fuel
      (NBW.build_helper_start f formula_tracks conditions) with
  | none => none
  | some st =>
    some
      (NBW.ctor st.gen.next_state_id (2 ^ formula_tracks) st.adjacency_list {initial_state_id}
        ((List.range st.gen.next_state_id).foldl
          (fun final i =>
            match st.gen.state_list.get? i with
            | some b => if b.accept then insert i final else final
            | none => final)
          ∅))

/-- `NBW::build_conjunction_automaton`, with the fuel of the exploration loops;
`none` when some loop runs out of fuel. -/
def NBW.build_conjunction_automaton (f : Conjunction) (formula_tracks : ℕ)
    (conditions : Boundary) (fuel : ℕ) : Option NBW :=
  build_quantifiers (fun ret : Option NBW => ret.bind (fun A => A.get_complement fuel))
    (fun track_index ret => ret.map (fun A => A.project track_index))
    (fun ret => ret.map (fun A => A.trim.2)) f.quantifiers
    (NBW.build_helper f formula_tracks conditions fuel)

/-- `NBW::build_automaton`; `none` for an empty formula (the source reads
`formula[0]`) and when some loop runs out of fuel. -/
def NBW.build_automaton (formula : List Conjunction) (formula_tracks : ℕ)
    (conditions : Boundary) (fuel : ℕ) : Option NBW :=
  match formula with
  | [] => none
  | f :: rest =>
    rest.foldl
      (fun ret g =>
        match ret, NBW.build_conjunction_automaton g formula_tracks conditions fuel with
        | some one, some two => some (NBW.disjoint_sum one two)
        | _, _ => none)
      (NBW.build_conjunction_automaton f formula_tracks conditions fuel)

/-- The formula that `check_nilpotency(eca, ..)` of `gen_test.cpp` builds at
level 0, with the variable `a` at index 0 of the symbol table: the literal
`a -> a` under the rule `eca` and the quantifier "for all a". -/
def nilpotency_formula_level0 (eca : ℕ) : Conjunction :=
  { literals := [Literal.ctor 0 0 eca false]
    quantifiers := [{ negated := false, universal := true, variable_index := 0 }]
    neg_literals := [] }

/-- An automaton over one symbol whose accepting state is left at once: states
0 and 1 are initial, state 0 is accepting, `0 -> 2 -> 2`, state 1 has no
successor. It accepts no word. -/
def NBW.fading : NBW := NBW.ctor 3 1 [(0, 0, 2), (2, 0, 2)] {0, 1} {0}

/-- The number of triples `(s, c, t)` with `t` in `delta(s, c)`. -/
def NBW.count_transitions (A : NBW) : ℕ :=
  ∑ s in Finset.range A.size, ∑ c in Finset.range A.alphabet_size, (A.delta s c).card

/-- The values of the static members of `BuchiState` that can arise for the
formula `f`: the one after `BuchiState::initialize`, and the ones after a call
of `BuchiState::get_state` with a bitset of the width of `neg_lits_sat`. -/
inductive BuchiGen.Reached (f : Conjunction) : BuchiGen → Prop
  | initial : BuchiGen.Reached f BuchiState.initialize
  | state (g : BuchiGen) (x y : ℕ) (n : Finset ℕ) :
      BuchiGen.Reached f g → (∀ i ∈ n, i < f.neg_literals.length) →
      BuchiGen.Reached f (BuchiState.get_state f g x y n).2

/-- The NBW values obtained from the constructor `NBW::NBW(size,
alphabet_size, adjacency_list, initial, final)` by a sequence of calls of
`trim()` and `project(track_index)`. -/
inductive NBW.Built : NBW → Prop
  | ctor (size alphabet_size : ℕ) (adjacency_list : List (ℕ × ℕ × ℕ))
      (initial final : Finset ℕ) :
      NBW.Built (NBW.ctor size alphabet_size adjacency_list initial final)
  | trim (A : NBW) : NBW.Built A → NBW.Built A.trim.2
  | project (A : NBW) (track_index : ℕ) : NBW.Built A → NBW.Built (A.project track_index)

/-- An automaton with four states over one symbol: transitions `1 -> 2`,
`2 -> 0`, `2 -> 1` and `3 -> 3`, initial states 1, 2, 3, accepting state 1.
Its third Safra tree has a node that is marked while it has a child. -/
def NBW.collapsing : NBW :=
  NBW.ctor 4 1 [(1, 0, 2), (2, 0, 0), (2, 0, 1), (3, 0, 3)] {1, 2, 3} {1}

/-! # Theorems -/

/-! ## Folds over bitsets -/

theorem mem_foldl_cond_union (f : ℕ → Finset ℕ) (p : ℕ → Prop) [DecidablePred p]
    (l : List ℕ) (init : Finset ℕ) (t : ℕ) :
    t ∈ l.foldl (fun acc i => if p i then acc ∪ f i else acc) init ↔
      t ∈ init ∨ ∃ i ∈ l, p i ∧ t ∈ f i := by
  induction l generalizing init with
  | nil => simp
  | cons x xs ih =>
    rw [List.foldl_cons, ih]
    by_cases hx : p x
    · simp only [hx, if_true, Finset.mem_union, List.mem_cons]
      constructor
      · rintro ((h | h) | ⟨i, hi, hp, ht⟩)
        · exact Or.inl h
        · exact Or.inr ⟨x, Or.inl rfl, hx, h⟩
        · exact Or.inr ⟨i, Or.inr hi, hp, ht⟩
      · rintro (h | ⟨i, hi | hi, hp, ht⟩)
        · exact Or.inl (Or.inl h)
        · subst hi; exact Or.inl (Or.inr ht)
        · exact Or.inr ⟨i, hi, hp, ht⟩
    · simp only [hx, if_false, List.mem_cons]
      constructor
      · rintro (h | ⟨i, hi, hp, ht⟩)
        · exact Or.inl h
        · exact Or.inr ⟨i, Or.inr hi, hp, ht⟩
      · rintro (h | ⟨i, hi | hi, hp, ht⟩)
        · exact Or.inl h
        · subst hi; exact absurd hp hx
        · exact Or.inr ⟨i, hi, hp, ht⟩

theorem mem_foldl_cond_insert (g : ℕ → ℕ) (p : ℕ → Prop) [DecidablePred p]
    (l : List ℕ) (init : Finset ℕ) (t : ℕ) :
    t ∈ l.foldl (fun s i => if p i then insert (g i) s else s) init ↔
      t ∈ init ∨ ∃ i ∈ l, p i ∧ t = g i := by
  induction l generalizing init with
  | nil => simp
  | cons x xs ih =>
    rw [List.foldl_cons, ih]
    by_cases hx : p x
    · simp only [hx, if_true, Finset.mem_insert, List.mem_cons]
      constructor
      · rintro ((h | h) | ⟨i, hi, hp, ht⟩)
        · exact Or.inr ⟨x, Or.inl rfl, hx, h⟩
        · exact Or.inl h
        · exact Or.inr ⟨i, Or.inr hi, hp, ht⟩
      · rintro (h | ⟨i, hi | hi, hp, ht⟩)
        · exact Or.inl (Or.inr h)
        · subst hi; exact Or.inl (Or.inl ht)
        · exact Or.inr ⟨i, hi, hp, ht⟩
    · simp only [hx, if_false, List.mem_cons]
      constructor
      · rintro (h | ⟨i, hi, hp, ht⟩)
        · exact Or.inl h
        · exact Or.inr ⟨i, Or.inr hi, hp, ht⟩
      · rintro (h | ⟨i, hi | hi, hp, ht⟩)
        · exact Or.inl h
        · subst hi; exact absurd hp hx
        · exact Or.inr ⟨i, hi, hp, ht⟩

/-! ## The set transition -/

theorem NBW.mem_transition (A : NBW) (S : Finset ℕ) (a t : ℕ)
    (hcache : A.use_cache = (NBW_USE_CACHE && decide (A.size ≤ NBW_MAX_CACHED_SIZE)))
    (hS : ∀ s ∈ S, s < A.size) :
    t ∈ A.transition S (a + 1) ↔ ∃ s ∈ S, t ∈ A.delta s a := by
  have hc : A.use_cache = false := by simpa [NBW_USE_CACHE] using hcache
  unfold NBW.transition NBW.delta
  rw [hc]
  simp only [Bool.false_eq_true, if_false, Nat.add_sub_cancel]
  rw [mem_foldl_cond_union (fun i => A.transition_matrix (i * A.alphabet_size + a))
    (fun i => i ∈ S)]
  simp only [Finset.not_mem_empty, false_or, List.mem_range]
  constructor
  · rintro ⟨i, _, hi, ht⟩
    exact ⟨i, hi, ht⟩
  · rintro ⟨s, hs, ht⟩
    exact ⟨s, hS s hs, hs, ht⟩

/-! ## The search loops -/

theorem search_push_spec (st : List ℕ × Finset ℕ) (x : ℕ) :
    ∃ new : List ℕ, (search_push st x).1 = st.1 ++ new ∧
      (∀ y, y ∈ (search_push st x).2 ↔ y ∈ st.2 ∨ y ∈ new) ∧ new.Nodup ∧
      (∀ y ∈ new, y = x ∧ y ∉ st.2) ∧ x ∈ (search_push st x).2 := by
  unfold search_push
  by_cases h : x ∈ st.2
  · exact ⟨[], by simp [h]⟩
  · refine ⟨[x], ?_⟩
    simp [h]
    intro y
    tauto

theorem foldl_search_push_spec (l : List ℕ) (st : List ℕ × Finset ℕ) :
    ∃ new : List ℕ, (l.foldl search_push st).1 = st.1 ++ new ∧
      (∀ y, y ∈ (l.foldl search_push st).2 ↔ y ∈ st.2 ∨ y ∈ new) ∧ new.Nodup ∧
      (∀ y ∈ new, y ∈ l ∧ y ∉ st.2) ∧ ∀ y ∈ l, y ∈ (l.foldl search_push st).2 := by
  induction l generalizing st with
  | nil => exact ⟨[], by simp⟩
  | cons x xs ih =>
    obtain ⟨n1, h1, h2, h3, h4, h5⟩ := search_push_spec st x
    obtain ⟨n2, g1, g2, g3, g4, g5⟩ := ih (search_push st x)
    refine ⟨n1 ++ n2, ?_, ?_, ?_, ?_, ?_⟩
    · rw [List.foldl_cons, g1, h1, List.append_assoc]
    · intro y
      rw [List.foldl_cons, g2, h2, List.mem_append]
      tauto
    · rw [List.nodup_append]
      refine ⟨h3, g3, ?_⟩
      intro a ha hb
      exact (g4 a hb).2 ((h2 a).2 (Or.inr ha))
    · intro y hy
      rw [List.mem_append] at hy
      rcases hy with hy | hy
      · exact ⟨by rw [(h4 y hy).1]; exact List.mem_cons_self _ _, (h4 y hy).2⟩
      · exact ⟨List.mem_cons_of_mem _ (g4 y hy).1, fun hc => (g4 y hy).2 ((h2 y).2 (Or.inl hc))⟩
    · intro y hy
      rw [List.foldl_cons]
      rcases List.mem_cons.1 hy with hy | hy
      · subst hy
        exact (g2 y).2 (Or.inl h5)
      · exact g5 y hy

theorem SearchInv.step {succ : ℕ → List ℕ} {bound : ℕ} {q0 : List ℕ} {v0 : Finset ℕ}
    {i : ℕ} {st : List ℕ × Finset ℕ} (hs : ∀ q, ∀ x ∈ succ q, x < bound)
    (h : SearchInv succ bound q0 v0 i st) {q : ℕ} (hq : st.1[i]? = some q) :
    SearchInv succ bound q0 v0 (i + 1) ((succ q).foldl search_push st) := by
  obtain ⟨new, h1, h2, h3, h4, h5⟩ := foldl_search_push_spec (succ q) st
  have hi : i < st.1.length := by
    by_contra hc
    rw [List.getElem?_eq_none (not_lt.1 hc)] at hq
    exact absurd hq (by simp)
  have hqmem : q ∈ st.1 := by
    rw [List.getElem?_eq_getElem hi] at hq
    cases hq
    exact List.getElem_mem _
  refine ⟨?_, ?_, ?_, ?_, ?_, ?_, ?_⟩
  · rw [h1, List.nodup_append]
    refine ⟨h.nodup, h3, ?_⟩
    intro a ha hb
    exact (h4 a hb).2 ((h.seen a).2 (Or.inr ha))
  · intro x hx
    rw [h1, List.mem_append] at hx
    rcases hx with hx | hx
    · exact h.lt x hx
    · exact hs q x (h4 x hx).1
  · intro x
    rw [h2, h1, List.mem_append, h.seen]
    tauto
  · intro x hx
    rw [h1]
    exact List.mem_append_left _ (h.start x hx)
  · intro k hk q' hq' x hx
    rw [h2]
    have hk' : k < st.1.length := by omega
    rw [h1, List.getElem?_append_left hk'] at hq'
    rcases Nat.lt_succ_iff_lt_or_eq.1 hk with hlt | heq
    · exact Or.inl (h.closed k hlt q' hq' x hx)
    · subst heq
      rw [hq] at hq'
      cases hq'
      exact (h2 x).1 (h5 x hx)
  · intro x hx
    rw [h1, List.mem_append] at hx
    rcases hx with hx | hx
    · exact h.sound x hx
    · obtain ⟨s, hs0, hr⟩ := h.sound q hqmem
      exact ⟨s, hs0, hr.tail (h4 x hx).1⟩
  · rw [h1, List.length_append]
    omega

theorem search_loop_spec {succ : ℕ → List ℕ} (bound : ℕ) {q0 : List ℕ} {v0 : Finset ℕ}
    (hs : ∀ q, ∀ x ∈ succ q, x < bound) (hv : ∀ x ∈ v0, x < bound → x ∈ q0)
    (fuel i : ℕ) (st : List ℕ × Finset ℕ) (h : SearchInv succ bound q0 v0 i st)
    (hf : bound ≤ i + fuel) (x : ℕ) :
    x ∈ search_loop succ fuel i st ↔
      x ∈ v0 ∨ ∃ s ∈ q0, Relation.ReflTransGen (fun a b => b ∈ succ a) s x := by
  have fin : ∀ st : List ℕ × Finset ℕ, SearchInv succ bound q0 v0 st.1.length st →
      (x ∈ st.2 ↔ x ∈ v0 ∨ ∃ s ∈ q0, Relation.ReflTransGen (fun a b => b ∈ succ a) s x) := by
    intro st h
    constructor
    · intro hx
      rcases (h.seen x).1 hx with hx | hx
      · exact Or.inl hx
      · exact Or.inr (h.sound x hx)
    · rintro (hx | ⟨s, hs0, hr⟩)
      · exact (h.seen x).2 (Or.inl hx)
      · refine (h.seen x).2 (Or.inr ?_)
        induction hr with
        | refl => exact h.start s hs0
        | @tail b c _ hbc ih =>
          obtain ⟨k, hk, hkb⟩ := List.getElem_of_mem ih
          have hb : st.1[k]? = some b := by rw [List.getElem?_eq_getElem hk, hkb]
          have hc := h.closed k hk b hb c hbc
          rcases (h.seen c).1 hc with hc | hc
          · exact h.start c (hv c hc (hs b c hbc))
          · exact hc
  have len : ∀ (i : ℕ) (st : List ℕ × Finset ℕ), SearchInv succ bound q0 v0 i st →
      st.1.length ≤ bound := by
    intro i st h
    have := List.Nodup.length_le_card (α := Fin bound) (l := st.1.pmap (fun x hx => ⟨x, hx⟩) h.lt)
      ((List.Nodup.pmap (fun _ _ _ _ hab => by simpa using hab) h.nodup))
    simpa using this
  induction fuel generalizing i st with
  | zero =>
    have hl := len i st h
    have hle := h.le
    have : i = st.1.length := by omega
    subst this
    exact fin st h
  | succ fuel ih =>
    unfold search_loop
    cases hq : st.1[i]? with
    | none =>
      have hle := h.le
      have : st.1.length ≤ i := List.getElem?_eq_none_iff.1 hq
      have : i = st.1.length := by omega
      subst this
      exact fin st h
    | some q =>
      exact ih (i + 1) _ (h.step hs hq) (by omega)

theorem foldl_flatMap_eq {α β γ : Type} (f : γ → β → γ) (g : α → List β) (l : List α) (init : γ) :
    (l.flatMap g).foldl f init = l.foldl (fun acc a => (g a).foldl f acc) init := by
  induction l generalizing init with
  | nil => rfl
  | cons x xs ih => simp [List.flatMap_cons, List.foldl_append, ih]

theorem foldl_filter_eq {β γ : Type} (f : γ → β → γ) (p : β → Prop) [DecidablePred p]
    (l : List β) (init : γ) :
    (l.filter (fun x => decide (p x))).foldl f init =
      l.foldl (fun acc x => if p x then f acc x else acc) init := by
  induction l generalizing init with
  | nil => rfl
  | cons x xs ih =>
    by_cases hx : p x
    · simp [List.filter_cons, hx, ih]
    · simp [List.filter_cons, hx, ih]

theorem NBW.accessible_visit_eq (A : NBW) (q : ℕ) (st : List ℕ × Finset ℕ) :
    A.accessible_visit q st = (A.successors q).foldl search_push st := by
  unfold NBW.accessible_visit NBW.successors
  rw [foldl_flatMap_eq]
  congr 1
  funext acc c
  rw [foldl_filter_eq]

theorem NBW.accessible_loop_eq (A : NBW) (fuel i : ℕ) (st : List ℕ × Finset ℕ) :
    A.accessible_loop fuel i st = search_loop A.successors fuel i st := by
  induction fuel generalizing i st with
  | zero => rfl
  | succ fuel ih =>
    unfold NBW.accessible_loop search_loop
    cases st.1[i]? with
    | none => rfl
    | some q => simp only [ih, NBW.accessible_visit_eq]

theorem NBW.coaccessible_loop_eq (A : NBW) (fuel i : ℕ) (st : List ℕ × Finset ℕ) :
    A.coaccessible_loop fuel i st = search_loop A.reverse_accessible fuel i st := by
  induction fuel generalizing i st with
  | zero => rfl
  | succ fuel ih =>
    unfold NBW.coaccessible_loop search_loop
    cases st.1[i]? with
    | none => rfl
    | some q => simp only [ih]

theorem NBW.mem_successors (A : NBW) (q x : ℕ) :
    x ∈ A.successors q ↔ x < A.size ∧ ∃ c, c < A.alphabet_size ∧ x ∈ A.delta q c := by
  unfold NBW.successors NBW.delta
  simp only [List.mem_flatMap, List.mem_range, List.mem_filter, decide_eq_true_eq]
  constructor
  · rintro ⟨c, hc, hx, hm⟩
    exact ⟨hx, c, hc, hm⟩
  · rintro ⟨hx, c, hc, hm⟩
    exact ⟨c, hc, hx, hm⟩

theorem NBW.mem_reverse_accessible (A : NBW) (i j : ℕ) :
    j ∈ A.reverse_accessible i ↔ j < A.size ∧ ∃ c, c < A.alphabet_size ∧ i ∈ A.delta j c := by
  unfold NBW.reverse_accessible NBW.delta
  simp only [List.mem_filter, List.mem_range, List.any_eq_true, decide_eq_true_eq]

theorem search_inv_init (succ : ℕ → List ℕ) (bound : ℕ) (v0 : Finset ℕ) :
    SearchInv succ bound ((List.range bound).filter (fun i => i ∈ v0)) v0 0
      ((List.range bound).filter (fun i => i ∈ v0), v0) := by
  refine ⟨?_, ?_, ?_, ?_, ?_, ?_, ?_⟩
  · exact (List.nodup_range bound).filter _
  · intro x hx
    simp only [List.mem_filter, List.mem_range] at hx
    exact hx.1
  · intro x
    simp only [List.mem_filter, List.mem_range, decide_eq_true_eq]
    tauto
  · intro x hx
    exact hx
  · intro k hk
    exact absurd hk (Nat.not_lt_zero k)
  · intro x hx
    exact ⟨x, hx, Relation.ReflTransGen.refl⟩
  · exact Nat.zero_le _

theorem NBW.reach_lt (A : NBW) {s x : ℕ} (h : A.Reach s x) (hs : s < A.size) : x < A.size := by
  induction h with
  | refl => exact hs
  | tail _ hbc _ => exact hbc.2.1

theorem NBW.reach_iff_successors (A : NBW) {s : ℕ} (hs : s < A.size) (x : ℕ) :
    Relation.ReflTransGen (fun a b => b ∈ A.successors a) s x ↔ A.Reach s x := by
  constructor
  · intro h
    induction h with
    | refl => exact Relation.ReflTransGen.refl
    | @tail b c _ hbc ih =>
      have hb : b < A.size := A.reach_lt ih hs
      exact ih.tail ⟨hb, ((A.mem_successors b c).1 hbc).1, ((A.mem_successors b c).1 hbc).2⟩
  · intro h
    induction h with
    | refl => exact Relation.ReflTransGen.refl
    | @tail b c _ hbc ih =>
      exact ih.tail ((A.mem_successors b c).2 ⟨hbc.2.1, hbc.2.2⟩)

theorem NBW.reach_iff_reverse (A : NBW) {s : ℕ} (hs : s < A.size) (x : ℕ) :
    Relation.ReflTransGen (fun a b => b ∈ A.reverse_accessible a) s x ↔ A.Reach x s := by
  constructor
  · intro h
    induction h with
    | refl => exact Relation.ReflTransGen.refl
    | @tail b c hsb hbc ih =>
      have hb : b < A.size := by
        cases hsb with
        | refl => exact hs
        | tail _ h2 => exact ((A.mem_reverse_accessible _ _).1 h2).1
      have hc := (A.mem_reverse_accessible b c).1 hbc
      exact Relation.ReflTransGen.head ⟨hc.1, hb, hc.2⟩ ih
  · intro h
    induction h using Relation.ReflTransGen.head_induction_on with
    | refl => exact Relation.ReflTransGen.refl
    | @head a b hab _ ih =>
      exact ih.tail ((A.mem_reverse_accessible b a).2 ⟨hab.1, hab.2.2⟩)

/-- The set returned by `accessible_states` is the copy of `initial` together
with the states reachable from an initial state. -/
theorem NBW.mem_accessible_states (A : NBW) (x : ℕ) :
    x ∈ A.accessible_states ↔ x ∈ A.initial ∨ A.Accessible x := by
  unfold NBW.accessible_states
  rw [NBW.accessible_loop_eq,
    search_loop_spec A.size (fun q y hy => ((A.mem_successors q y).1 hy).1)
      (fun y hy hlt => by simp [hy, hlt]) A.size 0 _ (search_inv_init _ _ _) (by omega)]
  unfold NBW.Accessible
  constructor
  · rintro (h | ⟨s, hs, hr⟩)
    · exact Or.inl h
    · simp only [List.mem_filter, List.mem_range, decide_eq_true_eq] at hs
      exact Or.inr ⟨s, hs.2, hs.1, (A.reach_iff_successors hs.1 x).1 hr⟩
  · rintro (h | ⟨s, hs, hlt, hr⟩)
    · exact Or.inl h
    · exact Or.inr ⟨s, by simp [hs, hlt], (A.reach_iff_successors hlt x).2 hr⟩

theorem NBW.mem_reach_set (A : NBW) {u : ℕ} (hu : u < A.size) (x : ℕ) :
    x ∈ NBW.accessible_states { A with initial := {u} } ↔ A.Reach u x := by
  rw [NBW.mem_accessible_states]
  constructor
  · rintro (h | ⟨i, hi, _, hr⟩)
    · rw [Finset.mem_singleton.1 h]
      exact Relation.ReflTransGen.refl
    · have hiu : i = u := Finset.mem_singleton.1 hi
      rw [← hiu]
      exact hr
  · intro h
    exact Or.inr ⟨u, Finset.mem_singleton_self u, hu, h⟩

theorem NBW.strong_components_spec (A : NBW) {v : ℕ} (hv : v < A.size) :
    A.strong_components v < A.size ∧ A.Reach (A.strong_components v) v ∧
      A.Reach v (A.strong_components v) ∧
      ∀ j, j < A.strong_components v → ¬ (A.Reach j v ∧ A.Reach v j) := by
  unfold NBW.strong_components
  cases hf : (List.range A.size).find?
      (fun u =>
        decide (v ∈ NBW.accessible_states { A with initial := {u} }) &&
        decide (u ∈ NBW.accessible_states { A with initial := {v} })) with
  | none =>
    rw [List.find?_range_eq_none] at hf
    have := hf v hv
    simp only [Bool.not_eq_true', Bool.and_eq_false_imp, decide_eq_true_eq,
      decide_eq_false_iff_not] at this
    exact absurd ((A.mem_reach_set hv v).2 Relation.ReflTransGen.refl)
      (this ((A.mem_reach_set hv v).2 Relation.ReflTransGen.refl))
  | some m =>
    rw [List.find?_range_eq_some] at hf
    obtain ⟨hp, hm, hmin⟩ := hf
    have hm' : m < A.size := List.mem_range.1 hm
    simp only [Bool.and_eq_true, decide_eq_true_eq] at hp
    refine ⟨hm', (A.mem_reach_set hm' v).1 hp.1, (A.mem_reach_set hv m).1 hp.2, ?_⟩
    intro j hj hc
    have hjs : j < A.size := lt_trans hj hm'
    have := hmin j hj
    simp only [Bool.not_eq_true', Bool.and_eq_false_imp, decide_eq_true_eq,
      decide_eq_false_iff_not] at this
    exact this ((A.mem_reach_set hjs v).2 hc.1) ((A.mem_reach_set hv j).2 hc.2)

theorem NBW.strong_components_eq_iff (A : NBW) {u v : ℕ} (hu : u < A.size) (hv : v < A.size) :
    A.strong_components u = A.strong_components v ↔ A.Reach u v ∧ A.Reach v u := by
  obtain ⟨_, hu1, hu2, hu3⟩ := A.strong_components_spec hu
  obtain ⟨_, hv1, hv2, hv3⟩ := A.strong_components_spec hv
  constructor
  · intro h
    rw [h] at hu1 hu2
    exact ⟨hu2.trans hv1, hv2.trans hu1⟩
  · rintro ⟨huv, hvu⟩
    rcases Nat.lt_trichotomy (A.strong_components u) (A.strong_components v) with h | h | h
    · exact absurd ⟨hu1.trans huv, hvu.trans hu2⟩ (hv3 _ h)
    · exact h
    · exact absurd ⟨hv1.trans hvu, huv.trans hv2⟩ (hu3 _ h)

theorem NBW.mem_self_loop_alive (A : NBW) (x : ℕ) :
    x ∈ A.self_loop_alive ↔
      x < A.size ∧ x ∈ A.final ∧ ∃ c, c < A.alphabet_size ∧ x ∈ A.delta x c := by
  have inner : ∀ (i : ℕ) (l : List ℕ) (alive : Finset ℕ),
      x ∈ l.foldl
          (fun alive j =>
            if i ∉ alive ∧ i ∈ A.transition_matrix (i * A.alphabet_size + j) then
              insert i alive
            else alive) alive ↔
        x ∈ alive ∨ (x = i ∧ ∃ j ∈ l, i ∈ A.transition_matrix (i * A.alphabet_size + j)) := by
    intro i l
    induction l with
    | nil => intro alive; simp
    | cons j js ih =>
      intro alive
      rw [List.foldl_cons, ih]
      by_cases hc : i ∉ alive ∧ i ∈ A.transition_matrix (i * A.alphabet_size + j)
      · rw [if_pos hc]
        simp only [Finset.mem_insert, List.mem_cons, exists_eq_or_imp]
        constructor
        · rintro ((h | h) | h)
          · exact Or.inr ⟨h, Or.inl hc.2⟩
          · exact Or.inl h
          · exact Or.inr ⟨h.1, Or.inr h.2⟩
        · rintro (h | ⟨h, _⟩)
          · exact Or.inl (Or.inr h)
          · exact Or.inl (Or.inl h)
      · rw [if_neg hc]
        simp only [List.mem_cons, exists_eq_or_imp]
        constructor
        · rintro (h | h)
          · exact Or.inl h
          · exact Or.inr ⟨h.1, Or.inr h.2⟩
        · rintro (h | ⟨h, h2 | h2⟩)
          · exact Or.inl h
          · by_cases hia : i ∈ alive
            · exact Or.inl (h ▸ hia)
            · exact absurd ⟨hia, h2⟩ hc
          · exact Or.inr ⟨h, h2⟩
  have outer : ∀ (l : List ℕ) (alive : Finset ℕ),
      x ∈ l.foldl
          (fun alive i =>
            if i ∈ A.final then
              (List.range A.alphabet_size).foldl
                (fun alive j =>
                  if i ∉ alive ∧ i ∈ A.transition_matrix (i * A.alphabet_size + j) then
                    insert i alive
                  else alive)
                alive
            else alive) alive ↔
        x ∈ alive ∨ (x ∈ l ∧ x ∈ A.final ∧
          ∃ j ∈ List.range A.alphabet_size, x ∈ A.transition_matrix (x * A.alphabet_size + j)) := by
    intro l
    induction l with
    | nil => intro alive; simp
    | cons i is ih =>
      intro alive
      rw [List.foldl_cons, ih]
      by_cases hf : i ∈ A.final
      · rw [if_pos hf, inner]
        simp only [List.mem_cons]
        constructor
        · rintro ((h | ⟨h, h2⟩) | h)
          · exact Or.inl h
          · subst h
            exact Or.inr ⟨Or.inl rfl, hf, h2⟩
          · exact Or.inr ⟨Or.inr h.1, h.2⟩
        · rintro (h | ⟨h | h, h2, h3⟩)
          · exact Or.inl (Or.inl h)
          · subst h
            exact Or.inl (Or.inr ⟨rfl, h3⟩)
          · exact Or.inr ⟨h, h2, h3⟩
      · rw [if_neg hf]
        simp only [List.mem_cons]
        constructor
        · rintro (h | h)
          · exact Or.inl h
          · exact Or.inr ⟨Or.inr h.1, h.2⟩
        · rintro (h | ⟨h | h, h2, h3⟩)
          · exact Or.inl h
          · subst h
            exact absurd h2 hf
          · exact Or.inr ⟨h, h2, h3⟩
  unfold NBW.self_loop_alive NBW.delta
  rw [outer]
  simp only [Finset.not_mem_empty, false_or, List.mem_range]

theorem NBW.component_scan_prefix (A : NBW) (sccs : ℕ → ℕ) (alive0 : Finset ℕ) (n : ℕ) :
    (∀ x, x ∈ ((List.range n).foldl (A.component_step sccs) (alive0, ∅, ∅)).1 ↔
        x ∈ alive0 ∨ (x < n ∧
        ((x ∈ A.final ∧ ∃ j, j < x ∧ sccs j = sccs x) ∨
          (x ∉ A.final ∧ ∃ j, j < x ∧ j ∈ A.final ∧ sccs j = sccs x)))) ∧
      (∀ c, c ∈ ((List.range n).foldl (A.component_step sccs) (alive0, ∅, ∅)).2.1 ↔
        ∃ j, j < n ∧ sccs j = c) ∧
      (∀ c, c ∈ ((List.range n).foldl (A.component_step sccs) (alive0, ∅, ∅)).2.2 ↔
        ∃ j, j < n ∧ j ∈ A.final ∧ sccs j = c) := by
  induction n with
  | zero => simp
  | succ n ih =>
    simp only [List.range_succ, List.foldl_append, List.foldl_cons, List.foldl_nil]
    generalize (List.range n).foldl (A.component_step sccs) (alive0, ∅, ∅) = st at ih
    obtain ⟨h1, h2, h3⟩ := ih
    unfold NBW.component_step
    by_cases hf : n ∈ A.final
    · simp only [hf, if_true]
      refine ⟨?_, ?_, ?_⟩
      · intro x
        by_cases hn : sccs n ∈ st.2.1
        · rw [if_pos hn, Finset.mem_insert, h1]
          rw [h2] at hn
          constructor
          · rintro (h | h | ⟨h, h'⟩)
            · subst h
              exact Or.inr ⟨Nat.lt_succ_self _, Or.inl ⟨hf, hn⟩⟩
            · exact Or.inl h
            · exact Or.inr ⟨Nat.lt_succ_of_lt h, h'⟩
          · rintro (h | ⟨h, h'⟩)
            · exact Or.inr (Or.inl h)
            · rcases Nat.lt_succ_iff_lt_or_eq.1 h with h | h
              · exact Or.inr (Or.inr ⟨h, h'⟩)
              · exact Or.inl h
        · rw [if_neg hn, h1]
          rw [h2] at hn
          constructor
          · rintro (h | ⟨h, h'⟩)
            · exact Or.inl h
            · exact Or.inr ⟨Nat.lt_succ_of_lt h, h'⟩
          · rintro (h | ⟨h, h'⟩)
            · exact Or.inl h
            · rcases Nat.lt_succ_iff_lt_or_eq.1 h with h | h
              · exact Or.inr ⟨h, h'⟩
              · subst h
                rcases h' with ⟨_, h'⟩ | ⟨h', _⟩
                · exact absurd h' hn
                · exact absurd hf h'
      · intro c
        rw [Finset.mem_insert, h2]
        constructor
        · rintro (h | ⟨j, hj, h⟩)
          · exact ⟨n, Nat.lt_succ_self _, h.symm⟩
          · exact ⟨j, Nat.lt_succ_of_lt hj, h⟩
        · rintro ⟨j, hj, h⟩
          rcases Nat.lt_succ_iff_lt_or_eq.1 hj with hj | hj
          · exact Or.inr ⟨j, hj, h⟩
          · subst hj
            exact Or.inl h.symm
      · intro c
        rw [Finset.mem_insert, h3]
        constructor
        · rintro (h | ⟨j, hj, h⟩)
          · exact ⟨n, Nat.lt_succ_self _, hf, h.symm⟩
          · exact ⟨j, Nat.lt_succ_of_lt hj, h⟩
        · rintro ⟨j, hj, h⟩
          rcases Nat.lt_succ_iff_lt_or_eq.1 hj with hj | hj
          · exact Or.inr ⟨j, hj, h⟩
          · subst hj
            exact Or.inl h.2.symm
    · simp only [hf, if_false]
      refine ⟨?_, ?_, ?_⟩
      · intro x
        by_cases hn : sccs n ∈ st.2.2
        · rw [if_pos hn, Finset.mem_insert, h1]
          rw [h3] at hn
          constructor
          · rintro (h | h | ⟨h, h'⟩)
            · subst h
              exact Or.inr ⟨Nat.lt_succ_self _, Or.inr ⟨hf, hn⟩⟩
            · exact Or.inl h
            · exact Or.inr ⟨Nat.lt_succ_of_lt h, h'⟩
          · rintro (h | ⟨h, h'⟩)
            · exact Or.inr (Or.inl h)
            · rcases Nat.lt_succ_iff_lt_or_eq.1 h with h | h
              · exact Or.inr (Or.inr ⟨h, h'⟩)
              · exact Or.inl h
        · rw [if_neg hn, h1]
          rw [h3] at hn
          constructor
          · rintro (h | ⟨h, h'⟩)
            · exact Or.inl h
            · exact Or.inr ⟨Nat.lt_succ_of_lt h, h'⟩
          · rintro (h | ⟨h, h'⟩)
            · exact Or.inl h
            · rcases Nat.lt_succ_iff_lt_or_eq.1 h with h | h
              · exact Or.inr ⟨h, h'⟩
              · subst h
                rcases h' with ⟨h', _⟩ | ⟨_, h'⟩
                · exact absurd h' hf
                · exact absurd h' hn
      · intro c
        rw [Finset.mem_insert, h2]
        constructor
        · rintro (h | ⟨j, hj, h⟩)
          · exact ⟨n, Nat.lt_succ_self _, h.symm⟩
          · exact ⟨j, Nat.lt_succ_of_lt hj, h⟩
        · rintro ⟨j, hj, h⟩
          rcases Nat.lt_succ_iff_lt_or_eq.1 hj with hj | hj
          · exact Or.inr ⟨j, hj, h⟩
          · subst hj
            exact Or.inl h.symm
      · intro c
        rw [h3]
        constructor
        · rintro ⟨j, hj, h⟩
          exact ⟨j, Nat.lt_succ_of_lt hj, h⟩
        · rintro ⟨j, hj, h⟩
          rcases Nat.lt_succ_iff_lt_or_eq.1 hj with hj | hj
          · exact ⟨j, hj, h⟩
          · subst hj
            exact absurd h.1 hf

theorem NBW.reach_lt_left (A : NBW) {x s : ℕ} (h : A.Reach x s) (hs : s < A.size) :
    x < A.size := by
  induction h using Relation.ReflTransGen.head_induction_on with
  | refl => exact hs
  | head hab _ _ => exact hab.1

theorem NBW.mem_alive (A : NBW) (x : ℕ) :
    x ∈ (A.component_scan A.strong_components A.self_loop_alive).1 ↔
      x < A.size ∧
        ((x ∈ A.final ∧ ∃ c, c < A.alphabet_size ∧ x ∈ A.delta x c) ∨
          (x ∈ A.final ∧ ∃ j, j < x ∧ A.strong_components j = A.strong_components x) ∨
          (x ∉ A.final ∧
            ∃ j, j < x ∧ j ∈ A.final ∧ A.strong_components j = A.strong_components x)) := by
  unfold NBW.component_scan
  rw [(A.component_scan_prefix A.strong_components A.self_loop_alive A.size).1,
    NBW.mem_self_loop_alive]
  constructor
  · rintro (⟨hx, h⟩ | ⟨hx, h⟩)
    · exact ⟨hx, Or.inl h⟩
    · exact ⟨hx, Or.inr h⟩
  · rintro ⟨hx, h | h⟩
    · exact Or.inl ⟨hx, h⟩
    · exact Or.inr ⟨hx, h⟩

theorem NBW.alive_sound (A : NBW) {x : ℕ}
    (h : x ∈ (A.component_scan A.strong_components A.self_loop_alive).1) :
    A.Coaccessible x := by
  rw [NBW.mem_alive] at h
  obtain ⟨hx, h⟩ := h
  refine ⟨hx, ?_⟩
  rcases h with ⟨hf, c, hc, hd⟩ | ⟨hf, j, hj, hs⟩ | ⟨hf, j, hj, hjf, hs⟩
  · exact ⟨x, hf, Relation.ReflTransGen.refl, Relation.TransGen.single ⟨hx, hx, c, hc, hd⟩⟩
  · have hjs : j < A.size := lt_trans hj hx
    obtain ⟨hjx, hxj⟩ := (A.strong_components_eq_iff hjs hx).1 hs
    rcases Relation.reflTransGen_iff_eq_or_transGen.1 hxj with h | h
    · omega
    · exact ⟨x, hf, Relation.ReflTransGen.refl, h.trans_left hjx⟩
  · have hjs : j < A.size := lt_trans hj hx
    obtain ⟨hjx, hxj⟩ := (A.strong_components_eq_iff hjs hx).1 hs
    rcases Relation.reflTransGen_iff_eq_or_transGen.1 hjx with h | h
    · omega
    · exact ⟨j, hjf, hxj, h.trans_left hxj⟩

theorem NBW.alive_complete (A : NBW) {x : ℕ} (h : A.Coaccessible x) :
    ∃ s, s ∈ (A.component_scan A.strong_components A.self_loop_alive).1 ∧ A.Reach x s := by
  obtain ⟨_, f, hf, hxf, hcyc⟩ := h
  obtain ⟨g, hfg, hgf⟩ := Relation.TransGen.head'_iff.1 hcyc
  have hfs : f < A.size := hfg.1
  have hgs : g < A.size := hfg.2.1
  have hscc : A.strong_components f = A.strong_components g :=
    (A.strong_components_eq_iff hfs hgs).2 ⟨Relation.ReflTransGen.single hfg, hgf⟩
  rcases Nat.lt_trichotomy g f with hlt | heq | hgt
  · exact ⟨f, (A.mem_alive f).2 ⟨hfs, Or.inr (Or.inl ⟨hf, g, hlt, hscc.symm⟩)⟩, hxf⟩
  · subst heq
    obtain ⟨_, _, c, hc, hd⟩ := hfg
    exact ⟨g, (A.mem_alive g).2 ⟨hgs, Or.inl ⟨hf, c, hc, hd⟩⟩, hxf⟩
  · by_cases hgf' : g ∈ A.final
    · exact ⟨g, (A.mem_alive g).2 ⟨hgs, Or.inr (Or.inl ⟨hgf', f, hgt, hscc⟩)⟩, hxf.tail hfg⟩
    · exact ⟨g, (A.mem_alive g).2 ⟨hgs, Or.inr (Or.inr ⟨hgf', f, hgt, hf, hscc⟩)⟩,
        hxf.tail hfg⟩

/-- The set returned by `coaccessible_states` is exactly the set of states with
a path to an accepting state on a cycle. -/
theorem NBW.mem_coaccessible_states (A : NBW) (x : ℕ) :
    x ∈ A.coaccessible_states ↔ A.Coaccessible x := by
  unfold NBW.coaccessible_states
  simp only
  rw [NBW.coaccessible_loop_eq,
    search_loop_spec A.size (fun q y hy => ((A.mem_reverse_accessible q y).1 hy).1)
      (fun y hy hlt => by simp [hy, hlt]) A.size 0 _ (search_inv_init _ _ _) (by omega)]
  constructor
  · rintro (h | ⟨s, hs, hr⟩)
    · exact A.alive_sound h
    · simp only [List.mem_filter, List.mem_range, decide_eq_true_eq] at hs
      have hxs := (A.reach_iff_reverse hs.1 x).1 hr
      obtain ⟨_, f, hf, hsf, hcyc⟩ := A.alive_sound hs.2
      exact ⟨A.reach_lt_left hxs hs.1, f, hf, hxs.trans hsf, hcyc⟩
  · intro h
    obtain ⟨s, hs, hxs⟩ := A.alive_complete h
    have hss : s < A.size := ((A.mem_alive s).1 hs).1
    exact Or.inr ⟨s, by simp [hs, hss], (A.reach_iff_reverse hss x).2 hxs⟩

/-! ## trim: the renumbering -/

theorem mem_set_bit (cells : ℕ → Finset ℕ) (index bit idx j : ℕ) :
    j ∈ set_bit cells index bit idx ↔ j ∈ cells idx ∨ (idx = index ∧ j = bit) := by
  unfold set_bit
  by_cases h : idx = index
  · subst h
    simp only [Function.update_same, Finset.mem_insert, true_and]
    tauto
  · simp only [Function.update_noteq h, h, false_and, or_false]

theorem flat_index_inj {sigma s c s' c' : ℕ} (hc : c < sigma) (hc' : c' < sigma)
    (h : s * sigma + c = s' * sigma + c') : s = s' ∧ c = c' := by
  have h1 : (s * sigma + c) % sigma = (s' * sigma + c') % sigma := by rw [h]
  rw [Nat.mul_add_mod_of_lt hc, Nat.mul_add_mod_of_lt hc'] at h1
  subst h1
  have h2 : s * sigma = s' * sigma := by omega
  exact ⟨Nat.eq_of_mul_eq_mul_right (by omega) h2, rfl⟩

/-- A fold whose step only adds bits, described by `Q`, and counts, described by
`n`, adds the bits of all its steps and counts their sum. -/
theorem foldl_bits_count {α : Type} (G : (ℕ → Finset ℕ) × ℕ → α → (ℕ → Finset ℕ) × ℕ)
    (Q : α → ℕ → ℕ → Prop) (n : α → ℕ)
    (hG : ∀ st a idx j, j ∈ (G st a).1 idx ↔ j ∈ st.1 idx ∨ Q a idx j)
    (hn : ∀ st a, (G st a).2 = st.2 + n a) (l : List α) (st : (ℕ → Finset ℕ) × ℕ) :
    (∀ idx j, j ∈ (l.foldl G st).1 idx ↔ j ∈ st.1 idx ∨ ∃ a ∈ l, Q a idx j) ∧
      (l.foldl G st).2 = st.2 + (l.map n).sum := by
  induction l generalizing st with
  | nil => simp
  | cons x xs ih =>
    obtain ⟨h1, h2⟩ := ih (G st x)
    refine ⟨?_, ?_⟩
    · intro idx j
      rw [List.foldl_cons, h1, hG]
      simp only [List.mem_cons, exists_eq_or_imp]
      tauto
    · rw [List.foldl_cons, h2, hn, List.map_cons, List.sum_cons]
      omega

/-- The same for a fold that only adds bits. -/
theorem foldl_bits {α : Type} (G : (ℕ → Finset ℕ) → α → (ℕ → Finset ℕ))
    (Q : α → ℕ → ℕ → Prop)
    (hG : ∀ tm a idx j, j ∈ (G tm a) idx ↔ j ∈ tm idx ∨ Q a idx j)
    (l : List α) (tm : ℕ → Finset ℕ) (idx j : ℕ) :
    j ∈ (l.foldl G tm) idx ↔ j ∈ tm idx ∨ ∃ a ∈ l, Q a idx j := by
  induction l generalizing tm with
  | nil => simp
  | cons x xs ih =>
    rw [List.foldl_cons, ih, hG]
    simp only [List.mem_cons, exists_eq_or_imp]
    tauto

theorem sum_map_ite (p : ℕ → Prop) [DecidablePred p] (l : List ℕ) :
    (l.map (fun x => if p x then 1 else 0)).sum = (l.filter (fun x => decide (p x))).length := by
  induction l with
  | nil => rfl
  | cons x xs ih =>
    by_cases h : p x
    · simp [List.filter_cons, h, ih]
      omega
    · simp [List.filter_cons, h, ih]

theorem sum_map_range (f : ℕ → ℕ) (n : ℕ) :
    ((List.range n).map f).sum = ∑ i in Finset.range n, f i := by
  induction n with
  | zero => simp
  | succ n ih => simp [List.range_succ, Finset.sum_range_succ, ih]

theorem NBW.trim_matrix_spec (A : NBW) (labels : List ℕ) (m : ℕ) :
    (∀ idx j, j ∈ (A.trim_matrix labels m).1 idx ↔
        ∃ s1, s1 < m ∧ ∃ c, c < A.alphabet_size ∧ ∃ s2, s2 < m ∧
          labels.getD s2 0 ∈ A.transition_matrix (labels.getD s1 0 * A.alphabet_size + c) ∧
          idx = s1 * A.alphabet_size + c ∧ j = s2) ∧
      (A.trim_matrix labels m).2 =
        ∑ s1 in Finset.range m, ∑ c in Finset.range A.alphabet_size,
          ((List.range m).filter (fun s2 =>
            labels.getD s2 0 ∈
              A.transition_matrix (labels.getD s1 0 * A.alphabet_size + c))).length := by
  have inner : ∀ (s1 c : ℕ) (st : (ℕ → Finset ℕ) × ℕ),
      (∀ idx j, j ∈ ((List.range m).foldl
            (fun (st : (ℕ → Finset ℕ) × ℕ) s2 =>
              if labels.getD s2 0 ∈
                  A.transition_matrix (labels.getD s1 0 * A.alphabet_size + c) then
                (set_bit st.1 (s1 * A.alphabet_size + c) s2, st.2 + 1)
              else st) st).1 idx ↔
          j ∈ st.1 idx ∨ ∃ s2 ∈ List.range m,
            labels.getD s2 0 ∈ A.transition_matrix (labels.getD s1 0 * A.alphabet_size + c) ∧
            idx = s1 * A.alphabet_size + c ∧ j = s2) ∧
        ((List.range m).foldl
            (fun (st : (ℕ → Finset ℕ) × ℕ) s2 =>
              if labels.getD s2 0 ∈
                  A.transition_matrix (labels.getD s1 0 * A.alphabet_size + c) then
                (set_bit st.1 (s1 * A.alphabet_size + c) s2, st.2 + 1)
              else st) st).2 =
          st.2 + ((List.range m).map (fun s2 =>
            if labels.getD s2 0 ∈
              A.transition_matrix (labels.getD s1 0 * A.alphabet_size + c) then 1 else 0)).sum := by
    intro s1 c st
    apply foldl_bits_count
    · intro st a idx j
      by_cases h : labels.getD a 0 ∈ A.transition_matrix (labels.getD s1 0 * A.alphabet_size + c)
      · simp only [h, if_true, mem_set_bit, true_and]
      · simp only [h, if_false, false_and, or_false]
    · intro st a
      by_cases h : labels.getD a 0 ∈ A.transition_matrix (labels.getD s1 0 * A.alphabet_size + c)
      · simp only [h, if_true]
      · simp only [h, if_false, Nat.add_zero]
  have middle : ∀ (s1 : ℕ) (st : (ℕ → Finset ℕ) × ℕ),
      (∀ idx j, j ∈ ((List.range A.alphabet_size).foldl
            (fun (st : (ℕ → Finset ℕ) × ℕ) c =>
              (List.range m).foldl
                (fun (st : (ℕ → Finset ℕ) × ℕ) s2 =>
                  if labels.getD s2 0 ∈
                      A.transition_matrix (labels.getD s1 0 * A.alphabet_size + c) then
                    (set_bit st.1 (s1 * A.alphabet_size + c) s2, st.2 + 1)
                  else st) st) st).1 idx ↔
          j ∈ st.1 idx ∨ ∃ c ∈ List.range A.alphabet_size, ∃ s2 ∈ List.range m,
            labels.getD s2 0 ∈ A.transition_matrix (labels.getD s1 0 * A.alphabet_size + c) ∧
            idx = s1 * A.alphabet_size + c ∧ j = s2) ∧
        ((List.range A.alphabet_size).foldl
            (fun (st : (ℕ → Finset ℕ) × ℕ) c =>
              (List.range m).foldl
                (fun (st : (ℕ → Finset ℕ) × ℕ) s2 =>
                  if labels.getD s2 0 ∈
                      A.transition_matrix (labels.getD s1 0 * A.alphabet_size + c) then
                    (set_bit st.1 (s1 * A.alphabet_size + c) s2, st.2 + 1)
                  else st) st) st).2 =
          st.2 + ((List.range A.alphabet_size).map (fun c =>
            ((List.range m).map (fun s2 =>
              if labels.getD s2 0 ∈
                A.transition_matrix (labels.getD s1 0 * A.alphabet_size + c) then 1
              else 0)).sum)).sum := by
    intro s1 st
    apply foldl_bits_count
    · intro st c idx j
      exact (inner s1 c st).1 idx j
    · intro st c
      exact (inner s1 c st).2
  have outer := foldl_bits_count
    (fun (st : (ℕ → Finset ℕ) × ℕ) s1 =>
      (List.range A.alphabet_size).foldl
        (fun (st : (ℕ → Finset ℕ) × ℕ) c =>
          (List.range m).foldl
            (fun (st : (ℕ → Finset ℕ) × ℕ) s2 =>
              if labels.getD s2 0 ∈
                  A.transition_matrix (labels.getD s1 0 * A.alphabet_size + c) then
                (set_bit st.1 (s1 * A.alphabet_size + c) s2, st.2 + 1)
              else st) st) st)
    (fun s1 idx j => ∃ c ∈ List.range A.alphabet_size, ∃ s2 ∈ List.range m,
      labels.getD s2 0 ∈ A.transition_matrix (labels.getD s1 0 * A.alphabet_size + c) ∧
      idx = s1 * A.alphabet_size + c ∧ j = s2)
    (fun s1 => ((List.range A.alphabet_size).map (fun c =>
      ((List.range m).map (fun s2 =>
        if labels.getD s2 0 ∈
          A.transition_matrix (labels.getD s1 0 * A.alphabet_size + c) then 1
        else 0)).sum)).sum)
    (fun st s1 idx j => (middle s1 st).1 idx j) (fun st s1 => (middle s1 st).2)
    (List.range m) (fun _ => ∅, 0)
  unfold NBW.trim_matrix
  refine ⟨?_, ?_⟩
  · intro idx j
    rw [outer.1]
    simp only [Finset.not_mem_empty, false_or, List.mem_range]
  · rw [outer.2, Nat.zero_add, sum_map_range]
    refine Finset.sum_congr rfl (fun s1 _ => ?_)
    rw [sum_map_range]
    refine Finset.sum_congr rfl (fun c _ => ?_)
    exact sum_map_ite _ _

theorem old_labels_eq_sort (size : ℕ) (keep : Finset ℕ) (h : ∀ x ∈ keep, x < size) :
    old_labels size keep = keep.sort (· ≤ ·) := by
  unfold old_labels
  apply List.eq_of_perm_of_sorted (r := (· ≤ ·))
  · rw [List.perm_ext_iff_of_nodup ((List.nodup_range size).filter _) (Finset.sort_nodup _ _)]
    intro a
    simp only [List.mem_filter, List.mem_range, decide_eq_true_eq, Finset.mem_sort]
    exact ⟨fun ha => ha.2, fun ha => ⟨h a ha, ha⟩⟩
  · exact ((List.pairwise_lt_range size).imp (fun hab => le_of_lt hab)).filter _
  · exact Finset.sort_sorted _ _

theorem NBW.keep_lt (A : NBW) :
    ∀ x ∈ A.accessible_states ∩ A.coaccessible_states, x < A.size := by
  intro x hx
  exact ((A.mem_coaccessible_states x).1 (Finset.mem_inter.1 hx).2).1

theorem NBW.trim_renumber_eq (A : NBW) (h1 : A.trimmed = false) (h2 : 1 < A.size)
    (hk : (A.accessible_states ∩ A.coaccessible_states).card ≠ 0) :
    A.trim =
      (A.size - (A.accessible_states ∩ A.coaccessible_states).card,
        { size := (A.accessible_states ∩ A.coaccessible_states).card
          alphabet_size := A.alphabet_size
          transition_matrix :=
            (A.trim_matrix (old_labels A.size (A.accessible_states ∩ A.coaccessible_states))
              (A.accessible_states ∩ A.coaccessible_states).card).1
          initial :=
            (List.range (A.accessible_states ∩ A.coaccessible_states).card).foldl
              (fun s i =>
                if (old_labels A.size (A.accessible_states ∩ A.coaccessible_states)).getD i 0 ∈
                    A.initial then insert i s else s) ∅
          final :=
            (List.range (A.accessible_states ∩ A.coaccessible_states).card).foldl
              (fun s i =>
                if (old_labels A.size (A.accessible_states ∩ A.coaccessible_states)).getD i 0 ∈
                    A.final then insert i s else s) ∅
          num_transitions :=
            (A.trim_matrix (old_labels A.size (A.accessible_states ∩ A.coaccessible_states))
              (A.accessible_states ∩ A.coaccessible_states).card).2
          trimmed := true
          use_cache := false
          transition_cache := A.transition_cache }) := by
  unfold NBW.trim
  simp only [h1, Bool.false_eq_true, if_false, not_le.2 h2, hk, NBW_USE_CACHE, Bool.false_and]

theorem NBW.trim_renumber_spec (A : NBW) (h1 : A.trimmed = false) (h2 : 1 < A.size)
    (hk : (A.accessible_states ∩ A.coaccessible_states).Nonempty) :
    A.trim.2.size = (A.accessible_states ∩ A.coaccessible_states).card ∧
      A.trim.2.alphabet_size = A.alphabet_size ∧
      (∀ i, i < A.trim.2.size → ∀ c, c < A.alphabet_size → ∀ j,
        (j ∈ A.trim.2.delta i c ↔
          j < A.trim.2.size ∧
            ((A.accessible_states ∩ A.coaccessible_states).sort (· ≤ ·)).getD j 0 ∈
              A.delta
                (((A.accessible_states ∩ A.coaccessible_states).sort (· ≤ ·)).getD i 0) c)) ∧
      (∀ i, i < A.trim.2.size →
        ((i ∈ A.trim.2.initial ↔
            ((A.accessible_states ∩ A.coaccessible_states).sort (· ≤ ·)).getD i 0 ∈ A.initial) ∧
          (i ∈ A.trim.2.final ↔
            ((A.accessible_states ∩ A.coaccessible_states).sort (· ≤ ·)).getD i 0 ∈ A.final))) ∧
      A.trim.2.num_transitions =
        ∑ i in Finset.range A.trim.2.size, ∑ c in Finset.range A.trim.2.alphabet_size,
          (A.trim.2.delta i c).card := by
  have hk' : (A.accessible_states ∩ A.coaccessible_states).card ≠ 0 :=
    Finset.card_ne_zero.2 hk
  rw [A.trim_renumber_eq h1 h2 hk']
  simp only [NBW.delta]
  rw [old_labels_eq_sort _ _ A.keep_lt]
  generalize (A.accessible_states ∩ A.coaccessible_states).card = m
  generalize (A.accessible_states ∩ A.coaccessible_states).sort (· ≤ ·) = labels
  have hmem : ∀ i, i < m → ∀ c, c < A.alphabet_size → ∀ j,
      (j ∈ (A.trim_matrix labels m).1 (i * A.alphabet_size + c) ↔
        j < m ∧ labels.getD j 0 ∈ A.transition_matrix (labels.getD i 0 * A.alphabet_size + c)) := by
    intro i hi c hc j
    rw [(A.trim_matrix_spec labels m).1]
    constructor
    · rintro ⟨s1, _, c', hc', s2, hs2, hp, hidx, hj⟩
      obtain ⟨e1, e2⟩ := flat_index_inj hc hc' hidx
      subst e1 e2 hj
      exact ⟨hs2, hp⟩
    · rintro ⟨hj, hp⟩
      exact ⟨i, hi, c, hc, j, hj, hp, rfl, rfl⟩
  refine ⟨trivial, trivial, hmem, ?_, ?_⟩
  · intro i hi
    constructor
    · rw [mem_foldl_cond_insert (fun i => i) (fun i => labels.getD i 0 ∈ A.initial)]
      simp only [Finset.not_mem_empty, false_or, List.mem_range]
      constructor
      · rintro ⟨i', _, hp, rfl⟩
        exact hp
      · intro hp
        exact ⟨i, hi, hp, rfl⟩
    · rw [mem_foldl_cond_insert (fun i => i) (fun i => labels.getD i 0 ∈ A.final)]
      simp only [Finset.not_mem_empty, false_or, List.mem_range]
      constructor
      · rintro ⟨i', _, hp, rfl⟩
        exact hp
      · intro hp
        exact ⟨i, hi, hp, rfl⟩
  · rw [(A.trim_matrix_spec labels m).2]
    refine Finset.sum_congr rfl (fun i hi => ?_)
    refine Finset.sum_congr rfl (fun c hc => ?_)
    rw [← List.toFinset_card_of_nodup ((List.nodup_range m).filter _)]
    congr 1
    ext j
    rw [hmem i (Finset.mem_range.1 hi) c (Finset.mem_range.1 hc) j]
    simp only [List.mem_toFinset, List.mem_filter, List.mem_range, decide_eq_true_eq]

/-! ## Runs, paths and lassos -/

theorem NBW.run_edge (A : NBW) {w rho : ℕ → ℕ} (hw : A.IsWord w) (hr : A.IsRun w rho) (n : ℕ) :
    A.Edge (rho n) (rho (n + 1)) :=
  ⟨hr.1 n, hr.1 (n + 1), w n, hw n, hr.2.2 n⟩

theorem NBW.run_reach (A : NBW) {w rho : ℕ → ℕ} (hw : A.IsWord w) (hr : A.IsRun w rho)
    (a d : ℕ) : A.Reach (rho a) (rho (a + d)) := by
  induction d with
  | zero => exact Relation.ReflTransGen.refl
  | succ d ih => exact ih.tail (A.run_edge hw hr (a + d))

theorem infinitely_often_pigeonhole (rho : ℕ → ℕ) (P : ℕ → Prop) (k : ℕ)
    (h : ∀ n, ∃ m, n ≤ m ∧ rho m < k ∧ P (rho m)) :
    ∃ f, f < k ∧ P f ∧ ∀ n, ∃ m, n ≤ m ∧ rho m = f := by
  induction k with
  | zero =>
    obtain ⟨m, _, hm, _⟩ := h 0
    exact absurd hm (Nat.not_lt_zero _)
  | succ k ih =>
    by_cases hk : P k ∧ ∀ n, ∃ m, n ≤ m ∧ rho m = k
    · exact ⟨k, Nat.lt_succ_self k, hk.1, hk.2⟩
    · have hev : ∃ n0, ∀ m, n0 ≤ m → P (rho m) → rho m ≠ k := by
        by_cases hP : P k
        · have : ¬ ∀ n, ∃ m, n ≤ m ∧ rho m = k := fun hc => hk ⟨hP, hc⟩
          push_neg at this
          obtain ⟨n0, hn0⟩ := this
          exact ⟨n0, fun m hm _ => hn0 m hm⟩
        · exact ⟨0, fun m _ hpm hc => hP (hc ▸ hpm)⟩
      obtain ⟨n0, hn0⟩ := hev
      have h' : ∀ n, ∃ m, n ≤ m ∧ rho m < k ∧ P (rho m) := by
        intro n
        obtain ⟨m, hm, hlt, hp⟩ := h (max n n0)
        have hne := hn0 m (le_trans (le_max_right _ _) hm) hp
        exact ⟨m, le_trans (le_max_left _ _) hm, by omega, hp⟩
      obtain ⟨f, hf, hpf, hinf⟩ := ih h'
      exact ⟨f, Nat.lt_succ_of_lt hf, hpf, hinf⟩

/-- Every state of an accepting run is accessible and coaccessible. -/
theorem NBW.run_useful (A : NBW) {w rho : ℕ → ℕ} (hw : A.IsWord w) (hr : A.IsRun w rho)
    (hacc : ∀ n, ∃ m, n ≤ m ∧ rho m ∈ A.final) (n : ℕ) :
    A.Accessible (rho n) ∧ A.Coaccessible (rho n) := by
  refine ⟨⟨rho 0, hr.2.1, hr.1 0, ?_⟩, hr.1 n, ?_⟩
  · have := A.run_reach hw hr 0 n
    rwa [Nat.zero_add] at this
  · obtain ⟨f, _, hf, hinf⟩ := infinitely_often_pigeonhole rho (fun s => s ∈ A.final) A.size
      (fun n => by
        obtain ⟨m, hm, hmf⟩ := hacc n
        exact ⟨m, hm, hr.1 m, hmf⟩)
    obtain ⟨m1, hm1, e1⟩ := hinf n
    obtain ⟨m2, hm2, e2⟩ := hinf (m1 + 1)
    refine ⟨f, hf, ?_, ?_⟩
    · have := A.run_reach hw hr n (m1 - n)
      rwa [Nat.add_sub_cancel' hm1, e1] at this
    · have h1 := A.run_edge hw hr m1
      have h2 := A.run_reach hw hr (m1 + 1) (m2 - (m1 + 1))
      rw [Nat.add_sub_cancel' hm2, e2] at h2
      rw [e1] at h1
      exact Relation.TransGen.head' h1 h2

theorem NBW.path_of_reach (A : NBW) {s t : ℕ} (h : A.Reach s t) :
    ∃ (n : ℕ) (p : ℕ → ℕ), p 0 = s ∧ p n = t ∧ ∀ i, i < n → A.Edge (p i) (p (i + 1)) := by
  induction h using Relation.ReflTransGen.head_induction_on with
  | refl => exact ⟨0, fun _ => t, rfl, rfl, fun i hi => absurd hi (Nat.not_lt_zero i)⟩
  | @head a b hab _ ih =>
    obtain ⟨n, p, h0, hn, hp⟩ := ih
    refine ⟨n + 1, fun i => Nat.casesOn i a (fun j => p j), rfl, hn, ?_⟩
    intro i hi
    cases i with
    | zero =>
      show A.Edge a (p 0)
      rw [h0]
      exact hab
    | succ j => exact hp j (by omega)

theorem succ_mod_cases (m k : ℕ) (hk : 0 < k) :
    (m % k + 1 < k ∧ (m + 1) % k = m % k + 1) ∨ (m % k + 1 = k ∧ (m + 1) % k = 0) := by
  have hlt := Nat.mod_lt m hk
  have hd := Nat.div_add_mod m k
  rcases Nat.lt_or_ge (m % k + 1) k with h | h
  · left
    refine ⟨h, ?_⟩
    have e : m + 1 = k * (m / k) + (m % k + 1) := by omega
    rw [e, Nat.mul_add_mod, Nat.mod_eq_of_lt h]
  · right
    have hj : m % k + 1 = k := by omega
    refine ⟨hj, ?_⟩
    have e : m + 1 = k * (m / k) + k := by omega
    rw [e, Nat.mul_add_mod, Nat.mod_self]

/-- A state that is accessible and coaccessible starts a lasso, so the
automaton accepts some word. -/
theorem NBW.accepts_of_useful (A : NBW) {s : ℕ} (ha : A.Accessible s) (hc : A.Coaccessible s) :
    ∃ w, A.IsWord w ∧ A.Accepts w := by
  obtain ⟨i0, hi0, hi0s, hr0⟩ := ha
  obtain ⟨_, f, hf, hsf, hcyc⟩ := hc
  obtain ⟨g, hfg, hgf⟩ := Relation.TransGen.head'_iff.1 hcyc
  obtain ⟨ns, ps, ps0, psn, pse⟩ := A.path_of_reach (hr0.trans hsf)
  obtain ⟨nc, pg, pg0, pgn, pge⟩ := A.path_of_reach hgf
  let k := nc + 1
  let pc : ℕ → ℕ := fun i => Nat.casesOn i f (fun j => pg j)
  have pc0 : pc 0 = f := rfl
  have pck : pc k = f := pgn
  have pce : ∀ i, i < k → A.Edge (pc i) (pc (i + 1)) := by
    intro i hi
    cases i with
    | zero =>
      show A.Edge f (pg 0)
      rw [pg0]
      exact hfg
    | succ j => exact pge j (by omega)
  let rho : ℕ → ℕ := fun n => if n < ns then ps n else pc ((n - ns) % k)
  have hk : 0 < k := Nat.succ_pos nc
  have hedge : ∀ n, A.Edge (rho n) (rho (n + 1)) := by
    intro n
    show A.Edge (if n < ns then ps n else pc ((n - ns) % k))
      (if n + 1 < ns then ps (n + 1) else pc ((n + 1 - ns) % k))
    by_cases h1 : n + 1 < ns
    · rw [if_pos h1, if_pos (by omega)]
      exact pse n (by omega)
    · rw [if_neg h1]
      by_cases h2 : n < ns
      · rw [if_pos h2]
        have e : n + 1 - ns = 0 := by omega
        rw [e, Nat.zero_mod, pc0, ← psn]
        have e2 : ns = n + 1 := by omega
        rw [e2]
        exact pse n h2
      · rw [if_neg h2]
        have e : n + 1 - ns = (n - ns) + 1 := by omega
        rw [e]
        rcases succ_mod_cases (n - ns) k hk with ⟨hlt, hm⟩ | ⟨heq, hm⟩
        · rw [hm]
          exact pce _ (by omega)
        · rw [hm, pc0, ← pck]
          have := pce ((n - ns) % k) (by omega)
          rwa [heq] at this
  refine ⟨fun n => Classical.choose (hedge n).2.2, ?_, rho, ⟨?_, ?_, ?_⟩, ?_⟩
  · intro n
    exact (Classical.choose_spec (hedge n).2.2).1
  · intro n
    exact (hedge n).1
  · show (if 0 < ns then ps 0 else pc ((0 - ns) % k)) ∈ A.initial
    by_cases h : 0 < ns
    · rw [if_pos h, ps0]
      exact hi0
    · rw [if_neg h]
      have e : ns = 0 := by omega
      rw [e] at psn
      simp only [Nat.zero_sub, Nat.zero_mod]
      rw [pc0, ← psn, ps0]
      exact hi0
  · intro n
    exact (Classical.choose_spec (hedge n).2.2).2
  · intro n
    refine ⟨ns + k * n, ?_, ?_⟩
    · have : n ≤ k * n := Nat.le_mul_of_pos_left n hk
      omega
    · show (if ns + k * n < ns then ps (ns + k * n) else pc ((ns + k * n - ns) % k)) ∈ A.final
      rw [if_neg (by omega), Nat.add_sub_cancel_left, Nat.mul_mod_right, pc0]
      exact hf

/-! ## trim: the language -/

theorem NBW.mem_keep (A : NBW) (s : ℕ) :
    s ∈ A.accessible_states ∩ A.coaccessible_states ↔ A.Accessible s ∧ A.Coaccessible s := by
  rw [Finset.mem_inter, NBW.mem_accessible_states, NBW.mem_coaccessible_states]
  constructor
  · rintro ⟨h | h, hc⟩
    · exact ⟨⟨s, h, hc.1, Relation.ReflTransGen.refl⟩, hc⟩
    · exact ⟨h, hc⟩
  · rintro ⟨h, hc⟩
    exact ⟨Or.inr h, hc⟩

theorem NBW.trim_empty_eq (A : NBW) (h1 : A.trimmed = false) (h2 : 1 < A.size)
    (hk : (A.accessible_states ∩ A.coaccessible_states).card = 0) :
    A.trim =
      (A.size - 1,
        { A with
          size := 1
          transition_matrix := fun _ => ∅
          initial := insert 0 (resize A.initial 1)
          final := (resize A.final 1).erase 0
          num_transitions := 0
          use_cache := false
          transition_cache := A.transition_cache }) := by
  unfold NBW.trim
  simp only [h1, Bool.false_eq_true, if_false, not_le.2 h2, hk, NBW_USE_CACHE, Bool.false_and,
    if_true]

theorem NBW.trim_empty_spec (A : NBW) (h1 : A.trimmed = false) (h2 : 1 < A.size)
    (hk : ∀ s, ¬ (A.Accessible s ∧ A.Coaccessible s)) :
    A.trim.1 = A.size - 1 ∧ A.trim.2.size = 1 ∧ (∀ c, A.trim.2.delta 0 c = ∅) ∧
      A.trim.2.num_transitions = 0 ∧ A.trim.2.initial = {0} ∧ A.trim.2.final = ∅ ∧
      A.trim.2.alphabet_size = A.alphabet_size := by
  have hk' : (A.accessible_states ∩ A.coaccessible_states).card = 0 := by
    rw [Finset.card_eq_zero, Finset.eq_empty_iff_forall_not_mem]
    intro s hs
    exact hk s ((A.mem_keep s).1 hs)
  rw [A.trim_empty_eq h1 h2 hk']
  refine ⟨rfl, rfl, fun c => rfl, rfl, ?_, ?_, rfl⟩
  · ext x
    simp only [resize, Finset.mem_insert, Finset.mem_filter, Finset.mem_singleton]
    constructor
    · rintro (h | h)
      · exact h
      · omega
    · intro h
      exact Or.inl h
  · ext x
    simp only [resize, Finset.mem_erase, Finset.mem_filter, Finset.not_mem_empty, iff_false]
    rintro ⟨h1, _, h3⟩
    omega

theorem NBW.trim_language (A : NBW) (w : ℕ → ℕ) (hw : A.IsWord w) :
    A.trim.2.Accepts w ↔ A.Accepts w := by
  by_cases h1 : A.trimmed = true
  · have : A.trim = (0, A) := by unfold NBW.trim; simp [h1]
    rw [this]
  have h1' : A.trimmed = false := by simpa using h1
  by_cases h2 : A.size ≤ 1
  · have : A.trim = (0, A) := by unfold NBW.trim; simp [h1', h2]
    rw [this]
  have h2' : 1 < A.size := not_le.1 h2
  by_cases hk : (A.accessible_states ∩ A.coaccessible_states).card = 0
  · rw [A.trim_empty_eq h1' h2' hk]
    constructor
    · rintro ⟨rho, hr, _⟩
      exact absurd (hr.2.2 0) (Finset.not_mem_empty _)
    · rintro ⟨rho, hr, hacc⟩
      have := (A.mem_keep (rho 0)).2 (A.run_useful hw hr hacc 0)
      rw [Finset.card_eq_zero] at hk
      rw [hk] at this
      exact absurd this (Finset.not_mem_empty _)
  · have hne : (A.accessible_states ∩ A.coaccessible_states).Nonempty :=
      Finset.card_ne_zero.1 hk
    obtain ⟨hsize, hsig, hdelta, hif, _⟩ := A.trim_renumber_spec h1' h2' hne
    have hlen : ((A.accessible_states ∩ A.coaccessible_states).sort (· ≤ ·)).length =
        A.trim.2.size := by rw [Finset.length_sort, hsize]
    generalize A.trim.2 = B at hsize hsig hdelta hif hlen
    generalize hL : (A.accessible_states ∩ A.coaccessible_states).sort (· ≤ ·) = labels
      at hdelta hif hlen
    have hold : ∀ i, i < B.size → labels.getD i 0 ∈ A.accessible_states ∩ A.coaccessible_states := by
      intro i hi
      rw [List.getD_eq_getElem _ _ (by omega), ← Finset.mem_sort (· ≤ ·), hL]
      exact List.getElem_mem _
    have hnew : ∀ x, x ∈ A.accessible_states ∩ A.coaccessible_states →
        labels.indexOf x < B.size ∧ labels.getD (labels.indexOf x) 0 = x := by
      intro x hx
      have hx' : x ∈ labels := by rw [← hL, Finset.mem_sort]; exact hx
      have hlt := List.indexOf_lt_length.2 hx'
      refine ⟨by omega, ?_⟩
      rw [List.getD_eq_getElem _ _ hlt]
      exact List.getElem_indexOf hlt
    constructor
    · rintro ⟨rho, hr, hacc⟩
      refine ⟨fun n => labels.getD (rho n) 0, ⟨?_, ?_, ?_⟩, ?_⟩
      · intro n
        exact A.keep_lt _ (hold _ (hr.1 n))
      · exact ((hif _ (hr.1 0)).1).1 hr.2.1
      · intro n
        exact ((hdelta _ (hr.1 n) (w n) (hw n) _).1 (hr.2.2 n)).2
      · intro n
        obtain ⟨m, hm, hf⟩ := hacc n
        exact ⟨m, hm, ((hif _ (hr.1 m)).2).1 hf⟩
    · rintro ⟨rho, hr, hacc⟩
      have hkeep : ∀ n, rho n ∈ A.accessible_states ∩ A.coaccessible_states :=
        fun n => (A.mem_keep _).2 (A.run_useful hw hr hacc n)
      refine ⟨fun n => labels.indexOf (rho n), ⟨?_, ?_, ?_⟩, ?_⟩
      · intro n
        exact (hnew _ (hkeep n)).1
      · rw [(hif _ (hnew _ (hkeep 0)).1).1, (hnew _ (hkeep 0)).2]
        exact hr.2.1
      · intro n
        rw [hdelta _ (hnew _ (hkeep n)).1 (w n) (hw n), (hnew _ (hkeep n)).2,
          (hnew _ (hkeep (n + 1))).2]
        exact ⟨(hnew _ (hkeep (n + 1))).1, hr.2.2 n⟩
      · intro n
        obtain ⟨m, hm, hf⟩ := hacc n
        refine ⟨m, hm, ?_⟩
        rw [(hif _ (hnew _ (hkeep m)).1).2, (hnew _ (hkeep m)).2]
        exact hf

/-! ## is_empty -/

theorem NBW.size_one_language (B : NBW) (hs : B.size = 1) :
    (∃ w, B.IsWord w ∧ B.Accepts w) ↔
      0 ∈ B.initial ∧ 0 ∈ B.final ∧ ∃ c, c < B.alphabet_size ∧ 0 ∈ B.delta 0 c := by
  constructor
  · rintro ⟨w, hw, rho, hr, hacc⟩
    have h0 : ∀ n, rho n = 0 := fun n => by
      have := hr.1 n
      omega
    obtain ⟨m, _, hm⟩ := hacc 0
    refine ⟨?_, ?_, w 0, hw 0, ?_⟩
    · rw [← h0 0]; exact hr.2.1
    · rw [← h0 m]; exact hm
    · have := hr.2.2 0
      rwa [h0 1, h0 0] at this
  · rintro ⟨hi, hf, c, hc, hd⟩
    refine ⟨fun _ => c, fun _ => hc, fun _ => 0, ⟨fun _ => ?_, hi, fun _ => hd⟩,
      fun n => ⟨n, le_refl n, hf⟩⟩
    show 0 < B.size
    omega

theorem NBW.is_empty_size_one (B : NBW) (hs : B.size = 1)
    (hnt : 0 < B.num_transitions ↔ ∃ c, c < B.alphabet_size ∧ 0 ∈ B.delta 0 c) :
    (!(decide (0 ∈ B.initial) && decide (0 ∈ B.final) && decide (0 < B.num_transitions))) = true ↔
      ¬ ∃ w, B.IsWord w ∧ B.Accepts w := by
  rw [B.size_one_language hs, ← hnt]
  simp only [Bool.not_eq_true', Bool.and_eq_false_imp, Bool.and_eq_true, decide_eq_true_eq,
    decide_eq_false_iff_not, not_and, and_imp]

theorem NBW.trim_size_one_transitions (A : NBW) (h1 : A.trimmed = false) (h2 : 1 < A.size)
    (hs : A.trim.2.size = 1) :
    (0 < A.trim.2.num_transitions ↔
      ∃ c, c < A.trim.2.alphabet_size ∧ 0 ∈ A.trim.2.delta 0 c) := by
  by_cases hk : (A.accessible_states ∩ A.coaccessible_states).card = 0
  · rw [A.trim_empty_eq h1 h2 hk]
    simp [NBW.delta]
  · have hne := Finset.card_ne_zero.1 hk
    obtain ⟨_, hsig, hdelta, _, hnt⟩ := A.trim_renumber_spec h1 h2 hne
    rw [hnt, hs, hsig, Finset.range_one, Finset.sum_singleton, Nat.pos_iff_ne_zero, Ne,
      Finset.sum_eq_zero_iff]
    constructor
    · intro h
      by_contra hc
      apply h
      intro c hc'
      rw [Finset.card_eq_zero, Finset.eq_empty_iff_forall_not_mem]
      intro j hj
      have := ((hdelta 0 (by omega) c (Finset.mem_range.1 hc') j).1 hj).1
      have hj0 : j = 0 := by omega
      subst hj0
      exact hc ⟨c, Finset.mem_range.1 hc', hj⟩
    · rintro ⟨c, hc, hj⟩ h
      have := h c (Finset.mem_range.2 hc)
      rw [Finset.card_eq_zero] at this
      rw [this] at hj
      exact absurd hj (Finset.not_mem_empty _)

theorem NBW.trim_alphabet_size (A : NBW) : A.trim.2.alphabet_size = A.alphabet_size := by
  by_cases h1 : A.trimmed = true
  · have : A.trim = (0, A) := by unfold NBW.trim; simp [h1]
    rw [this]
  have h1' : A.trimmed = false := by simpa using h1
  by_cases h2 : A.size ≤ 1
  · have : A.trim = (0, A) := by unfold NBW.trim; simp [h1', h2]
    rw [this]
  by_cases hk : (A.accessible_states ∩ A.coaccessible_states).card = 0
  · rw [A.trim_empty_eq h1' (not_le.1 h2) hk]
  · rw [A.trim_renumber_eq h1' (not_le.1 h2) hk]

theorem NBW.is_empty_untrimmed (A : NBW) (h1 : A.trimmed = false) (h2 : 1 < A.size) :
    A.is_empty.1 = true ↔ ¬ ∃ w, A.IsWord w ∧ A.Accepts w := by
  have hlang : (∃ w, A.trim.2.IsWord w ∧ A.trim.2.Accepts w) ↔ ∃ w, A.IsWord w ∧ A.Accepts w := by
    have hw : ∀ w, A.trim.2.IsWord w ↔ A.IsWord w := fun w => by
      unfold NBW.IsWord
      rw [A.trim_alphabet_size]
    constructor
    · rintro ⟨w, h, ha⟩
      exact ⟨w, (hw w).1 h, (A.trim_language w ((hw w).1 h)).1 ha⟩
    · rintro ⟨w, h, ha⟩
      exact ⟨w, (hw w).2 h, (A.trim_language w h).2 ha⟩
  unfold NBW.is_empty
  simp only
  by_cases hs : 1 < A.trim.2.size
  · rw [if_pos hs]
    simp only [Bool.false_eq_true, false_iff, not_not]
    by_cases hk : (A.accessible_states ∩ A.coaccessible_states).card = 0
    · rw [A.trim_empty_eq h1 h2 hk] at hs
      exact absurd hs (lt_irrefl 1)
    · obtain ⟨s, hs'⟩ := Finset.card_ne_zero.1 hk
      exact A.accepts_of_useful ((A.mem_keep s).1 hs').1 ((A.mem_keep s).1 hs').2
  · rw [if_neg hs]
    have hs1 : A.trim.2.size = 1 := by
      by_cases hk : (A.accessible_states ∩ A.coaccessible_states).card = 0
      · rw [A.trim_empty_eq h1 h2 hk]
      · have := (A.trim_renumber_spec h1 h2 (Finset.card_ne_zero.1 hk)).1
        omega
    rw [A.trim.2.is_empty_size_one hs1 (A.trim_size_one_transitions h1 h2 hs1), hlang]

theorem NBW.mem_ctor_matrix (size sigma : ℕ) (triples : List (ℕ × ℕ × ℕ)) (I F : Finset ℕ)
    (idx j : ℕ) :
    j ∈ (NBW.ctor size sigma triples I F).transition_matrix idx ↔
      ∃ t ∈ triples, idx = t.1 * sigma + t.2.1 ∧ j = t.2.2 := by
  unfold NBW.ctor
  simp only
  rw [foldl_bits (fun tm (t : ℕ × ℕ × ℕ) => set_bit tm (t.1 * sigma + t.2.1) t.2.2)
    (fun t idx j => idx = t.1 * sigma + t.2.1 ∧ j = t.2.2)
    (fun tm t idx j => mem_set_bit tm _ _ idx j)]
  simp only [Finset.not_mem_empty, false_or]

theorem NBW.is_empty_ctor (size sigma : ℕ) (triples : List (ℕ × ℕ × ℕ)) (I F : Finset ℕ)
    (hN : 1 ≤ size)
    (ht : ∀ t ∈ triples, t.1 < size ∧ t.2.1 < sigma ∧ t.2.2 < size) :
    (NBW.ctor size sigma triples I F).is_empty.1 = true ↔
      ¬ ∃ w, (NBW.ctor size sigma triples I F).IsWord w ∧
        (NBW.ctor size sigma triples I F).Accepts w := by
  rcases Nat.lt_or_ge 1 size with h | h
  · exact NBW.is_empty_untrimmed _ rfl h
  · have hs : size = 1 := by omega
    subst hs
    have htrim : (NBW.ctor 1 sigma triples I F).trim = (0, NBW.ctor 1 sigma triples I F) := by
      unfold NBW.trim
      simp [NBW.ctor]
    unfold NBW.is_empty
    simp only [htrim]
    rw [if_neg (by simp [NBW.ctor])]
    apply NBW.is_empty_size_one _ rfl
    show 0 < triples.length ↔ _
    constructor
    · intro hl
      obtain ⟨t, htm⟩ := List.exists_mem_of_length_pos hl
      obtain ⟨h1, h2, h3⟩ := ht t htm
      refine ⟨t.2.1, h2, ?_⟩
      unfold NBW.delta
      rw [NBW.mem_ctor_matrix]
      refine ⟨t, htm, ?_, by omega⟩
      have : t.1 = 0 := by omega
      rw [this]
      rfl
    · rintro ⟨c, _, hd⟩
      unfold NBW.delta at hd
      rw [NBW.mem_ctor_matrix] at hd
      obtain ⟨t, htm, _⟩ := hd
      exact List.length_pos_of_mem htm

/-! ## Claims about `transition`, `trim` and `is_empty` -/

/-- C8. `NBW::transition` called with the 1-based character `a + 1` on a state
set `S` of width `size` returns exactly the union of `delta(s, a)` over the
members `s` of `S`: a state `t` is in the result iff some `s` in `S` has `t` in
`delta(s, a)`. The automaton is an argument that the function only reads. The
cache flag is the one every construction path of the program sets. -/
theorem NBW.transition_spec (A : NBW) (S : Finset ℕ) (a t : ℕ)
    (hcache : A.use_cache = (NBW_USE_CACHE && decide (A.size ≤ NBW_MAX_CACHED_SIZE)))
    (hS : ∀ s ∈ S, s < A.size) :
    t ∈ A.transition S (a + 1) ↔ ∃ s ∈ S, t ∈ A.delta s a :=
  A.mem_transition S a t hcache hS

/-- Witness for C8: the two-state automaton with `0 -0-> 1`, the set `{0}` and
the character `1`. -/
theorem NBW.transition_spec_witness :
    ((NBW.ctor 2 1 [(0, 0, 1)] {0} {1}).use_cache =
        (NBW_USE_CACHE && decide ((NBW.ctor 2 1 [(0, 0, 1)] {0} {1}).size ≤ NBW_MAX_CACHED_SIZE)) ∧
      ∀ s ∈ ({0} : Finset ℕ), s < (NBW.ctor 2 1 [(0, 0, 1)] {0} {1}).size) ∧
    (1 ∈ (NBW.ctor 2 1 [(0, 0, 1)] {0} {1}).transition {0} (0 + 1) ↔
      ∃ s ∈ ({0} : Finset ℕ), 1 ∈ (NBW.ctor 2 1 [(0, 0, 1)] {0} {1}).delta s 0) :=
  ⟨⟨rfl, by decide⟩,
    NBW.transition_spec (NBW.ctor 2 1 [(0, 0, 1)] {0} {1}) {0} 0 1 rfl (by decide)⟩

/-- C4. For an automaton built by the constructor with at least one state and
all triples in range, `is_empty` answers true iff the automaton accepts no
infinite word over its alphabet, that is, iff no run from an initial state
visits accepting states infinitely often. -/
theorem NBW.is_empty_correct (size sigma : ℕ) (triples : List (ℕ × ℕ × ℕ)) (I F : Finset ℕ)
    (hN : 1 ≤ size)
    (ht : ∀ t ∈ triples, t.1 < size ∧ t.2.1 < sigma ∧ t.2.2 < size) :
    (NBW.ctor size sigma triples I F).is_empty.1 = true ↔
      ¬ ∃ w, (NBW.ctor size sigma triples I F).IsWord w ∧
        (NBW.ctor size sigma triples I F).Accepts w :=
  NBW.is_empty_ctor size sigma triples I F hN ht

/-- Witness for C4: two states, `0 -0-> 1 -0-> 1`, state 1 accepting. -/
theorem NBW.is_empty_correct_witness :
    (1 ≤ 2 ∧ ∀ t ∈ [((0 : ℕ), (0 : ℕ), (1 : ℕ)), (1, 0, 1)], t.1 < 2 ∧ t.2.1 < 1 ∧ t.2.2 < 2) ∧
    ((NBW.ctor 2 1 [(0, 0, 1), (1, 0, 1)] {0} {1}).is_empty.1 = true ↔
      ¬ ∃ w, (NBW.ctor 2 1 [(0, 0, 1), (1, 0, 1)] {0} {1}).IsWord w ∧
        (NBW.ctor 2 1 [(0, 0, 1), (1, 0, 1)] {0} {1}).Accepts w) :=
  ⟨⟨by decide, by decide⟩,
    NBW.is_empty_correct 2 1 [(0, 0, 1), (1, 0, 1)] {0} {1} (by decide) (by decide)⟩

/-- C5. `trim` preserves the Buchi language: for every infinite word `w` over
the alphabet, the automaton left by `trim` accepts `w` iff the automaton
accepted `w` before the call. This covers every branch of `trim` (already
trimmed, at most one state, empty keep set, renumbering). -/
theorem NBW.trim_preserves_language (A : NBW) (w : ℕ → ℕ) (hw : A.IsWord w) :
    A.trim.2.Accepts w ↔ A.Accepts w :=
  A.trim_language w hw

/-- Witness for C5: `0 -0-> 1 -0-> 1` with an unreachable third state, on the
word `0 0 0 ..`. -/
theorem NBW.trim_preserves_language_witness :
    (NBW.ctor 3 1 [(0, 0, 1), (1, 0, 1)] {0} {1}).IsWord (fun _ => 0) ∧
    ((NBW.ctor 3 1 [(0, 0, 1), (1, 0, 1)] {0} {1}).trim.2.Accepts (fun _ => 0) ↔
      (NBW.ctor 3 1 [(0, 0, 1), (1, 0, 1)] {0} {1}).Accepts (fun _ => 0)) :=
  ⟨fun _ => Nat.one_pos,
    NBW.trim_preserves_language (NBW.ctor 3 1 [(0, 0, 1), (1, 0, 1)] {0} {1}) (fun _ => 0)
      (fun _ => Nat.one_pos)⟩

/-- C9. For an untrimmed automaton with more than one state whose set
`keep = accessible_states() ∩ coaccessible_states()` is not empty, `trim`
leaves `|keep|` states; new state `i` stands for the `i`-th smallest member
`old i` of `keep`; `j` is in the new `delta(i, c)` iff `old j` is in the old
`delta(old i, c)`; new state `i` is initial (accepting) iff `old i` was; and
`num_transitions` is the number of triples `(i, c, j)` of the new `delta`. -/
theorem NBW.trim_renumber (A : NBW) (h1 : A.trimmed = false) (h2 : 1 < A.size)
    (hk : (A.accessible_states ∩ A.coaccessible_states).Nonempty) :
    A.trim.2.size = (A.accessible_states ∩ A.coaccessible_states).card ∧
      A.trim.2.alphabet_size = A.alphabet_size ∧
      (∀ i, i < A.trim.2.size → ∀ c, c < A.alphabet_size → ∀ j,
        (j ∈ A.trim.2.delta i c ↔
          j < A.trim.2.size ∧
            ((A.accessible_states ∩ A.coaccessible_states).sort (· ≤ ·)).getD j 0 ∈
              A.delta
                (((A.accessible_states ∩ A.coaccessible_states).sort (· ≤ ·)).getD i 0) c)) ∧
      (∀ i, i < A.trim.2.size →
        ((i ∈ A.trim.2.initial ↔
            ((A.accessible_states ∩ A.coaccessible_states).sort (· ≤ ·)).getD i 0 ∈ A.initial) ∧
          (i ∈ A.trim.2.final ↔
            ((A.accessible_states ∩ A.coaccessible_states).sort (· ≤ ·)).getD i 0 ∈ A.final))) ∧
      A.trim.2.num_transitions =
        ∑ i in Finset.range A.trim.2.size, ∑ c in Finset.range A.trim.2.alphabet_size,
          (A.trim.2.delta i c).card :=
  A.trim_renumber_spec h1 h2 hk

/-- C10. For an untrimmed automaton with more than one state in which no state
is both accessible and coaccessible, `trim` leaves the canonical empty
automaton: one state, every `delta(0, c)` empty, `num_transitions = 0`, state 0
initial and not accepting, the alphabet size unchanged; and it returns
`size - 1`. -/
theorem NBW.trim_collapse (A : NBW) (h1 : A.trimmed = false) (h2 : 1 < A.size)
    (hk : ∀ s, ¬ (A.Accessible s ∧ A.Coaccessible s)) :
    A.trim.1 = A.size - 1 ∧ A.trim.2.size = 1 ∧ (∀ c, A.trim.2.delta 0 c = ∅) ∧
      A.trim.2.num_transitions = 0 ∧ A.trim.2.initial = {0} ∧ A.trim.2.final = ∅ ∧
      A.trim.2.alphabet_size = A.alphabet_size :=
  A.trim_empty_spec h1 h2 hk

/-- Witness for C9: `0 -0-> 1 -0-> 1` with an unreachable third state. -/
theorem NBW.trim_renumber_witness :
    ((NBW.ctor 3 1 [(0, 0, 1), (1, 0, 1)] {0} {1}).trimmed = false ∧
      1 < (NBW.ctor 3 1 [(0, 0, 1), (1, 0, 1)] {0} {1}).size ∧
      ((NBW.ctor 3 1 [(0, 0, 1), (1, 0, 1)] {0} {1}).accessible_states ∩
        (NBW.ctor 3 1 [(0, 0, 1), (1, 0, 1)] {0} {1}).coaccessible_states).Nonempty) ∧
    (NBW.ctor 3 1 [(0, 0, 1), (1, 0, 1)] {0} {1}).trim.2.size =
      ((NBW.ctor 3 1 [(0, 0, 1), (1, 0, 1)] {0} {1}).accessible_states ∩
        (NBW.ctor 3 1 [(0, 0, 1), (1, 0, 1)] {0} {1}).coaccessible_states).card :=
  ⟨⟨rfl, by decide, ⟨1, by decide⟩⟩,
    (NBW.trim_renumber (NBW.ctor 3 1 [(0, 0, 1), (1, 0, 1)] {0} {1}) rfl (by decide)
      ⟨1, by decide⟩).1⟩

/-- Witness for C10: two states without transitions. -/
theorem NBW.trim_collapse_witness :
    ((NBW.ctor 2 1 [] {0} {1}).trimmed = false ∧ 1 < (NBW.ctor 2 1 [] {0} {1}).size ∧
      ∀ s, ¬ ((NBW.ctor 2 1 [] {0} {1}).Accessible s ∧ (NBW.ctor 2 1 [] {0} {1}).Coaccessible s)) ∧
    (NBW.ctor 2 1 [] {0} {1}).trim.1 = (NBW.ctor 2 1 [] {0} {1}).size - 1 ∧
    (NBW.ctor 2 1 [] {0} {1}).trim.2.size = 1 :=
  have hk : ∀ s, ¬ ((NBW.ctor 2 1 [] {0} {1}).Accessible s ∧
      (NBW.ctor 2 1 [] {0} {1}).Coaccessible s) := fun s h => by
    have h' := ((NBW.ctor 2 1 [] {0} {1}).mem_keep s).2 h
    have he : (NBW.ctor 2 1 [] {0} {1}).accessible_states ∩
        (NBW.ctor 2 1 [] {0} {1}).coaccessible_states = ∅ := by decide
    rw [he] at h'
    exact absurd h' (Finset.not_mem_empty s)
  ⟨⟨rfl, by decide, hk⟩,
    (NBW.trim_collapse (NBW.ctor 2 1 [] {0} {1}) rfl (by decide) hk).1,
    (NBW.trim_collapse (NBW.ctor 2 1 [] {0} {1}) rfl (by decide) hk).2.1⟩

/-! ## project -/

theorem foldl_val_none {α β γ : Type} (G : β → α → β) (val : β → γ) (l : List α)
    (hpres : ∀ b a, a ∈ l → val (G b a) = val b) (b : β) :
    val (l.foldl G b) = val b := by
  induction l generalizing b with
  | nil => rfl
  | cons y ys ih =>
    rw [List.foldl_cons, ih (fun b a ha => hpres b a (List.mem_cons_of_mem _ ha)),
      hpres b y (List.mem_cons_self _ _)]

theorem foldl_val_once {α β γ : Type} (G : β → α → β) (val : β → γ) (F : γ → γ) (x : α)
    (l : List α) (hn : l.Nodup) (hx : x ∈ l)
    (hpres : ∀ b a, a ∈ l → a ≠ x → val (G b a) = val b)
    (heff : ∀ b, val (G b x) = F (val b)) (b : β) :
    val (l.foldl G b) = F (val b) := by
  induction l generalizing b with
  | nil => exact absurd hx (List.not_mem_nil _)
  | cons y ys ih =>
    rw [List.foldl_cons]
    rw [List.nodup_cons] at hn
    by_cases hy : y = x
    · subst hy
      rw [foldl_val_none G val ys (fun b a ha => hpres b a (List.mem_cons_of_mem _ ha)
        (fun hc => hn.1 (hc ▸ ha))), heff]
    · have hx' : x ∈ ys := by
        rcases List.mem_cons.1 hx with h | h
        · exact absurd h.symm hy
        · exact h
      rw [ih hn.2 hx' (fun b a ha => hpres b a (List.mem_cons_of_mem _ ha)),
        hpres b y (List.mem_cons_self _ _) hy]

theorem xor_two_pow_lt {c k m : ℕ} (hc : c < 2 ^ m) (hk : k < m) : c ^^^ 2 ^ k < 2 ^ m :=
  Nat.xor_lt_two_pow hc (Nat.pow_lt_pow_right (by decide) hk)

theorem xor_two_pow_ne (c k : ℕ) : c ^^^ 2 ^ k ≠ c := by
  intro h
  have h2 : c ^^^ (c ^^^ 2 ^ k) = c ^^^ c := by rw [h]
  rw [Nat.xor_self, ← Nat.xor_assoc, Nat.xor_self, Nat.zero_xor] at h2
  exact absurd h2 (Nat.pos_iff_ne_zero.1 (Nat.two_pow_pos k))

theorem xor_two_pow_twice (c k : ℕ) : (c ^^^ 2 ^ k) ^^^ 2 ^ k = c := by
  rw [Nat.xor_assoc, Nat.xor_self, Nat.xor_zero]

theorem or_into_same (cells : ℕ → Finset ℕ) (index : ℕ) (s : Finset ℕ) :
    or_into cells index s index = cells index ∪ s := by
  unfold or_into
  rw [Function.update_same]

theorem or_into_other (cells : ℕ → Finset ℕ) {index idx : ℕ} (s : Finset ℕ) (h : idx ≠ index) :
    or_into cells index s idx = cells idx := by
  unfold or_into
  rw [Function.update_noteq h]

/-- The matrix left by `project` on an alphabet of size `2 ^ m`: the row of
`(s, c)` is joined with the row of `(s, c xor 2 ^ k)`. -/
theorem NBW.project_matrix (A : NBW) (m k : ℕ) (hsig : A.alphabet_size = 2 ^ m) (hk : k < m)
    (s0 c0 : ℕ) (hs0 : s0 < A.size) (hc0 : c0 < A.alphabet_size) :
    (A.project k).delta s0 c0 = A.delta s0 c0 ∪ A.delta s0 (c0 ^^^ 2 ^ k) := by
  have key : ∀ lo, lo < A.alphabet_size → lo < lo ^^^ 2 ^ k →
      ((A.project k).transition_matrix (s0 * A.alphabet_size + lo),
        (A.project k).transition_matrix (s0 * A.alphabet_size + (lo ^^^ 2 ^ k))) =
      (A.transition_matrix (s0 * A.alphabet_size + lo) ∪
          A.transition_matrix (s0 * A.alphabet_size + (lo ^^^ 2 ^ k)),
        A.transition_matrix (s0 * A.alphabet_size + (lo ^^^ 2 ^ k)) ∪
          (A.transition_matrix (s0 * A.alphabet_size + lo) ∪
            A.transition_matrix (s0 * A.alphabet_size + (lo ^^^ 2 ^ k)))) := by
    intro lo hlo hlt
    have hhi : lo ^^^ 2 ^ k < A.alphabet_size := by
      rw [hsig] at hlo ⊢
      exact xor_two_pow_lt hlo hk
    unfold NBW.project
    simp only [Nat.one_shiftLeft]
    refine foldl_val_once _
      (fun tm : ℕ → Finset ℕ =>
        (tm (s0 * A.alphabet_size + lo), tm (s0 * A.alphabet_size + (lo ^^^ 2 ^ k))))
      (fun p => (p.1 ∪ p.2, p.2 ∪ (p.1 ∪ p.2))) lo (List.range A.alphabet_size)
      (List.nodup_range _) (List.mem_range.2 hlo) ?_ ?_ A.transition_matrix
    · intro tm c hc hne
      have hc' : c < A.alphabet_size := List.mem_range.1 hc
      by_cases hcc : c < c ^^^ 2 ^ k
      · simp only [hcc, if_true]
        have hc2 : c ^^^ 2 ^ k < A.alphabet_size := by
          rw [hsig] at hc' ⊢
          exact xor_two_pow_lt hc' hk
        refine foldl_val_none _
          (fun tm : ℕ → Finset ℕ =>
            (tm (s0 * A.alphabet_size + lo), tm (s0 * A.alphabet_size + (lo ^^^ 2 ^ k))))
          _ ?_ tm
        intro tm s _
        have n1 : s0 * A.alphabet_size + lo ≠ s * A.alphabet_size + c :=
          fun h => hne (flat_index_inj hlo hc' h).2.symm
        have n2 : s0 * A.alphabet_size + lo ≠ s * A.alphabet_size + (c ^^^ 2 ^ k) := by
          intro h
          have e := (flat_index_inj hlo hc2 h).2
          have : lo ^^^ 2 ^ k = c := by rw [e, xor_two_pow_twice]
          omega
        have n3 : s0 * A.alphabet_size + (lo ^^^ 2 ^ k) ≠ s * A.alphabet_size + c := by
          intro h
          have e := (flat_index_inj hhi hc' h).2
          have : c ^^^ 2 ^ k = lo := by rw [← e, xor_two_pow_twice]
          omega
        have n4 : s0 * A.alphabet_size + (lo ^^^ 2 ^ k) ≠
            s * A.alphabet_size + (c ^^^ 2 ^ k) := by
          intro h
          have e := (flat_index_inj hhi hc2 h).2
          have : lo = c := by
            have := congrArg (fun x => x ^^^ 2 ^ k) e
            simpa [xor_two_pow_twice] using this
          exact hne this.symm
        simp only [or_into_other _ _ n1, or_into_other _ _ n2, or_into_other _ _ n3,
          or_into_other _ _ n4]
      · simp only [hcc, if_false]
    · intro tm
      simp only [hlt, if_true]
      refine foldl_val_once _
        (fun tm : ℕ → Finset ℕ =>
          (tm (s0 * A.alphabet_size + lo), tm (s0 * A.alphabet_size + (lo ^^^ 2 ^ k))))
        (fun p => (p.1 ∪ p.2, p.2 ∪ (p.1 ∪ p.2))) s0 (List.range A.size)
        (List.nodup_range _) (List.mem_range.2 hs0) ?_ ?_ tm
      · intro tm s _ hne
        have n1 : s0 * A.alphabet_size + lo ≠ s * A.alphabet_size + lo :=
          fun h => hne (flat_index_inj hlo hlo h).1.symm
        have n2 : s0 * A.alphabet_size + lo ≠ s * A.alphabet_size + (lo ^^^ 2 ^ k) :=
          fun h => hne (flat_index_inj hlo hhi h).1.symm
        have n3 : s0 * A.alphabet_size + (lo ^^^ 2 ^ k) ≠ s * A.alphabet_size + lo :=
          fun h => hne (flat_index_inj hhi hlo h).1.symm
        have n4 : s0 * A.alphabet_size + (lo ^^^ 2 ^ k) ≠
            s * A.alphabet_size + (lo ^^^ 2 ^ k) :=
          fun h => hne (flat_index_inj hhi hhi h).1.symm
        simp only [or_into_other _ _ n1, or_into_other _ _ n2, or_into_other _ _ n3,
          or_into_other _ _ n4]
      · intro tm
        have n1 : s0 * A.alphabet_size + lo ≠ s0 * A.alphabet_size + (lo ^^^ 2 ^ k) := by
          omega
        simp only [or_into_same, or_into_other _ _ n1, or_into_other _ _ n1.symm]
  unfold NBW.delta
  rcases Nat.lt_or_ge c0 (c0 ^^^ 2 ^ k) with h | h
  · have := congrArg Prod.fst (key c0 hc0 h)
    exact this
  · have hne := xor_two_pow_ne c0 k
    have hlt : c0 ^^^ 2 ^ k < c0 := by omega
    have hlo : c0 ^^^ 2 ^ k < A.alphabet_size := lt_trans hlt hc0
    have := congrArg Prod.snd (key (c0 ^^^ 2 ^ k) hlo (by rw [xor_two_pow_twice]; exact hlt))
    simp only [xor_two_pow_twice] at this
    show (A.project k).transition_matrix (s0 * A.alphabet_size + c0) = _
    rw [this]
    ext x
    simp only [Finset.mem_union]
    tauto

theorem agree_off_bit_iff (x y k : ℕ) :
    (∀ b, b ≠ k → x.testBit b = y.testBit b) ↔ x = y ∨ x = y ^^^ 2 ^ k := by
  constructor
  · intro h
    by_cases hk : x.testBit k = y.testBit k
    · left
      apply Nat.eq_of_testBit_eq
      intro i
      by_cases hi : i = k
      · rw [hi]; exact hk
      · exact h i hi
    · right
      apply Nat.eq_of_testBit_eq
      intro i
      rw [Nat.testBit_xor, Nat.testBit_two_pow]
      by_cases hi : i = k
      · subst hi
        simp only [decide_True, Bool.xor_true]
        cases hx : x.testBit i <;> cases hy : y.testBit i <;> simp_all
      · rw [h i hi]
        have : ¬ k = i := fun hc => hi hc.symm
        simp [this]
  · rintro (h | h) b hb
    · rw [h]
    · rw [h, Nat.testBit_xor, Nat.testBit_two_pow]
      have : ¬ k = b := fun hc => hb hc.symm
      simp [this]

theorem NBW.project_language (A : NBW) (m k : ℕ) (hsig : A.alphabet_size = 2 ^ m) (hk : k < m)
    (w : ℕ → ℕ) (hw : A.IsWord w) :
    (A.project k).Accepts w ↔
      ∃ w', A.IsWord w' ∧ (∀ n b, b ≠ k → (w' n).testBit b = (w n).testBit b) ∧
        A.Accepts w' := by
  constructor
  · rintro ⟨rho, hr, hacc⟩
    have hstep : ∀ n, rho (n + 1) ∈ A.delta (rho n) (w n) ∪ A.delta (rho n) (w n ^^^ 2 ^ k) := by
      intro n
      rw [← A.project_matrix m k hsig hk (rho n) (w n) (hr.1 n) (hw n)]
      exact hr.2.2 n
    refine ⟨fun n => if rho (n + 1) ∈ A.delta (rho n) (w n) then w n else w n ^^^ 2 ^ k,
      ?_, ?_, rho, ⟨hr.1, hr.2.1, ?_⟩, hacc⟩
    · intro n
      show (if rho (n + 1) ∈ A.delta (rho n) (w n) then w n else w n ^^^ 2 ^ k) < A.alphabet_size
      split_ifs
      · exact hw n
      · have := hw n
        rw [hsig] at this ⊢
        exact xor_two_pow_lt this hk
    · intro n b hb
      refine (agree_off_bit_iff _ _ k).2 ?_ b hb
      show (if rho (n + 1) ∈ A.delta (rho n) (w n) then w n else w n ^^^ 2 ^ k) = w n ∨
        (if rho (n + 1) ∈ A.delta (rho n) (w n) then w n else w n ^^^ 2 ^ k) = w n ^^^ 2 ^ k
      split_ifs
      · exact Or.inl rfl
      · exact Or.inr rfl
    · intro n
      show rho (n + 1) ∈ A.delta (rho n)
        (if rho (n + 1) ∈ A.delta (rho n) (w n) then w n else w n ^^^ 2 ^ k)
      split_ifs with h
      · exact h
      · rcases Finset.mem_union.1 (hstep n) with h' | h'
        · exact absurd h' h
        · exact h'
  · rintro ⟨w', _, hag, rho, hr, hacc⟩
    refine ⟨rho, ⟨hr.1, hr.2.1, ?_⟩, hacc⟩
    intro n
    rw [A.project_matrix m k hsig hk (rho n) (w n) (hr.1 n) (hw n), Finset.mem_union]
    rcases (agree_off_bit_iff _ _ k).1 (hag n) with h | h
    · left
      rw [← h]
      exact hr.2.2 n
    · right
      rw [← h]
      exact hr.2.2 n

/-! ## Claim about `project` -/

/-- C6. On an alphabet of size `2 ^ m` (each symbol an `m`-bit tuple) and for a
track `k < m`, the automaton left by `project(k)` accepts exactly the words `w`
over the alphabet for which some word `w'` over the alphabet agrees with `w` at
every position on every bit other than bit `k` and was accepted before the
call. -/
theorem NBW.project_existential (A : NBW) (m k : ℕ) (hsig : A.alphabet_size = 2 ^ m)
    (hk : k < m) (w : ℕ → ℕ) (hw : A.IsWord w) :
    (A.project k).Accepts w ↔
      ∃ w', A.IsWord w' ∧ (∀ n b, b ≠ k → (w' n).testBit b = (w n).testBit b) ∧
        A.Accepts w' :=
  A.project_language m k hsig hk w hw

/-- Witness for C6: one track (`m = 1`, `k = 0`), the automaton that reads only
the symbol 1, and the word `0 0 0 ..`. -/
theorem NBW.project_existential_witness :
    ((NBW.ctor 1 2 [(0, 1, 0)] {0} {0}).alphabet_size = 2 ^ 1 ∧ 0 < 1 ∧
      (NBW.ctor 1 2 [(0, 1, 0)] {0} {0}).IsWord (fun _ => 0)) ∧
    (((NBW.ctor 1 2 [(0, 1, 0)] {0} {0}).project 0).Accepts (fun _ => 0) ↔
      ∃ w', (NBW.ctor 1 2 [(0, 1, 0)] {0} {0}).IsWord w' ∧
        (∀ n b, b ≠ 0 → (w' n).testBit b = ((fun _ => 0) n : ℕ).testBit b) ∧
        (NBW.ctor 1 2 [(0, 1, 0)] {0} {0}).Accepts w') :=
  ⟨⟨rfl, Nat.one_pos, fun _ => Nat.two_pos⟩,
    NBW.project_existential (NBW.ctor 1 2 [(0, 1, 0)] {0} {0}) 1 0 rfl Nat.one_pos
      (fun _ => 0) (fun _ => Nat.two_pos)⟩

/-! ## disjoint_sum -/

theorem NBW.sum_initial (one two : NBW) (x : ℕ) :
    x ∈ (NBW.sum_of_trimmed one two).initial ↔
      (x ∈ one.initial ∧ x < one.size + two.size) ∨
        ∃ i, i < two.size ∧ i ∈ two.initial ∧ x = i + one.size := by
  unfold NBW.sum_of_trimmed
  simp only
  rw [mem_foldl_cond_insert (fun i => i + one.size) (fun i => i ∈ two.initial)]
  simp only [resize, Finset.mem_filter, List.mem_range]

theorem NBW.sum_final (one two : NBW) (x : ℕ) :
    x ∈ (NBW.sum_of_trimmed one two).final ↔
      (x < one.size ∧ x ∈ one.final) ∨
        ∃ i, i < two.size ∧ i ∈ two.final ∧ x = one.size + i := by
  unfold NBW.sum_of_trimmed
  simp only
  rw [mem_foldl_cond_insert (fun i => one.size + i) (fun i => i ∈ two.final),
    mem_foldl_cond_insert (fun i => i) (fun i => i ∈ one.final)]
  simp only [Finset.not_mem_empty, false_or, List.mem_range]
  constructor
  · rintro (⟨i, hi, hf, rfl⟩ | h)
    · exact Or.inl ⟨hi, hf⟩
    · exact Or.inr h
  · rintro (⟨hi, hf⟩ | h)
    · exact Or.inl ⟨x, hi, hf, rfl⟩
    · exact Or.inr h

theorem NBW.sum_matrix (one two : NBW) (idx j : ℕ) :
    j ∈ (NBW.sum_of_trimmed one two).transition_matrix idx ↔
      j ∈ ((List.range one.size).foldl
          (fun tm s0 =>
            (List.range one.alphabet_size).foldl
              (fun tm c =>
                Function.update tm (s0 * one.alphabet_size + c)
                  (resize (one.transition_matrix (s0 * one.alphabet_size + c))
                    (one.size + two.size)))
              tm)
          (fun _ => (∅ : Finset ℕ))) idx ∨
        ∃ s0 ∈ List.range two.size, ∃ c ∈ List.range two.alphabet_size,
          ∃ s1 ∈ List.range two.size,
            s1 ∈ two.transition_matrix (s0 * two.alphabet_size + c) ∧
              idx = (s0 + one.size) * one.alphabet_size + c ∧ j = s1 + one.size := by
  unfold NBW.sum_of_trimmed
  simp only
  refine foldl_bits _
    (fun s0 idx j => ∃ c ∈ List.range two.alphabet_size, ∃ s1 ∈ List.range two.size,
      s1 ∈ two.transition_matrix (s0 * two.alphabet_size + c) ∧
        idx = (s0 + one.size) * one.alphabet_size + c ∧ j = s1 + one.size)
    ?_ _ _ idx j
  intro tm s0 idx j
  refine foldl_bits _
    (fun c idx j => ∃ s1 ∈ List.range two.size,
      s1 ∈ two.transition_matrix (s0 * two.alphabet_size + c) ∧
        idx = (s0 + one.size) * one.alphabet_size + c ∧ j = s1 + one.size)
    ?_ _ _ idx j
  intro tm c idx j
  refine foldl_bits _
    (fun s1 idx j =>
      s1 ∈ two.transition_matrix (s0 * two.alphabet_size + c) ∧
        idx = (s0 + one.size) * one.alphabet_size + c ∧ j = s1 + one.size)
    ?_ _ _ idx j
  intro tm s1 idx j
  by_cases h : s1 ∈ two.transition_matrix (s0 * two.alphabet_size + c)
  · simp only [h, if_true, mem_set_bit, true_and]
  · simp only [h, if_false, false_and, or_false]

theorem NBW.sum_matrix_one (one two : NBW) (idx : ℕ) :
    ((List.range one.size).foldl
        (fun tm s0 =>
          (List.range one.alphabet_size).foldl
            (fun tm c =>
              Function.update tm (s0 * one.alphabet_size + c)
                (resize (one.transition_matrix (s0 * one.alphabet_size + c))
                  (one.size + two.size)))
            tm)
        (fun _ => (∅ : Finset ℕ))) idx =
      if idx / one.alphabet_size < one.size ∧ 0 < one.alphabet_size then
        resize (one.transition_matrix idx) (one.size + two.size)
      else ∅ := by
  by_cases h : idx / one.alphabet_size < one.size ∧ 0 < one.alphabet_size
  · rw [if_pos h]
    have hidx : idx = idx / one.alphabet_size * one.alphabet_size + idx % one.alphabet_size := by
      rw [Nat.mul_comm]; exact (Nat.div_add_mod _ _).symm
    have hc : idx % one.alphabet_size < one.alphabet_size := Nat.mod_lt _ h.2
    refine foldl_val_once _ (fun tm : ℕ → Finset ℕ => tm idx)
      (fun _ => resize (one.transition_matrix idx) (one.size + two.size))
      (idx / one.alphabet_size) (List.range one.size) (List.nodup_range _)
      (List.mem_range.2 h.1) ?_ ?_ _
    · intro tm s0 _ hne
      refine foldl_val_none _ (fun tm : ℕ → Finset ℕ => tm idx) _ ?_ tm
      intro tm c hc'
      have : idx ≠ s0 * one.alphabet_size + c := by
        intro he
        rw [hidx] at he
        exact hne (flat_index_inj hc (List.mem_range.1 hc') he).1.symm
      simp only [Function.update_noteq this]
    · intro tm
      refine foldl_val_once _ (fun tm : ℕ → Finset ℕ => tm idx)
        (fun _ => resize (one.transition_matrix idx) (one.size + two.size))
        (idx % one.alphabet_size) (List.range one.alphabet_size) (List.nodup_range _)
        (List.mem_range.2 hc) ?_ ?_ tm
      · intro tm c hc' hne
        have : idx ≠ idx / one.alphabet_size * one.alphabet_size + c := by
          intro he
          have he' := hidx.symm.trans he
          exact hne (flat_index_inj hc (List.mem_range.1 hc') he').2.symm
        simp only [Function.update_noteq this]
      · intro tm
        show Function.update tm _ _ idx = _
        rw [Function.update_apply, if_pos hidx, ← hidx]
  · rw [if_neg h]
    refine foldl_val_none _ (fun tm : ℕ → Finset ℕ => tm idx) _ ?_ _
    intro tm s0 hs0
    refine foldl_val_none _ (fun tm : ℕ → Finset ℕ => tm idx) _ ?_ tm
    intro tm c hc
    have hc' := List.mem_range.1 hc
    have : idx ≠ s0 * one.alphabet_size + c := by
      intro he
      apply h
      refine ⟨?_, by omega⟩
      rw [he, Nat.mul_comm, Nat.mul_add_div (by omega), Nat.div_eq_of_lt hc']
      exact List.mem_range.1 hs0
    simp only [Function.update_noteq this]

theorem NBW.sum_delta_left (one two : NBW) (hsig : one.alphabet_size = two.alphabet_size)
    {s c : ℕ} (hs : s < one.size) (hc : c < one.alphabet_size) (j : ℕ) :
    j ∈ (NBW.sum_of_trimmed one two).delta s c ↔
      j ∈ one.delta s c ∧ j < one.size + two.size := by
  unfold NBW.delta
  show j ∈ (NBW.sum_of_trimmed one two).transition_matrix (s * one.alphabet_size + c) ↔ _
  rw [NBW.sum_matrix, NBW.sum_matrix_one]
  have hdiv : (s * one.alphabet_size + c) / one.alphabet_size = s := by
    rw [Nat.mul_comm, Nat.mul_add_div (by omega), Nat.div_eq_of_lt hc, Nat.add_zero]
  rw [if_pos ⟨by rw [hdiv]; exact hs, by omega⟩]
  simp only [resize, Finset.mem_filter, List.mem_range]
  constructor
  · rintro (h | ⟨s0, _, c', hc', s1, _, _, hidx, _⟩)
    · exact h
    · rw [← hsig] at hc'
      have := (flat_index_inj hc hc' hidx).1
      omega
  · intro h
    exact Or.inl h

theorem NBW.sum_delta_right (one two : NBW) (hsig : one.alphabet_size = two.alphabet_size)
    {s0 c : ℕ} (hs : s0 < two.size) (hc : c < one.alphabet_size) (j : ℕ) :
    j ∈ (NBW.sum_of_trimmed one two).delta (s0 + one.size) c ↔
      ∃ s1, s1 < two.size ∧ s1 ∈ two.delta s0 c ∧ j = s1 + one.size := by
  unfold NBW.delta
  show j ∈ (NBW.sum_of_trimmed one two).transition_matrix
    ((s0 + one.size) * one.alphabet_size + c) ↔ _
  rw [NBW.sum_matrix, NBW.sum_matrix_one]
  have hdiv : ((s0 + one.size) * one.alphabet_size + c) / one.alphabet_size = s0 + one.size := by
    rw [Nat.mul_comm, Nat.mul_add_div (by omega), Nat.div_eq_of_lt hc, Nat.add_zero]
  rw [if_neg (by rw [hdiv]; omega)]
  simp only [Finset.not_mem_empty, false_or, List.mem_range]
  constructor
  · rintro ⟨s0', _, c', hc', s1, hs1, hm, hidx, hj⟩
    rw [← hsig] at hc'
    obtain ⟨e1, e2⟩ := flat_index_inj hc hc' hidx
    have e1' : s0' = s0 := by omega
    subst e1' e2
    exact ⟨s1, hs1, hm, hj⟩
  · rintro ⟨s1, hs1, hm, hj⟩
    exact ⟨s0, hs, c, hsig ▸ hc, s1, hs1, hm, rfl, hj⟩

theorem NBW.trim_well_formed (A : NBW) (h : A.WellFormed) : A.trim.2.WellFormed := by
  by_cases h1 : A.trimmed = true
  · have : A.trim = (0, A) := by unfold NBW.trim; simp [h1]
    rw [this]; exact h
  have h1' : A.trimmed = false := by simpa using h1
  by_cases h2 : A.size ≤ 1
  · have : A.trim = (0, A) := by unfold NBW.trim; simp [h1', h2]
    rw [this]; exact h
  have h2' : 1 < A.size := not_le.1 h2
  by_cases hk : (A.accessible_states ∩ A.coaccessible_states).card = 0
  · rw [A.trim_empty_eq h1' h2' hk]
    refine ⟨?_, ?_⟩
    · intro s hs
      simp only [resize, Finset.mem_insert, Finset.mem_filter] at hs
      show s < 1
      omega
    · intro s _ c _ t ht
      exact absurd ht (Finset.not_mem_empty _)
  · obtain ⟨_, hsig, hdelta, _, _⟩ := A.trim_renumber_spec h1' h2' (Finset.card_ne_zero.1 hk)
    refine ⟨?_, ?_⟩
    · intro s hs
      rw [A.trim_renumber_eq h1' h2' hk] at hs ⊢
      simp only at hs ⊢
      rw [mem_foldl_cond_insert (fun i => i)] at hs
      simp only [Finset.not_mem_empty, false_or, List.mem_range] at hs
      obtain ⟨i, hi, _, rfl⟩ := hs
      exact hi
    · intro s hs c hc t ht
      rw [hsig] at hc
      exact ((hdelta s hs c hc t).1 ht).1

theorem NBW.sum_language (one two : NBW) (hsig : one.alphabet_size = two.alphabet_size)
    (hwf : one.WellFormed) (w : ℕ → ℕ) (hw : one.IsWord w) :
    (NBW.sum_of_trimmed one two).Accepts w ↔ one.Accepts w ∨ two.Accepts w := by
  have hsize : (NBW.sum_of_trimmed one two).size = one.size + two.size := rfl
  constructor
  · rintro ⟨rho, hr, hacc⟩
    rcases (NBW.sum_initial one two (rho 0)).1 hr.2.1 with ⟨h0, _⟩ | ⟨i0, hi0, hi0m, h0⟩
    · left
      have hlt : ∀ n, rho n < one.size := by
        intro n
        induction n with
        | zero => exact hwf.1 _ h0
        | succ n ih =>
          exact hwf.2 _ ih _ (hw n) _
            ((NBW.sum_delta_left one two hsig ih (hw n) _).1 (hr.2.2 n)).1
      refine ⟨rho, ⟨hlt, h0, ?_⟩, ?_⟩
      · intro n
        exact ((NBW.sum_delta_left one two hsig (hlt n) (hw n) _).1 (hr.2.2 n)).1
      · intro n
        obtain ⟨m, hm, hf⟩ := hacc n
        refine ⟨m, hm, ?_⟩
        rcases (NBW.sum_final one two _).1 hf with h | ⟨i, _, _, hi⟩
        · exact h.2
        · have := hlt m
          omega
    · right
      have hge : ∀ n, ∃ i, i < two.size ∧ rho n = i + one.size := by
        intro n
        induction n with
        | zero => exact ⟨i0, hi0, h0⟩
        | succ n ih =>
          obtain ⟨i, hi, he⟩ := ih
          have := hr.2.2 n
          rw [he] at this
          obtain ⟨s1, hs1, _, hj⟩ := (NBW.sum_delta_right one two hsig hi (hw n) _).1 this
          exact ⟨s1, hs1, hj⟩
      have hsub : ∀ n, rho n - one.size < two.size ∧ rho n = (rho n - one.size) + one.size := by
        intro n
        obtain ⟨i, hi, he⟩ := hge n
        omega
      refine ⟨fun n => rho n - one.size, ⟨fun n => (hsub n).1, ?_, ?_⟩, ?_⟩
      · show rho 0 - one.size ∈ two.initial
        rw [h0, Nat.add_sub_cancel]
        exact hi0m
      · intro n
        have := hr.2.2 n
        rw [(hsub n).2] at this
        obtain ⟨s1, _, hm, hj⟩ := (NBW.sum_delta_right one two hsig (hsub n).1 (hw n) _).1 this
        show rho (n + 1) - one.size ∈ two.delta (rho n - one.size) (w n)
        rw [hj, Nat.add_sub_cancel]
        simpa using hm
      · intro n
        obtain ⟨m, hm, hf⟩ := hacc n
        refine ⟨m, hm, ?_⟩
        show rho m - one.size ∈ two.final
        rcases (NBW.sum_final one two _).1 hf with h | ⟨i, _, hif, hi⟩
        · have := (hsub m).2
          omega
        · rw [hi, Nat.add_sub_cancel_left]
          exact hif
  · rintro (⟨rho, hr, hacc⟩ | ⟨rho, hr, hacc⟩)
    · refine ⟨rho, ⟨?_, ?_, ?_⟩, ?_⟩
      · intro n
        have := hr.1 n
        rw [hsize]
        omega
      · exact (NBW.sum_initial one two _).2 (Or.inl ⟨hr.2.1, by have := hr.1 0; omega⟩)
      · intro n
        exact (NBW.sum_delta_left one two hsig (hr.1 n) (hw n) _).2
          ⟨hr.2.2 n, by have := hr.1 (n + 1); omega⟩
      · intro n
        obtain ⟨m, hm, hf⟩ := hacc n
        exact ⟨m, hm, (NBW.sum_final one two _).2 (Or.inl ⟨hr.1 m, hf⟩)⟩
    · refine ⟨fun n => rho n + one.size, ⟨?_, ?_, ?_⟩, ?_⟩
      · intro n
        have := hr.1 n
        show rho n + one.size < (NBW.sum_of_trimmed one two).size
        rw [hsize]
        omega
      · exact (NBW.sum_initial one two _).2 (Or.inr ⟨rho 0, hr.1 0, hr.2.1, rfl⟩)
      · intro n
        exact (NBW.sum_delta_right one two hsig (hr.1 n) (hw n) _).2
          ⟨rho (n + 1), hr.1 (n + 1), hr.2.2 n, rfl⟩
      · intro n
        obtain ⟨m, hm, hf⟩ := hacc n
        exact ⟨m, hm, (NBW.sum_final one two _).2
          (Or.inr ⟨rho m, hr.1 m, hf, Nat.add_comm _ _⟩)⟩

theorem NBW.disjoint_sum_language (A B : NBW) (hsig : A.alphabet_size = B.alphabet_size)
    (hwf : A.WellFormed) (w : ℕ → ℕ) (hw : A.IsWord w) :
    (NBW.disjoint_sum A B).Accepts w ↔ A.Accepts w ∨ B.Accepts w := by
  have hwB : B.IsWord w := fun n => hsig ▸ hw n
  unfold NBW.disjoint_sum
  rw [NBW.sum_language _ _ (by rw [A.trim_alphabet_size, B.trim_alphabet_size, hsig])
    (A.trim_well_formed hwf) w (fun n => by rw [A.trim_alphabet_size]; exact hw n),
    A.trim_language w hw, B.trim_language w hwB]

/-! ## Claim about `disjoint_sum` -/

/-- C7. For automata `A` and `B` over the same alphabet, `A` obeying the width
invariant of the data model, the automaton returned by `disjoint_sum(A, B)`
accepts an infinite word `w` over the alphabet iff `A` accepts `w` or `B`
accepts `w`, the languages being those of the operands as passed to the
call. -/
theorem NBW.disjoint_sum_union (A B : NBW) (hsig : A.alphabet_size = B.alphabet_size)
    (hwf : A.WellFormed) (w : ℕ → ℕ) (hw : A.IsWord w) :
    (NBW.disjoint_sum A B).Accepts w ↔ A.Accepts w ∨ B.Accepts w :=
  NBW.disjoint_sum_language A B hsig hwf w hw

/-- Witness for C7: the one-state automata for `0 0 0 ..` and for words without
an accepting run, on the word `0 0 0 ..`. -/
theorem NBW.disjoint_sum_union_witness :
    ((NBW.ctor 1 1 [(0, 0, 0)] {0} {0}).alphabet_size = (NBW.ctor 1 1 [] {0} ∅).alphabet_size ∧
      (NBW.ctor 1 1 [(0, 0, 0)] {0} {0}).WellFormed ∧
      (NBW.ctor 1 1 [(0, 0, 0)] {0} {0}).IsWord (fun _ => 0)) ∧
    ((NBW.disjoint_sum (NBW.ctor 1 1 [(0, 0, 0)] {0} {0}) (NBW.ctor 1 1 [] {0} ∅)).Accepts
        (fun _ => 0) ↔
      (NBW.ctor 1 1 [(0, 0, 0)] {0} {0}).Accepts (fun _ => 0) ∨
        (NBW.ctor 1 1 [] {0} ∅).Accepts (fun _ => 0)) :=
  have hwf : (NBW.ctor 1 1 [(0, 0, 0)] {0} {0}).WellFormed := by
    unfold NBW.WellFormed
    decide
  ⟨⟨rfl, hwf, fun _ => Nat.one_pos⟩,
    NBW.disjoint_sum_union (NBW.ctor 1 1 [(0, 0, 0)] {0} {0}) (NBW.ctor 1 1 [] {0} ∅) rfl hwf
      (fun _ => 0) (fun _ => Nat.one_pos)⟩

/-! ## Determinization and complementation of the universal one-state automaton -/

theorem universal_accepts :
    (NBW.ctor 1 1 [(0, 0, 0)] {0} {0}).Accepts (fun _ => 0) :=
  have hd : 0 ∈ (NBW.ctor 1 1 [(0, 0, 0)] {0} {0}).delta 0 0 := by decide
  have hf : 0 ∈ (NBW.ctor 1 1 [(0, 0, 0)] {0} {0}).final := by decide
  ⟨fun _ => 0, ⟨fun _ => Nat.one_pos, by decide, fun _ => hd⟩, fun n => ⟨n, le_refl n, hf⟩⟩

theorem universal_determinize_eval :
    ((NBW.ctor 1 1 [(0, 0, 0)] {0} {0}).determinize 1).any
      (fun D => decide (D.size = 1) && decide (D.pairs.length = 0) &&
        decide (D.initial_state = 0) && decide (D.transition_matrix 0 0 = 0)) = true := by
  decide

theorem universal_complement_eval :
    ((NBW.ctor 1 1 [(0, 0, 0)] {0} {0}).get_complement 1).any
      (fun C => decide (C.size = 2) && decide (C.alphabet_size = 1) && decide (0 ∈ C.initial) &&
        decide (1 ∈ C.final) && decide (1 ∈ C.delta 0 0) && decide (1 ∈ C.delta 1 0)) = true := by
  decide

/-- C1 (failing input). The universal one-state automaton (state 0 initial and
accepting, a self-loop on the only symbol) accepts the word `0 0 0 ..`, but
`determinize` returns for it a one-state DRW without any Rabin pair, so the run
of that DRW on `0 0 0 ..` satisfies no pair. -/
theorem NBW.determinize_universal_rejects :
    ∃ D, (NBW.ctor 1 1 [(0, 0, 0)] {0} {0}).determinize 1 = some D ∧ D.size = 1 ∧
      D.pairs = [] ∧ (NBW.ctor 1 1 [(0, 0, 0)] {0} {0}).Accepts (fun _ => 0) ∧
      ¬ D.Accepts (fun _ => 0) := by
  have h := universal_determinize_eval
  cases hD : (NBW.ctor 1 1 [(0, 0, 0)] {0} {0}).determinize 1 with
  | none => rw [hD] at h; exact absurd h (by decide)
  | some D =>
    rw [hD] at h
    simp only [Option.any_some, Bool.and_eq_true, decide_eq_true_eq] at h
    have hp : D.pairs = [] := List.length_eq_zero.1 h.1.1.2
    refine ⟨D, rfl, h.1.1.1, hp, universal_accepts, ?_⟩
    rintro ⟨p, hp', _⟩
    rw [hp] at hp'
    exact absurd hp' (List.not_mem_nil p)

/-- C3 (failing input). For the universal one-state automaton, which accepts
`0 0 0 ..`, `get_complement` returns an automaton that accepts `0 0 0 ..` as
well: the run `0 1 1 1 ..` visits its accepting state 1 for ever. -/
theorem NBW.get_complement_universal_accepts :
    ∃ C, (NBW.ctor 1 1 [(0, 0, 0)] {0} {0}).get_complement 1 = some C ∧
      (NBW.ctor 1 1 [(0, 0, 0)] {0} {0}).Accepts (fun _ => 0) ∧ C.IsWord (fun _ => 0) ∧
      C.Accepts (fun _ => 0) := by
  have h := universal_complement_eval
  cases hC : (NBW.ctor 1 1 [(0, 0, 0)] {0} {0}).get_complement 1 with
  | none => rw [hC] at h; exact absurd h (by decide)
  | some C =>
    rw [hC] at h
    simp only [Option.any_some, Bool.and_eq_true, decide_eq_true_eq] at h
    obtain ⟨⟨⟨⟨⟨h1, h2⟩, h3⟩, h4⟩, h5⟩, h6⟩ := h
    refine ⟨C, rfl, universal_accepts, fun _ => by rw [h2]; exact Nat.one_pos,
      fun n => if n = 0 then 0 else 1, ⟨?_, h3, ?_⟩, ?_⟩
    · intro n
      show (if n = 0 then 0 else 1) < C.size
      rw [h1]
      split_ifs <;> omega
    · intro n
      show (if n + 1 = 0 then 0 else 1) ∈ C.delta (if n = 0 then 0 else 1) 0
      rw [if_neg (Nat.succ_ne_zero n)]
      split_ifs
      · exact h5
      · exact h6
    · intro n
      refine ⟨n + 1, Nat.le_succ n, ?_⟩
      show (if n + 1 = 0 then 0 else 1) ∈ C.final
      rw [if_neg (Nat.succ_ne_zero n)]
      exact h4

/-! ## The exploration of `DRW::complement` -/

theorem CompState.beq_iff_key {D : DRW} {a b : CompState} (ha : a.Valid D) (hb : b.Valid D) :
    CompState.beq a b = true ↔ a.key = b.key := by
  unfold CompState.beq CompState.key
  simp only [Bool.and_eq_true, Bool.or_eq_true, decide_eq_true_eq, Prod.mk.injEq]
  constructor
  · rintro ⟨⟨h1, h2⟩, h3 | h3⟩
    · have ha' := ha.2.1 h3
      have hb' := hb.2.1 (h2 ▸ h3)
      exact ⟨h1, h2, ha'.1.trans hb'.1.symm, ha'.2.trans hb'.2.symm⟩
    · exact ⟨h1, h2, h3.1, h3.2⟩
  · rintro ⟨h1, h2, h3, h4⟩
    exact ⟨⟨h1, h2⟩, Or.inr ⟨h3, h4⟩⟩

theorem comp_visit_spec {D : DRW} (source a : ℕ) (next : CompState) (st : CompExplore)
    (hg : CompGood D st) (hn : next.Valid D) :
    VisitRel [(source, a, next)] st (comp_visit source a next st) ∧
      CompGood D (comp_visit source a next st) := by
  unfold comp_visit
  cases hf : st.seen.findIdx? (fun c => CompState.beq c next) with
  | some index =>
    obtain ⟨hlt, hp, _⟩ := List.findIdx?_eq_some_iff_getElem.1 hf
    have hkey : (st.seen[index]).key = next.key :=
      (CompState.beq_iff_key (hg.valid _ (List.getElem_mem _)) hn).1 hp
    refine ⟨⟨⟨[], by simp, by simp⟩, ?_, ?_, ?_⟩, ⟨hg.valid, hg.nodup, hg.index⟩⟩
    · intro t ht
      exact List.mem_append_left _ ht
    · intro t ht
      rcases List.mem_append.1 ht with h | h
      · exact Or.inl h
      · right
        rw [List.mem_singleton] at h
        subst h
        exact ⟨_, List.mem_singleton_self _, rfl, rfl, st.seen[index],
          List.getElem?_eq_getElem hlt, hkey⟩
    · intro r hr
      rw [List.mem_singleton] at hr
      subst hr
      exact ⟨index, st.seen[index], List.getElem?_eq_getElem hlt, hkey,
        List.mem_append_right _ (List.mem_singleton_self _)⟩
  | none =>
    have hnone := List.findIdx?_eq_none_iff.1 hf
    have hget : (st.seen ++ [{ next with buchi_index := st.seen.length }])[st.seen.length]? =
        some { next with buchi_index := st.seen.length } := by
      rw [List.getElem?_append_right (le_refl _)]
      simp
    refine ⟨⟨⟨[{ next with buchi_index := st.seen.length }], rfl, rfl⟩, ?_, ?_, ?_⟩,
      ⟨?_, ?_, ?_⟩⟩
    · intro t ht
      exact List.mem_append_left _ ht
    · intro t ht
      rcases List.mem_append.1 ht with h | h
      · exact Or.inl h
      · right
        rw [List.mem_singleton] at h
        subst h
        exact ⟨_, List.mem_singleton_self _, rfl, rfl, _, hget, rfl⟩
    · intro r hr
      rw [List.mem_singleton] at hr
      subst hr
      exact ⟨st.seen.length, _, hget, rfl,
        List.mem_append_right _ (List.mem_singleton_self _)⟩
    · intro c hc
      rcases List.mem_append.1 hc with h | h
      · exact hg.valid c h
      · rw [List.mem_singleton] at h
        subst h
        exact hn
    · show ((st.seen ++ [{ next with buchi_index := st.seen.length }]).map CompState.key).Nodup
      rw [List.map_append, List.nodup_append]
      refine ⟨hg.nodup, List.nodup_singleton _, ?_⟩
      intro k hk1 hk2
      rw [List.map_singleton, List.mem_singleton] at hk2
      obtain ⟨c, hc, hck⟩ := List.mem_map.1 hk1
      have hb := hnone c hc
      have : CompState.beq c next = true :=
        (CompState.beq_iff_key (hg.valid c hc) hn).2 (by rw [hck, hk2]; rfl)
      rw [this] at hb
      exact absurd hb (by decide)
    · intro i c hc
      show c.buchi_index = i
      have hc' : (st.seen ++ [{ next with buchi_index := st.seen.length }])[i]? = some c := hc
      rcases Nat.lt_or_ge i st.seen.length with h | h
      · exact hg.index i c (by rwa [List.getElem?_append_left h] at hc')
      · rw [List.getElem?_append_right h] at hc'
        have hi : i - st.seen.length = 0 := by
          by_contra hne
          rw [List.getElem?_eq_none (by simp; omega)] at hc'
          exact absurd hc' (by simp)
        rw [hi] at hc'
        simp at hc'
        subst hc'
        show st.seen.length = i
        omega

theorem getElem?_append_some {α : Type} {l : List α} {j : ℕ} {c : α} (m : List α)
    (h : l[j]? = some c) : (l ++ m)[j]? = some c := by
  have hlt : j < l.length := by
    by_contra hc
    rw [List.getElem?_eq_none (not_lt.1 hc)] at h
    exact absurd h (by simp)
  rw [List.getElem?_append_left hlt]
  exact h

theorem visit_fold_spec {D : DRW} (reqs : List (ℕ × ℕ × CompState)) (st : CompExplore)
    (hg : CompGood D st) (hv : ∀ r ∈ reqs, r.2.2.Valid D) :
    VisitRel reqs st (reqs.foldl (fun st r => comp_visit r.1 r.2.1 r.2.2 st) st) ∧
      CompGood D (reqs.foldl (fun st r => comp_visit r.1 r.2.1 r.2.2 st) st) := by
  induction reqs generalizing st with
  | nil =>
    refine ⟨⟨⟨[], by simp, by simp⟩, fun t ht => ht, fun t ht => Or.inl ht, ?_⟩, hg⟩
    intro r hr
    exact absurd hr (List.not_mem_nil r)
  | cons r rs ih =>
    obtain ⟨R1, G1⟩ := comp_visit_spec r.1 r.2.1 r.2.2 st hg (hv r (List.mem_cons_self _ _))
    obtain ⟨R2, G2⟩ := ih (comp_visit r.1 r.2.1 r.2.2 st) G1
      (fun r' hr' => hv r' (List.mem_cons_of_mem _ hr'))
    rw [List.foldl_cons]
    refine ⟨⟨?_, ?_, ?_, ?_⟩, G2⟩
    · obtain ⟨n1, a1, b1⟩ := R1.grow
      obtain ⟨n2, a2, b2⟩ := R2.grow
      exact ⟨n1 ++ n2, by rw [a2, a1, List.append_assoc], by rw [b2, b1, List.append_assoc]⟩
    · intro t ht
      exact R2.mono t (R1.mono t ht)
    · intro t ht
      obtain ⟨n2, a2, _⟩ := R2.grow
      rcases R2.sound t ht with h | ⟨r', hr', h⟩
      · rcases R1.sound t h with h' | ⟨r', hr', h1, h2, c, hc, hk⟩
        · exact Or.inl h'
        · rw [List.mem_singleton] at hr'
          rw [hr'] at h1 h2 hk
          refine Or.inr ⟨r, List.mem_cons_self _ _, h1, h2, c, ?_, hk⟩
          rw [a2]
          exact getElem?_append_some n2 hc
      · exact Or.inr ⟨r', List.mem_cons_of_mem _ hr', h⟩
    · intro r' hr'
      obtain ⟨n2, a2, _⟩ := R2.grow
      rcases List.mem_cons.1 hr' with h | h
      · subst h
        obtain ⟨j, c, hc, hk, ht⟩ := R1.complete r' (List.mem_singleton_self _)
        refine ⟨j, c, ?_, hk, R2.mono _ ht⟩
        rw [a2]
        exact getElem?_append_some n2 hc
      · exact R2.complete r' h

theorem DRW.complement_step_eq (D : DRW) (current : CompState) (a : ℕ) (st : CompExplore) :
    D.complement_step current a st =
      (D.comp_successors current a).foldl
        (fun st next => comp_visit current.buchi_index a next st) st := by
  unfold DRW.complement_step DRW.comp_successors
  cases current.in_initial_part <;> rfl

theorem DRW.complement_round_eq (D : DRW) (work_queue : List CompState) (st : CompExplore) :
    D.complement_round work_queue st =
      (D.comp_requests work_queue).foldl (fun st r => comp_visit r.1 r.2.1 r.2.2 st)
        { st with new_work_queue := [] } := by
  unfold DRW.complement_round DRW.comp_requests
  rw [foldl_flatMap_eq]
  congr 1
  funext st current
  rw [foldl_flatMap_eq]
  congr 1
  funext st a
  rw [List.foldl_map, DRW.complement_step_eq]

theorem DRW.track_step_spec (D : DRW) (q : ℕ) (s : Finset ℕ × Finset ℕ) (x i : ℕ) :
    (i ∈ (D.track_step q s x).1 ↔ i ∈ s.1 ∨ (i = x ∧ D.InFin x q)) ∧
      (i ∈ (D.track_step q s x).2 ↔ i ∈ s.2 ∨ (i = x ∧ ¬ D.InFin x q ∧ D.InInf x q)) := by
  unfold DRW.track_step DRW.InFin DRW.InInf
  cases hx : D.pairs.get? x with
  | none => simp
  | some rp =>
    simp only [Option.some.injEq, exists_eq_left']
    by_cases hfin : q ∈ rp.finite
    · simp only [hfin, if_true, Finset.mem_insert, and_true, not_true_eq_false, false_and,
        and_false, or_false]
      tauto
    · by_cases hinf : q ∈ rp.infinite
      · simp only [hfin, hinf, if_true, if_false, Finset.mem_insert, and_false, or_false,
          not_false_eq_true, and_true, true_and]
        tauto
      · simp only [hfin, hinf, if_false, and_false, or_false]
        exact ⟨trivial, trivial⟩

theorem DRW.mem_track_hits (D : DRW) (q : ℕ) (s1 s2 : Finset ℕ) (i : ℕ) :
    (i ∈ (D.track_hits q s1 s2).1 ↔ i ∈ s1 ∨ D.InFin i q) ∧
      (i ∈ (D.track_hits q s1 s2).2 ↔ i ∈ s2 ∨ (¬ D.InFin i q ∧ D.InInf i q)) := by
  have gen : ∀ (l : List ℕ) (s : Finset ℕ × Finset ℕ),
      (i ∈ (l.foldl (D.track_step q) s).1 ↔ i ∈ s.1 ∨ (i ∈ l ∧ D.InFin i q)) ∧
      (i ∈ (l.foldl (D.track_step q) s).2 ↔
        i ∈ s.2 ∨ (i ∈ l ∧ ¬ D.InFin i q ∧ D.InInf i q)) := by
    intro l
    induction l with
    | nil => intro s; simp
    | cons x xs ih =>
      intro s
      rw [List.foldl_cons]
      obtain ⟨h1, h2⟩ := ih (D.track_step q s x)
      obtain ⟨k1, k2⟩ := D.track_step_spec q s x i
      rw [h1, h2, k1, k2]
      simp only [List.mem_cons]
      constructor
      · constructor
        · rintro ((h | ⟨h, h'⟩) | ⟨h, h'⟩)
          · exact Or.inl h
          · exact Or.inr ⟨Or.inl h, h ▸ h'⟩
          · exact Or.inr ⟨Or.inr h, h'⟩
        · rintro (h | ⟨h | h, h'⟩)
          · exact Or.inl (Or.inl h)
          · exact Or.inl (Or.inr ⟨h, h ▸ h'⟩)
          · exact Or.inr ⟨h, h'⟩
      · constructor
        · rintro ((h | ⟨h, h'⟩) | ⟨h, h'⟩)
          · exact Or.inl h
          · exact Or.inr ⟨Or.inl h, h ▸ h'⟩
          · exact Or.inr ⟨Or.inr h, h'⟩
        · rintro (h | ⟨h | h, h'⟩)
          · exact Or.inl (Or.inl h)
          · exact Or.inl (Or.inr ⟨h, h ▸ h'⟩)
          · exact Or.inr ⟨h, h'⟩
  have hlt : ∀ rp, D.pairs.get? i = some rp → i ∈ List.range D.pairs.length := by
    intro rp h
    rw [List.mem_range]
    by_contra hc
    rw [List.get?_eq_none.2 (not_lt.1 hc)] at h
    exact absurd h (by simp)
  obtain ⟨g1, g2⟩ := gen (List.range D.pairs.length) (s1, s2)
  unfold DRW.track_hits
  rw [g1, g2]
  constructor
  · constructor
    · rintro (h | ⟨_, h⟩)
      · exact Or.inl h
      · exact Or.inr h
    · rintro (h | h)
      · exact Or.inl h
      · obtain ⟨rp, h1, h2⟩ := h
        exact Or.inr ⟨hlt rp h1, rp, h1, h2⟩
  · constructor
    · rintro (h | ⟨_, h⟩)
      · exact Or.inl h
      · exact Or.inr h
    · rintro (h | ⟨hn, h⟩)
      · exact Or.inl h
      · obtain ⟨rp, h1, h2⟩ := h
        exact Or.inr ⟨hlt rp h1, hn, rp, h1, h2⟩

theorem DRW.track_eq (D : DRW) (q : ℕ) (s1 s2 : Finset ℕ) :
    D.track q s1 s2 =
      if (D.track_hits q s1 s2).2 ⊆ (D.track_hits q s1 s2).1 then
        ((D.track_hits q s1 s2).1 \ (D.track_hits q s1 s2).2, ∅)
      else D.track_hits q s1 s2 := rfl

theorem DRW.inFin_lt (D : DRW) {i q : ℕ} (h : D.InFin i q) : i < D.pairs.length := by
  obtain ⟨rp, h1, _⟩ := h
  by_contra hc
  rw [List.get?_eq_none.2 (not_lt.1 hc)] at h1
  exact absurd h1 (by simp)

theorem DRW.inInf_lt (D : DRW) {i q : ℕ} (h : D.InInf i q) : i < D.pairs.length := by
  obtain ⟨rp, h1, _⟩ := h
  by_contra hc
  rw [List.get?_eq_none.2 (not_lt.1 hc)] at h1
  exact absurd h1 (by simp)

theorem DRW.track_subset_hits (D : DRW) (q : ℕ) (s1 s2 : Finset ℕ) (i : ℕ) :
    (i ∈ (D.track q s1 s2).1 → i ∈ (D.track_hits q s1 s2).1) ∧
      (i ∈ (D.track q s1 s2).2 → i ∈ (D.track_hits q s1 s2).2) := by
  rw [DRW.track_eq]
  split_ifs
  · exact ⟨fun h => (Finset.mem_sdiff.1 h).1, fun h => absurd h (Finset.not_mem_empty _)⟩
  · exact ⟨fun h => h, fun h => h⟩

theorem DRW.comp_successors_valid (D : DRW) (hT : D.Total) {c : CompState} (hc : c.Valid D)
    {a : ℕ} (ha : a < D.alphabet_size) :
    ∀ next ∈ D.comp_successors c a, next.Valid D := by
  have hq : D.transition_matrix c.rabin_state a < D.size := hT.2 _ hc.1 a ha
  intro next hn
  unfold DRW.comp_successors at hn
  by_cases hi : c.in_initial_part = true
  · rw [if_pos hi] at hn
    simp only [List.mem_cons, List.mem_singleton, List.not_mem_nil, or_false] at hn
    rcases hn with h | h
    · subst h
      exact ⟨hq, fun _ => ⟨rfl, rfl⟩, fun i hi => absurd hi (Finset.not_mem_empty _),
        fun i hi => absurd hi (Finset.not_mem_empty _)⟩
    · subst h
      exact ⟨hq, fun _ => ⟨rfl, rfl⟩, fun i hi => absurd hi (Finset.not_mem_empty _),
        fun i hi => absurd hi (Finset.not_mem_empty _)⟩
  · rw [if_neg hi] at hn
    simp only [List.mem_singleton] at hn
    subst hn
    refine ⟨hq, fun h => absurd h (by simp), ?_, ?_⟩
    · intro i hi
      rcases ((D.mem_track_hits _ c.s1 c.s2 i).1).1 ((D.track_subset_hits _ _ _ i).1 hi) with h | h
      · exact hc.2.2.1 i h
      · exact D.inFin_lt h
    · intro i hi
      rcases ((D.mem_track_hits _ c.s1 c.s2 i).2).1 ((D.track_subset_hits _ _ _ i).2 hi) with h | h
      · exact hc.2.2.2 i h
      · exact D.inInf_lt h.2

theorem DRW.mem_comp_requests (D : DRW) (work_queue : List CompState) (r : ℕ × ℕ × CompState) :
    r ∈ D.comp_requests work_queue ↔
      ∃ current ∈ work_queue, ∃ a, a < D.alphabet_size ∧
        ∃ next ∈ D.comp_successors current a, r = (current.buchi_index, a, next) := by
  unfold DRW.comp_requests
  simp only [List.mem_flatMap, List.mem_range, List.mem_map]
  constructor
  · rintro ⟨cur, hcur, a, ha, next, hn, rfl⟩
    exact ⟨cur, hcur, a, ha, next, hn, rfl⟩
  · rintro ⟨cur, hcur, a, ha, next, hn, rfl⟩
    exact ⟨cur, hcur, a, ha, next, hn, rfl⟩

theorem CompInv.round {D : DRW} (hT : D.Total) {processed work_queue : List CompState}
    {st : CompExplore} (h : CompInv D processed work_queue st) :
    CompInv D (processed ++ work_queue) (D.complement_round work_queue st).new_work_queue
      (D.complement_round work_queue st) ∧
    ∃ new, (D.complement_round work_queue st).seen = st.seen ++ new := by
  have hg0 : CompGood D { st with new_work_queue := [] } :=
    ⟨h.good.valid, h.good.nodup, h.good.index⟩
  have hv : ∀ r ∈ D.comp_requests work_queue, r.2.2.Valid D := by
    intro r hr
    obtain ⟨cur, hcur, a, ha, next, hn, rfl⟩ := (D.mem_comp_requests _ r).1 hr
    have hcv : cur.Valid D := h.good.valid cur (by rw [h.seen_eq]; exact List.mem_append_right _ hcur)
    exact D.comp_successors_valid hT hcv ha next hn
  obtain ⟨R, G⟩ := visit_fold_spec (D.comp_requests work_queue) _ hg0 hv
  rw [← DRW.complement_round_eq] at R G
  obtain ⟨new, hseen, hnwq⟩ := R.grow
  refine ⟨⟨G, ?_, ?_, ?_⟩, new, hseen⟩
  · rw [hseen, hnwq]
    show st.seen ++ new = (processed ++ work_queue) ++ ([] ++ new)
    rw [h.seen_eq, List.nil_append]
  · intro t ht
    rcases R.sound t ht with h' | ⟨r, hr, h1, h2, c', hc', hk⟩
    · obtain ⟨c, hc, hi, ha, next, hn, c', hc', hk⟩ := h.sound t h'
      refine ⟨c, List.mem_append_left _ hc, hi, ha, next, hn, c', ?_, hk⟩
      rw [hseen]
      exact getElem?_append_some new hc'
    · obtain ⟨cur, hcur, a, ha, next, hn, rfl⟩ := (D.mem_comp_requests _ r).1 hr
      refine ⟨cur, List.mem_append_right _ hcur, h1.symm, ?_, next, ?_, c', hc', hk⟩
      · rw [h2]; exact ha
      · rw [h2]; exact hn
  · intro c hc a ha next hn
    rcases List.mem_append.1 hc with hc | hc
    · obtain ⟨j, c', hc', hk, ht⟩ := h.complete c hc a ha next hn
      refine ⟨j, c', ?_, hk, R.mono _ ht⟩
      rw [hseen]
      exact getElem?_append_some new hc'
    · exact R.complete (c.buchi_index, a, next)
        ((D.mem_comp_requests _ _).2 ⟨c, hc, a, ha, next, hn, rfl⟩)

theorem CompGood.length_le {D : DRW} {st : CompExplore} (h : CompGood D st) :
    st.seen.length ≤ D.size * 2 * (2 ^ D.pairs.length * 2 ^ D.pairs.length) := by
  have hsub : (st.seen.map CompState.key).toFinset ⊆
      Finset.range D.size ×ˢ (Finset.univ : Finset Bool) ×ˢ
        (Finset.range D.pairs.length).powerset ×ˢ (Finset.range D.pairs.length).powerset := by
    intro k hk
    rw [List.mem_toFinset] at hk
    obtain ⟨c, hc, rfl⟩ := List.mem_map.1 hk
    have hv := h.valid c hc
    simp only [CompState.key, Finset.mem_product, Finset.mem_range, Finset.mem_univ,
      Finset.mem_powerset, true_and]
    exact ⟨hv.1, fun i hi => Finset.mem_range.2 (hv.2.2.1 i hi),
      fun i hi => Finset.mem_range.2 (hv.2.2.2 i hi)⟩
  have hcard := Finset.card_le_card hsub
  rw [List.toFinset_card_of_nodup h.nodup, List.length_map] at hcard
  simp only [Finset.card_product, Finset.card_range, Finset.card_powerset, Finset.card_univ,
    Fintype.card_bool] at hcard
  calc st.seen.length ≤ D.size * (2 * (2 ^ D.pairs.length * 2 ^ D.pairs.length)) := hcard
    _ = D.size * 2 * (2 ^ D.pairs.length * 2 ^ D.pairs.length) := by ring

theorem DRW.complement_loop_spec (D : DRW) (hT : D.Total) (fuel : ℕ) :
    ∀ (processed work_queue : List CompState) (st : CompExplore),
      CompInv D processed work_queue st →
      D.size * 2 * (2 ^ D.pairs.length * 2 ^ D.pairs.length) + 1 ≤ processed.length + fuel →
      (∃ pr, CompInv D pr [] (D.complement_loop fuel work_queue st)) ∧
        ∃ new, (D.complement_loop fuel work_queue st).seen = st.seen ++ new := by
  induction fuel with
  | zero =>
    intro pr wq st h hf
    have h1 := h.good.length_le
    have h2 : pr.length ≤ st.seen.length := by
      rw [h.seen_eq, List.length_append]; omega
    omega
  | succ fuel ih =>
    intro pr wq st h hf
    unfold DRW.complement_loop
    by_cases hw : wq.isEmpty = true
    · rw [if_pos hw]
      have : wq = [] := List.isEmpty_iff.1 hw
      subst this
      exact ⟨⟨pr, h⟩, [], by simp⟩
    · rw [if_neg hw]
      obtain ⟨hinv, new, hnew⟩ := h.round hT
      have hlen : 0 < wq.length := by
        cases wq with
        | nil => exact absurd rfl hw
        | cons x xs => simp
      obtain ⟨r1, new2, hnew2⟩ := ih (pr ++ wq) _ _ hinv (by rw [List.length_append]; omega)
      exact ⟨r1, new ++ new2, by rw [hnew2, hnew, List.append_assoc]⟩

/-- What the exploration of `DRW::complement` leaves for a total `D`: every
seen state has been processed, state 0 is the initial-part state of the initial
state, and the adjacency list holds exactly the looked-up transitions. -/
theorem DRW.complement_explore_spec (D : DRW) (hT : D.Total) :
    CompInv D D.complement_explore.seen [] D.complement_explore ∧
      D.complement_explore.seen[0]? =
        some { rabin_state := D.initial_state, in_initial_part := true, s1 := ∅, s2 := ∅,
               buchi_index := 0 } := by
  have hinit : CompInv D []
      [{ rabin_state := D.initial_state, in_initial_part := true, s1 := ∅, s2 := ∅,
         buchi_index := 0 }]
      { seen := [{ rabin_state := D.initial_state, in_initial_part := true, s1 := ∅, s2 := ∅,
                   buchi_index := 0 }],
        adjacency_list := [], new_work_queue := [] } := by
    refine ⟨⟨?_, ?_, ?_⟩, rfl, ?_, ?_⟩
    · intro c hc
      rw [List.mem_singleton] at hc
      subst hc
      exact ⟨hT.1, fun _ => ⟨rfl, rfl⟩, fun i hi => absurd hi (Finset.not_mem_empty _),
        fun i hi => absurd hi (Finset.not_mem_empty _)⟩
    · simp
    · intro i c hc
      cases i with
      | zero =>
        simp at hc
        subst hc
        rfl
      | succ i => simp at hc
    · intro t ht
      exact absurd ht (List.not_mem_nil t)
    · intro c hc
      exact absurd hc (List.not_mem_nil c)
  obtain ⟨⟨pr, hpr⟩, new, hnew⟩ := D.complement_loop_spec hT D.complement_fuel [] _ _ hinit
    (by unfold DRW.complement_fuel; simp)
  have hseen : D.complement_explore.seen = pr := by
    have := hpr.seen_eq
    rw [List.append_nil] at this
    exact this
  refine ⟨?_, ?_⟩
  · rw [hseen]
    exact hpr
  · show (D.complement_loop D.complement_fuel _ _).seen[0]? = _
    rw [hnew]
    simp

/-! ## The bookkeeping of the tracking part -/

theorem DRW.track_cases (D : DRW) (q : ℕ) (s1 s2 : Finset ℕ) :
    ((D.track_hits q s1 s2).2 ⊆ (D.track_hits q s1 s2).1 ∧
        D.track q s1 s2 = ((D.track_hits q s1 s2).1 \ (D.track_hits q s1 s2).2, ∅)) ∨
      (¬ (D.track_hits q s1 s2).2 ⊆ (D.track_hits q s1 s2).1 ∧
        D.track q s1 s2 = D.track_hits q s1 s2) := by
  rw [DRW.track_eq]
  by_cases h : (D.track_hits q s1 s2).2 ⊆ (D.track_hits q s1 s2).1
  · exact Or.inl ⟨h, by rw [if_pos h]⟩
  · exact Or.inr ⟨h, by rw [if_neg h]⟩

/-- If the bookkeeping `S` follows `track` from time `t0` on and its second
component is empty infinitely often, then no pair has its `infinite` set
visited infinitely often and its `finite` set visited only finitely often. -/
theorem DRW.track_forward (D : DRW) (r : ℕ → ℕ) (S : ℕ → Finset ℕ × Finset ℕ) (t0 : ℕ)
    (hstep : ∀ n, t0 ≤ n → S (n + 1) = D.track (r (n + 1)) (S n).1 (S n).2)
    (hacc : ∀ n, ∃ m, n ≤ m ∧ (S m).2 = ∅) (i : ℕ)
    (hinf : ∀ n, ∃ m, n ≤ m ∧ D.InInf i (r m))
    (hfin : ∃ n, ∀ m, n ≤ m → ¬ D.InFin i (r m)) : False := by
  obtain ⟨T, hT⟩ := hfin
  have F1 : ∀ n, t0 ≤ n → T ≤ n → i ∉ (S n).1 → i ∉ (S (n + 1)).1 := by
    intro n h0 h1 hn hc
    rw [hstep n h0] at hc
    rcases ((D.mem_track_hits _ _ _ i).1).1 ((D.track_subset_hits _ _ _ i).1 hc) with h | h
    · exact hn h
    · exact hT (n + 1) (by omega) h
  have F2 : ∀ n, t0 ≤ n → T ≤ n → i ∈ (S n).2 ∧ i ∉ (S n).1 →
      i ∈ (S (n + 1)).2 ∧ i ∉ (S (n + 1)).1 := by
    intro n h0 h1 hn
    refine ⟨?_, F1 n h0 h1 hn.2⟩
    rw [hstep n h0]
    have h2 : i ∈ (D.track_hits (r (n + 1)) (S n).1 (S n).2).2 :=
      ((D.mem_track_hits _ _ _ i).2).2 (Or.inl hn.1)
    have h1' : i ∉ (D.track_hits (r (n + 1)) (S n).1 (S n).2).1 := by
      intro hc
      rcases ((D.mem_track_hits _ _ _ i).1).1 hc with h | h
      · exact hn.2 h
      · exact hT (n + 1) (by omega) h
    rcases D.track_cases (r (n + 1)) (S n).1 (S n).2 with ⟨hs, _⟩ | ⟨_, he⟩
    · exact absurd (hs h2) h1'
    · rw [he]; exact h2
  have F4 : ∀ n, t0 ≤ n → i ∈ (D.track_hits (r (n + 1)) (S n).1 (S n).2).2 →
      i ∈ (S (n + 1)).2 ∨ i ∉ (S (n + 1)).1 := by
    intro n h0 h2
    rw [hstep n h0]
    rcases D.track_cases (r (n + 1)) (S n).1 (S n).2 with ⟨_, he⟩ | ⟨_, he⟩
    · right
      rw [he]
      intro hc
      exact (Finset.mem_sdiff.1 hc).2 h2
    · left
      rw [he]; exact h2
  -- Step A: a time after `T` and `t0` at which `i` is not in the first component.
  have stepA : ∃ m, t0 ≤ m ∧ T ≤ m ∧ i ∉ (S m).1 := by
    obtain ⟨m', hm', hi'⟩ := hinf (max T t0 + 1)
    have hn3 : m' = (m' - 1) + 1 := by omega
    have h0 : t0 ≤ m' - 1 := by
      have := le_max_right T t0; omega
    have h1 : T ≤ m' - 1 := by
      have := le_max_left T t0; omega
    have hnf : ¬ D.InFin i (r m') := hT m' (by omega)
    have hh : i ∈ (D.track_hits (r (m' - 1 + 1)) (S (m' - 1)).1 (S (m' - 1)).2).2 := by
      rw [← hn3]
      exact ((D.mem_track_hits _ _ _ i).2).2 (Or.inr ⟨hnf, hi'⟩)
    rcases F4 (m' - 1) h0 hh with h | h
    · rw [← hn3] at h
      obtain ⟨n4, hn4, he4⟩ := hacc m'
      have claim : ∀ d, i ∈ (S (m' + d)).2 ∨ ∃ m, t0 ≤ m ∧ T ≤ m ∧ i ∉ (S m).1 := by
        intro d
        induction d with
        | zero => exact Or.inl h
        | succ d ih =>
          rcases ih with ih | ih
          · have hh' : i ∈ (D.track_hits (r (m' + d + 1)) (S (m' + d)).1 (S (m' + d)).2).2 :=
              ((D.mem_track_hits _ _ _ i).2).2 (Or.inl ih)
            rcases F4 (m' + d) (by omega) hh' with h' | h'
            · exact Or.inl h'
            · exact Or.inr ⟨m' + d + 1, by omega, by omega, h'⟩
          · exact Or.inr ih
      rcases claim (n4 - m') with hc | hc
      · rw [Nat.add_sub_cancel' hn4, he4] at hc
        exact absurd hc (Finset.not_mem_empty _)
      · exact hc
    · rw [← hn3] at h
      exact ⟨m', by omega, by omega, h⟩
  obtain ⟨m, hm0, hmT, hm1⟩ := stepA
  have stepB : ∀ d, i ∉ (S (m + d)).1 := by
    intro d
    induction d with
    | zero => exact hm1
    | succ d ih => exact F1 (m + d) (by omega) (by omega) ih
  obtain ⟨m5, hm5, hi5⟩ := hinf (m + 1)
  have hn5 : m5 = (m5 - 1) + 1 := by omega
  have h5S : i ∉ (S (m5 - 1)).1 := by
    have := stepB (m5 - 1 - m)
    rwa [Nat.add_sub_cancel' (by omega)] at this
  have h5 : i ∈ (S m5).2 ∧ i ∉ (S m5).1 := by
    have hnf : ¬ D.InFin i (r m5) := hT m5 (by omega)
    have hh : i ∈ (D.track_hits (r (m5 - 1 + 1)) (S (m5 - 1)).1 (S (m5 - 1)).2).2 := by
      rw [← hn5]
      exact ((D.mem_track_hits _ _ _ i).2).2 (Or.inr ⟨hnf, hi5⟩)
    have h1 := F1 (m5 - 1) (by omega) (by omega) h5S
    rw [← hn5] at h1
    rcases F4 (m5 - 1) (by omega) hh with h | h
    · rw [← hn5] at h
      exact ⟨h, h1⟩
    · rw [← hn5] at h
      refine ⟨?_, h1⟩
      have hs := hstep (m5 - 1) (by omega)
      rw [← hn5] at hs
      rw [hs]
      rcases D.track_cases (r m5) (S (m5 - 1)).1 (S (m5 - 1)).2 with ⟨hsub, _⟩ | ⟨_, he⟩
      · rw [← hn5] at hh
        have := hsub hh
        rcases ((D.mem_track_hits _ _ _ i).1).1 this with h' | h'
        · exact absurd h' h5S
        · exact absurd h' hnf
      · rw [he]
        rw [← hn5] at hh
        exact hh
  have stepC : ∀ d, i ∈ (S (m5 + d)).2 ∧ i ∉ (S (m5 + d)).1 := by
    intro d
    induction d with
    | zero => exact h5
    | succ d ih => exact F2 (m5 + d) (by omega) (by omega) ih
  obtain ⟨n6, hn6, he6⟩ := hacc m5
  have := (stepC (n6 - m5)).1
  rw [Nat.add_sub_cancel' hn6, he6] at this
  exact absurd this (Finset.not_mem_empty _)

/-- After some time, the pairs whose `infinite` set is visited only finitely
often are not visited at all. -/
theorem DRW.exists_quiet_time (D : DRW) (r : ℕ → ℕ) :
    ∃ t0, ∀ i, ¬ (∀ n, ∃ m, n ≤ m ∧ D.InInf i (r m)) → ∀ m, t0 < m → ¬ D.InInf i (r m) := by
  have gen : ∀ b, ∃ t0, ∀ i, i < b → ¬ (∀ n, ∃ m, n ≤ m ∧ D.InInf i (r m)) →
      ∀ m, t0 < m → ¬ D.InInf i (r m) := by
    intro b
    induction b with
    | zero => exact ⟨0, fun i hi => absurd hi (Nat.not_lt_zero _)⟩
    | succ b ih =>
      obtain ⟨t, ht⟩ := ih
      by_cases hb : ∀ n, ∃ m, n ≤ m ∧ D.InInf b (r m)
      · refine ⟨t, fun i hi hn => ?_⟩
        rcases Nat.lt_succ_iff_lt_or_eq.1 hi with h | h
        · exact ht i h hn
        · subst h; exact absurd hb hn
      · have hb' := hb
        push_neg at hb'
        obtain ⟨n, hn⟩ := hb'
        refine ⟨max t n, fun i hi hni m hm => ?_⟩
        rcases Nat.lt_succ_iff_lt_or_eq.1 hi with h | h
        · exact ht i h hni m (lt_of_le_of_lt (le_max_left _ _) hm)
        · subst h
          exact hn m (le_of_lt (lt_of_le_of_lt (le_max_right _ _) hm))
  obtain ⟨t0, h0⟩ := gen D.pairs.length
  refine ⟨t0, fun i hni m hm hc => ?_⟩
  exact h0 i (D.inInf_lt hc) hni m hm hc

/-- If every pair whose `infinite` set is visited infinitely often also has its
`finite` set visited infinitely often, and tracking starts after the quiet time
`t0`, then the second component of the bookkeeping is empty infinitely often. -/
theorem DRW.track_backward (D : DRW) (r : ℕ → ℕ) (t0 : ℕ)
    (hyp : ∀ i, (∀ n, ∃ m, n ≤ m ∧ D.InInf i (r m)) → ∀ n, ∃ m, n ≤ m ∧ D.InFin i (r m))
    (hq : ∀ i, ¬ (∀ n, ∃ m, n ≤ m ∧ D.InInf i (r m)) → ∀ m, t0 < m → ¬ D.InInf i (r m)) :
    ∀ n, ∃ k, n ≤ k ∧ (D.track_seq r t0 k).2 = ∅ := by
  have hS : ∀ k, D.track_seq r t0 (k + 1) =
      D.track (r (t0 + 1 + (k + 1))) (D.track_seq r t0 k).1 (D.track_seq r t0 k).2 :=
    fun k => rfl
  have hitU : ∀ k i, i ∈ (D.track_hits (r (t0 + 1 + (k + 1))) (D.track_seq r t0 k).1
      (D.track_seq r t0 k).2).2 →
      (i ∈ (D.track_seq r t0 k).2 → ∀ n, ∃ m, n ≤ m ∧ D.InInf i (r m)) →
      ∀ n, ∃ m, n ≤ m ∧ D.InInf i (r m) := by
    intro k i hi hk
    rcases ((D.mem_track_hits _ _ _ i).2).1 hi with h | h
    · exact hk h
    · by_contra hc
      exact hq i hc _ (by omega) h.2
  have inv1 : ∀ k i, i ∈ (D.track_seq r t0 k).2 → ∀ n, ∃ m, n ≤ m ∧ D.InInf i (r m) := by
    intro k
    induction k with
    | zero =>
      intro i hi
      exact absurd hi (Finset.not_mem_empty _)
    | succ k ih =>
      intro i hi
      rw [hS k] at hi
      exact hitU k i ((D.track_subset_hits _ _ _ i).2 hi) (ih i)
  intro n
  by_contra hcon
  push_neg at hcon
  have nores : ∀ k, n ≤ k → D.track_seq r t0 (k + 1) =
      D.track_hits (r (t0 + 1 + (k + 1))) (D.track_seq r t0 k).1 (D.track_seq r t0 k).2 := by
    intro k hk
    rcases D.track_cases (r (t0 + 1 + (k + 1))) (D.track_seq r t0 k).1
      (D.track_seq r t0 k).2 with ⟨_, he⟩ | ⟨_, he⟩
    · exfalso
      apply hcon (k + 1) (by omega)
      rw [hS k, he]
    · rw [hS k, he]
  have mono : ∀ k, n ≤ k → ∀ d i, i ∈ (D.track_seq r t0 k).1 →
      i ∈ (D.track_seq r t0 (k + d)).1 := by
    intro k hk d
    induction d with
    | zero => exact fun i hi => hi
    | succ d ih =>
      intro i hi
      rw [← Nat.add_assoc, nores (k + d) (by omega)]
      exact ((D.mem_track_hits _ _ _ i).1).2 (Or.inl (ih i hi))
  have fill : ∀ b, ∃ K, n ≤ K ∧ ∀ i, i < b → (∀ n, ∃ m, n ≤ m ∧ D.InInf i (r m)) →
      i ∈ (D.track_seq r t0 K).1 := by
    intro b
    induction b with
    | zero => exact ⟨n, le_refl _, fun i hi => absurd hi (Nat.not_lt_zero _)⟩
    | succ b ih =>
      obtain ⟨K, hK, hfill⟩ := ih
      by_cases hb : ∀ n, ∃ m, n ≤ m ∧ D.InInf b (r m)
      · obtain ⟨m, hm, hfin⟩ := hyp b hb (t0 + 1 + (K + 1))
        have hm' : m = t0 + 1 + ((m - (t0 + 1) - 1) + 1) := by omega
        refine ⟨(m - (t0 + 1) - 1) + 1, by omega, fun i hi hio => ?_⟩
        rcases Nat.lt_succ_iff_lt_or_eq.1 hi with h | h
        · have := mono K hK ((m - (t0 + 1) - 1) + 1 - K) i (hfill i h hio)
          rwa [Nat.add_sub_cancel' (by omega)] at this
        · subst h
          rw [nores (m - (t0 + 1) - 1) (by omega)]
          refine ((D.mem_track_hits _ _ _ i).1).2 (Or.inr ?_)
          rw [← hm']
          exact hfin
      · refine ⟨K, hK, fun i hi hio => ?_⟩
        rcases Nat.lt_succ_iff_lt_or_eq.1 hi with h | h
        · exact hfill i h hio
        · subst h; exact absurd hio hb
  obtain ⟨K, hK, hfill⟩ := fill D.pairs.length
  rcases D.track_cases (r (t0 + 1 + (K + 1))) (D.track_seq r t0 K).1
    (D.track_seq r t0 K).2 with ⟨_, he⟩ | ⟨hns, _⟩
  · apply hcon (K + 1) (by omega)
    rw [hS K, he]
  · apply hns
    intro i hi
    have hio := hitU K i hi (inv1 K i)
    obtain ⟨m, _, hm⟩ := hio 0
    exact ((D.mem_track_hits _ _ _ i).1).2 (Or.inl (hfill i (D.inInf_lt hm) hio))

/-! ## The automaton built by `DRW::complement` -/

theorem DRW.complement_size (D : DRW) :
    D.complement.size = D.complement_explore.seen.length := rfl

theorem DRW.complement_alphabet_size (D : DRW) :
    D.complement.alphabet_size = D.alphabet_size := rfl

theorem DRW.complement_initial (D : DRW) : D.complement.initial = {0} := rfl

theorem DRW.mem_complement_final (D : DRW) (i : ℕ) :
    i ∈ D.complement.final ↔
      ∃ c, D.complement_explore.seen[i]? = some c ∧ c.in_initial_part = false ∧ c.s2 = ∅ := by
  have hf : D.complement.final =
      (List.range D.complement_explore.seen.length).foldl
        (fun s i =>
          if (match D.complement_explore.seen.get? i with
              | some c => !c.in_initial_part && decide (c.s2 = ∅)
              | none => false) = true then insert (id i) s else s) ∅ := by
    show (List.range D.complement_explore.seen.length).foldl _ ∅ = _
    congr 1
    funext s i
    cases h : D.complement_explore.seen.get? i <;> simp
  rw [hf, mem_foldl_cond_insert]
  simp only [Finset.not_mem_empty, false_or, List.mem_range, id]
  constructor
  · rintro ⟨j, hj, hp, rfl⟩
    cases h : D.complement_explore.seen.get? i with
    | none => rw [h] at hp; exact absurd hp (by simp)
    | some c =>
      rw [h] at hp
      simp only [Bool.and_eq_true, Bool.not_eq_true', decide_eq_true_eq] at hp
      exact ⟨c, by rw [← List.get?_eq_getElem?]; exact h, hp.1, hp.2⟩
  · rintro ⟨c, hc, h1, h2⟩
    have hlt : i < D.complement_explore.seen.length := by
      by_contra hcon
      rw [List.getElem?_eq_none (not_lt.1 hcon)] at hc
      exact absurd hc (by simp)
    refine ⟨i, hlt, ?_, rfl⟩
    rw [List.get?_eq_getElem?, hc]
    simp [h1, h2]

theorem DRW.mem_complement_delta (D : DRW) (hT : D.Total) (i a j : ℕ)
    (ha : a < D.alphabet_size) :
    j ∈ D.complement.delta i a ↔ (i, a, j) ∈ D.complement_explore.adjacency_list := by
  unfold NBW.delta
  rw [DRW.complement_alphabet_size]
  show j ∈ (NBW.ctor _ D.alphabet_size D.complement_explore.adjacency_list _ _).transition_matrix
    (i * D.alphabet_size + a) ↔ _
  rw [NBW.mem_ctor_matrix]
  constructor
  · rintro ⟨t, ht, hidx, hj⟩
    obtain ⟨_, _, _, ha', _⟩ := (D.complement_explore_spec hT).1.sound t ht
    obtain ⟨h1, h2⟩ := flat_index_inj ha ha' hidx
    have : t = (i, a, j) := by
      rw [h1, h2, hj]
    rw [← this]; exact ht
  · intro h
    exact ⟨(i, a, j), h, rfl, rfl⟩

theorem DRW.comp_successors_spec (D : DRW) (c : CompState) (a : ℕ) :
    ∀ next ∈ D.comp_successors c a,
      next.rabin_state = D.transition_matrix c.rabin_state a ∧
        (c.in_initial_part = false → next.in_initial_part = false ∧
          (next.s1, next.s2) = D.track (D.transition_matrix c.rabin_state a) c.s1 c.s2) := by
  intro next hn
  unfold DRW.comp_successors at hn
  by_cases hi : c.in_initial_part = true
  · rw [if_pos hi] at hn
    simp only [List.mem_cons, List.mem_singleton, List.not_mem_nil, or_false] at hn
    rcases hn with h | h
    · subst h
      exact ⟨rfl, fun hc => absurd hi (by rw [hc]; simp)⟩
    · subst h
      exact ⟨rfl, fun hc => absurd hi (by rw [hc]; simp)⟩
  · rw [if_neg hi] at hn
    simp only [List.mem_singleton] at hn
    subst hn
    exact ⟨rfl, fun _ => ⟨rfl, rfl⟩⟩

theorem DRW.comp_successors_congr (D : DRW) {c d : CompState} (h : c.key = d.key) (a : ℕ) :
    D.comp_successors c a = D.comp_successors d a := by
  unfold CompState.key at h
  simp only [Prod.mk.injEq] at h
  obtain ⟨h1, h2, h3, h4⟩ := h
  unfold DRW.comp_successors
  rw [h1, h2, h3, h4]

/-- A sequence chosen step by step. -/
theorem exists_seq_of_step (P : ℕ → ℕ → Prop) (R : ℕ → ℕ → ℕ → Prop) (j0 : ℕ) (h0 : P 0 j0)
    (hs : ∀ n j, P n j → ∃ j2, P (n + 1) j2 ∧ R n j j2) :
    ∃ rho : ℕ → ℕ, rho 0 = j0 ∧ ∀ n, P n (rho n) ∧ R n (rho n) (rho (n + 1)) := by
  let f : ∀ n, {j // P n j} := fun n =>
    Nat.rec (motive := fun n => {j // P n j}) ⟨j0, h0⟩
      (fun n x => ⟨Classical.choose (hs n x.1 x.2), (Classical.choose_spec (hs n x.1 x.2)).1⟩) n
  exact ⟨fun n => (f n).1, rfl,
    fun n => ⟨(f n).2, (Classical.choose_spec (hs n (f n).1 (f n).2)).2⟩⟩

/-- From an accepting run of the complement automaton: no pair has its
`infinite` set visited infinitely often and its `finite` set finitely often. -/
theorem DRW.complement_sound (D : DRW) (hT : D.Total) (w : ℕ → ℕ)
    (hw : ∀ n, w n < D.alphabet_size) (h : D.complement.Accepts w) (i : ℕ)
    (hinf : ∀ n, ∃ m, n ≤ m ∧ D.InInf i (D.run w m))
    (hfin : ∃ n, ∀ m, n ≤ m → ¬ D.InFin i (D.run w m)) : False := by
  obtain ⟨rho, ⟨hlt, h0, hstep⟩, hacc⟩ := h
  obtain ⟨inv, hseen0⟩ := D.complement_explore_spec hT
  have hlt2 : ∀ n, rho n < D.complement_explore.seen.length := hlt
  have hcs : ∀ n, D.complement_explore.seen[rho n]? =
      some (D.complement_explore.seen.get ⟨rho n, hlt2 n⟩) := fun n =>
    List.getElem?_eq_getElem (hlt2 n)
  generalize hcsdef : (fun n => D.complement_explore.seen.get ⟨rho n, hlt2 n⟩) = cs at *
  have hcs2 : ∀ n, D.complement_explore.seen[rho n]? = some (cs n) := by
    intro n; rw [← hcsdef]; exact hcs n
  have hadj : ∀ n, (rho n, w n, rho (n + 1)) ∈ D.complement_explore.adjacency_list :=
    fun n => (D.mem_complement_delta hT _ _ _ (hw n)).1 (hstep n)
  have hstepc : ∀ n, ∃ next ∈ D.comp_successors (cs n) (w n), (cs (n + 1)).key = next.key := by
    intro n
    obtain ⟨c, hc, hidx, _, next, hnext, c2, hc2, hkey⟩ := inv.sound _ (hadj n)
    obtain ⟨k, hk⟩ := List.mem_iff_getElem?.1 hc
    have hki := inv.good.index k c hk
    have hkr : k = rho n := hki.symm.trans hidx
    rw [hkr, hcs2 n] at hk
    have hceq : cs n = c := Option.some.inj hk
    have hc2' : D.complement_explore.seen[rho (n + 1)]? = some c2 := hc2
    rw [hcs2 (n + 1)] at hc2'
    have hc2eq : cs (n + 1) = c2 := Option.some.inj hc2'
    rw [hceq, hc2eq]
    exact ⟨next, hnext, hkey⟩
  have hcs0 : cs 0 =
      { rabin_state := D.initial_state, in_initial_part := true, s1 := ∅, s2 := ∅,
        buchi_index := 0 } := by
    have h00 : rho 0 = 0 := by
      rw [DRW.complement_initial] at h0
      exact Finset.mem_singleton.1 h0
    have := hcs2 0
    rw [h00, hseen0] at this
    exact (Option.some.inj this).symm
  have hkeyparts : ∀ {a b : CompState}, a.key = b.key →
      a.rabin_state = b.rabin_state ∧ a.in_initial_part = b.in_initial_part ∧
        a.s1 = b.s1 ∧ a.s2 = b.s2 := by
    intro a b hk
    unfold CompState.key at hk
    simpa only [Prod.mk.injEq] using hk
  have hr : ∀ n, (cs n).rabin_state = D.run w n := by
    intro n
    induction n with
    | zero => rw [hcs0]; rfl
    | succ n ih =>
      obtain ⟨next, hnext, hkey⟩ := hstepc n
      rw [(hkeyparts hkey).1, (D.comp_successors_spec _ _ next hnext).1, ih]
      rfl
  have htr : ∀ n, (cs n).in_initial_part = false →
      (cs (n + 1)).in_initial_part = false ∧
        ((cs (n + 1)).s1, (cs (n + 1)).s2) =
          D.track (D.run w (n + 1)) (cs n).s1 (cs n).s2 := by
    intro n hn
    obtain ⟨next, hnext, hkey⟩ := hstepc n
    obtain ⟨k1, k2, k3, k4⟩ := hkeyparts hkey
    obtain ⟨s1, s2⟩ := (D.comp_successors_spec _ _ next hnext).2 hn
    refine ⟨k2.trans s1, ?_⟩
    rw [k3, k4, s2, hr n]
    rfl
  have hacc2 : ∀ n, ∃ m, n ≤ m ∧ (cs m).in_initial_part = false ∧ (cs m).s2 = ∅ := by
    intro n
    obtain ⟨m, hm, hf⟩ := hacc n
    obtain ⟨c, hc, h1, h2⟩ := (D.mem_complement_final _).1 hf
    rw [hcs2 m] at hc
    have : cs m = c := Option.some.inj hc
    exact ⟨m, hm, by rw [this]; exact h1, by rw [this]; exact h2⟩
  obtain ⟨t0, _, ht0, _⟩ := hacc2 0
  have htrk : ∀ d, (cs (t0 + d)).in_initial_part = false := by
    intro d
    induction d with
    | zero => exact ht0
    | succ d ih => exact (htr (t0 + d) ih).1
  refine D.track_forward (D.run w) (fun n => ((cs n).s1, (cs n).s2)) t0 ?_ ?_ i hinf hfin
  · intro n hn
    have := htrk (n - t0)
    rw [Nat.add_sub_cancel' hn] at this
    exact (htr n this).2
  · intro n
    obtain ⟨m, hm, _, h2⟩ := hacc2 n
    exact ⟨m, hm, h2⟩

/-- If every pair whose `infinite` set is visited infinitely often has its
`finite` set visited infinitely often too, the complement automaton accepts. -/
theorem DRW.complement_complete (D : DRW) (hT : D.Total) (w : ℕ → ℕ)
    (hw : ∀ n, w n < D.alphabet_size)
    (hyp : ∀ i, (∀ n, ∃ m, n ≤ m ∧ D.InInf i (D.run w m)) →
      ∀ n, ∃ m, n ≤ m ∧ D.InFin i (D.run w m)) :
    D.complement.Accepts w := by
  obtain ⟨t0, hq⟩ := D.exists_quiet_time (D.run w)
  have hempty := D.track_backward (D.run w) t0 hyp hq
  obtain ⟨inv, hseen0⟩ := D.complement_explore_spec hT
  have hsucc : ∀ n, ∃ next ∈ D.comp_successors (D.comp_conf (D.run w) t0 n) (w n),
      next.key = (D.comp_conf (D.run w) t0 (n + 1)).key := by
    intro n
    unfold DRW.comp_conf
    by_cases h1 : n + 1 ≤ t0
    · rw [if_pos (by omega : n ≤ t0), if_pos h1]
      refine ⟨_, ?_, rfl⟩
      unfold DRW.comp_successors
      rw [if_pos rfl]
      exact List.mem_cons_self _ _
    · by_cases h2 : n ≤ t0
      · have hn : n = t0 := by omega
        rw [if_pos h2, if_neg h1]
        refine
          ⟨{ rabin_state := D.transition_matrix (D.run w n) (w n), in_initial_part := false,
             s1 := ∅, s2 := ∅, buchi_index := 0 }, ?_, ?_⟩
        · unfold DRW.comp_successors
          rw [if_pos rfl]
          exact List.mem_cons_of_mem _ (List.mem_singleton.2 rfl)
        · have hk : n + 1 - (t0 + 1) = 0 := by omega
          rw [hk]
          rfl
      · rw [if_neg h2, if_neg h1]
        have hk : n + 1 - (t0 + 1) = (n - (t0 + 1)) + 1 := by omega
        have hk2 : t0 + 1 + ((n - (t0 + 1)) + 1) = n + 1 := by omega
        generalize hS : D.track_seq (D.run w) t0 (n - (t0 + 1)) = S
        have hS1 : D.track_seq (D.run w) t0 (n + 1 - (t0 + 1)) =
            D.track (D.run w (n + 1)) S.1 S.2 := by
          rw [hk, ← hS]
          show D.track (D.run w (t0 + 1 + ((n - (t0 + 1)) + 1))) _ _ = _
          rw [hk2]
        rw [hS1]
        refine
          ⟨{ rabin_state := D.transition_matrix (D.run w n) (w n), in_initial_part := false,
             s1 := (D.track (D.transition_matrix (D.run w n) (w n)) S.1 S.2).1,
             s2 := (D.track (D.transition_matrix (D.run w n) (w n)) S.1 S.2).2,
             buchi_index := 0 }, ?_, rfl⟩
        unfold DRW.comp_successors
        rw [if_neg (by simp)]
        exact List.mem_singleton.2 rfl
  have hP0 : ∃ c, D.complement_explore.seen[0]? = some c ∧
      c.key = (D.comp_conf (D.run w) t0 0).key := by
    refine ⟨_, hseen0, ?_⟩
    unfold DRW.comp_conf
    rw [if_pos (Nat.zero_le _)]
    rfl
  obtain ⟨rho, hrho0, hrho⟩ := exists_seq_of_step
    (fun n j => ∃ c, D.complement_explore.seen[j]? = some c ∧
      c.key = (D.comp_conf (D.run w) t0 n).key)
    (fun n j j2 => (j, w n, j2) ∈ D.complement_explore.adjacency_list) 0 hP0
    (by
      rintro n j ⟨c, hc, hkey⟩
      obtain ⟨next, hnext, hnk⟩ := hsucc n
      rw [← D.comp_successors_congr hkey] at hnext
      have hmem : c ∈ D.complement_explore.seen := List.mem_iff_getElem?.2 ⟨j, hc⟩
      obtain ⟨j2, c2, hc2, hk2, hadj⟩ := inv.complete c hmem (w n) (hw n) next hnext
      rw [inv.good.index j c hc] at hadj
      exact ⟨j2, ⟨c2, hc2, hk2.trans hnk⟩, hadj⟩)
  have hlt : ∀ n, rho n < D.complement_explore.seen.length := by
    intro n
    obtain ⟨⟨c, hc, _⟩, _⟩ := hrho n
    by_contra hcon
    rw [List.getElem?_eq_none (not_lt.1 hcon)] at hc
    exact absurd hc (by simp)
  refine ⟨rho, ⟨hlt, ?_, ?_⟩, ?_⟩
  · rw [DRW.complement_initial, hrho0]
    exact Finset.mem_singleton.2 rfl
  · intro n
    exact (D.mem_complement_delta hT _ _ _ (hw n)).2 (hrho n).2
  · intro n
    obtain ⟨k, hk, he⟩ := hempty n
    refine ⟨t0 + 1 + k, by omega, ?_⟩
    obtain ⟨⟨c, hc, hkey⟩, _⟩ := hrho (t0 + 1 + k)
    refine (D.mem_complement_final _).2 ⟨c, hc, ?_⟩
    unfold DRW.comp_conf at hkey
    rw [if_neg (by omega), Nat.add_sub_cancel_left] at hkey
    unfold CompState.key at hkey
    simp only [Prod.mk.injEq] at hkey
    exact ⟨hkey.2.1, hkey.2.2.2.trans he⟩

/-! ## Claim about `DRW::complement` -/

theorem DRW.satisfies_iff (D : DRW) (w : ℕ → ℕ) (i : ℕ) (p : RabinPair)
    (hp : D.pairs.get? i = some p) :
    D.Satisfies w p ↔
      (∀ n, ∃ m, n ≤ m ∧ D.InInf i (D.run w m)) ∧ ∃ n, ∀ m, n ≤ m → ¬ D.InFin i (D.run w m) := by
  have hI : ∀ q, D.InInf i q ↔ q ∈ p.infinite := by
    intro q
    constructor
    · rintro ⟨rp, h1, h2⟩
      rw [hp] at h1
      rw [Option.some.inj h1]; exact h2
    · exact fun h => ⟨p, hp, h⟩
  have hF : ∀ q, D.InFin i q ↔ q ∈ p.finite := by
    intro q
    constructor
    · rintro ⟨rp, h1, h2⟩
      rw [hp] at h1
      rw [Option.some.inj h1]; exact h2
    · exact fun h => ⟨p, hp, h⟩
  unfold DRW.Satisfies
  simp only [hI, hF]

theorem DRW.complement_language (D : DRW) (hT : D.Total) (w : ℕ → ℕ)
    (hw : ∀ n, w n < D.alphabet_size) :
    D.complement.Accepts w ↔ ∀ p ∈ D.pairs, ¬ D.Satisfies w p := by
  constructor
  · intro h p hp hs
    obtain ⟨i, hi⟩ := List.mem_iff_get?.1 hp
    obtain ⟨h1, h2⟩ := (D.satisfies_iff w i p hi).1 hs
    exact D.complement_sound hT w hw h i h1 h2
  · intro h
    apply D.complement_complete hT w hw
    intro i hinf
    obtain ⟨m, _, rp, hrp, _⟩ := hinf 0
    have hmem : rp ∈ D.pairs := List.mem_iff_get?.2 ⟨i, hrp⟩
    have hns := h rp hmem
    rw [D.satisfies_iff w i rp hrp] at hns
    by_contra hcon
    apply hns
    refine ⟨hinf, ?_⟩
    push_neg at hcon
    obtain ⟨n, hn⟩ := hcon
    exact ⟨n, hn⟩

/-- C2. For every DRW `D` with a total transition table and every infinite word
`w` over its alphabet, the NBW returned by `D.complement()` has a run on `w`
from its initial state that visits accepting states infinitely often if and only
if the run of `D` on `w` satisfies no Rabin pair of `D`. -/
theorem DRW.complement_correct (D : DRW) (hT : D.Total) (w : ℕ → ℕ)
    (hw : ∀ n, w n < D.alphabet_size) :
    D.complement.Accepts w ↔ ∀ p ∈ D.pairs, ¬ D.Satisfies w p :=
  D.complement_language hT w hw

/-- Witness for C2: the automaton whose state is the last letter read, on the
word `1 1 1 ..`. -/
theorem DRW.complement_correct_witness :
    (DRW.last_letter.Total ∧ ∀ n, (fun _ => 1 : ℕ → ℕ) n < DRW.last_letter.alphabet_size) ∧
    (DRW.last_letter.complement.Accepts (fun _ => 1) ↔
      ∀ p ∈ DRW.last_letter.pairs, ¬ DRW.last_letter.Satisfies (fun _ => 1) p) :=
  ⟨⟨⟨Nat.two_pos, fun _ _ _ ha => ha⟩, fun _ => Nat.one_lt_two⟩,
    DRW.complement_correct DRW.last_letter ⟨Nat.two_pos, fun _ _ _ ha => ha⟩ (fun _ => 1)
      (fun _ => Nat.one_lt_two)⟩

/-! ## Claims about the `trimmed` flag, `project` and the size of `disjoint_sum` -/

theorem NBW.trim_trimmed_iff (A : NBW) :
    A.trim.2.trimmed = true ↔
      A.trimmed = true ∨ (1 < A.size ∧ ∃ s, A.Accessible s ∧ A.Coaccessible s) := by
  by_cases h1 : A.trimmed = true
  · have : A.trim = (0, A) := by
      unfold NBW.trim
      rw [if_pos h1]
    rw [this]
    exact ⟨fun _ => Or.inl h1, fun _ => h1⟩
  · have h1f : A.trimmed = false := by simpa using h1
    by_cases h2 : A.size ≤ 1
    · have : A.trim = (0, A) := by
        unfold NBW.trim
        rw [if_neg h1, if_pos h2]
      rw [this]
      constructor
      · intro h; exact absurd h h1
      · rintro (h | ⟨h, _⟩)
        · exact absurd h h1
        · omega
    · have h2' : 1 < A.size := by omega
      by_cases hk : (A.accessible_states ∩ A.coaccessible_states).card = 0
      · rw [A.trim_empty_eq h1f h2' hk]
        constructor
        · intro h; exact absurd h h1
        · rintro (h | ⟨_, s, hs⟩)
          · exact absurd h h1
          · have hmem := (A.mem_keep s).2 hs
            rw [Finset.card_eq_zero] at hk
            rw [hk] at hmem
            exact absurd hmem (Finset.not_mem_empty _)
      · rw [A.trim_renumber_eq h1f h2' hk]
        constructor
        · intro _
          obtain ⟨s, hs⟩ := Finset.card_pos.1 (Nat.pos_of_ne_zero hk)
          exact Or.inr ⟨h2', s, (A.mem_keep s).1 hs⟩
        · intro _; rfl

theorem NBW.trim_size_add (A : NBW) : A.trim.2.size + A.trim.1 = A.size := by
  by_cases h1 : A.trimmed = true
  · have : A.trim = (0, A) := by
      unfold NBW.trim
      rw [if_pos h1]
    rw [this]
    rfl
  · have h1f : A.trimmed = false := by simpa using h1
    by_cases h2 : A.size ≤ 1
    · have : A.trim = (0, A) := by
        unfold NBW.trim
        rw [if_neg h1, if_pos h2]
      rw [this]
      rfl
    · have h2' : 1 < A.size := by omega
      by_cases hk : (A.accessible_states ∩ A.coaccessible_states).card = 0
      · rw [A.trim_empty_eq h1f h2' hk]
        show 1 + (A.size - 1) = A.size
        omega
      · rw [A.trim_renumber_eq h1f h2' hk]
        show (A.accessible_states ∩ A.coaccessible_states).card +
          (A.size - (A.accessible_states ∩ A.coaccessible_states).card) = A.size
        have hle : (A.accessible_states ∩ A.coaccessible_states).card ≤ A.size := by
          have hsub : A.accessible_states ∩ A.coaccessible_states ⊆ Finset.range A.size := by
            intro x hx
            exact Finset.mem_range.2 ((A.mem_keep x).1 hx).2.1
          simpa using Finset.card_le_card hsub
        omega

/-- C11, amended. After `trim` the flag `trimmed` is true exactly when it was
true before the call, or the automaton had more than one state and some state
both accessible and coaccessible: the branch for at most one state and the
branch that collapses an automaton without such a state return without
touching the flag. -/
theorem NBW.trim_sets_trimmed (A : NBW) :
    A.trim.2.trimmed = true ↔
      A.trimmed = true ∨ (1 < A.size ∧ ∃ s, A.Accessible s ∧ A.Coaccessible s) :=
  A.trim_trimmed_iff

/-- Counterexample to C11 as stated: on the one-state automaton without
transitions, and on the two-state automaton without transitions (which `trim`
collapses to one state), the flag is still false after `trim`. -/
theorem NBW.trim_sets_trimmed_counterexample :
    (NBW.ctor 1 1 [] {0} ∅).trim.2.trimmed = false ∧
      (NBW.ctor 2 1 [] {0} ∅).trim.2.trimmed = false ∧
      (NBW.ctor 2 1 [] {0} ∅).trim.2.size = 1 := by
  decide

/-- C13. On an alphabet of size `2 ^ m` and for a track `k < m`, after
`project(k)` the successor set of every state `s` on every symbol `c` is the
union of the old successor sets on `c` and on `c xor 2 ^ k`, so it is the same
on `c` and on `c xor 2 ^ k`; and the flag `trimmed` is false. -/
theorem NBW.project_unifies (A : NBW) (m k : ℕ) (hsig : A.alphabet_size = 2 ^ m) (hk : k < m)
    (s c : ℕ) (hs : s < A.size) (hc : c < A.alphabet_size) :
    (A.project k).delta s c = A.delta s c ∪ A.delta s (c ^^^ 2 ^ k) ∧
      (A.project k).delta s c = (A.project k).delta s (c ^^^ 2 ^ k) ∧
      (A.project k).trimmed = false := by
  have hc2 : c ^^^ 2 ^ k < A.alphabet_size := by
    rw [hsig] at hc ⊢
    exact xor_two_pow_lt hc hk
  refine ⟨A.project_matrix m k hsig hk s c hs hc, ?_, rfl⟩
  rw [A.project_matrix m k hsig hk s c hs hc, A.project_matrix m k hsig hk s _ hs hc2,
    xor_two_pow_twice, Finset.union_comm]

/-- Witness for C13: two symbols (`m = 1`), track 0, the automaton with the one
transition `0 -1-> 0`, state 0 and symbol 0. -/
theorem NBW.project_unifies_witness :
    ((NBW.ctor 1 2 [(0, 1, 0)] {0} {0}).alphabet_size = 2 ^ 1 ∧ 0 < 1 ∧
      0 < (NBW.ctor 1 2 [(0, 1, 0)] {0} {0}).size ∧
      0 < (NBW.ctor 1 2 [(0, 1, 0)] {0} {0}).alphabet_size) ∧
    (((NBW.ctor 1 2 [(0, 1, 0)] {0} {0}).project 0).delta 0 0 =
        (NBW.ctor 1 2 [(0, 1, 0)] {0} {0}).delta 0 0 ∪
          (NBW.ctor 1 2 [(0, 1, 0)] {0} {0}).delta 0 (0 ^^^ 2 ^ 0) ∧
      ((NBW.ctor 1 2 [(0, 1, 0)] {0} {0}).project 0).delta 0 0 =
        ((NBW.ctor 1 2 [(0, 1, 0)] {0} {0}).project 0).delta 0 (0 ^^^ 2 ^ 0) ∧
      ((NBW.ctor 1 2 [(0, 1, 0)] {0} {0}).project 0).trimmed = false) :=
  ⟨⟨rfl, Nat.one_pos, Nat.one_pos, Nat.two_pos⟩,
    NBW.project_unifies (NBW.ctor 1 2 [(0, 1, 0)] {0} {0}) 1 0 rfl Nat.one_pos 0 0
      Nat.one_pos Nat.two_pos⟩

/-- C14, amended. The automaton returned by `disjoint_sum(A, B)` has as many
states as `A` and `B` have after the two calls of `trim` that the function
starts with: `A.N + B.N` less the numbers of states that the two calls remove
(their return values). -/
theorem NBW.disjoint_sum_size (A B : NBW) :
    (NBW.disjoint_sum A B).size = A.trim.2.size + B.trim.2.size ∧
      (NBW.disjoint_sum A B).size + (A.trim.1 + B.trim.1) = A.size + B.size := by
  have hA := A.trim_size_add
  have hB := B.trim_size_add
  have h : (NBW.disjoint_sum A B).size = A.trim.2.size + B.trim.2.size := rfl
  exact ⟨h, by omega⟩

/-- Counterexample to C14 as stated: the first operand has three states, one of
them unreachable, the second has one state; the sum has three states, not
four. -/
theorem NBW.disjoint_sum_size_counterexample :
    (NBW.disjoint_sum (NBW.ctor 3 1 [(0, 0, 1), (1, 0, 1)] {0} {1})
        (NBW.ctor 1 1 [(0, 0, 0)] {0} {0})).size = 3 ∧
      (NBW.ctor 3 1 [(0, 0, 1), (1, 0, 1)] {0} {1}).size +
        (NBW.ctor 1 1 [(0, 0, 0)] {0} {0}).size = 4 := by
  decide

/-! ## Claim about `coaccessible_states` -/

theorem NBW.mem_alive_with (A : NBW) (sccs : ℕ → ℕ) (x : ℕ) :
    x ∈ (A.component_scan sccs A.self_loop_alive).1 ↔
      x < A.size ∧
        ((x ∈ A.final ∧ ∃ c, c < A.alphabet_size ∧ x ∈ A.delta x c) ∨
          (x ∈ A.final ∧ ∃ j, j < x ∧ sccs j = sccs x) ∨
          (x ∉ A.final ∧ ∃ j, j < x ∧ j ∈ A.final ∧ sccs j = sccs x)) := by
  unfold NBW.component_scan
  rw [(A.component_scan_prefix sccs A.self_loop_alive A.size).1, NBW.mem_self_loop_alive]
  constructor
  · rintro (⟨hx, h⟩ | ⟨hx, h⟩)
    · exact ⟨hx, Or.inl h⟩
    · exact ⟨hx, Or.inr h⟩
  · rintro ⟨hx, h | h⟩
    · exact Or.inl ⟨hx, h⟩
    · exact Or.inr ⟨hx, h⟩

theorem NBW.alive_with_sound (A : NBW) (sccs : ℕ → ℕ) (hs : A.IsComponentMap sccs) {x : ℕ}
    (h : x ∈ (A.component_scan sccs A.self_loop_alive).1) : A.Coaccessible x := by
  rw [NBW.mem_alive_with] at h
  obtain ⟨hx, h⟩ := h
  refine ⟨hx, ?_⟩
  rcases h with ⟨hf, c, hc, hd⟩ | ⟨hf, j, hj, he⟩ | ⟨hf, j, hj, hjf, he⟩
  · exact ⟨x, hf, Relation.ReflTransGen.refl, Relation.TransGen.single ⟨hx, hx, c, hc, hd⟩⟩
  · have hjs : j < A.size := lt_trans hj hx
    obtain ⟨hjx, hxj⟩ := (hs j x hjs hx).1 he
    rcases Relation.reflTransGen_iff_eq_or_transGen.1 hxj with h | h
    · omega
    · exact ⟨x, hf, Relation.ReflTransGen.refl, h.trans_left hjx⟩
  · have hjs : j < A.size := lt_trans hj hx
    obtain ⟨hjx, hxj⟩ := (hs j x hjs hx).1 he
    rcases Relation.reflTransGen_iff_eq_or_transGen.1 hjx with h | h
    · omega
    · exact ⟨j, hjf, hxj, h.trans_left hxj⟩

theorem NBW.alive_with_complete (A : NBW) (sccs : ℕ → ℕ) (hs : A.IsComponentMap sccs) {x : ℕ}
    (h : A.Coaccessible x) :
    ∃ s, s ∈ (A.component_scan sccs A.self_loop_alive).1 ∧ A.Reach x s := by
  obtain ⟨_, f, hf, hxf, hcyc⟩ := h
  obtain ⟨g, hfg, hgf⟩ := Relation.TransGen.head'_iff.1 hcyc
  have hfs : f < A.size := hfg.1
  have hgs : g < A.size := hfg.2.1
  have hscc : sccs f = sccs g :=
    (hs f g hfs hgs).2 ⟨Relation.ReflTransGen.single hfg, hgf⟩
  rcases Nat.lt_trichotomy g f with hlt | heq | hgt
  · exact ⟨f, (A.mem_alive_with sccs f).2 ⟨hfs, Or.inr (Or.inl ⟨hf, g, hlt, hscc.symm⟩)⟩, hxf⟩
  · subst heq
    obtain ⟨_, _, c, hc, hd⟩ := hfg
    exact ⟨g, (A.mem_alive_with sccs g).2 ⟨hgs, Or.inl ⟨hf, c, hc, hd⟩⟩, hxf⟩
  · by_cases hgf2 : g ∈ A.final
    · exact ⟨g, (A.mem_alive_with sccs g).2 ⟨hgs, Or.inr (Or.inl ⟨hgf2, f, hgt, hscc⟩)⟩,
        hxf.tail hfg⟩
    · exact ⟨g, (A.mem_alive_with sccs g).2 ⟨hgs, Or.inr (Or.inr ⟨hgf2, f, hgt, hf, hscc⟩)⟩,
        hxf.tail hfg⟩

theorem NBW.mem_coaccessible_states_with (A : NBW) (sccs : ℕ → ℕ) (hs : A.IsComponentMap sccs)
    (x : ℕ) : x ∈ A.coaccessible_states_with sccs ↔ A.Coaccessible x := by
  unfold NBW.coaccessible_states_with
  simp only
  rw [NBW.coaccessible_loop_eq,
    search_loop_spec A.size (fun q y hy => ((A.mem_reverse_accessible q y).1 hy).1)
      (fun y hy hlt => by simp [hy, hlt]) A.size 0 _ (search_inv_init _ _ _) (by omega)]
  constructor
  · rintro (h | ⟨s, hs1, hr⟩)
    · exact A.alive_with_sound sccs hs h
    · simp only [List.mem_filter, List.mem_range, decide_eq_true_eq] at hs1
      have hxs := (A.reach_iff_reverse hs1.1 x).1 hr
      obtain ⟨_, f, hf, hsf, hcyc⟩ := A.alive_with_sound sccs hs hs1.2
      exact ⟨A.reach_lt_left hxs hs1.1, f, hf, hxs.trans hsf, hcyc⟩
  · intro h
    obtain ⟨s, hs1, hxs⟩ := A.alive_with_complete sccs hs h
    have hss : s < A.size := ((A.mem_alive_with sccs s).1 hs1).1
    exact Or.inr ⟨s, by simp [hs1, hss], (A.reach_iff_reverse hss x).2 hxs⟩

theorem NBW.path_reach (A : NBW) {p : ℕ → ℕ} (hp : ∀ n, A.Edge (p n) (p (n + 1))) (a d : ℕ) :
    A.Reach (p a) (p (a + d)) := by
  induction d with
  | zero => exact Relation.ReflTransGen.refl
  | succ d ih => exact ih.tail (hp (a + d))

theorem NBW.coaccessible_of_live_path (A : NBW) {s : ℕ} (h : A.LivePath s) :
    A.Coaccessible s := by
  obtain ⟨p, h0, hp, hacc⟩ := h
  obtain ⟨f, _, hf, hinf⟩ := infinitely_often_pigeonhole p (fun s => s ∈ A.final) A.size
    (fun n => by
      obtain ⟨m, hm, hmf⟩ := hacc n
      exact ⟨m, hm, (hp m).1, hmf⟩)
  obtain ⟨m1, _, e1⟩ := hinf 0
  obtain ⟨m2, hm2, e2⟩ := hinf (m1 + 1)
  refine ⟨by rw [← h0]; exact (hp 0).1, f, hf, ?_, ?_⟩
  · have := A.path_reach hp 0 m1
    rwa [Nat.zero_add, h0, e1] at this
  · have h1 := hp m1
    have h2 := A.path_reach hp (m1 + 1) (m2 - (m1 + 1))
    rw [Nat.add_sub_cancel' hm2, e2] at h2
    rw [e1] at h1
    exact Relation.TransGen.head' h1 h2

theorem NBW.live_path_of_coaccessible (A : NBW) {s : ℕ} (h : A.Coaccessible s) :
    A.LivePath s := by
  have hacc : NBW.Accessible { A with initial := {s} } s :=
    ⟨s, Finset.mem_singleton_self s, h.1, Relation.ReflTransGen.refl⟩
  have hco : NBW.Coaccessible { A with initial := {s} } s := h
  obtain ⟨w, hw, rho, hr, hfin⟩ := NBW.accepts_of_useful { A with initial := {s} } hacc hco
  refine ⟨rho, Finset.mem_singleton.1 hr.2.1, fun n => ?_, hfin⟩
  exact NBW.run_edge { A with initial := {s} } hw hr n

theorem NBW.strong_components_is_component_map (A : NBW) :
    A.IsComponentMap A.strong_components :=
  fun _ _ hu hv => A.strong_components_eq_iff hu hv

/-- C12. Whatever numbering `sccs` of the strongly connected components
`coaccessible_states` is given, it returns exactly the set of states `s` from
which some infinite path visits accepting states infinitely often;
equivalently, the states with a path of length `>= 0` to an accepting state
that lies on a cycle. So the result is the same for any two numberings. -/
theorem NBW.coaccessible_states_exact (A : NBW) (sccs : ℕ → ℕ) (hs : A.IsComponentMap sccs)
    (s : ℕ) :
    (s ∈ A.coaccessible_states_with sccs ↔ A.LivePath s) ∧
      (A.LivePath s ↔
        s < A.size ∧ ∃ f, f ∈ A.final ∧ A.Reach s f ∧ Relation.TransGen A.Edge f f) ∧
      ∀ sccs2, A.IsComponentMap sccs2 →
        A.coaccessible_states_with sccs2 = A.coaccessible_states_with sccs := by
  have hlive : A.LivePath s ↔ A.Coaccessible s :=
    ⟨A.coaccessible_of_live_path, A.live_path_of_coaccessible⟩
  refine ⟨(A.mem_coaccessible_states_with sccs hs s).trans hlive.symm, hlive, ?_⟩
  intro sccs2 hs2
  ext x
  rw [A.mem_coaccessible_states_with sccs hs, A.mem_coaccessible_states_with sccs2 hs2]

/-- Witness for C12: `0 -0-> 1 -0-> 1` with state 1 accepting and an isolated
third state, with the numbering of the components by their least member that
`coaccessible_states` uses, and state 0. -/
theorem NBW.coaccessible_states_exact_witness :
    (NBW.ctor 3 1 [(0, 0, 1), (1, 0, 1)] {0} {1}).IsComponentMap
        (NBW.ctor 3 1 [(0, 0, 1), (1, 0, 1)] {0} {1}).strong_components ∧
      (NBW.ctor 3 1 [(0, 0, 1), (1, 0, 1)] {0} {1}).coaccessible_states =
        (NBW.ctor 3 1 [(0, 0, 1), (1, 0, 1)] {0} {1}).coaccessible_states_with
          (NBW.ctor 3 1 [(0, 0, 1), (1, 0, 1)] {0} {1}).strong_components ∧
      (0 ∈ (NBW.ctor 3 1 [(0, 0, 1), (1, 0, 1)] {0} {1}).coaccessible_states_with
          (NBW.ctor 3 1 [(0, 0, 1), (1, 0, 1)] {0} {1}).strong_components ↔
        (NBW.ctor 3 1 [(0, 0, 1), (1, 0, 1)] {0} {1}).LivePath 0) :=
  ⟨NBW.strong_components_is_component_map _, rfl,
    (NBW.coaccessible_states_exact (NBW.ctor 3 1 [(0, 0, 1), (1, 0, 1)] {0} {1})
      (NBW.ctor 3 1 [(0, 0, 1), (1, 0, 1)] {0} {1}).strong_components
      (NBW.strong_components_is_component_map _) 0).1⟩

/-! ## Claim about `product` -/

theorem NBW.product_matrix (one two : NBW) (idx t : ℕ) :
    t ∈ (NBW.product_of_trimmed one two).transition_matrix idx ↔
      ∃ state ∈ List.range (one.size * two.size), ∃ c ∈ List.range one.alphabet_size,
        ∃ target ∈ List.range (one.size * two.size),
          (target / two.size ∈ one.transition_matrix (state / two.size * one.alphabet_size + c) ∧
            target % two.size ∈
              two.transition_matrix (state % two.size * two.alphabet_size + c)) ∧
            idx = state * one.alphabet_size + c ∧ t = target := by
  unfold NBW.product_of_trimmed
  simp only
  rw [foldl_bits _
    (fun state idx t => ∃ c ∈ List.range one.alphabet_size,
      ∃ target ∈ List.range (one.size * two.size),
        (target / two.size ∈ one.transition_matrix (state / two.size * one.alphabet_size + c) ∧
          target % two.size ∈
            two.transition_matrix (state % two.size * two.alphabet_size + c)) ∧
          idx = state * one.alphabet_size + c ∧ t = target)]
  · simp only [Finset.not_mem_empty, false_or]
  intro tm state idx t
  refine foldl_bits _
    (fun c idx t => ∃ target ∈ List.range (one.size * two.size),
      (target / two.size ∈ one.transition_matrix (state / two.size * one.alphabet_size + c) ∧
        target % two.size ∈
          two.transition_matrix (state % two.size * two.alphabet_size + c)) ∧
        idx = state * one.alphabet_size + c ∧ t = target)
    ?_ _ _ idx t
  intro tm c idx t
  refine foldl_bits _
    (fun target idx t =>
      (target / two.size ∈ one.transition_matrix (state / two.size * one.alphabet_size + c) ∧
        target % two.size ∈
          two.transition_matrix (state % two.size * two.alphabet_size + c)) ∧
        idx = state * one.alphabet_size + c ∧ t = target)
    ?_ _ _ idx t
  intro tm target idx t
  by_cases h : target / two.size ∈
      one.transition_matrix (state / two.size * one.alphabet_size + c) ∧
      target % two.size ∈ two.transition_matrix (state % two.size * two.alphabet_size + c)
  · rw [if_pos h, mem_set_bit]
    simp only [h, true_and, and_self]
  · rw [if_neg h]
    simp only [h, false_and, or_false]

theorem pair_index_lt {n m i j : ℕ} (hi : i < n) (hj : j < m) : i * m + j < n * m := by
  have h1 : i * m + j < (i + 1) * m := by rw [Nat.add_mul, Nat.one_mul]; omega
  exact lt_of_lt_of_le h1 (Nat.mul_le_mul_right m hi)

theorem pair_index_div {m i j : ℕ} (hj : j < m) : (i * m + j) / m = i := by
  have hm : 0 < m := by omega
  rw [Nat.add_comm, Nat.add_mul_div_right _ _ hm, Nat.div_eq_of_lt hj, Nat.zero_add]

theorem pair_index_mod {m i j : ℕ} (hj : j < m) : (i * m + j) % m = j := by
  rw [Nat.add_comm, Nat.add_mul_mod_self_right, Nat.mod_eq_of_lt hj]

theorem NBW.product_spec (one two : NBW) (hsig : one.alphabet_size = two.alphabet_size)
    (i j : ℕ) (hi : i < one.size) (hj : j < two.size) :
    (NBW.product_of_trimmed one two).size = one.size * two.size ∧
      (∀ a, a < one.alphabet_size → ∀ t,
        (t ∈ (NBW.product_of_trimmed one two).delta (i * two.size + j) a ↔
          ∃ i2 j2, i2 < one.size ∧ j2 < two.size ∧ t = i2 * two.size + j2 ∧
            i2 ∈ one.delta i a ∧ j2 ∈ two.delta j a)) ∧
      (i * two.size + j ∈ (NBW.product_of_trimmed one two).initial ↔
        i ∈ one.initial ∧ j ∈ two.initial) ∧
      (i * two.size + j ∈ (NBW.product_of_trimmed one two).final ↔
        i ∈ one.final ∧ j ∈ two.final) := by
  have hlt : i * two.size + j < one.size * two.size := pair_index_lt hi hj
  refine ⟨rfl, ?_, ?_, ?_⟩
  · intro a ha t
    show t ∈ (NBW.product_of_trimmed one two).transition_matrix
      ((i * two.size + j) * one.alphabet_size + a) ↔ _
    rw [NBW.product_matrix]
    simp only [List.mem_range]
    constructor
    · rintro ⟨state, _, c, hc, target, htarget, ⟨h1, h2⟩, hidx, rfl⟩
      obtain ⟨e1, e2⟩ := flat_index_inj ha hc hidx
      subst e1 e2
      rw [pair_index_div hj] at h1
      rw [pair_index_mod hj, ← hsig] at h2
      refine ⟨t / two.size, t % two.size, ?_, Nat.mod_lt _ (by omega), ?_, h1, ?_⟩
      · exact (Nat.div_lt_iff_lt_mul (by omega)).2 htarget
      · rw [Nat.mul_comm]; exact (Nat.div_add_mod t two.size).symm
      · unfold NBW.delta; rw [← hsig]; exact h2
    · rintro ⟨i2, j2, hi2, hj2, rfl, h1, h2⟩
      refine ⟨i * two.size + j, hlt, a, ha, i2 * two.size + j2, pair_index_lt hi2 hj2,
        ⟨?_, ?_⟩, rfl, rfl⟩
      · rw [pair_index_div hj, pair_index_div hj2]; exact h1
      · rw [pair_index_mod hj, pair_index_mod hj2, ← hsig]
        unfold NBW.delta at h2; rw [← hsig] at h2; exact h2
  · unfold NBW.product_of_trimmed
    simp only
    rw [mem_foldl_cond_insert (fun i => i)
      (fun i => i / two.size ∈ one.initial ∧ i % two.size ∈ two.initial)]
    simp only [Finset.not_mem_empty, false_or, List.mem_range]
    constructor
    · rintro ⟨x, _, h, e⟩
      rw [← e, pair_index_div hj, pair_index_mod hj] at h
      exact h
    · intro h
      exact ⟨_, hlt, by rw [pair_index_div hj, pair_index_mod hj]; exact h, rfl⟩
  · unfold NBW.product_of_trimmed
    simp only
    rw [mem_foldl_cond_insert (fun i => i)
      (fun i => i / two.size ∈ one.final ∧ i % two.size ∈ two.final)]
    simp only [Finset.not_mem_empty, false_or, List.mem_range]
    constructor
    · rintro ⟨x, _, h, e⟩
      rw [← e, pair_index_div hj, pair_index_mod hj] at h
      exact h
    · intro h
      exact ⟨_, hlt, by rw [pair_index_div hj, pair_index_mod hj]; exact h, rfl⟩

theorem NBW.trim_noop (A : NBW) (h : A.trimmed = true ∨ A.size ≤ 1) : A.trim.2 = A := by
  unfold NBW.trim
  by_cases h1 : A.trimmed = true
  · rw [if_pos h1]
  · rw [if_neg h1, if_pos (h.resolve_left h1)]

/-- C15. For automata `A` and `B` over the same alphabet on which `trim` is a
no-op (already trimmed, or at most one state), `product(A, B)` is the
synchronous product: it has `A.N * B.N` states; for states `i` of `A` and `j`
of `B`, the successors of state `i * B.N + j` on a symbol `a` are exactly the
states `i2 * B.N + j2` with `i2` a successor of `i` in `A` and `j2` a successor
of `j` in `B` on `a`; and `i * B.N + j` is initial (accepting) iff `i` is initial
(accepting) in `A` and `j` is in `B`. -/
theorem NBW.product_synchronous (A B : NBW) (hsig : A.alphabet_size = B.alphabet_size)
    (hA : A.trimmed = true ∨ A.size ≤ 1) (hB : B.trimmed = true ∨ B.size ≤ 1)
    (i j : ℕ) (hi : i < A.size) (hj : j < B.size) :
    (NBW.product A B).size = A.size * B.size ∧
      (∀ a, a < A.alphabet_size → ∀ t,
        (t ∈ (NBW.product A B).delta (i * B.size + j) a ↔
          ∃ i2 j2, i2 < A.size ∧ j2 < B.size ∧ t = i2 * B.size + j2 ∧
            i2 ∈ A.delta i a ∧ j2 ∈ B.delta j a)) ∧
      (i * B.size + j ∈ (NBW.product A B).initial ↔ i ∈ A.initial ∧ j ∈ B.initial) ∧
      (i * B.size + j ∈ (NBW.product A B).final ↔ i ∈ A.final ∧ j ∈ B.final) := by
  unfold NBW.product
  rw [A.trim_noop hA, B.trim_noop hB]
  exact NBW.product_spec A B hsig i j hi hj

/-- Witness for C15: the one-state automaton with a self-loop and the one-state
automaton without transitions, both on one symbol, and the pair `(0, 0)`. -/
theorem NBW.product_synchronous_witness :
    ((NBW.ctor 1 1 [(0, 0, 0)] {0} {0}).alphabet_size = (NBW.ctor 1 1 [] {0} ∅).alphabet_size ∧
      ((NBW.ctor 1 1 [(0, 0, 0)] {0} {0}).trimmed = true ∨
        (NBW.ctor 1 1 [(0, 0, 0)] {0} {0}).size ≤ 1) ∧
      ((NBW.ctor 1 1 [] {0} ∅).trimmed = true ∨ (NBW.ctor 1 1 [] {0} ∅).size ≤ 1) ∧
      0 < (NBW.ctor 1 1 [(0, 0, 0)] {0} {0}).size ∧ 0 < (NBW.ctor 1 1 [] {0} ∅).size) ∧
    ((NBW.product (NBW.ctor 1 1 [(0, 0, 0)] {0} {0}) (NBW.ctor 1 1 [] {0} ∅)).size =
        (NBW.ctor 1 1 [(0, 0, 0)] {0} {0}).size * (NBW.ctor 1 1 [] {0} ∅).size ∧
      (0 * (NBW.ctor 1 1 [] {0} ∅).size + 0 ∈
          (NBW.product (NBW.ctor 1 1 [(0, 0, 0)] {0} {0}) (NBW.ctor 1 1 [] {0} ∅)).final ↔
        0 ∈ (NBW.ctor 1 1 [(0, 0, 0)] {0} {0}).final ∧ 0 ∈ (NBW.ctor 1 1 [] {0} ∅).final)) :=
  ⟨⟨rfl, Or.inr (le_refl 1), Or.inr (le_refl 1), Nat.one_pos, Nat.one_pos⟩,
    (NBW.product_synchronous (NBW.ctor 1 1 [(0, 0, 0)] {0} {0}) (NBW.ctor 1 1 [] {0} ∅) rfl
      (Or.inr (le_refl 1)) (Or.inr (le_refl 1)) 0 0 Nat.one_pos Nat.one_pos).1,
    (NBW.product_synchronous (NBW.ctor 1 1 [(0, 0, 0)] {0} {0}) (NBW.ctor 1 1 [] {0} ∅) rfl
      (Or.inr (le_refl 1)) (Or.inr (le_refl 1)) 0 0 Nat.one_pos Nat.one_pos).2.2.2⟩

/-! ## Claim about `DRW::is_empty` -/

theorem DRW.leave_once_run (w : ℕ → ℕ) (n : ℕ) : DRW.leave_once.run w (n + 1) = 0 := rfl

theorem DRW.flip_flop_run (w : ℕ → ℕ) (n : ℕ) : DRW.flip_flop.run w (2 * n) = 0 := by
  induction n with
  | zero => rfl
  | succ n ih =>
    show 1 - (1 - DRW.flip_flop.run w (2 * n)) = 0
    rw [ih]

/-- C16. `DRW::is_empty` answers "not empty" for the automaton `1 -> 0 -> 0`
with the pair `infinite = {1}`, although the pair is not satisfiable and the
automaton accepts no word; and it answers "empty" for `0 -> 1 -> 0` with the
pair `infinite = {0}`, although the pair is satisfiable and the automaton
accepts `0 0 0 ..`. Both answers are the same for every result `sccs` of the
component search. -/
theorem DRW.is_empty_wrong (sccs : ℕ → ℕ → ℕ) :
    ((DRW.leave_once.is_empty sccs).1 = false ∧
        (∀ rp ∈ DRW.leave_once.pairs, ¬ DRW.leave_once.PairSatisfiable rp) ∧
        ∀ w, ¬ DRW.leave_once.Accepts w) ∧
      ((DRW.flip_flop.is_empty sccs).1 = true ∧
        (∃ rp ∈ DRW.flip_flop.pairs, DRW.flip_flop.PairSatisfiable rp) ∧
        DRW.flip_flop.Accepts (fun _ => 0)) := by
  refine ⟨⟨?_, ?_, ?_⟩, ?_, ?_, ?_⟩
  · simp [DRW.is_empty, DRW.leave_once, DRW.is_empty_pair, DRW.self_loop_scan, List.range_succ,
      List.range_zero]
  · intro rp hrp
    have hrp2 : rp = { infinite := {1}, finite := ∅ } := List.mem_singleton.1 hrp
    subst hrp2
    rintro ⟨q, _, hq, _, h | ⟨q2, hne, _, h2⟩⟩
    · have hq1 : q = 1 := Finset.mem_singleton.1 hq
      subst hq1
      obtain ⟨_, _, _, a, _, ha⟩ := h
      exact Nat.zero_ne_one ha
    · have hq1 : q = 1 := Finset.mem_singleton.1 hq
      subst hq1
      rcases Relation.ReflTransGen.cases_tail h2 with h | ⟨b, _, hb⟩
      · exact hne h.symm
      · obtain ⟨_, _, _, a, _, ha⟩ := hb
        exact Nat.zero_ne_one ha
  · rintro w ⟨rp, hrp, hinf, _⟩
    have hrp2 : rp = { infinite := {1}, finite := ∅ } := List.mem_singleton.1 hrp
    subst hrp2
    obtain ⟨m, hm, hmem⟩ := hinf 1
    have hm2 : m = (m - 1) + 1 := by omega
    rw [hm2, DRW.leave_once_run] at hmem
    exact absurd hmem (by decide)
  · simp [DRW.is_empty, DRW.flip_flop, DRW.is_empty_pair, DRW.self_loop_scan,
      DRW.component_scan, List.range_succ, List.range_zero]
  · refine ⟨{ infinite := {0}, finite := ∅ }, List.mem_singleton.2 rfl, 0, by decide,
      Finset.mem_singleton_self 0, Finset.not_mem_empty 0, Or.inr ⟨1, by decide, ?_, ?_⟩⟩
    · exact Relation.ReflTransGen.single
        ⟨by decide, Finset.not_mem_empty 0, Finset.not_mem_empty 1, 0, by decide, rfl⟩
    · exact Relation.ReflTransGen.single
        ⟨by decide, Finset.not_mem_empty 1, Finset.not_mem_empty 0, 0, by decide, rfl⟩
  · refine ⟨{ infinite := {0}, finite := ∅ }, List.mem_singleton.2 rfl, fun n => ?_,
      0, fun m _ => Finset.not_mem_empty _⟩
    refine ⟨2 * n, by omega, ?_⟩
    rw [DRW.flip_flop_run]
    exact Finset.mem_singleton_self 0

/-! ## Safra trees: basic facts -/

/-- Induction over a node and the list of its children together. -/
theorem SafraNode.induction_both {P : SafraNode → Prop} {Q : List SafraNode → Prop}
    (hmk : ∀ name states marked children, Q children → P (.mk name states marked children))
    (hnil : Q [])
    (hcons : ∀ c cs, P c → Q cs → Q (c :: cs)) :
    (∀ x, P x) ∧ ∀ cs, Q cs :=
  ⟨fun x => @SafraNode.rec P Q hmk hnil hcons x,
    fun cs => @SafraNode.rec_1 P Q hmk hnil hcons cs⟩

theorem SafraNode.subnodes_mk (name : ℕ) (states : Finset ℕ) (marked : Bool)
    (children : List SafraNode) :
    SafraNode.subnodes (.mk name states marked children) =
      .mk name states marked children :: SafraNode.subnodes_list children := by
  rw [SafraNode.subnodes]

theorem SafraNode.subnodes_list_nil : SafraNode.subnodes_list [] = [] := by
  rw [SafraNode.subnodes_list]

theorem SafraNode.subnodes_list_cons (c : SafraNode) (cs : List SafraNode) :
    SafraNode.subnodes_list (c :: cs) = SafraNode.subnodes c ++ SafraNode.subnodes_list cs := by
  rw [SafraNode.subnodes_list]

theorem SafraNode.subnodes_list_append (as bs : List SafraNode) :
    SafraNode.subnodes_list (as ++ bs) =
      SafraNode.subnodes_list as ++ SafraNode.subnodes_list bs := by
  induction as with
  | nil => rw [SafraNode.subnodes_list_nil]; rfl
  | cons a as ih =>
    rw [List.cons_append, SafraNode.subnodes_list_cons, SafraNode.subnodes_list_cons, ih,
      List.append_assoc]

theorem SafraNode.mem_subnodes_list {p : SafraNode} {cs : List SafraNode} :
    p ∈ SafraNode.subnodes_list cs ↔ ∃ c ∈ cs, p ∈ SafraNode.subnodes c := by
  induction cs with
  | nil => rw [SafraNode.subnodes_list_nil]; simp
  | cons c cs ih =>
    rw [SafraNode.subnodes_list_cons, List.mem_append, ih]
    simp only [List.mem_cons, exists_eq_or_imp]

theorem SafraNode.self_mem_subnodes (r : SafraNode) : r ∈ r.subnodes := by
  cases r with
  | mk name states marked children =>
    rw [SafraNode.subnodes_mk]
    exact List.mem_cons_self _ _

theorem SafraNode.mem_subnodes {p r : SafraNode} :
    p ∈ r.subnodes ↔ p = r ∨ ∃ c ∈ r.children, p ∈ SafraNode.subnodes c := by
  cases r with
  | mk name states marked children =>
    rw [SafraNode.subnodes_mk, List.mem_cons, SafraNode.mem_subnodes_list]
    rfl

theorem SafraNode.indices_mk (name : ℕ) (states : Finset ℕ) (marked : Bool)
    (children : List SafraNode) :
    SafraNode.indices (.mk name states marked children) =
      (name - 1) :: SafraNode.indices_list children := by
  unfold SafraNode.indices SafraNode.indices_list
  rw [SafraNode.subnodes_mk, List.map_cons]
  rfl

theorem SafraNode.indices_list_nil : SafraNode.indices_list [] = [] := by
  unfold SafraNode.indices_list
  rw [SafraNode.subnodes_list_nil]
  rfl

theorem SafraNode.indices_list_cons (c : SafraNode) (cs : List SafraNode) :
    SafraNode.indices_list (c :: cs) = c.indices ++ SafraNode.indices_list cs := by
  unfold SafraNode.indices_list SafraNode.indices
  rw [SafraNode.subnodes_list_cons, List.map_append]

theorem SafraNode.indices_list_append (as bs : List SafraNode) :
    SafraNode.indices_list (as ++ bs) =
      SafraNode.indices_list as ++ SafraNode.indices_list bs := by
  unfold SafraNode.indices_list
  rw [SafraNode.subnodes_list_append, List.map_append]

theorem SafraNode.indices_list_single (c : SafraNode) :
    SafraNode.indices_list [c] = c.indices := by
  rw [SafraNode.indices_list_cons, SafraNode.indices_list_nil, List.append_nil]

/-- The search of `name_node` stops at the least free position at or after
`i`, provided at most `fuel` positions from `i` on are taken. -/
theorem first_unused_spec (used : Finset ℕ) (fuel i : ℕ)
    (h : (used.filter (fun x => i ≤ x)).card ≤ fuel) :
    first_unused used fuel i ∉ used ∧ i ≤ first_unused used fuel i ∧
      first_unused used fuel i ≤ i + fuel ∧
      ∀ j, i ≤ j → j < first_unused used fuel i → j ∈ used := by
  induction fuel generalizing i with
  | zero =>
    have hi : i ∉ used := by
      intro hc
      have : i ∈ used.filter (fun x => i ≤ x) := Finset.mem_filter.2 ⟨hc, le_refl i⟩
      rw [Finset.card_eq_zero.1 (Nat.le_zero.1 h)] at this
      exact absurd this (Finset.not_mem_empty _)
    refine ⟨hi, le_refl i, le_refl i, fun j h1 h2 => ?_⟩
    have h3 : j < i := h2
    omega
  | succ fuel ih =>
    unfold first_unused
    by_cases hi : i ∈ used
    · rw [if_pos hi]
      have hcard : (used.filter (fun x => i + 1 ≤ x)).card ≤ fuel := by
        have hsub : used.filter (fun x => i + 1 ≤ x) ⊆
            (used.filter (fun x => i ≤ x)).erase i := by
          intro x hx
          obtain ⟨hx1, hx2⟩ := Finset.mem_filter.1 hx
          exact Finset.mem_erase.2 ⟨by omega, Finset.mem_filter.2 ⟨hx1, by omega⟩⟩
        have hmem : i ∈ used.filter (fun x => i ≤ x) := Finset.mem_filter.2 ⟨hi, le_refl i⟩
        have h1 := Finset.card_le_card hsub
        have h2 := Finset.card_erase_of_mem hmem
        have h3 := Finset.card_pos.2 ⟨i, hmem⟩
        omega
      obtain ⟨h1, h2, h3, h4⟩ := ih (i + 1) hcard
      refine ⟨h1, by omega, by omega, fun j hj1 hj2 => ?_⟩
      rcases Nat.eq_or_lt_of_le hj1 with e | e
      · rw [← e]; exact hi
      · exact h4 j e hj2
    · rw [if_neg hi]
      exact ⟨hi, le_refl i, by omega, fun j h1 h2 => by omega⟩

/-- `name_node` hands out `i + 1` for a free position `i`, not larger than the
number of positions taken. -/
theorem SafraTree.name_node_spec (t : SafraTree) :
    1 ≤ t.name_node.1 ∧ t.name_node.1 - 1 ∉ t.used_node_names ∧
      t.name_node.1 ≤ t.used_node_names.card + 1 ∧
      t.name_node.2.used_node_names = insert (t.name_node.1 - 1) t.used_node_names ∧
      t.name_node.2.temp_node_names = t.temp_node_names := by
  have hcard : (t.used_node_names.filter (fun x => 0 ≤ x)).card ≤ t.used_node_names.card :=
    Finset.card_le_card (Finset.filter_subset _ _)
  obtain ⟨h1, _, h3, _⟩ := first_unused_spec t.used_node_names t.used_node_names.card 0 hcard
  have e : t.name_node.1 = first_unused t.used_node_names t.used_node_names.card 0 + 1 := rfl
  refine ⟨by rw [e]; omega, by rw [e, Nat.add_sub_cancel]; exact h1, by rw [e]; omega, ?_, rfl⟩
  rw [e, Nat.add_sub_cancel]
  rfl

theorem SafraNode.accumulate_eq :
    (∀ (x : SafraNode) (S : Finset ℕ),
        SafraNode.accumulate_subtree_names x S = S ∪ x.indices.toFinset) ∧
      ∀ (cs : List SafraNode) (S : Finset ℕ),
        SafraNode.accumulate_names_list cs S = S ∪ (SafraNode.indices_list cs).toFinset := by
  apply SafraNode.induction_both
  · intro name states marked children ih S
    rw [SafraNode.accumulate_subtree_names, ih, SafraNode.indices_mk, List.toFinset_cons]
    ext x
    simp only [Finset.mem_union, Finset.mem_insert]
    tauto
  · intro S
    rw [SafraNode.accumulate_names_list, SafraNode.indices_list_nil]
    simp
  · intro c cs ihc ihcs S
    rw [SafraNode.accumulate_names_list, ihcs, ihc, SafraNode.indices_list_cons,
      List.toFinset_append, Finset.union_assoc]

theorem SafraNode.kill_eq :
    (∀ (x : SafraNode) (T : SafraTree),
        (SafraNode.kill_node x T).used_node_names = T.used_node_names \ x.indices.toFinset ∧
          (SafraNode.kill_node x T).temp_node_names = T.temp_node_names) ∧
      ∀ (cs : List SafraNode) (T : SafraTree),
        (SafraNode.kill_nodes cs T).used_node_names =
            T.used_node_names \ (SafraNode.indices_list cs).toFinset ∧
          (SafraNode.kill_nodes cs T).temp_node_names = T.temp_node_names := by
  apply SafraNode.induction_both
  · intro name states marked children ih T
    rw [SafraNode.kill_node]
    obtain ⟨h1, h2⟩ := ih (T.free_node_name name)
    rw [h1, h2, SafraNode.indices_mk, List.toFinset_cons]
    refine ⟨?_, rfl⟩
    unfold SafraTree.free_node_name
    ext x
    simp only [Finset.mem_sdiff, Finset.mem_erase, Finset.mem_insert]
    tauto
  · intro T
    rw [SafraNode.kill_nodes, SafraNode.indices_list_nil]
    simp
  · intro c cs ihc ihcs T
    rw [SafraNode.kill_nodes]
    obtain ⟨h1, h2⟩ := ihcs (SafraNode.kill_node c T)
    obtain ⟨h3, h4⟩ := ihc T
    rw [h1, h2, h3, h4, SafraNode.indices_list_cons, List.toFinset_append]
    refine ⟨?_, rfl⟩
    ext x
    simp only [Finset.mem_sdiff, Finset.mem_union]
    tauto

/-- Without the cache `NBW::transition` is monotone in the state set. -/
theorem NBW.transition_mono (A : NBW) (hcache : A.use_cache = false) {S S2 : Finset ℕ}
    (h : S ⊆ S2) (character : ℕ) : A.transition S character ⊆ A.transition S2 character := by
  intro t ht
  unfold NBW.transition at ht ⊢
  simp only [hcache, Bool.false_eq_true, if_false] at ht ⊢
  rw [mem_foldl_cond_union (fun i => A.transition_matrix (i * A.alphabet_size + (character - 1)))
    (fun i => i ∈ S)] at ht
  rw [mem_foldl_cond_union (fun i => A.transition_matrix (i * A.alphabet_size + (character - 1)))
    (fun i => i ∈ S2)]
  rcases ht with ht | ⟨i, hi, hiS, hit⟩
  · exact Or.inl ht
  · exact Or.inr ⟨i, hi, h hiS, hit⟩

/-- Without the cache, and when successor sets hold states only, the result of
`NBW::transition` on a character `1 .. alphabet_size` holds states only. -/
theorem NBW.transition_lt (A : NBW) (hcache : A.use_cache = false) (hwf : A.WellFormed)
    (S : Finset ℕ) {character : ℕ} (h1 : 1 ≤ character) (h2 : character ≤ A.alphabet_size) :
    ∀ t ∈ A.transition S character, t < A.size := by
  intro t ht
  unfold NBW.transition at ht
  simp only [hcache, Bool.false_eq_true, if_false] at ht
  rw [mem_foldl_cond_union (fun i => A.transition_matrix (i * A.alphabet_size + (character - 1)))
    (fun i => i ∈ S)] at ht
  rcases ht with ht | ⟨i, hi, _, hit⟩
  · exact absurd ht (Finset.not_mem_empty _)
  · exact hwf.2 i (List.mem_range.1 hi) (character - 1) (by omega) t hit

/-! ## The branches of `clone_spawn_and_transition` -/

theorem SafraNode.clone_children_nil (input : NBW) (character : ℕ) (F : Finset ℕ)
    (T : SafraTree) (K : Finset ℕ) :
    SafraNode.clone_children input character F [] T K = ([], T, K) := by
  rw [SafraNode.clone_children]

theorem SafraNode.clone_children_cons (input : NBW) (character : ℕ) (F : Finset ℕ)
    (c : SafraNode) (cs : List SafraNode) (T : SafraTree) (K : Finset ℕ) :
    SafraNode.clone_children input character F (c :: cs) T K =
      ((SafraNode.clone_spawn_and_transition input character F c false T K).1.toList ++
          (SafraNode.clone_children input character F cs
            (SafraNode.clone_spawn_and_transition input character F c false T K).2.1
            (SafraNode.clone_spawn_and_transition input character F c false T K).2.2).1,
        (SafraNode.clone_children input character F cs
          (SafraNode.clone_spawn_and_transition input character F c false T K).2.1
          (SafraNode.clone_spawn_and_transition input character F c false T K).2.2).2.1,
        (SafraNode.clone_children input character F cs
          (SafraNode.clone_spawn_and_transition input character F c false T K).2.1
          (SafraNode.clone_spawn_and_transition input character F c false T K).2.2).2.2) := by
  rw [SafraNode.clone_children]
  cases (SafraNode.clone_spawn_and_transition input character F c false T K).1 <;> rfl

/-- The branch "Kill this subtree" for a node that is not the root. -/
theorem SafraNode.clone_killed (input : NBW) (character : ℕ) (F : Finset ℕ)
    (name : ℕ) (states : Finset ℕ) (marked : Bool) (children : List SafraNode)
    (T : SafraTree) (K : Finset ℕ) (hk : input.transition states character ⊆ K) :
    SafraNode.clone_spawn_and_transition input character F (.mk name states marked children)
        false T K =
      (none,
        { T with
          temp_node_names :=
            T.temp_node_names ∪ (SafraNode.indices (.mk name states marked children)).toFinset },
        K) := by
  rw [SafraNode.clone_spawn_and_transition]
  simp only [hk, if_true, Bool.false_eq_true, if_false]
  rw [SafraNode.accumulate_eq.1]
  simp

/-- The branch in which the clone is marked and loses its children. -/
theorem SafraNode.clone_marked (input : NBW) (character : ℕ) (F : Finset ℕ)
    (name : ℕ) (states : Finset ℕ) (marked : Bool) (children : List SafraNode)
    (T : SafraTree) (K : Finset ℕ) (rs : List SafraNode × SafraTree × Finset ℕ)
    (hrs : SafraNode.clone_children input character F children T.name_node.2 K = rs)
    (hk : ¬ input.transition states character ⊆ K)
    (hm : input.transition states character \ K ⊆
      rs.2.2 ∪ ((input.transition states character \ K) ∩ F) \ rs.2.2) :
    SafraNode.clone_spawn_and_transition input character F (.mk name states marked children)
        false T K =
      (some (.mk name (input.transition states character \ K) true []),
        (SafraNode.kill_nodes rs.1 (rs.2.1.mark_node name)).temp_name_node T.name_node.1,
        rs.2.2 ∪ ((input.transition states character \ K) ∩ F) \ rs.2.2 ∪
          (input.transition states character \ K)) := by
  rw [SafraNode.clone_spawn_and_transition]
  simp only [hk, hrs, hm, if_true, Bool.false_eq_true, if_false]

/-- The branch in which a new child is created. -/
theorem SafraNode.clone_spawned (input : NBW) (character : ℕ) (F : Finset ℕ)
    (name : ℕ) (states : Finset ℕ) (marked : Bool) (children : List SafraNode)
    (T : SafraTree) (K : Finset ℕ) (rs : List SafraNode × SafraTree × Finset ℕ)
    (hrs : SafraNode.clone_children input character F children T.name_node.2 K = rs)
    (hk : ¬ input.transition states character ⊆ K)
    (hm : ¬ input.transition states character \ K ⊆
      rs.2.2 ∪ ((input.transition states character \ K) ∩ F) \ rs.2.2)
    (hc : (((input.transition states character \ K) ∩ F) \ rs.2.2).Nonempty) :
    SafraNode.clone_spawn_and_transition input character F (.mk name states marked children)
        false T K =
      (some (.mk name (input.transition states character \ K) false
          (rs.1 ++
            [.mk T.name_node.1 (((input.transition states character \ K) ∩ F) \ rs.2.2)
              true []])),
        rs.2.1.mark_node T.name_node.1,
        rs.2.2 ∪ ((input.transition states character \ K) ∩ F) \ rs.2.2 ∪
          (input.transition states character \ K)) := by
  rw [SafraNode.clone_spawn_and_transition]
  simp only [hk, hrs, hm, hc, if_true, Bool.false_eq_true, if_false, MARK_NEW_CHILDREN]

/-- The branch in which the clone keeps the cloned children and gets no new
child. -/
theorem SafraNode.clone_plain (input : NBW) (character : ℕ) (F : Finset ℕ)
    (name : ℕ) (states : Finset ℕ) (marked : Bool) (children : List SafraNode)
    (T : SafraTree) (K : Finset ℕ) (rs : List SafraNode × SafraTree × Finset ℕ)
    (hrs : SafraNode.clone_children input character F children T.name_node.2 K = rs)
    (hk : ¬ input.transition states character ⊆ K)
    (hm : ¬ input.transition states character \ K ⊆
      rs.2.2 ∪ ((input.transition states character \ K) ∩ F) \ rs.2.2)
    (hc : ¬ (((input.transition states character \ K) ∩ F) \ rs.2.2).Nonempty) :
    SafraNode.clone_spawn_and_transition input character F (.mk name states marked children)
        false T K =
      (some (.mk name (input.transition states character \ K) false rs.1),
        rs.2.1.temp_name_node T.name_node.1,
        rs.2.2 ∪ ((input.transition states character \ K) ∩ F) \ rs.2.2 ∪
          (input.transition states character \ K)) := by
  rw [SafraNode.clone_spawn_and_transition]
  simp only [hk, hrs, hm, hc, if_true, Bool.false_eq_true, if_false]

/-- The call on the root in terms of the call with `root == false`: the clone
and the kill set are the same; the tree gets the root and, when there is a
clone, the temporary names are freed. -/
theorem SafraNode.clone_root (input : NBW) (character : ℕ) (F : Finset ℕ) (x : SafraNode)
    (T : SafraTree) (K : Finset ℕ) :
    (SafraNode.clone_spawn_and_transition input character F x true T K).1 =
        (SafraNode.clone_spawn_and_transition input character F x false T K).1 ∧
      (SafraNode.clone_spawn_and_transition input character F x true T K).2.2 =
        (SafraNode.clone_spawn_and_transition input character F x false T K).2.2 ∧
      (SafraNode.clone_spawn_and_transition input character F x true T K).2.1 =
        match (SafraNode.clone_spawn_and_transition input character F x false T K).1 with
        | none => { T with root := none }
        | some r =>
          { (SafraNode.clone_spawn_and_transition input character F x false
              T K).2.1.free_temp_names with root := some r } := by
  cases x with
  | mk name states marked children =>
    rw [SafraNode.clone_spawn_and_transition, SafraNode.clone_spawn_and_transition]
    by_cases hk : input.transition states character ⊆ K
    · simp only [hk, if_true, Bool.false_eq_true, if_false, and_self]
    · simp only [hk, if_true, Bool.false_eq_true, if_false, and_self]

/-! ## Labels: siblings are disjoint, children are inside their parent -/

theorem SafraNode.siblingInv_mk (name : ℕ) (states : Finset ℕ) (marked : Bool)
    (children : List SafraNode) :
    SafraNode.SiblingInv (.mk name states marked children) ↔
      (children.Pairwise (fun a b => Disjoint a.states b.states) ∧
        (∀ c ∈ children, c.states.Nonempty) ∧
        (children ≠ [] → ∃ x ∈ states, ∀ c ∈ children, x ∉ c.states)) ∧
      ∀ c ∈ children, c.SiblingInv := by
  unfold SafraNode.SiblingInv
  constructor
  · intro h
    refine ⟨h _ (SafraNode.self_mem_subnodes _), fun c hc p hp => ?_⟩
    exact h p (SafraNode.mem_subnodes.2 (Or.inr ⟨c, hc, hp⟩))
  · rintro ⟨h1, h2⟩ p hp
    rcases SafraNode.mem_subnodes.1 hp with e | ⟨c, hc, hpc⟩
    · rw [e]; exact h1
    · exact h2 c hc p hpc

theorem SafraNode.nested_mk (name : ℕ) (states : Finset ℕ) (marked : Bool)
    (children : List SafraNode) :
    SafraNode.Nested (.mk name states marked children) ↔
      (∀ c ∈ children, c.states ⊆ states) ∧ ∀ c ∈ children, c.Nested := by
  unfold SafraNode.Nested
  constructor
  · intro h
    refine ⟨h _ (SafraNode.self_mem_subnodes _), fun c hc p hp => ?_⟩
    exact h p (SafraNode.mem_subnodes.2 (Or.inr ⟨c, hc, hp⟩))
  · rintro ⟨h1, h2⟩ p hp
    rcases SafraNode.mem_subnodes.1 hp with e | ⟨c, hc, hpc⟩
    · rw [e]; exact h1
    · exact h2 c hc p hpc

theorem SafraNode.clone_labels (input : NBW) (character : ℕ) (F : Finset ℕ) :
    (∀ (x : SafraNode) (T : SafraTree) (K : Finset ℕ),
      K ⊆ (SafraNode.clone_spawn_and_transition input character F x false T K).2.2 ∧
        ∀ r, (SafraNode.clone_spawn_and_transition input character F x false T K).1 = some r →
          r.states = input.transition x.states character \ K ∧ r.states.Nonempty ∧
            r.states ⊆ (SafraNode.clone_spawn_and_transition input character F x false
              T K).2.2 ∧
            r.SiblingInv ∧
            ((∀ S S2 : Finset ℕ, S ⊆ S2 →
                input.transition S character ⊆ input.transition S2 character) →
              x.Nested → r.Nested)) ∧
      ∀ (cs : List SafraNode) (T : SafraTree) (K : Finset ℕ),
        K ⊆ (SafraNode.clone_children input character F cs T K).2.2 ∧
          (SafraNode.clone_children input character F cs T K).1.Pairwise
            (fun a b => Disjoint a.states b.states) ∧
          ∀ r ∈ (SafraNode.clone_children input character F cs T K).1,
            r.states.Nonempty ∧
              r.states ⊆ (SafraNode.clone_children input character F cs T K).2.2 ∧
              Disjoint r.states K ∧ r.SiblingInv ∧
              ∃ c ∈ cs, r.states ⊆ input.transition c.states character ∧
                ((∀ S S2 : Finset ℕ, S ⊆ S2 →
                    input.transition S character ⊆ input.transition S2 character) →
                  c.Nested → r.Nested) := by
  apply SafraNode.induction_both
  · intro name states marked children ih T K
    by_cases hk : input.transition states character ⊆ K
    · rw [SafraNode.clone_killed input character F name states marked children T K hk]
      exact ⟨Finset.Subset.refl K, fun r hr => absurd hr (by simp)⟩
    · generalize hrs : SafraNode.clone_children input character F children T.name_node.2 K = rs
      obtain ⟨hK, hpw, hall⟩ := ih T.name_node.2 K
      rw [hrs] at hK hpw hall
      have hne : (input.transition states character \ K).Nonempty := by
        obtain ⟨x, hx1, hx2⟩ := Finset.not_subset.1 hk
        exact ⟨x, Finset.mem_sdiff.2 ⟨hx1, hx2⟩⟩
      have hKK : K ⊆ rs.2.2 ∪ ((input.transition states character \ K) ∩ F) \ rs.2.2 ∪
          (input.transition states character \ K) :=
        fun x hx => Finset.mem_union_left _ (Finset.mem_union_left _ (hK hx))
      have hchild : ∀ c ∈ rs.1, c.states ⊆ rs.2.2 := fun c hc => (hall c hc).2.1
      have hnest : (∀ S S2 : Finset ℕ, S ⊆ S2 →
            input.transition S character ⊆ input.transition S2 character) →
          SafraNode.Nested (.mk name states marked children) →
          (∀ c ∈ rs.1, c.states ⊆ input.transition states character \ K) ∧
            ∀ c ∈ rs.1, c.Nested := by
        intro hmono hx
        rw [SafraNode.nested_mk] at hx
        refine ⟨fun c hc => ?_, fun c hc => ?_⟩
        · obtain ⟨_, _, hd, _, c0, hc0, hsub, _⟩ := hall c hc
          intro y hy
          refine Finset.mem_sdiff.2 ⟨hmono _ _ (hx.1 c0 hc0) (hsub hy), ?_⟩
          exact Finset.disjoint_left.1 hd hy
        · obtain ⟨_, _, _, _, c0, hc0, _, hn⟩ := hall c hc
          exact hn hmono (hx.2 c0 hc0)
      by_cases hm : input.transition states character \ K ⊆
          rs.2.2 ∪ ((input.transition states character \ K) ∩ F) \ rs.2.2
      · rw [SafraNode.clone_marked input character F name states marked children T K rs hrs
          hk hm]
        refine ⟨hKK, fun r hr => ?_⟩
        have e : r = .mk name (input.transition states character \ K) true [] :=
          (Option.some.inj hr).symm
        subst e
        refine ⟨rfl, hne, fun x hx => Finset.mem_union_right _ hx, ?_, fun _ _ => ?_⟩
        · rw [SafraNode.siblingInv_mk]
          exact ⟨⟨List.Pairwise.nil, fun c hc => absurd hc (List.not_mem_nil c),
            fun h => absurd rfl h⟩, fun c hc => absurd hc (List.not_mem_nil c)⟩
        · rw [SafraNode.nested_mk]
          exact ⟨fun c hc => absurd hc (List.not_mem_nil c),
            fun c hc => absurd hc (List.not_mem_nil c)⟩
      · obtain ⟨x0, hx0, hx0n⟩ := Finset.not_subset.1 hm
        have hx0c : ∀ c ∈ rs.1, x0 ∉ c.states := fun c hc hcx =>
          hx0n (Finset.mem_union_left _ (hchild c hc hcx))
        by_cases hc : (((input.transition states character \ K) ∩ F) \ rs.2.2).Nonempty
        · rw [SafraNode.clone_spawned input character F name states marked children T K rs hrs
            hk hm hc]
          refine ⟨hKK, fun r hr => ?_⟩
          have e : r = .mk name (input.transition states character \ K) false
              (rs.1 ++ [.mk T.name_node.1
                (((input.transition states character \ K) ∩ F) \ rs.2.2) true []]) :=
            (Option.some.inj hr).symm
          subst e
          have hnewS : SafraNode.SiblingInv (.mk T.name_node.1
              (((input.transition states character \ K) ∩ F) \ rs.2.2) true []) := by
            rw [SafraNode.siblingInv_mk]
            exact ⟨⟨List.Pairwise.nil, fun c hc => absurd hc (List.not_mem_nil c),
              fun h => absurd rfl h⟩, fun c hc => absurd hc (List.not_mem_nil c)⟩
          have hnewN : SafraNode.Nested (.mk T.name_node.1
              (((input.transition states character \ K) ∩ F) \ rs.2.2) true []) := by
            rw [SafraNode.nested_mk]
            exact ⟨fun c hc => absurd hc (List.not_mem_nil c),
              fun c hc => absurd hc (List.not_mem_nil c)⟩
          refine ⟨rfl, hne, fun x hx => Finset.mem_union_right _ hx, ?_, fun hmono hx => ?_⟩
          · rw [SafraNode.siblingInv_mk]
            refine ⟨⟨?_, ?_, fun _ => ⟨x0, hx0, ?_⟩⟩, ?_⟩
            · rw [List.pairwise_append]
              refine ⟨hpw, List.pairwise_singleton _ _, fun a ha b hb => ?_⟩
              rw [List.mem_singleton] at hb
              subst hb
              rw [Finset.disjoint_left]
              intro y hy hy2
              exact (Finset.mem_sdiff.1 hy2).2 (hchild a ha hy)
            · intro c hcm
              rcases List.mem_append.1 hcm with h | h
              · exact (hall c h).1
              · rw [List.mem_singleton] at h
                subst h
                exact hc
            · intro c hcm
              rcases List.mem_append.1 hcm with h | h
              · exact hx0c c h
              · rw [List.mem_singleton] at h
                subst h
                exact fun hcx => hx0n (Finset.mem_union_right _ hcx)
            · intro c hcm
              rcases List.mem_append.1 hcm with h | h
              · exact (hall c h).2.2.2.1
              · rw [List.mem_singleton] at h
                subst h
                exact hnewS
          · obtain ⟨h1, h2⟩ := hnest hmono hx
            rw [SafraNode.nested_mk]
            refine ⟨fun c hcm => ?_, fun c hcm => ?_⟩
            · rcases List.mem_append.1 hcm with h | h
              · exact h1 c h
              · rw [List.mem_singleton] at h
                subst h
                exact fun y hy => (Finset.mem_inter.1 (Finset.mem_sdiff.1 hy).1).1
            · rcases List.mem_append.1 hcm with h | h
              · exact h2 c h
              · rw [List.mem_singleton] at h
                subst h
                exact hnewN
        · rw [SafraNode.clone_plain input character F name states marked children T K rs hrs
            hk hm hc]
          refine ⟨hKK, fun r hr => ?_⟩
          have e : r = .mk name (input.transition states character \ K) false rs.1 :=
            (Option.some.inj hr).symm
          subst e
          refine ⟨rfl, hne, fun x hx => Finset.mem_union_right _ hx, ?_, fun hmono hx => ?_⟩
          · rw [SafraNode.siblingInv_mk]
            exact ⟨⟨hpw, fun c h => (hall c h).1, fun _ => ⟨x0, hx0, hx0c⟩⟩,
              fun c h => (hall c h).2.2.2.1⟩
          · rw [SafraNode.nested_mk]
            exact hnest hmono hx
  · intro T K
    rw [SafraNode.clone_children_nil]
    exact ⟨Finset.Subset.refl K, List.Pairwise.nil, fun r hr => absurd hr (List.not_mem_nil r)⟩
  · intro c cs ihc ihcs T K
    rw [SafraNode.clone_children_cons]
    obtain ⟨hK1, h1⟩ := ihc T K
    generalize SafraNode.clone_spawn_and_transition input character F c false T K = R1
      at hK1 h1 ⊢
    obtain ⟨hK2, hpw2, h2⟩ := ihcs R1.2.1 R1.2.2
    generalize SafraNode.clone_children input character F cs R1.2.1 R1.2.2 = R2
      at hK2 hpw2 h2 ⊢
    refine ⟨hK1.trans hK2, ?_, ?_⟩
    · show (R1.1.toList ++ R2.1).Pairwise _
      rw [List.pairwise_append]
      refine ⟨?_, hpw2, fun a ha b hb => ?_⟩
      · cases R1.1 with
        | none => exact List.Pairwise.nil
        | some r => exact List.pairwise_singleton _ _
      · rw [Option.mem_toList] at ha
        obtain ⟨_, _, hsub, _⟩ := h1 a ha
        obtain ⟨_, _, hd, _⟩ := h2 b hb
        rw [Finset.disjoint_left]
        intro y hya hyb
        exact Finset.disjoint_left.1 hd hyb (hsub hya)
    · intro r hr
      have hr2 : r ∈ R1.1.toList ++ R2.1 := hr
      rcases List.mem_append.1 hr2 with h | h
      · rw [Option.mem_toList] at h
        obtain ⟨he, hne, hsub, hS, hN⟩ := h1 r h
        refine ⟨hne, hsub.trans hK2, ?_, hS, c, List.mem_cons_self _ _, ?_, hN⟩
        · rw [he]; exact Finset.sdiff_disjoint
        · rw [he]; exact Finset.sdiff_subset
      · obtain ⟨hne, hsub, hd, hS, c0, hc0, hsub0, hN⟩ := h2 r h
        refine ⟨hne, hsub, ?_, hS, c0, List.mem_cons_of_mem _ hc0, hsub0, hN⟩
        exact Finset.disjoint_of_subset_right hK1 hd

/-! ## Names: the name sets of the new tree during a transition -/

theorem NameFrame.append {O1 O2 : List ℕ} {U0 M0 U1 M1 U2 M2 : Finset ℕ}
    {rs1 rs2 : List SafraNode}
    (h1 : NameFrame O1 U0 M0 rs1 U1 M1) (h2 : NameFrame O2 U1 M1 rs2 U2 M2)
    (hd : ∀ x ∈ O1, x ∉ O2) (hO2 : ∀ x ∈ O2, x ∈ U0) :
    NameFrame (O1 ++ O2) U0 M0 (rs1 ++ rs2) U2 M2 := by
  have hr1 : ∀ x ∈ SafraNode.indices_list rs1, x ∉ O2 := by
    intro x hx hx2
    rcases h1.res_new x hx with h | h
    · exact hd x h hx2
    · exact h (hO2 x hx2)
  have hback : ∀ x, x ∉ U1 → x ∉ U0 ∨ x ∈ O1 := by
    intro x hx
    by_cases hxU : x ∈ U0
    · by_cases hxO : x ∈ O1
      · exact Or.inr hxO
      · exact absurd (h1.keep x hxU hxO) hx
    · exact Or.inl hxU
  refine
    { keep := ?_, temp_mono := ?_, temp_new := ?_, temp_used := h2.temp_used, nodup := ?_,
      pos := ?_, res_used := ?_, res_temp := ?_, res_new := ?_, exact := ?_ }
  · intro x hx hxO
    rw [List.mem_append, not_or] at hxO
    exact h2.keep x (h1.keep x hx hxO.1) hxO.2
  · intro x hx
    exact h2.temp_mono x (h1.temp_mono x hx)
  · intro x hx
    rcases h2.temp_new x hx with h | h | h
    · rcases h1.temp_new x h with h | h | h
      · exact Or.inl h
      · exact Or.inr (Or.inl h)
      · exact Or.inr (Or.inr (List.mem_append_left _ h))
    · rcases hback x h with h | h
      · exact Or.inr (Or.inl h)
      · exact Or.inr (Or.inr (List.mem_append_left _ h))
    · exact Or.inr (Or.inr (List.mem_append_right _ h))
  · rw [SafraNode.indices_list_append, List.nodup_append]
    refine ⟨h1.nodup, h2.nodup, fun x hx1 hx2 => ?_⟩
    rcases h2.res_new x hx2 with h | h
    · exact hr1 x hx1 h
    · exact h (h1.res_used x hx1)
  · intro p hp
    rw [SafraNode.subnodes_list_append, List.mem_append] at hp
    rcases hp with h | h
    · exact h1.pos p h
    · exact h2.pos p h
  · intro x hx
    rw [SafraNode.indices_list_append, List.mem_append] at hx
    rcases hx with h | h
    · exact h2.keep x (h1.res_used x h) (hr1 x h)
    · exact h2.res_used x h
  · intro x hx hxM
    rw [SafraNode.indices_list_append, List.mem_append] at hx
    rcases hx with h | h
    · rcases h2.temp_new x hxM with h3 | h3 | h3
      · exact h1.res_temp x h h3
      · exact h3 (h1.res_used x h)
      · exact hr1 x h h3
    · exact h2.res_temp x h hxM
  · intro x hx
    rw [SafraNode.indices_list_append, List.mem_append] at hx
    rcases hx with h | h
    · rcases h1.res_new x h with h3 | h3
      · exact Or.inl (List.mem_append_left _ h3)
      · exact Or.inr h3
    · rcases h2.res_new x h with h3 | h3
      · exact Or.inl (List.mem_append_right _ h3)
      · rcases hback x h3 with h4 | h4
        · exact Or.inr h4
        · exact Or.inl (List.mem_append_left _ h4)
  · intro x hx
    rw [SafraNode.indices_list_append]
    rcases h2.exact x hx with ⟨h, hn⟩ | h | h
    · rcases h1.exact x h with ⟨h3, hn3⟩ | h3 | h3
      · left
        refine ⟨h3, fun hc => ?_⟩
        rcases List.mem_append.1 hc with h4 | h4
        · exact hn3 h4
        · exact hn h4
      · exact Or.inr (Or.inl (h2.temp_mono x h3))
      · exact Or.inr (Or.inr (List.mem_append_left _ h3))
    · exact Or.inr (Or.inl h)
    · exact Or.inr (Or.inr (List.mem_append_right _ h))

theorem SafraNode.indices_toList (o : Option SafraNode) :
    SafraNode.indices_list o.toList =
      match o with
      | none => []
      | some r => r.indices := by
  cases o with
  | none => exact SafraNode.indices_list_nil
  | some r => exact SafraNode.indices_list_single r

/-- What the frame of the children says about the position `n0` of the node
and the position `i` reserved for its new child. -/
theorem NameFrame.node_facts {n0 i : ℕ} {Ocs : List ℕ} {U M Ub Mb : Finset ℕ}
    {rs : List SafraNode} (fr : NameFrame Ocs (insert i U) M rs Ub Mb)
    (hi : i ∉ U) (hn0U : n0 ∈ U) (hn0M : n0 ∉ M) (hn0O : n0 ∉ Ocs)
    (hOU : ∀ x ∈ Ocs, x ∈ U) (hMU : ∀ x ∈ M, x ∈ U) :
    (i ∈ Ub ∧ i ∉ SafraNode.indices_list rs ∧ i ∉ Mb) ∧
      (n0 ∈ Ub ∧ n0 ∉ SafraNode.indices_list rs ∧ n0 ∉ Mb) ∧ n0 ≠ i := by
  have hiO : i ∉ Ocs := fun h => hi (hOU i h)
  refine ⟨⟨fr.keep i (Finset.mem_insert_self i U) hiO, fun h => ?_, fun h => ?_⟩,
    ⟨fr.keep n0 (Finset.mem_insert_of_mem hn0U) hn0O, fun h => ?_, fun h => ?_⟩,
    fun h => hi (h ▸ hn0U)⟩
  · rcases fr.res_new i h with h2 | h2
    · exact hiO h2
    · exact h2 (Finset.mem_insert_self i U)
  · rcases fr.temp_new i h with h2 | h2 | h2
    · exact hi (hMU i h2)
    · exact h2 (Finset.mem_insert_self i U)
    · exact hiO h2
  · rcases fr.res_new n0 h with h2 | h2
    · exact hn0O h2
    · exact h2 (Finset.mem_insert_of_mem hn0U)
  · rcases fr.temp_new n0 h with h2 | h2 | h2
    · exact hn0M h2
    · exact h2 (Finset.mem_insert_of_mem hn0U)
    · exact hn0O h2

/-- The frame of a node whose subtree is killed: its positions become
temporary. -/
theorem NameFrame.killed {O : List ℕ} {U M : Finset ℕ} (hOU : ∀ x ∈ O, x ∈ U)
    (hMU : ∀ x ∈ M, x ∈ U) : NameFrame O U M [] U (M ∪ O.toFinset) := by
  refine
    { keep := fun x hx _ => hx, temp_mono := fun x hx => Finset.mem_union_left _ hx,
      temp_new := ?_, temp_used := ?_, nodup := ?_, pos := ?_, res_used := ?_, res_temp := ?_,
      res_new := ?_, exact := ?_ }
  · intro x hx
    rcases Finset.mem_union.1 hx with h | h
    · exact Or.inl h
    · exact Or.inr (Or.inr (List.mem_toFinset.1 h))
  · intro x hx
    rcases Finset.mem_union.1 hx with h | h
    · exact hMU x h
    · exact hOU x (List.mem_toFinset.1 h)
  · rw [SafraNode.indices_list_nil]; exact List.nodup_nil
  · intro p hp
    rw [SafraNode.subnodes_list_nil] at hp
    exact absurd hp (List.not_mem_nil p)
  · intro x hx
    rw [SafraNode.indices_list_nil] at hx
    exact absurd hx (List.not_mem_nil x)
  · intro x hx
    rw [SafraNode.indices_list_nil] at hx
    exact absurd hx (List.not_mem_nil x)
  · intro x hx
    rw [SafraNode.indices_list_nil] at hx
    exact absurd hx (List.not_mem_nil x)
  · intro x hx
    by_cases h : x ∈ O
    · exact Or.inr (Or.inl (Finset.mem_union_right _ (List.mem_toFinset.2 h)))
    · exact Or.inl ⟨hx, h⟩

/-- The frame of a node that is marked: the positions of the cloned children
are freed, the reserved position becomes temporary. -/
theorem NameFrame.marked {n0 i : ℕ} {Ocs : List ℕ} {U M Ub Mb : Finset ℕ}
    {rs : List SafraNode} (fr : NameFrame Ocs (insert i U) M rs Ub Mb)
    (hi : i ∉ U) (hn0U : n0 ∈ U) (hn0M : n0 ∉ M) (hn0O : n0 ∉ Ocs)
    (hOU : ∀ x ∈ Ocs, x ∈ U) (hMU : ∀ x ∈ M, x ∈ U)
    (r : SafraNode) (hr : SafraNode.indices_list [r] = [n0])
    (hpos : ∀ p ∈ SafraNode.subnodes_list [r], 1 ≤ p.name) :
    NameFrame (n0 :: Ocs) U M [r] (Ub \ (SafraNode.indices_list rs).toFinset)
      (insert i Mb) := by
  obtain ⟨⟨hiU, hiR, hiM⟩, ⟨hnU, hnR, hnM⟩, hne⟩ := fr.node_facts hi hn0U hn0M hn0O hOU hMU
  refine
    { keep := ?_, temp_mono := ?_, temp_new := ?_, temp_used := ?_, nodup := ?_, pos := hpos,
      res_used := ?_, res_temp := ?_, res_new := ?_, exact := ?_ }
  · intro x hx hxO
    rw [List.mem_cons, not_or] at hxO
    refine Finset.mem_sdiff.2 ⟨fr.keep x (Finset.mem_insert_of_mem hx) hxO.2, fun h => ?_⟩
    rcases fr.res_new x (List.mem_toFinset.1 h) with h2 | h2
    · exact hxO.2 h2
    · exact h2 (Finset.mem_insert_of_mem hx)
  · intro x hx
    exact Finset.mem_insert_of_mem (fr.temp_mono x hx)
  · intro x hx
    rcases Finset.mem_insert.1 hx with h | h
    · rw [h]; exact Or.inr (Or.inl hi)
    · rcases fr.temp_new x h with h2 | h2 | h2
      · exact Or.inl h2
      · exact Or.inr (Or.inl fun hc => h2 (Finset.mem_insert_of_mem hc))
      · exact Or.inr (Or.inr (List.mem_cons_of_mem _ h2))
  · intro x hx
    rcases Finset.mem_insert.1 hx with h | h
    · rw [h]
      exact Finset.mem_sdiff.2 ⟨hiU, fun hc => hiR (List.mem_toFinset.1 hc)⟩
    · exact Finset.mem_sdiff.2
        ⟨fr.temp_used x h, fun hc => fr.res_temp x (List.mem_toFinset.1 hc) h⟩
  · rw [hr]; exact List.nodup_singleton n0
  · intro x hx
    rw [hr, List.mem_singleton] at hx
    rw [hx]
    exact Finset.mem_sdiff.2 ⟨hnU, fun hc => hnR (List.mem_toFinset.1 hc)⟩
  · intro x hx hxM
    rw [hr, List.mem_singleton] at hx
    rw [hx] at hxM
    rcases Finset.mem_insert.1 hxM with h | h
    · exact hne h
    · exact hnM h
  · intro x hx
    rw [hr, List.mem_singleton] at hx
    rw [hx]
    exact Or.inl (List.mem_cons_self _ _)
  · intro x hx
    obtain ⟨hxU, hxR⟩ := Finset.mem_sdiff.1 hx
    rw [hr]
    rcases fr.exact x hxU with ⟨h, hn⟩ | h | h
    · rcases Finset.mem_insert.1 h with h2 | h2
      · exact Or.inr (Or.inl (h2 ▸ Finset.mem_insert_self i Mb))
      · by_cases hx0 : x = n0
        · exact Or.inr (Or.inr (List.mem_singleton.2 hx0))
        · left
          refine ⟨h2, fun hc => ?_⟩
          rcases List.mem_cons.1 hc with h3 | h3
          · exact hx0 h3
          · exact hn h3
    · exact Or.inr (Or.inl (Finset.mem_insert_of_mem h))
    · exact absurd (List.mem_toFinset.2 h) hxR

/-- The frame of a node that keeps its cloned children `rs` and gets the new
child at the reserved position. -/
theorem NameFrame.spawned {n0 i : ℕ} {Ocs : List ℕ} {U M Ub Mb : Finset ℕ}
    {rs : List SafraNode} (fr : NameFrame Ocs (insert i U) M rs Ub Mb)
    (hi : i ∉ U) (hn0U : n0 ∈ U) (hn0M : n0 ∉ M) (hn0O : n0 ∉ Ocs)
    (hOU : ∀ x ∈ Ocs, x ∈ U) (hMU : ∀ x ∈ M, x ∈ U)
    (r : SafraNode) (hr : SafraNode.indices_list [r] = n0 :: (SafraNode.indices_list rs ++ [i]))
    (hpos : ∀ p ∈ SafraNode.subnodes_list [r], 1 ≤ p.name) :
    NameFrame (n0 :: Ocs) U M [r] Ub Mb := by
  obtain ⟨⟨hiU, hiR, hiM⟩, ⟨hnU, hnR, hnM⟩, hne⟩ := fr.node_facts hi hn0U hn0M hn0O hOU hMU
  refine
    { keep := ?_, temp_mono := fr.temp_mono, temp_new := ?_, temp_used := fr.temp_used,
      nodup := ?_, pos := hpos, res_used := ?_, res_temp := ?_, res_new := ?_, exact := ?_ }
  · intro x hx hxO
    rw [List.mem_cons, not_or] at hxO
    exact fr.keep x (Finset.mem_insert_of_mem hx) hxO.2
  · intro x hx
    rcases fr.temp_new x hx with h2 | h2 | h2
    · exact Or.inl h2
    · exact Or.inr (Or.inl fun hc => h2 (Finset.mem_insert_of_mem hc))
    · exact Or.inr (Or.inr (List.mem_cons_of_mem _ h2))
  · rw [hr, List.nodup_cons, List.nodup_append]
    refine ⟨fun h => ?_, fr.nodup, List.nodup_singleton i, fun x hx1 hx2 => ?_⟩
    · rcases List.mem_append.1 h with h2 | h2
      · exact hnR h2
      · exact hne (List.mem_singleton.1 h2)
    · rw [List.mem_singleton] at hx2
      exact hiR (hx2 ▸ hx1)
  · intro x hx
    rw [hr] at hx
    rcases List.mem_cons.1 hx with h | h
    · rw [h]; exact hnU
    · rcases List.mem_append.1 h with h2 | h2
      · exact fr.res_used x h2
      · rw [List.mem_singleton.1 h2]; exact hiU
  · intro x hx
    rw [hr] at hx
    rcases List.mem_cons.1 hx with h | h
    · rw [h]; exact hnM
    · rcases List.mem_append.1 h with h2 | h2
      · exact fr.res_temp x h2
      · rw [List.mem_singleton.1 h2]; exact hiM
  · intro x hx
    rw [hr] at hx
    rcases List.mem_cons.1 hx with h | h
    · rw [h]; exact Or.inl (List.mem_cons_self _ _)
    · rcases List.mem_append.1 h with h2 | h2
      · rcases fr.res_new x h2 with h3 | h3
        · exact Or.inl (List.mem_cons_of_mem _ h3)
        · exact Or.inr fun hc => h3 (Finset.mem_insert_of_mem hc)
      · rw [List.mem_singleton.1 h2]; exact Or.inr hi
  · intro x hx
    rw [hr]
    rcases fr.exact x hx with ⟨h, hn⟩ | h | h
    · rcases Finset.mem_insert.1 h with h2 | h2
      · right; right
        rw [h2]
        exact List.mem_cons_of_mem _ (List.mem_append_right _ (List.mem_singleton.2 rfl))
      · by_cases hx0 : x = n0
        · right; right
          rw [hx0]; exact List.mem_cons_self _ _
        · left
          refine ⟨h2, fun hc => ?_⟩
          rcases List.mem_cons.1 hc with h3 | h3
          · exact hx0 h3
          · exact hn h3
    · exact Or.inr (Or.inl h)
    · exact Or.inr (Or.inr (List.mem_cons_of_mem _ (List.mem_append_left _ h)))

/-- The frame of a node that keeps its cloned children `rs` and gets no new
child: the reserved position becomes temporary. -/
theorem NameFrame.plain {n0 i : ℕ} {Ocs : List ℕ} {U M Ub Mb : Finset ℕ}
    {rs : List SafraNode} (fr : NameFrame Ocs (insert i U) M rs Ub Mb)
    (hi : i ∉ U) (hn0U : n0 ∈ U) (hn0M : n0 ∉ M) (hn0O : n0 ∉ Ocs)
    (hOU : ∀ x ∈ Ocs, x ∈ U) (hMU : ∀ x ∈ M, x ∈ U)
    (r : SafraNode) (hr : SafraNode.indices_list [r] = n0 :: SafraNode.indices_list rs)
    (hpos : ∀ p ∈ SafraNode.subnodes_list [r], 1 ≤ p.name) :
    NameFrame (n0 :: Ocs) U M [r] Ub (insert i Mb) := by
  obtain ⟨⟨hiU, hiR, hiM⟩, ⟨hnU, hnR, hnM⟩, hne⟩ := fr.node_facts hi hn0U hn0M hn0O hOU hMU
  refine
    { keep := ?_, temp_mono := ?_, temp_new := ?_, temp_used := ?_,
      nodup := ?_, pos := hpos, res_used := ?_, res_temp := ?_, res_new := ?_, exact := ?_ }
  · intro x hx hxO
    rw [List.mem_cons, not_or] at hxO
    exact fr.keep x (Finset.mem_insert_of_mem hx) hxO.2
  · intro x hx
    exact Finset.mem_insert_of_mem (fr.temp_mono x hx)
  · intro x hx
    rcases Finset.mem_insert.1 hx with h | h
    · rw [h]; exact Or.inr (Or.inl hi)
    · rcases fr.temp_new x h with h2 | h2 | h2
      · exact Or.inl h2
      · exact Or.inr (Or.inl fun hc => h2 (Finset.mem_insert_of_mem hc))
      · exact Or.inr (Or.inr (List.mem_cons_of_mem _ h2))
  · intro x hx
    rcases Finset.mem_insert.1 hx with h | h
    · rw [h]; exact hiU
    · exact fr.temp_used x h
  · rw [hr, List.nodup_cons]
    exact ⟨hnR, fr.nodup⟩
  · intro x hx
    rw [hr] at hx
    rcases List.mem_cons.1 hx with h | h
    · rw [h]; exact hnU
    · exact fr.res_used x h
  · intro x hx hxM
    rw [hr] at hx
    rcases List.mem_cons.1 hx with h | h
    · rw [h] at hxM
      rcases Finset.mem_insert.1 hxM with h2 | h2
      · exact hne h2
      · exact hnM h2
    · rcases Finset.mem_insert.1 hxM with h2 | h2
      · exact hiR (h2 ▸ h)
      · exact fr.res_temp x h h2
  · intro x hx
    rw [hr] at hx
    rcases List.mem_cons.1 hx with h | h
    · rw [h]; exact Or.inl (List.mem_cons_self _ _)
    · rcases fr.res_new x h with h3 | h3
      · exact Or.inl (List.mem_cons_of_mem _ h3)
      · exact Or.inr fun hc => h3 (Finset.mem_insert_of_mem hc)
  · intro x hx
    rw [hr]
    rcases fr.exact x hx with ⟨h, hn⟩ | h | h
    · rcases Finset.mem_insert.1 h with h2 | h2
      · exact Or.inr (Or.inl (h2 ▸ Finset.mem_insert_self i Mb))
      · by_cases hx0 : x = n0
        · right; right
          rw [hx0]; exact List.mem_cons_self _ _
        · left
          refine ⟨h2, fun hc => ?_⟩
          rcases List.mem_cons.1 hc with h3 | h3
          · exact hx0 h3
          · exact hn h3
    · exact Or.inr (Or.inl (Finset.mem_insert_of_mem h))
    · exact Or.inr (Or.inr (List.mem_cons_of_mem _ h))

theorem SafraNode.clone_names (input : NBW) (character : ℕ) (F : Finset ℕ) :
    (∀ (x : SafraNode) (T : SafraTree) (K : Finset ℕ),
      x.indices.Nodup → (∀ p ∈ x.subnodes, 1 ≤ p.name) →
        (∀ i ∈ x.indices, i ∈ T.used_node_names) →
        (∀ i ∈ x.indices, i ∉ T.temp_node_names) →
        (∀ i ∈ T.temp_node_names, i ∈ T.used_node_names) →
        NameFrame x.indices T.used_node_names T.temp_node_names
          (SafraNode.clone_spawn_and_transition input character F x false T K).1.toList
          (SafraNode.clone_spawn_and_transition input character F x false
            T K).2.1.used_node_names
          (SafraNode.clone_spawn_and_transition input character F x false
            T K).2.1.temp_node_names) ∧
      ∀ (cs : List SafraNode) (T : SafraTree) (K : Finset ℕ),
        (SafraNode.indices_list cs).Nodup → (∀ p ∈ SafraNode.subnodes_list cs, 1 ≤ p.name) →
          (∀ i ∈ SafraNode.indices_list cs, i ∈ T.used_node_names) →
          (∀ i ∈ SafraNode.indices_list cs, i ∉ T.temp_node_names) →
          (∀ i ∈ T.temp_node_names, i ∈ T.used_node_names) →
          NameFrame (SafraNode.indices_list cs) T.used_node_names T.temp_node_names
            (SafraNode.clone_children input character F cs T K).1
            (SafraNode.clone_children input character F cs T K).2.1.used_node_names
            (SafraNode.clone_children input character F cs T K).2.1.temp_node_names := by
  apply SafraNode.induction_both
  · intro name states marked children ih T K hnd hpos hU hM hMU
    rw [SafraNode.indices_mk] at hnd hU hM ⊢
    have hn0O : name - 1 ∉ SafraNode.indices_list children := (List.nodup_cons.1 hnd).1
    have hndc : (SafraNode.indices_list children).Nodup := (List.nodup_cons.1 hnd).2
    have hn0U : name - 1 ∈ T.used_node_names := hU _ (List.mem_cons_self _ _)
    have hn0M : name - 1 ∉ T.temp_node_names := hM _ (List.mem_cons_self _ _)
    have hOU : ∀ x ∈ SafraNode.indices_list children, x ∈ T.used_node_names :=
      fun x hx => hU x (List.mem_cons_of_mem _ hx)
    have hname : 1 ≤ name := hpos _ (SafraNode.self_mem_subnodes _)
    have hposc : ∀ p ∈ SafraNode.subnodes_list children, 1 ≤ p.name := by
      intro p hp
      apply hpos
      rw [SafraNode.subnodes_mk]
      exact List.mem_cons_of_mem _ hp
    by_cases hk : input.transition states character ⊆ K
    · rw [SafraNode.clone_killed input character F name states marked children T K hk,
        SafraNode.indices_mk]
      exact NameFrame.killed hU hMU
    · obtain ⟨hnm1, hfree, _, hUa, hMa⟩ := T.name_node_spec
      generalize hrs : SafraNode.clone_children input character F children T.name_node.2 K = rs
      have fr := ih T.name_node.2 K hndc hposc
        (fun x hx => by rw [hUa]; exact Finset.mem_insert_of_mem (hOU x hx))
        (fun x hx => by rw [hMa]; exact hM x (List.mem_cons_of_mem _ hx))
        (fun x hx => by
          rw [hUa]; rw [hMa] at hx
          exact Finset.mem_insert_of_mem (hMU x hx))
      rw [hrs, hUa, hMa] at fr
      by_cases hm : input.transition states character \ K ⊆
          rs.2.2 ∪ ((input.transition states character \ K) ∩ F) \ rs.2.2
      · rw [SafraNode.clone_marked input character F name states marked children T K rs hrs
          hk hm]
        have hU2 : ((SafraNode.kill_nodes rs.1 (rs.2.1.mark_node name)).temp_name_node
            T.name_node.1).used_node_names =
            rs.2.1.used_node_names \ (SafraNode.indices_list rs.1).toFinset :=
          (SafraNode.kill_eq.2 rs.1 (rs.2.1.mark_node name)).1
        have hM2 : ((SafraNode.kill_nodes rs.1 (rs.2.1.mark_node name)).temp_name_node
            T.name_node.1).temp_node_names =
            insert (T.name_node.1 - 1) rs.2.1.temp_node_names := by
          show insert _ (SafraNode.kill_nodes rs.1 (rs.2.1.mark_node name)).temp_node_names = _
          rw [(SafraNode.kill_eq.2 rs.1 (rs.2.1.mark_node name)).2]
          rfl
        show NameFrame _ _ _ [SafraNode.mk name _ true []] _ _
        rw [hU2, hM2]
        refine fr.marked hfree hn0U hn0M hn0O hOU hMU _ ?_ ?_
        · rw [SafraNode.indices_list_single, SafraNode.indices_mk, SafraNode.indices_list_nil]
        · intro p hp
          rw [SafraNode.subnodes_list_cons, SafraNode.subnodes_list_nil, List.append_nil,
            SafraNode.subnodes_mk, SafraNode.subnodes_list_nil, List.mem_singleton] at hp
          rw [hp]
          exact hname
      · by_cases hc : (((input.transition states character \ K) ∩ F) \ rs.2.2).Nonempty
        · rw [SafraNode.clone_spawned input character F name states marked children T K rs hrs
            hk hm hc]
          show NameFrame _ _ _ [SafraNode.mk name _ false (rs.1 ++ [SafraNode.mk _ _ true []])]
            rs.2.1.used_node_names rs.2.1.temp_node_names
          refine fr.spawned hfree hn0U hn0M hn0O hOU hMU _ ?_ ?_
          · rw [SafraNode.indices_list_single, SafraNode.indices_mk,
              SafraNode.indices_list_append, SafraNode.indices_list_single,
              SafraNode.indices_mk, SafraNode.indices_list_nil]
          · intro p hp
            rw [SafraNode.subnodes_list_cons, SafraNode.subnodes_list_nil, List.append_nil,
              SafraNode.subnodes_mk, List.mem_cons, SafraNode.subnodes_list_append,
              List.mem_append, SafraNode.subnodes_list_cons, SafraNode.subnodes_list_nil,
              List.append_nil, SafraNode.subnodes_mk, SafraNode.subnodes_list_nil,
              List.mem_singleton] at hp
            rcases hp with h | h | h
            · rw [h]; exact hname
            · exact fr.pos p h
            · rw [h]; exact hnm1
        · rw [SafraNode.clone_plain input character F name states marked children T K rs hrs
            hk hm hc]
          show NameFrame _ _ _ [SafraNode.mk name _ false rs.1]
            rs.2.1.used_node_names (insert (T.name_node.1 - 1) rs.2.1.temp_node_names)
          refine fr.plain hfree hn0U hn0M hn0O hOU hMU _ ?_ ?_
          · rw [SafraNode.indices_list_single, SafraNode.indices_mk]
          · intro p hp
            rw [SafraNode.subnodes_list_cons, SafraNode.subnodes_list_nil, List.append_nil,
              SafraNode.subnodes_mk, List.mem_cons] at hp
            rcases hp with h | h
            · rw [h]; exact hname
            · exact fr.pos p h
  · intro T K _ _ _ _ hMU
    rw [SafraNode.clone_children_nil, SafraNode.indices_list_nil]
    have := NameFrame.killed (O := []) (U := T.used_node_names) (M := T.temp_node_names)
      (fun x hx => absurd hx (List.not_mem_nil x)) hMU
    simpa using this
  · intro c cs ihc ihcs T K hnd hpos hU hM hMU
    rw [SafraNode.indices_list_cons] at hnd hU hM ⊢
    rw [SafraNode.clone_children_cons]
    obtain ⟨hnd1, hnd2, hdis⟩ := List.nodup_append.1 hnd
    have fr1 := ihc T K hnd1
      (fun p hp => hpos p (by
        rw [SafraNode.subnodes_list_cons]; exact List.mem_append_left _ hp))
      (fun x hx => hU x (List.mem_append_left _ hx))
      (fun x hx => hM x (List.mem_append_left _ hx)) hMU
    generalize SafraNode.clone_spawn_and_transition input character F c false T K = R1
      at fr1 ⊢
    have fr2 := ihcs R1.2.1 R1.2.2 hnd2
      (fun p hp => hpos p (by
        rw [SafraNode.subnodes_list_cons]; exact List.mem_append_right _ hp))
      (fun x hx => fr1.keep x (hU x (List.mem_append_right _ hx))
        (fun hc => hdis hc hx))
      (fun x hx hxM => by
        rcases fr1.temp_new x hxM with h | h | h
        · exact hM x (List.mem_append_right _ hx) h
        · exact h (hU x (List.mem_append_right _ hx))
        · exact hdis h hx)
      fr1.temp_used
    generalize SafraNode.clone_children input character F cs R1.2.1 R1.2.2 = R2 at fr2 ⊢
    exact fr1.append fr2 (fun x hx hx2 => hdis hx hx2)
      (fun x hx => hU x (List.mem_append_right _ hx))

/-! ## Names: how many positions are taken when `name_node` is called -/

theorem SafraNode.clone_used_subset (input : NBW) (character : ℕ) (F : Finset ℕ)
    (name : ℕ) (states : Finset ℕ) (marked : Bool) (children : List SafraNode)
    (T : SafraTree) (K : Finset ℕ) (hk : ¬ input.transition states character ⊆ K) :
    (SafraNode.clone_spawn_and_transition input character F (.mk name states marked children)
        false T K).2.1.used_node_names ⊆
      (SafraNode.clone_children input character F children T.name_node.2
        K).2.1.used_node_names := by
  generalize hrs : SafraNode.clone_children input character F children T.name_node.2 K = rs
  by_cases hm : input.transition states character \ K ⊆
      rs.2.2 ∪ ((input.transition states character \ K) ∩ F) \ rs.2.2
  · rw [SafraNode.clone_marked input character F name states marked children T K rs hrs hk hm]
    have hU2 : ((SafraNode.kill_nodes rs.1 (rs.2.1.mark_node name)).temp_name_node
        T.name_node.1).used_node_names =
        rs.2.1.used_node_names \ (SafraNode.indices_list rs.1).toFinset :=
      (SafraNode.kill_eq.2 rs.1 (rs.2.1.mark_node name)).1
    show ((SafraNode.kill_nodes rs.1 (rs.2.1.mark_node name)).temp_name_node
        T.name_node.1).used_node_names ⊆ _
    rw [hU2]
    exact Finset.sdiff_subset
  · by_cases hc : (((input.transition states character \ K) ∩ F) \ rs.2.2).Nonempty
    · rw [SafraNode.clone_spawned input character F name states marked children T K rs hrs
        hk hm hc]
      exact Finset.Subset.refl _
    · rw [SafraNode.clone_plain input character F name states marked children T K rs hrs
        hk hm hc]
      exact Finset.Subset.refl _

theorem SafraNode.clone_count (input : NBW) (character : ℕ) (F : Finset ℕ) :
    (∀ (x : SafraNode) (T : SafraTree) (K : Finset ℕ),
      (SafraNode.clone_spawn_and_transition input character F x false
          T K).2.1.used_node_names.card ≤ T.used_node_names.card + x.subnodes.length ∧
        (∀ T2 ∈ SafraNode.name_calls input character F x T K,
          T2.used_node_names.card < T.used_node_names.card + x.subnodes.length) ∧
        ∀ i ∈ (SafraNode.clone_spawn_and_transition input character F x false
            T K).2.1.used_node_names,
          i ∈ T.used_node_names ∨
            ∃ T2 ∈ SafraNode.name_calls input character F x T K, i = T2.name_node.1 - 1) ∧
      ∀ (cs : List SafraNode) (T : SafraTree) (K : Finset ℕ),
        (SafraNode.clone_children input character F cs T K).2.1.used_node_names.card ≤
            T.used_node_names.card + (SafraNode.subnodes_list cs).length ∧
          (∀ T2 ∈ SafraNode.name_calls_children input character F cs T K,
            T2.used_node_names.card <
              T.used_node_names.card + (SafraNode.subnodes_list cs).length) ∧
          ∀ i ∈ (SafraNode.clone_children input character F cs T K).2.1.used_node_names,
            i ∈ T.used_node_names ∨
              ∃ T2 ∈ SafraNode.name_calls_children input character F cs T K,
                i = T2.name_node.1 - 1 := by
  apply SafraNode.induction_both
  · intro name states marked children ih T K
    rw [SafraNode.subnodes_mk, List.length_cons, SafraNode.name_calls]
    by_cases hk : input.transition states character ⊆ K
    · rw [SafraNode.clone_killed input character F name states marked children T K hk,
        if_pos hk]
      exact ⟨Nat.le_add_right _ _, fun T2 h => absurd h (List.not_mem_nil T2),
        fun i hi => Or.inl hi⟩
    · rw [if_neg hk]
      obtain ⟨h1, h2, h3⟩ := ih T.name_node.2 K
      have hsub := SafraNode.clone_used_subset input character F name states marked children
        T K hk
      obtain ⟨_, _, _, hUa, _⟩ := T.name_node_spec
      have hcard : T.name_node.2.used_node_names.card ≤ T.used_node_names.card + 1 := by
        rw [hUa]
        exact Finset.card_insert_le _ _
      refine ⟨?_, ?_, ?_⟩
      · have := Finset.card_le_card hsub
        omega
      · intro T2 hT2
        rcases List.mem_cons.1 hT2 with h | h
        · rw [h]; omega
        · have := h2 T2 h
          omega
      · intro i hi
        rcases h3 i (hsub hi) with h | ⟨T2, hT2, e⟩
        · rw [hUa] at h
          rcases Finset.mem_insert.1 h with h4 | h4
          · exact Or.inr ⟨T, List.mem_cons_self _ _, h4⟩
          · exact Or.inl h4
        · exact Or.inr ⟨T2, List.mem_cons_of_mem _ hT2, e⟩
  · intro T K
    rw [SafraNode.clone_children_nil, SafraNode.name_calls_children]
    exact ⟨Nat.le_add_right _ _, fun T2 h => absurd h (List.not_mem_nil T2),
      fun i hi => Or.inl hi⟩
  · intro c cs ihc ihcs T K
    rw [SafraNode.clone_children_cons, SafraNode.name_calls_children,
      SafraNode.subnodes_list_cons, List.length_append]
    obtain ⟨h1, h2, h3⟩ := ihc T K
    obtain ⟨h4, h5, h6⟩ := ihcs
      (SafraNode.clone_spawn_and_transition input character F c false T K).2.1
      (SafraNode.clone_spawn_and_transition input character F c false T K).2.2
    refine ⟨?_, ?_, ?_⟩
    · show (SafraNode.clone_children input character F cs _ _).2.1.used_node_names.card ≤ _
      omega
    · intro T2 hT2
      rcases List.mem_append.1 hT2 with h | h
      · have := h2 T2 h
        omega
      · have := h5 T2 h
        omega
    · intro i hi
      rcases h6 i hi with h | ⟨T2, hT2, e⟩
      · rcases h3 i h with h7 | ⟨T2, hT2, e⟩
        · exact Or.inl h7
        · exact Or.inr ⟨T2, List.mem_append_left _ hT2, e⟩
      · exact Or.inr ⟨T2, List.mem_append_right _ hT2, e⟩

/-! ## The number of nodes of a tree -/

theorem SafraNode.count_le :
    (∀ x : SafraNode, x.SiblingInv → x.Nested → x.states.Nonempty →
        x.subnodes.length ≤ x.states.card) ∧
      ∀ cs : List SafraNode, (∀ c ∈ cs, c.SiblingInv ∧ c.Nested ∧ c.states.Nonempty) →
        cs.Pairwise (fun a b => Disjoint a.states b.states) →
        ∀ S : Finset ℕ, (∀ c ∈ cs, c.states ⊆ S) →
          (SafraNode.subnodes_list cs).length ≤ S.card := by
  apply SafraNode.induction_both
  · intro name states marked children ih hS hN hne
    rw [SafraNode.siblingInv_mk] at hS
    rw [SafraNode.nested_mk] at hN
    obtain ⟨⟨hpw, hcne, hcover⟩, hSc⟩ := hS
    obtain ⟨hsub, hNc⟩ := hN
    rw [SafraNode.subnodes_mk, List.length_cons]
    have hpos : 0 < states.card := Finset.card_pos.2 hne
    by_cases hnil : children = []
    · rw [hnil, SafraNode.subnodes_list_nil]
      exact hpos
    · obtain ⟨x0, hx0, hx0c⟩ := hcover hnil
      have := ih (fun c hc => ⟨hSc c hc, hNc c hc, hcne c hc⟩) hpw (states.erase x0)
        (fun c hc y hy => Finset.mem_erase.2 ⟨fun e => hx0c c hc (e ▸ hy), hsub c hc hy⟩)
      rw [Finset.card_erase_of_mem hx0] at this
      show (SafraNode.subnodes_list children).length + 1 ≤ states.card
      omega
  · intro _ _ S _
    rw [SafraNode.subnodes_list_nil]
    exact Nat.zero_le _
  · intro c cs ihc ihcs hall hpw S hsub
    rw [SafraNode.subnodes_list_cons, List.length_append]
    obtain ⟨hS, hN, hne⟩ := hall c (List.mem_cons_self _ _)
    have h1 := ihc hS hN hne
    rw [List.pairwise_cons] at hpw
    have h2 := ihcs (fun c2 hc2 => hall c2 (List.mem_cons_of_mem _ hc2)) hpw.2
      (S \ c.states)
      (fun c2 hc2 y hy => Finset.mem_sdiff.2
        ⟨hsub c2 (List.mem_cons_of_mem _ hc2) hy,
          fun hyc => Finset.disjoint_left.1 (hpw.1 c2 hc2) hyc hy⟩)
    have h3 := Finset.card_sdiff (hsub c (List.mem_cons_self _ _))
    have h4 := Finset.card_le_card (hsub c (List.mem_cons_self _ _))
    omega

/-! ## The initial tree and the tree after a transition -/

theorem SafraTree.fresh_name_node :
    SafraTree.fresh.name_node.1 = 1 ∧ SafraTree.fresh.name_node.2.used_node_names = {0} ∧
      SafraTree.fresh.name_node.2.temp_node_names = ∅ := by
  decide

theorem SafraTree.fresh_name_node_twice :
    SafraTree.fresh.name_node.2.name_node.1 = 2 ∧
      SafraTree.fresh.name_node.2.name_node.2.used_node_names = {0, 1} ∧
      SafraTree.fresh.name_node.2.name_node.2.temp_node_names = ∅ := by
  decide

/-- The three shapes of the initial tree. -/
theorem SafraTree.build_initial_tree_cases (A : NBW) :
    (((SafraTree.build_initial_tree A).root = some (.mk 1 A.initial false []) ∨
          (SafraTree.build_initial_tree A).root = some (.mk 1 A.initial true [])) ∧
        (SafraTree.build_initial_tree A).used_node_names = {0}) ∨
      ((A.initial ∩ A.final).Nonempty ∧ ¬ A.initial ⊆ A.final ∧
        (SafraTree.build_initial_tree A).root =
          some (.mk 1 A.initial false [.mk 2 (A.initial ∩ A.final) true []]) ∧
        (SafraTree.build_initial_tree A).used_node_names = {0, 1}) := by
  unfold SafraTree.build_initial_tree
  by_cases h1 : A.initial ∩ A.final = ∅
  · left
    simp only [h1, if_true]
    exact ⟨Or.inl rfl, SafraTree.fresh_name_node.2.1⟩
  · by_cases h2 : A.initial ⊆ A.final
    · left
      simp only [h1, h2, if_true, if_false]
      exact ⟨Or.inr rfl, SafraTree.fresh_name_node.2.1⟩
    · right
      simp only [h1, h2, if_false]
      exact ⟨Finset.nonempty_iff_ne_empty.2 h1, not_false, rfl,
        SafraTree.fresh_name_node_twice.2.1⟩

/-- The root and the used names of the tree after a transition, in terms of
the call of `clone_spawn_and_transition` with `root == false`. -/
theorem SafraTree.get_transition_root (t : SafraTree) (A : NBW) (c : ℕ) (r : SafraNode)
    (hr : t.root = some r) :
    (SafraTree.get_transition t A c).root =
        (SafraNode.clone_spawn_and_transition A c A.final r false
          { SafraTree.fresh with used_node_names := t.used_node_names } ∅).1 ∧
      ∀ r2, (SafraTree.get_transition t A c).root = some r2 →
        (SafraTree.get_transition t A c).used_node_names =
          (SafraNode.clone_spawn_and_transition A c A.final r false
              { SafraTree.fresh with used_node_names := t.used_node_names }
              ∅).2.1.used_node_names \
            (SafraNode.clone_spawn_and_transition A c A.final r false
              { SafraTree.fresh with used_node_names := t.used_node_names }
              ∅).2.1.temp_node_names := by
  obtain ⟨_, _, h3⟩ := SafraNode.clone_root A c A.final r
    { SafraTree.fresh with used_node_names := t.used_node_names } ∅
  unfold SafraTree.get_transition
  rw [hr]
  simp only
  rw [h3]
  cases hR : (SafraNode.clone_spawn_and_transition A c A.final r false
      { SafraTree.fresh with used_node_names := t.used_node_names } ∅).1 with
  | none =>
    simp only
    exact ⟨trivial, fun r2 h => absurd h (by simp)⟩
  | some r1 =>
    simp only
    exact ⟨trivial, fun r2 _ => rfl⟩

theorem SafraTree.get_transition_none (t : SafraTree) (A : NBW) (c : ℕ) (hr : t.root = none) :
    (SafraTree.get_transition t A c).root = none := by
  unfold SafraTree.get_transition
  rw [hr]

/-! ## Invariants of the reached trees -/

theorem SafraNode.leaf_facts (name : ℕ) (states : Finset ℕ) (marked : Bool) :
    SafraNode.SiblingInv (.mk name states marked []) ∧
      SafraNode.Nested (.mk name states marked []) ∧
      SafraNode.subnodes (.mk name states marked []) = [.mk name states marked []] ∧
      SafraNode.indices (.mk name states marked []) = [name - 1] := by
  refine ⟨?_, ?_, ?_, ?_⟩
  · rw [SafraNode.siblingInv_mk]
    exact ⟨⟨List.Pairwise.nil, fun c hc => absurd hc (List.not_mem_nil c),
      fun h => absurd rfl h⟩, fun c hc => absurd hc (List.not_mem_nil c)⟩
  · rw [SafraNode.nested_mk]
    exact ⟨fun c hc => absurd hc (List.not_mem_nil c),
      fun c hc => absurd hc (List.not_mem_nil c)⟩
  · rw [SafraNode.subnodes_mk, SafraNode.subnodes_list_nil]
  · rw [SafraNode.indices_mk, SafraNode.indices_list_nil]

/-- The invariants hold in the initial tree. -/
theorem SafraTree.initial_tree_inv (A : NBW) (r : SafraNode)
    (hr : (SafraTree.build_initial_tree A).root = some r) :
    r.SiblingInv ∧ r.Nested ∧ r.states = A.initial ∧ r.indices.Nodup ∧
      (∀ p ∈ r.subnodes, 1 ≤ p.name ∧ p.name ≤ 2) ∧
      (∀ i, i ∈ (SafraTree.build_initial_tree A).used_node_names ↔ i ∈ r.indices) ∧
      (r.children ≠ [] → A.initial.Nonempty) := by
  rcases SafraTree.build_initial_tree_cases A with ⟨h | h, hU⟩ | ⟨hne, hns, h, hU⟩
  · rw [h] at hr
    have e := (Option.some.inj hr).symm
    subst e
    obtain ⟨h1, h2, h3, h4⟩ := SafraNode.leaf_facts 1 A.initial false
    refine ⟨h1, h2, rfl, ?_, ?_, ?_, fun hc => absurd rfl hc⟩
    · rw [h4]; exact List.nodup_singleton _
    · intro p hp
      rw [h3, List.mem_singleton] at hp
      rw [hp]
      exact ⟨le_refl 1, Nat.le_succ 1⟩
    · intro i
      rw [hU, h4]
      simp
  · rw [h] at hr
    have e := (Option.some.inj hr).symm
    subst e
    obtain ⟨h1, h2, h3, h4⟩ := SafraNode.leaf_facts 1 A.initial true
    refine ⟨h1, h2, rfl, ?_, ?_, ?_, fun hc => absurd rfl hc⟩
    · rw [h4]; exact List.nodup_singleton _
    · intro p hp
      rw [h3, List.mem_singleton] at hp
      rw [hp]
      exact ⟨le_refl 1, Nat.le_succ 1⟩
    · intro i
      rw [hU, h4]
      simp
  · rw [h] at hr
    have e := (Option.some.inj hr).symm
    subst e
    obtain ⟨h1, h2, h3, h4⟩ := SafraNode.leaf_facts 2 (A.initial ∩ A.final) true
    obtain ⟨x0, hx0, hx0n⟩ := Finset.not_subset.1 hns
    have hsub : SafraNode.subnodes
        (.mk 1 A.initial false [.mk 2 (A.initial ∩ A.final) true []]) =
        [.mk 1 A.initial false [.mk 2 (A.initial ∩ A.final) true []],
          .mk 2 (A.initial ∩ A.final) true []] := by
      rw [SafraNode.subnodes_mk, SafraNode.subnodes_list_cons, SafraNode.subnodes_list_nil,
        h3]
      rfl
    have hind : SafraNode.indices
        (.mk 1 A.initial false [.mk 2 (A.initial ∩ A.final) true []]) = [0, 1] := by
      unfold SafraNode.indices
      rw [hsub]
      rfl
    refine ⟨?_, ?_, rfl, ?_, ?_, ?_, fun _ => ⟨x0, hx0⟩⟩
    · rw [SafraNode.siblingInv_mk]
      refine ⟨⟨List.pairwise_singleton _ _, fun c hc => ?_, fun _ => ⟨x0, hx0, fun c hc => ?_⟩⟩,
        fun c hc => ?_⟩
      · rw [List.mem_singleton] at hc
        rw [hc]
        exact hne
      · rw [List.mem_singleton] at hc
        rw [hc]
        exact fun hx => hx0n (Finset.mem_inter.1 hx).2
      · rw [List.mem_singleton] at hc
        rw [hc]
        exact h1
    · rw [SafraNode.nested_mk]
      refine ⟨fun c hc => ?_, fun c hc => ?_⟩
      · rw [List.mem_singleton] at hc
        rw [hc]
        exact Finset.inter_subset_left
      · rw [List.mem_singleton] at hc
        rw [hc]
        exact h2
    · rw [hind]
      decide
    · intro p hp
      rw [hsub] at hp
      rcases List.mem_cons.1 hp with e | e
      · rw [e]
        exact ⟨le_refl 1, Nat.le_succ 1⟩
      · rw [List.mem_singleton] at e
        rw [e]
        exact ⟨Nat.le_succ 1, le_refl 2⟩
    · intro i
      rw [hU, hind]
      simp

/-- Siblings are disjoint and non-empty in every reached tree. -/
theorem SafraTree.reached_sibling (A : NBW) {t : SafraTree} (h : SafraTree.Reached A t)
    (r : SafraNode) (hr : t.root = some r) : r.SiblingInv := by
  cases h with
  | initial => exact (SafraTree.initial_tree_inv A r hr).1
  | step t0 c h0 _ _ =>
    cases hr0 : t0.root with
    | none =>
      rw [SafraTree.get_transition_none t0 A c hr0] at hr
      exact absurd hr (by simp)
    | some r0 =>
      rw [(SafraTree.get_transition_root t0 A c r0 hr0).1] at hr
      exact ((SafraNode.clone_labels A c A.final).1 r0 _ ∅).2 r hr |>.2.2.2.1

/-- Without the cache, labels are nested in every reached tree. -/
theorem SafraTree.reached_nested (A : NBW) (hcache : A.use_cache = false) {t : SafraTree}
    (h : SafraTree.Reached A t) : ∀ r, t.root = some r → r.Nested := by
  induction h with
  | initial => exact fun r hr => (SafraTree.initial_tree_inv A r hr).2.1
  | step t0 c _ _ _ ih =>
    intro r hr
    cases hr0 : t0.root with
    | none =>
      rw [SafraTree.get_transition_none t0 A c hr0] at hr
      exact absurd hr (by simp)
    | some r0 =>
      rw [(SafraTree.get_transition_root t0 A c r0 hr0).1] at hr
      exact (((SafraNode.clone_labels A c A.final).1 r0 _ ∅).2 r hr).2.2.2.2
        (fun S S2 hS => A.transition_mono hcache hS c) (ih r0 hr0)

/-- In every reached tree the positions of the nodes are distinct, the names
are at least 1, and `used_node_names` holds exactly the positions of the
nodes. -/
theorem SafraTree.reached_names (A : NBW) {t : SafraTree} (h : SafraTree.Reached A t) :
    ∀ r, t.root = some r →
      r.indices.Nodup ∧ (∀ p ∈ r.subnodes, 1 ≤ p.name) ∧
        ∀ i, i ∈ t.used_node_names ↔ i ∈ r.indices := by
  induction h with
  | initial =>
    intro r hr
    obtain ⟨_, _, _, h4, h5, h6, _⟩ := SafraTree.initial_tree_inv A r hr
    exact ⟨h4, fun p hp => (h5 p hp).1, h6⟩
  | step t0 c _ _ _ ih =>
    intro r hr
    cases hr0 : t0.root with
    | none =>
      rw [SafraTree.get_transition_none t0 A c hr0] at hr
      exact absurd hr (by simp)
    | some r0 =>
      obtain ⟨hnd, hpos, hex⟩ := ih r0 hr0
      obtain ⟨hroot, hused⟩ := SafraTree.get_transition_root t0 A c r0 hr0
      have fr := (SafraNode.clone_names A c A.final).1 r0
        { SafraTree.fresh with used_node_names := t0.used_node_names } ∅ hnd hpos
        (fun i hi => (hex i).2 hi) (fun i _ hc => absurd hc (Finset.not_mem_empty i))
        (fun i hc => absurd hc (Finset.not_mem_empty i))
      rw [hused r hr]
      rw [hroot] at hr
      rw [hr] at fr
      have hlist : SafraNode.indices_list (some r).toList = r.indices :=
        SafraNode.indices_list_single r
      refine ⟨?_, ?_, fun i => ⟨fun hi => ?_, fun hi => ?_⟩⟩
      · rw [← hlist]; exact fr.nodup
      · intro p hp
        apply fr.pos
        show p ∈ SafraNode.subnodes_list [r]
        rw [SafraNode.subnodes_list_cons, SafraNode.subnodes_list_nil, List.append_nil]
        exact hp
      · obtain ⟨hiU, hiM⟩ := Finset.mem_sdiff.1 hi
        rcases fr.exact i hiU with ⟨h1, h2⟩ | h1 | h1
        · exact absurd ((hex i).1 h1) h2
        · exact absurd h1 hiM
        · rw [← hlist]; exact h1
      · rw [← hlist] at hi
        exact Finset.mem_sdiff.2 ⟨fr.res_used i hi, fr.res_temp i hi⟩

theorem card_le_of_lt (S : Finset ℕ) (n : ℕ) (h : ∀ x ∈ S, x < n) : S.card ≤ n := by
  have hsub : S ⊆ Finset.range n := fun x hx => Finset.mem_range.2 (h x hx)
  simpa using Finset.card_le_card hsub

/-- The names handed out by the calls of `name_node` in one transition from a
tree with at most `N` nodes whose used names are the positions of its nodes. -/
theorem SafraNode.name_calls_bound (A : NBW) (c : ℕ) (r0 : SafraNode) (U : Finset ℕ)
    (hnd : r0.indices.Nodup) (hex : ∀ i, i ∈ U ↔ i ∈ r0.indices)
    (hcnt : r0.subnodes.length ≤ A.size) :
    (∀ T ∈ SafraNode.name_calls A c A.final r0
        { SafraTree.fresh with used_node_names := U } ∅,
      1 ≤ T.name_node.1 ∧ T.name_node.1 ≤ 2 * A.size ∧
        T.name_node.1 - 1 ∉ T.used_node_names) ∧
      ∀ i ∈ (SafraNode.clone_spawn_and_transition A c A.final r0 false
          { SafraTree.fresh with used_node_names := U } ∅).2.1.used_node_names,
        (∀ j ∈ U, j < 2 * A.size) → i < 2 * A.size := by
  have hU : U = r0.indices.toFinset := by
    ext i
    rw [hex, List.mem_toFinset]
  have hcard : U.card = r0.subnodes.length := by
    rw [hU, List.toFinset_card_of_nodup hnd]
    unfold SafraNode.indices
    rw [List.length_map]
  obtain ⟨_, h2, h3⟩ := (SafraNode.clone_count A c A.final).1 r0
    { SafraTree.fresh with used_node_names := U } ∅
  have hcall : ∀ T ∈ SafraNode.name_calls A c A.final r0
      { SafraTree.fresh with used_node_names := U } ∅,
      1 ≤ T.name_node.1 ∧ T.name_node.1 ≤ 2 * A.size ∧
        T.name_node.1 - 1 ∉ T.used_node_names := by
    intro T hT
    obtain ⟨s1, s2, s3, _, _⟩ := T.name_node_spec
    have := h2 T hT
    have e : ({ SafraTree.fresh with used_node_names := U } : SafraTree).used_node_names = U :=
      rfl
    rw [e] at this
    exact ⟨s1, by omega, s2⟩
  refine ⟨hcall, fun i hi hold => ?_⟩
  rcases h3 i hi with h | ⟨T, hT, e⟩
  · exact hold i h
  · obtain ⟨c1, c2, _⟩ := hcall T hT
    omega

/-- With at least one state, without the cache and with successor sets that
hold states only, a reached tree has at most `N` nodes and uses positions below
`2 * N` only. -/
theorem SafraTree.reached_bound (A : NBW) (hN : 1 ≤ A.size) (hcache : A.use_cache = false)
    (hwf : A.WellFormed) {t : SafraTree} (h : SafraTree.Reached A t) :
    ∀ r, t.root = some r →
      r.subnodes.length ≤ A.size ∧ ∀ i ∈ t.used_node_names, i < 2 * A.size := by
  induction h with
  | initial =>
    intro r hr
    obtain ⟨h1, h2, h3, _, h5, h6, h7⟩ := SafraTree.initial_tree_inv A r hr
    refine ⟨?_, fun i hi => ?_⟩
    · by_cases hne : A.initial.Nonempty
      · have := SafraNode.count_le.1 r h1 h2 (by rw [h3]; exact hne)
        rw [h3] at this
        have := card_le_of_lt A.initial A.size hwf.1
        omega
      · have hch : r.children = [] := by
          by_contra hc
          exact hne (h7 hc)
        cases r with
        | mk name states marked children =>
          have hch2 : children = [] := hch
          rw [hch2, SafraNode.subnodes_mk, SafraNode.subnodes_list_nil]
          exact hN
    · rw [h6] at hi
      unfold SafraNode.indices at hi
      obtain ⟨p, hp, e⟩ := List.mem_map.1 hi
      have := (h5 p hp).2
      omega
  | step t0 c h0 hc1 hc2 ih =>
    intro r hr
    cases hr0 : t0.root with
    | none =>
      rw [SafraTree.get_transition_none t0 A c hr0] at hr
      exact absurd hr (by simp)
    | some r0 =>
      obtain ⟨hcnt0, hold⟩ := ih r0 hr0
      obtain ⟨hnd, _, hex⟩ := SafraTree.reached_names A h0 r0 hr0
      have hS := SafraTree.reached_sibling A (SafraTree.Reached.step t0 c h0 hc1 hc2) r hr
      have hNest := SafraTree.reached_nested A hcache
        (SafraTree.Reached.step t0 c h0 hc1 hc2) r hr
      obtain ⟨hroot, hused⟩ := SafraTree.get_transition_root t0 A c r0 hr0
      have hr2 := hr
      rw [hroot] at hr2
      obtain ⟨hst, hne, _⟩ := ((SafraNode.clone_labels A c A.final).1 r0 _ ∅).2 r hr2
      refine ⟨?_, fun i hi => ?_⟩
      · have h1 := SafraNode.count_le.1 r hS hNest hne
        have h2 : r.states.card ≤ A.size := by
          apply card_le_of_lt
          intro x hx
          rw [hst] at hx
          exact A.transition_lt hcache hwf _ hc1 hc2 x (Finset.mem_sdiff.1 hx).1
        omega
      · rw [hused r hr] at hi
        exact (SafraNode.name_calls_bound A c r0 t0.used_node_names hnd hex hcnt0).2 i
          (Finset.mem_sdiff.1 hi).1 hold

/-! ## Claims about the Safra trees reached by `determinize` -/

theorem NBW.branching_reached :
    SafraTree.Reached NBW.branching
      (SafraTree.get_transition
        (SafraTree.get_transition (SafraTree.build_initial_tree NBW.branching) NBW.branching 1)
        NBW.branching 1) :=
  SafraTree.Reached.step _ 1
    (SafraTree.Reached.step _ 1 SafraTree.Reached.initial (le_refl 1) (le_refl 1))
    (le_refl 1) (le_refl 1)

theorem SafraTree.reached_child_labels (A : NBW) (hcache : A.use_cache = false)
    {t : SafraTree} (h : SafraTree.Reached A t) (r : SafraNode) (hr : t.root = some r)
    (p : SafraNode) (hp : p ∈ r.subnodes) (c : SafraNode) (hc : c ∈ p.children) :
    c.states.Nonempty ∧ c.states ⊂ p.states := by
  obtain ⟨_, hne, hcover⟩ := SafraTree.reached_sibling A h r hr p hp
  have hsub := SafraTree.reached_nested A hcache h r hr p hp c hc
  obtain ⟨x0, hx0, hx0c⟩ := hcover (List.ne_nil_of_mem hc)
  exact ⟨hne c hc, hsub, fun hback => hx0c c hc (hback hx0)⟩

theorem SafraTree.reached_names_nodup (A : NBW) {t : SafraTree} (h : SafraTree.Reached A t)
    (r : SafraNode) (hr : t.root = some r) : (r.subnodes.map SafraNode.name).Nodup := by
  have hnd := (SafraTree.reached_names A h r hr).1
  unfold SafraNode.indices at hnd
  have e : r.subnodes.map (fun p => p.name - 1) =
      (r.subnodes.map SafraNode.name).map (fun n => n - 1) := by
    rw [List.map_map]
    rfl
  rw [e] at hnd
  exact List.Nodup.of_map _ hnd

theorem SafraTree.reached_names_range (A : NBW) (hN : 1 ≤ A.size)
    (hcache : A.use_cache = false) (hwf : A.WellFormed) :
    (∀ T ∈ SafraTree.initial_name_calls A,
        1 ≤ T.name_node.1 ∧ T.name_node.1 ≤ 2 * A.size ∧
          T.name_node.1 - 1 ∉ T.used_node_names) ∧
      ∀ t, SafraTree.Reached A t →
        (∀ r, t.root = some r → ∀ p ∈ r.subnodes, 1 ≤ p.name ∧ p.name ≤ 2 * A.size) ∧
          ∀ c, 1 ≤ c → c ≤ A.alphabet_size → ∀ T ∈ SafraTree.transition_name_calls t A c,
            1 ≤ T.name_node.1 ∧ T.name_node.1 ≤ 2 * A.size ∧
              T.name_node.1 - 1 ∉ T.used_node_names := by
  refine ⟨?_, fun t h => ⟨?_, ?_⟩⟩
  · intro T hT
    have hcases : T = SafraTree.fresh ∨ T = SafraTree.fresh.name_node.2 := by
      unfold SafraTree.initial_name_calls at hT
      split_ifs at hT
      · exact Or.inl (List.mem_singleton.1 hT)
      · exact Or.inl (List.mem_singleton.1 hT)
      · rcases List.mem_cons.1 hT with e | e
        · exact Or.inl e
        · exact Or.inr (List.mem_singleton.1 e)
    obtain ⟨s1, s2, _, _, _⟩ := T.name_node_spec
    refine ⟨s1, ?_, s2⟩
    rcases hcases with e | e
    · rw [e, SafraTree.fresh_name_node.1]
      omega
    · rw [e, SafraTree.fresh_name_node_twice.1]
      omega
  · intro r hr p hp
    obtain ⟨_, hpos, hex⟩ := SafraTree.reached_names A h r hr
    obtain ⟨_, hused⟩ := SafraTree.reached_bound A hN hcache hwf h r hr
    have hmem : p.name - 1 ∈ r.indices := List.mem_map.2 ⟨p, hp, rfl⟩
    have := hused _ ((hex _).2 hmem)
    have := hpos p hp
    exact ⟨this, by omega⟩
  · intro c _ _ T hT
    unfold SafraTree.transition_name_calls at hT
    cases hr0 : t.root with
    | none =>
      rw [hr0] at hT
      exact absurd hT (List.not_mem_nil T)
    | some r0 =>
      rw [hr0] at hT
      obtain ⟨hnd, _, hex⟩ := SafraTree.reached_names A h r0 hr0
      obtain ⟨hcnt, _⟩ := SafraTree.reached_bound A hN hcache hwf h r0 hr0
      exact (SafraNode.name_calls_bound A c r0 t.used_node_names hnd hex hcnt).1 T hT

/-- C17. In every non-empty Safra tree reached by `determinize(A)` (the initial
tree or a tree obtained from it by repeated `SafraTree::get_transition`), any
two distinct children of the same node have disjoint labels. -/
theorem SafraTree.siblings_disjoint (A : NBW) (t : SafraTree) (h : SafraTree.Reached A t)
    (r : SafraNode) (hr : t.root = some r) (p : SafraNode) (hp : p ∈ r.subnodes) :
    p.children.Pairwise (fun a b => Disjoint a.states b.states) :=
  (SafraTree.reached_sibling A h r hr p hp).1

/-- Witness for C17: the tree of the automaton `branching` after two
transitions, whose root has the two children `{2}` and `{1}`. -/
theorem SafraTree.siblings_disjoint_witness :
    (SafraTree.Reached NBW.branching
        (SafraTree.get_transition
          (SafraTree.get_transition (SafraTree.build_initial_tree NBW.branching)
            NBW.branching 1) NBW.branching 1) ∧
      (SafraTree.get_transition
          (SafraTree.get_transition (SafraTree.build_initial_tree NBW.branching)
            NBW.branching 1) NBW.branching 1).root =
        some (.mk 1 {1, 0, 2} false [.mk 2 {2} true [], .mk 3 {1} true []])) ∧
    (SafraNode.mk 1 {1, 0, 2} false [.mk 2 {2} true [], .mk 3 {1} true []]).children.Pairwise
      (fun a b => Disjoint a.states b.states) :=
  ⟨⟨NBW.branching_reached, rfl⟩,
    SafraTree.siblings_disjoint NBW.branching _ NBW.branching_reached
      (.mk 1 {1, 0, 2} false [.mk 2 {2} true [], .mk 3 {1} true []]) rfl _
      (SafraNode.self_mem_subnodes _)⟩

/-- C18. In every non-empty Safra tree reached by `determinize(A)`, the label
of every child node is a non-empty proper subset of its parent's label. The
cache flag is the one every construction path of the program sets. -/
theorem SafraTree.child_label_proper (A : NBW)
    (hcache : A.use_cache = (NBW_USE_CACHE && decide (A.size ≤ NBW_MAX_CACHED_SIZE)))
    (t : SafraTree) (h : SafraTree.Reached A t) (r : SafraNode) (hr : t.root = some r)
    (p : SafraNode) (hp : p ∈ r.subnodes) (c : SafraNode) (hc : c ∈ p.children) :
    c.states.Nonempty ∧ c.states ⊂ p.states :=
  SafraTree.reached_child_labels A (by rw [hcache]; rfl) h r hr p hp c hc

/-- Witness for C18: the tree of `branching` after two transitions, its root
and the child `{2}`. -/
theorem SafraTree.child_label_proper_witness :
    (NBW.branching.use_cache =
        (NBW_USE_CACHE && decide (NBW.branching.size ≤ NBW_MAX_CACHED_SIZE)) ∧
      SafraTree.Reached NBW.branching
        (SafraTree.get_transition
          (SafraTree.get_transition (SafraTree.build_initial_tree NBW.branching)
            NBW.branching 1) NBW.branching 1) ∧
      (SafraTree.get_transition
          (SafraTree.get_transition (SafraTree.build_initial_tree NBW.branching)
            NBW.branching 1) NBW.branching 1).root =
        some (.mk 1 {1, 0, 2} false [.mk 2 {2} true [], .mk 3 {1} true []])) ∧
    ((SafraNode.mk 2 {2} true []).states.Nonempty ∧
      (SafraNode.mk 2 {2} true []).states ⊂
        (SafraNode.mk 1 {1, 0, 2} false [.mk 2 {2} true [], .mk 3 {1} true []]).states) :=
  ⟨⟨rfl, NBW.branching_reached, rfl⟩,
    SafraTree.child_label_proper NBW.branching rfl _ NBW.branching_reached
      (.mk 1 {1, 0, 2} false [.mk 2 {2} true [], .mk 3 {1} true []]) rfl _
      (SafraNode.self_mem_subnodes _) (.mk 2 {2} true []) (List.mem_cons_self _ _)⟩

/-- C19. In every non-empty Safra tree reached by `determinize(A)`, no two
distinct nodes of the tree carry the same name: the list of the names of the
nodes has no repetition. -/
theorem SafraTree.names_distinct (A : NBW) (t : SafraTree) (h : SafraTree.Reached A t)
    (r : SafraNode) (hr : t.root = some r) : (r.subnodes.map SafraNode.name).Nodup :=
  SafraTree.reached_names_nodup A h r hr

/-- Witness for C19: the tree of `branching` after two transitions, with the
names 1, 2, 3. -/
theorem SafraTree.names_distinct_witness :
    (SafraTree.Reached NBW.branching
        (SafraTree.get_transition
          (SafraTree.get_transition (SafraTree.build_initial_tree NBW.branching)
            NBW.branching 1) NBW.branching 1) ∧
      (SafraTree.get_transition
          (SafraTree.get_transition (SafraTree.build_initial_tree NBW.branching)
            NBW.branching 1) NBW.branching 1).root =
        some (.mk 1 {1, 0, 2} false [.mk 2 {2} true [], .mk 3 {1} true []])) ∧
    ((SafraNode.mk 1 {1, 0, 2} false [.mk 2 {2} true [], .mk 3 {1} true []]).subnodes.map
      SafraNode.name).Nodup :=
  ⟨⟨NBW.branching_reached, rfl⟩,
    SafraTree.names_distinct NBW.branching _ NBW.branching_reached
      (.mk 1 {1, 0, 2} false [.mk 2 {2} true [], .mk 3 {1} true []]) rfl⟩

/-- C20. For an automaton with `N >= 1` states (successor sets holding states
only, the cache flag as every construction path sets it), every call of
`SafraTree::name_node` during `determinize(A)`, in `build_initial_tree` or in a
transition from a reached tree on a character `1 .. alphabet_size`, finds a
free position below `2 * N` and hands out a name in `[1, 2 * N]`, whether the
name ends up on a node or is only reserved; and every node of every reached
tree has a name in `[1, 2 * N]`. -/
theorem SafraTree.names_in_range (A : NBW) (hN : 1 ≤ A.size)
    (hcache : A.use_cache = (NBW_USE_CACHE && decide (A.size ≤ NBW_MAX_CACHED_SIZE)))
    (hwf : A.WellFormed) :
    (∀ T ∈ SafraTree.initial_name_calls A,
        1 ≤ T.name_node.1 ∧ T.name_node.1 ≤ 2 * A.size ∧
          T.name_node.1 - 1 ∉ T.used_node_names) ∧
      ∀ t, SafraTree.Reached A t →
        (∀ r, t.root = some r → ∀ p ∈ r.subnodes, 1 ≤ p.name ∧ p.name ≤ 2 * A.size) ∧
          ∀ c, 1 ≤ c → c ≤ A.alphabet_size → ∀ T ∈ SafraTree.transition_name_calls t A c,
            1 ≤ T.name_node.1 ∧ T.name_node.1 ≤ 2 * A.size ∧
              T.name_node.1 - 1 ∉ T.used_node_names :=
  SafraTree.reached_names_range A hN (by rw [hcache]; rfl) hwf

/-- Witness for C20: the automaton `branching`, with three states. -/
theorem SafraTree.names_in_range_witness :
    (1 ≤ NBW.branching.size ∧
      NBW.branching.use_cache =
        (NBW_USE_CACHE && decide (NBW.branching.size ≤ NBW_MAX_CACHED_SIZE)) ∧
      NBW.branching.WellFormed) ∧
    ((∀ T ∈ SafraTree.initial_name_calls NBW.branching,
        1 ≤ T.name_node.1 ∧ T.name_node.1 ≤ 2 * NBW.branching.size ∧
          T.name_node.1 - 1 ∉ T.used_node_names) ∧
      ∀ t, SafraTree.Reached NBW.branching t →
        (∀ r, t.root = some r → ∀ p ∈ r.subnodes,
            1 ≤ p.name ∧ p.name ≤ 2 * NBW.branching.size) ∧
          ∀ c, 1 ≤ c → c ≤ NBW.branching.alphabet_size →
            ∀ T ∈ SafraTree.transition_name_calls t NBW.branching c,
              1 ≤ T.name_node.1 ∧ T.name_node.1 ≤ 2 * NBW.branching.size ∧
                T.name_node.1 - 1 ∉ T.used_node_names) :=
  have hwf : NBW.branching.WellFormed := by
    unfold NBW.WellFormed
    decide
  ⟨⟨by decide, rfl, hwf⟩, SafraTree.names_in_range NBW.branching (by decide) rfl hwf⟩

/-! ## Claim about the initial tree -/

/-- C21. `build_initial_tree(A)` returns a tree whose root has name 1 and label
`I`; the root has no child and is unmarked when `I ∩ F` is empty, has no child
and is marked when `I ∩ F` is not empty and `I ⊆ F`, and otherwise is unmarked
with exactly one child, named 2, labelled `I ∩ F` and marked. -/
theorem SafraTree.build_initial_tree_shape (A : NBW) :
    (SafraTree.build_initial_tree A).root =
      some
        (if A.initial ∩ A.final = ∅ then SafraNode.mk 1 A.initial false []
        else if A.initial ⊆ A.final then SafraNode.mk 1 A.initial true []
        else SafraNode.mk 1 A.initial false [SafraNode.mk 2 (A.initial ∩ A.final) true []]) := by
  unfold SafraTree.build_initial_tree
  by_cases h1 : A.initial ∩ A.final = ∅
  · simp only [h1, if_true]
    rfl
  · by_cases h2 : A.initial ⊆ A.final
    · simp only [h1, h2, if_true, if_false]
      rfl
    · simp only [h1, h2, if_false]
      rfl

/-! ## Claim about `Literal::check` -/

theorem bit_to_nat (s i : ℕ) : (s.testBit i).toNat = s / 2 ^ i % 2 := by
  rw [Nat.testBit_to_div_mod]
  rcases Nat.mod_two_eq_zero_or_one (s / 2 ^ i) with h | h
  · rw [h]; rfl
  · rw [h]; rfl

theorem bit_eq_iff (s t i j : ℕ) : s.testBit i = t.testBit j ↔ s / 2 ^ i % 2 = t / 2 ^ j % 2 := by
  rw [← bit_to_nat, ← bit_to_nat]
  cases s.testBit i <;> cases t.testBit j <;> simp

theorem Literal.check_iff (l : Literal) (x y z : ℕ) :
    l.check x y z = true ↔
      l.eca / 2 ^ (4 * (x / 2 ^ l.i1 % 2) + 2 * (y / 2 ^ l.i1 % 2) + z / 2 ^ l.i1 % 2) % 2 =
        y / 2 ^ l.i2 % 2 := by
  unfold Literal.check
  rw [beq_iff_eq, bit_eq_iff, bit_to_nat, bit_to_nat, bit_to_nat]

theorem identity_eca_bit (a b c : ℕ) (ha : a < 2) (hb : b < 2) (hc : c < 2) :
    204 / 2 ^ (4 * a + 2 * b + c) % 2 = b := by
  interval_cases a <;> interval_cases b <;> interval_cases c <;> rfl

/-- C30. For a literal with track indices `i1`, `i2` and a rule number
`r <= 255`, whatever its `negated` flag, `check(x, y, z)` is true iff bit number
`4 * x[i1] + 2 * y[i1] + z[i1]` of `r` equals `y[i2]` (bit `b` of a number `n`
being `n / 2 ^ b % 2`); and for `r = 204` it is true iff `y[i1] = y[i2]`. -/
theorem Literal.check_spec (negated : Bool) (i1 i2 r : ℕ) (hr : r ≤ 255) (x y z : ℕ) :
    ((Literal.ctor i1 i2 r negated).check x y z = true ↔
        r / 2 ^ (4 * (x / 2 ^ i1 % 2) + 2 * (y / 2 ^ i1 % 2) + z / 2 ^ i1 % 2) % 2 =
          y / 2 ^ i2 % 2) ∧
      ((Literal.ctor i1 i2 204 negated).check x y z = true ↔
        y / 2 ^ i1 % 2 = y / 2 ^ i2 % 2) := by
  constructor
  · rw [Literal.check_iff]
    show r % 2 ^ 8 / 2 ^ (4 * (x / 2 ^ i1 % 2) + 2 * (y / 2 ^ i1 % 2) + z / 2 ^ i1 % 2) % 2 =
      y / 2 ^ i2 % 2 ↔ _
    rw [Nat.mod_eq_of_lt (by omega : r < 2 ^ 8)]
  · rw [Literal.check_iff]
    show 204 % 2 ^ 8 / 2 ^ (4 * (x / 2 ^ i1 % 2) + 2 * (y / 2 ^ i1 % 2) + z / 2 ^ i1 % 2) % 2 =
      y / 2 ^ i2 % 2 ↔ _
    rw [Nat.mod_eq_of_lt (by decide : 204 < 2 ^ 8),
      identity_eca_bit _ _ _ (Nat.mod_lt _ Nat.two_pos) (Nat.mod_lt _ Nat.two_pos)
        (Nat.mod_lt _ Nat.two_pos)]

/-- Witness for C30: rule 110 on one track, with the slices `x = 0`, `y = 1`,
`z = 1` (bit 3 of 110 is 1). -/
theorem Literal.check_spec_witness :
    110 ≤ 255 ∧
    (((Literal.ctor 0 0 110 false).check 0 1 1 = true ↔
        110 / 2 ^ (4 * (0 / 2 ^ 0 % 2) + 2 * (1 / 2 ^ 0 % 2) + 1 / 2 ^ 0 % 2) % 2 =
          1 / 2 ^ 0 % 2) ∧
      ((Literal.ctor 0 0 204 false).check 0 1 1 = true ↔ 1 / 2 ^ 0 % 2 = 1 / 2 ^ 0 % 2)) :=
  ⟨by decide, Literal.check_spec false 0 0 110 (by decide) 0 1 1⟩

/-! ## Claim about the quantifier loop -/

theorem build_quantifier_step_eq {α : Type} (get_complement : α → α) (project : ℕ → α → α)
    (trim : α → α) (q : Quantifier) (st : α × Bool) :
    build_quantifier_step get_complement project trim q st =
      (trim (project q.variable_index
          (if q.universal ≠ st.2 then get_complement st.1 else st.1)),
        xor q.universal q.negated) := by
  unfold build_quantifier_step
  cases q.universal <;> cases q.negated <;> cases st.2 <;> simp

theorem lang_forall_eq {V : Type} (x : ℕ) (L : Set (ℕ → V)) :
    lang_forall x L = (lang_exists x Lᶜ)ᶜ := by
  ext w
  simp only [lang_forall, lang_exists, Set.mem_setOf_eq, Set.mem_compl_iff, not_exists,
    not_not]

theorem build_quantifiers_invariant {V : Type} (qs : List Quantifier) (B : Set (ℕ → V)) :
    (if (qs.foldr
          (fun q st => build_quantifier_step (fun L : Set (ℕ → V) => Lᶜ) lang_exists id q st)
          (B, false)).2 then
        (qs.foldr
          (fun q st => build_quantifier_step (fun L : Set (ℕ → V) => Lᶜ) lang_exists id q st)
          (B, false)).1ᶜ
      else
        (qs.foldr
          (fun q st => build_quantifier_step (fun L : Set (ℕ → V) => Lᶜ) lang_exists id q st)
          (B, false)).1) = quantified_language qs B := by
  induction qs with
  | nil => rfl
  | cons q qs ih =>
    unfold quantified_language at ih ⊢
    rw [List.foldr_cons, List.foldr_cons, ← ih, build_quantifier_step_eq]
    generalize qs.foldr
      (fun q st => build_quantifier_step (fun L : Set (ℕ → V) => Lᶜ) lang_exists id q st)
      (B, false) = st
    unfold Quantifier.language
    simp only [lang_forall_eq, id]
    cases q.universal <;> cases q.negated <;> cases st.2 <;> simp

theorem build_quantifiers_language {V : Type} (qs : List Quantifier) (B : Set (ℕ → V)) :
    build_quantifiers (fun L : Set (ℕ → V) => Lᶜ) lang_exists id qs B =
      quantified_language qs B := by
  unfold build_quantifiers
  simp only [List.foldl_reverse, id]
  rw [← build_quantifiers_invariant]

theorem build_quantifiers_steps {α : Type} (get_complement : α → α) (project : ℕ → α → α)
    (trim : α → α) (qs : List Quantifier) (base : α) :
    build_quantifiers get_complement project trim qs base =
      (if (qs.foldr
            (fun q st =>
              (trim (project q.variable_index
                  (if q.universal ≠ st.2 then get_complement st.1 else st.1)),
                xor q.universal q.negated))
            (base, false)).2 then
        trim (get_complement
          (qs.foldr
            (fun q st =>
              (trim (project q.variable_index
                  (if q.universal ≠ st.2 then get_complement st.1 else st.1)),
                xor q.universal q.negated))
            (base, false)).1)
      else
        (qs.foldr
          (fun q st =>
            (trim (project q.variable_index
                (if q.universal ≠ st.2 then get_complement st.1 else st.1)),
              xor q.universal q.negated))
          (base, false)).1) := by
  unfold build_quantifiers
  simp only [List.foldl_reverse, build_quantifier_step_eq]

/-- C29. With complement as the exact complement of a language and `project(i)`
as the exact existential quantification of variable `i`, the steps chosen by
`build_conjunction_automaton` yield exactly the language of `q_1 .. q_n B`, for
every base language `B` and every quantifier prefix; and the procedure is: at
each quantifier, from the last to the first, with the flag `p` initially false,
complement iff `universal != p`, then project the variable (and trim), then set
`p := universal xor negated`; after the first quantifier complement (and trim)
once more iff `p` is true. -/
theorem build_quantifiers_correct {V α : Type} (qs : List Quantifier) (B : Set (ℕ → V))
    (get_complement : α → α) (project : ℕ → α → α) (trim : α → α) (base : α) :
    build_quantifiers (fun L : Set (ℕ → V) => Lᶜ) lang_exists id qs B =
        quantified_language qs B ∧
      build_quantifiers get_complement project trim qs base =
        (if (qs.foldr
              (fun q st =>
                (trim (project q.variable_index
                    (if q.universal ≠ st.2 then get_complement st.1 else st.1)),
                  xor q.universal q.negated))
              (base, false)).2 then
          trim (get_complement
            (qs.foldr
              (fun q st =>
                (trim (project q.variable_index
                    (if q.universal ≠ st.2 then get_complement st.1 else st.1)),
                  xor q.universal q.negated))
              (base, false)).1)
        else
          (qs.foldr
            (fun q st =>
              (trim (project q.variable_index
                  (if q.universal ≠ st.2 then get_complement st.1 else st.1)),
                xor q.universal q.negated))
            (base, false)).1) :=
  ⟨build_quantifiers_language qs B, build_quantifiers_steps get_complement project trim qs base⟩

/-! ## The exploration loop of `NBW::determinize`: more fuel -/

theorem NBW.determinize_loop_add (A : NBW) (k fuel : ℕ) (st r : DetState)
    (h : A.determinize_loop fuel st = some r) : A.determinize_loop (fuel + k) st = some r := by
  induction fuel generalizing st with
  | zero =>
    unfold NBW.determinize_loop at h
    by_cases he : st.work_queue.isEmpty = true
    · rw [if_pos he] at h
      cases k with
      | zero => unfold NBW.determinize_loop; rw [if_pos he]; exact h
      | succ k => rw [Nat.zero_add]; unfold NBW.determinize_loop; rw [if_pos he]; exact h
    · rw [if_neg he] at h
      exact absurd h (by simp)
  | succ fuel ih =>
    rw [Nat.succ_add]
    unfold NBW.determinize_loop at h ⊢
    by_cases he : st.work_queue.isEmpty = true
    · rw [if_pos he] at h ⊢
      exact h
    · rw [if_neg he] at h ⊢
      exact ih _ h

theorem NBW.determinize_add (A : NBW) (k fuel : ℕ) (D : DRW)
    (h : A.determinize fuel = some D) : A.determinize (fuel + k) = some D := by
  unfold NBW.determinize at h ⊢
  by_cases h0 : A.size = 0
  · rw [if_pos h0] at h ⊢
    exact h
  · rw [if_neg h0] at h ⊢
    cases hl : A.determinize_loop fuel
        { tree_list := [SafraTree.build_initial_tree A], targets := fun _ _ => 0,
          work_queue := List.replicate A.alphabet_size 0 } with
    | none =>
      simp only [hl] at h
      exact absurd h (by simp)
    | some st =>
      simp only [hl] at h
      simp only [NBW.determinize_loop_add A k fuel _ st hl]
      exact h

/-! ## Determinization of the automaton for "infinitely often a" -/

theorem infinitely_often_a_eval :
    (NBW.infinitely_often_a.determinize 2).any
      (fun D => decide (D.size = 2) && decide (D.alphabet_size = 2) &&
        decide (D.initial_state = 0) &&
        decide (D.pairs.map (fun p => (p.infinite, p.finite)) = [({1}, ∅)]) &&
        decide (D.transition_matrix 0 0 = 1) && decide (D.transition_matrix 0 1 = 0) &&
        decide (D.transition_matrix 1 0 = 1) && decide (D.transition_matrix 1 1 = 0)) = true := by
  decide

/-- C25. For the two-state automaton for "infinitely often a" (symbols `a = 0`,
`b = 1`), `determinize` returns, with any fuel of at least 2 rounds, a DRW with
exactly 2 states, initial state 0, `delta(s, a) = 1` and `delta(s, b) = 0` for
both states, and exactly one Rabin pair, with `Fin` empty and `Inf = {1}`. -/
theorem NBW.determinize_infinitely_often_a (k : ℕ) :
    ∃ D, NBW.infinitely_often_a.determinize (2 + k) = some D ∧ D.size = 2 ∧
      D.alphabet_size = 2 ∧ D.initial_state = 0 ∧
      (∀ s, s < 2 → D.transition_matrix s 0 = 1 ∧ D.transition_matrix s 1 = 0) ∧
      ∃ p, D.pairs = [p] ∧ p.finite = ∅ ∧ p.infinite = {1} := by
  have h := infinitely_often_a_eval
  cases hD : NBW.infinitely_often_a.determinize 2 with
  | none => rw [hD] at h; exact absurd h (by decide)
  | some D =>
    rw [hD] at h
    simp only [Option.any_some, Bool.and_eq_true, decide_eq_true_eq] at h
    obtain ⟨⟨⟨⟨⟨⟨⟨h1, h2⟩, h3⟩, h4⟩, h5⟩, h6⟩, h7⟩, h8⟩ := h
    refine ⟨D, NBW.determinize_add _ k 2 D hD, h1, h2, h3, ?_, ?_⟩
    · intro s hs
      interval_cases s
      · exact ⟨h5, h6⟩
      · exact ⟨h7, h8⟩
    · cases hp : D.pairs with
      | nil => rw [hp] at h4; exact absurd h4 (by simp)
      | cons p ps =>
        rw [hp] at h4
        simp only [List.map_cons, List.cons.injEq, Prod.mk.injEq, List.map_eq_nil_iff] at h4
        obtain ⟨⟨a1, a2⟩, a3⟩ := h4
        exact ⟨p, by rw [a3], a2, a1⟩

/-! ## The complement of the universal automaton is reported as not empty -/

theorem universal_complement_is_empty_eval :
    ((NBW.ctor 1 1 [(0, 0, 0)] {0} {0}).get_complement 1).any
      (fun C => decide (C.size = 2) && decide (C.alphabet_size = 1) && decide (0 ∈ C.initial) &&
        decide (1 ∈ C.final) && decide (1 ∈ C.delta 0 0) && decide (1 ∈ C.delta 1 0) &&
        !C.is_empty.1) = true := by
  decide

/-- C26 (failing input). For the universal one-state automaton over one symbol,
`get_complement` returns an automaton that has an accepting run (the run
`0 1 1 1 ..` on the word `0 0 0 ..`), and `is_empty` on it returns false. -/
theorem NBW.get_complement_universal_not_empty (k : ℕ) :
    ∃ C, (NBW.ctor 1 1 [(0, 0, 0)] {0} {0}).get_complement (1 + k) = some C ∧
      (∃ w rho, C.IsRun w rho ∧ ∀ n, ∃ m, n ≤ m ∧ rho m ∈ C.final) ∧
      C.is_empty.1 = false := by
  have h := universal_complement_is_empty_eval
  cases hC : (NBW.ctor 1 1 [(0, 0, 0)] {0} {0}).get_complement 1 with
  | none => rw [hC] at h; exact absurd h (by decide)
  | some C =>
    rw [hC] at h
    simp only [Option.any_some, Bool.and_eq_true, decide_eq_true_eq, Bool.not_eq_true'] at h
    obtain ⟨⟨⟨⟨⟨⟨h1, h2⟩, h3⟩, h4⟩, h5⟩, h6⟩, h7⟩ := h
    have hk : (NBW.ctor 1 1 [(0, 0, 0)] {0} {0}).get_complement (1 + k) = some C := by
      unfold NBW.get_complement at hC ⊢
      cases hd : (NBW.ctor 1 1 [(0, 0, 0)] {0} {0}).trim.2.determinize 1 with
      | none => simp only [hd] at hC; exact absurd hC (by simp)
      | some det =>
        simp only [hd] at hC
        simp only [NBW.determinize_add _ k 1 det hd]
        exact hC
    refine ⟨C, hk, ⟨fun _ => 0, fun n => if n = 0 then 0 else 1, ⟨?_, h3, ?_⟩, ?_⟩, h7⟩
    · intro n
      show (if n = 0 then 0 else 1) < C.size
      rw [h1]
      split_ifs <;> omega
    · intro n
      show (if n + 1 = 0 then 0 else 1) ∈ C.delta (if n = 0 then 0 else 1) 0
      rw [if_neg (Nat.succ_ne_zero n)]
      split_ifs
      · exact h5
      · exact h6
    · intro n
      refine ⟨n + 1, Nat.le_succ n, ?_⟩
      show (if n + 1 = 0 then 0 else 1) ∈ C.final
      rw [if_neg (Nat.succ_ne_zero n)]
      exact h4

/-! ## The transitions of the automaton built by `DRW::complement` -/

theorem DRW.in_fin_iff (D : DRW) (i q : ℕ) : D.in_fin i q = true ↔ D.InFin i q := by
  unfold DRW.in_fin DRW.InFin
  cases h : D.pairs.get? i with
  | none => simp
  | some rp => simp

theorem DRW.in_inf_iff (D : DRW) (i q : ℕ) : D.in_inf i q = true ↔ D.InInf i q := by
  unfold DRW.in_inf DRW.InInf
  cases h : D.pairs.get? i with
  | none => simp
  | some rp => simp

theorem DRW.track_described_eq (D : DRW) (q : ℕ) (s1 s2 : Finset ℕ) :
    D.track q s1 s2 = D.track_described q s1 s2 := by
  have e1 : (D.track_hits q s1 s2).1 =
      s1 ∪ (Finset.range D.pairs.length).filter (fun i => D.in_fin i q = true) := by
    ext i
    rw [(D.mem_track_hits q s1 s2 i).1, Finset.mem_union, Finset.mem_filter, Finset.mem_range,
      DRW.in_fin_iff]
    constructor
    · rintro (h | h)
      · exact Or.inl h
      · exact Or.inr ⟨D.inFin_lt h, h⟩
    · rintro (h | h)
      · exact Or.inl h
      · exact Or.inr h.2
  have e2 : (D.track_hits q s1 s2).2 =
      s2 ∪ (Finset.range D.pairs.length).filter
        (fun i => D.in_fin i q = false ∧ D.in_inf i q = true) := by
    ext i
    rw [(D.mem_track_hits q s1 s2 i).2, Finset.mem_union, Finset.mem_filter, Finset.mem_range,
      DRW.in_inf_iff, ← Bool.not_eq_true, DRW.in_fin_iff]
    constructor
    · rintro (h | h)
      · exact Or.inl h
      · exact Or.inr ⟨D.inInf_lt h.2, h⟩
    · rintro (h | h)
      · exact Or.inl h
      · exact Or.inr h.2
  have e3 : D.track_hits q s1 s2 =
      (s1 ∪ (Finset.range D.pairs.length).filter (fun i => D.in_fin i q = true),
        s2 ∪ (Finset.range D.pairs.length).filter
          (fun i => D.in_fin i q = false ∧ D.in_inf i q = true)) :=
    Prod.ext e1 e2
  rw [DRW.track_eq, e3]
  rfl

theorem CompGood.index_unique {D : DRW} {st : CompExplore} (h : CompGood D st) {i j : ℕ}
    {c d : CompState} (hc : st.seen[i]? = some c) (hd : st.seen[j]? = some d)
    (hk : c.key = d.key) : i = j := by
  have hi : i < (st.seen.map CompState.key).length := by
    rw [List.length_map]
    by_contra hcon
    rw [List.getElem?_eq_none (not_lt.1 hcon)] at hc
    exact absurd hc (by simp)
  have hj : j < (st.seen.map CompState.key).length := by
    rw [List.length_map]
    by_contra hcon
    rw [List.getElem?_eq_none (not_lt.1 hcon)] at hd
    exact absurd hd (by simp)
  have e1 : (st.seen.map CompState.key)[i]? = some c.key := by
    rw [List.getElem?_map, hc]; rfl
  have e2 : (st.seen.map CompState.key)[j]? = some d.key := by
    rw [List.getElem?_map, hd]; rfl
  rw [List.getElem?_eq_getElem hi] at e1
  rw [List.getElem?_eq_getElem hj] at e2
  have : (st.seen.map CompState.key)[i] = (st.seen.map CompState.key)[j] := by
    rw [Option.some.inj e1, Option.some.inj e2, hk]
  exact (List.Nodup.getElem_inj_iff h.nodup).1 this

theorem DRW.complement_delta_iff (D : DRW) (hT : D.Total) (i a j : ℕ) (c : CompState)
    (hc : D.complement_explore.seen[i]? = some c) (ha : a < D.alphabet_size) :
    j ∈ D.complement.delta i a ↔
      ∃ next ∈ D.comp_successors c a, ∃ c2 : CompState,
        D.complement_explore.seen[j]? = some c2 ∧ c2.key = next.key := by
  obtain ⟨inv, _⟩ := D.complement_explore_spec hT
  rw [D.mem_complement_delta hT i a j ha]
  constructor
  · intro h
    obtain ⟨c0, hc0, hidx, _, next, hnext, c2, hc2, hkey⟩ := inv.sound _ h
    obtain ⟨k, hk⟩ := List.mem_iff_getElem?.1 hc0
    have hki := inv.good.index k c0 hk
    have hkr : k = i := hki.symm.trans hidx
    rw [hkr, hc] at hk
    have hceq : c = c0 := Option.some.inj hk
    rw [hceq]
    exact ⟨next, hnext, c2, hc2, hkey⟩
  · rintro ⟨next, hnext, c2, hc2, hkey⟩
    have hmem : c ∈ D.complement_explore.seen := List.mem_iff_getElem?.2 ⟨i, hc⟩
    obtain ⟨j2, c3, hc3, hkey3, hadj⟩ := inv.complete c hmem a ha next hnext
    have hj : j = j2 := inv.good.index_unique hc2 hc3 (hkey.trans hkey3.symm)
    rw [inv.good.index i c hc] at hadj
    rw [hj]
    exact hadj

theorem DRW.complement_transitions_aux (D : DRW) (hT : D.Total) (i : ℕ) (c : CompState) (a : ℕ)
    (hc : D.complement_explore.seen[i]? = some c) (ha : a < D.alphabet_size) :
    (D.complement.size = D.complement_explore.seen.length ∧ D.complement.initial = {0} ∧
        D.complement_explore.seen[0]? =
          some { rabin_state := D.initial_state, in_initial_part := true, s1 := ∅, s2 := ∅,
                 buchi_index := 0 }) ∧
      (∀ (j : ℕ) (c2 : CompState), D.complement_explore.seen[j]? = some c2 → c2.key = c.key →
        j = i) ∧
      (i ∈ D.complement.final ↔ c.in_initial_part = false ∧ c.s2 = ∅) ∧
      (c.in_initial_part = true →
        c.s1 = ∅ ∧ c.s2 = ∅ ∧
          ∃ (j1 j2 : ℕ) (c1 c2 : CompState), D.complement.delta i a = {j1, j2} ∧
            D.complement_explore.seen[j1]? = some c1 ∧
            D.complement_explore.seen[j2]? = some c2 ∧
            c1.key = (D.transition_matrix c.rabin_state a, true, ∅, ∅) ∧
            c2.key = (D.transition_matrix c.rabin_state a, false, ∅, ∅)) ∧
      (c.in_initial_part = false →
        ∃ (j : ℕ) (c2 : CompState), D.complement.delta i a = {j} ∧
          D.complement_explore.seen[j]? = some c2 ∧
          c2.key =
            (D.transition_matrix c.rabin_state a, false,
              (D.track_described (D.transition_matrix c.rabin_state a) c.s1 c.s2).1,
              (D.track_described (D.transition_matrix c.rabin_state a) c.s1 c.s2).2)) := by
  obtain ⟨inv, h0⟩ := D.complement_explore_spec hT
  have hmem : c ∈ D.complement_explore.seen := List.mem_iff_getElem?.2 ⟨i, hc⟩
  refine ⟨⟨rfl, rfl, h0⟩, ?_, ?_, ?_, ?_⟩
  · intro j c2 hc2 hk
    exact inv.good.index_unique hc2 hc hk
  · rw [DRW.mem_complement_final]
    constructor
    · rintro ⟨c2, hc2, h1, h2⟩
      rw [hc] at hc2
      rw [Option.some.inj hc2]
      exact ⟨h1, h2⟩
    · rintro ⟨h1, h2⟩
      exact ⟨c, hc, h1, h2⟩
  · intro hin
    obtain ⟨_, hval, _, _⟩ := inv.good.valid c hmem
    obtain ⟨e1, e2⟩ := hval hin
    have hs : D.comp_successors c a =
        [{ rabin_state := D.transition_matrix c.rabin_state a, in_initial_part := true,
            s1 := ∅, s2 := ∅, buchi_index := 0 },
          { rabin_state := D.transition_matrix c.rabin_state a, in_initial_part := false,
            s1 := ∅, s2 := ∅, buchi_index := 0 }] := by
      unfold DRW.comp_successors
      rw [if_pos hin]
    obtain ⟨j1, c1, hc1, hk1, _⟩ :=
      inv.complete c hmem a ha
        { rabin_state := D.transition_matrix c.rabin_state a, in_initial_part := true,
          s1 := ∅, s2 := ∅, buchi_index := 0 }
        (by rw [hs]; exact List.mem_cons_self _ _)
    obtain ⟨j2, c2, hc2, hk2, _⟩ :=
      inv.complete c hmem a ha
        { rabin_state := D.transition_matrix c.rabin_state a, in_initial_part := false,
          s1 := ∅, s2 := ∅, buchi_index := 0 }
        (by rw [hs]; exact List.mem_cons_of_mem _ (List.mem_singleton.2 rfl))
    refine ⟨e1, e2, j1, j2, c1, c2, ?_, hc1, hc2, hk1, hk2⟩
    ext j
    rw [D.complement_delta_iff hT i a j c hc ha, hs, Finset.mem_insert, Finset.mem_singleton]
    constructor
    · rintro ⟨next, hnext, c3, hc3, hk3⟩
      simp only [List.mem_cons, List.mem_singleton, List.not_mem_nil, or_false] at hnext
      rcases hnext with h | h
      · subst h
        exact Or.inl (inv.good.index_unique hc3 hc1 (hk3.trans hk1.symm))
      · subst h
        exact Or.inr (inv.good.index_unique hc3 hc2 (hk3.trans hk2.symm))
    · rintro (h | h)
      · subst h
        exact ⟨_, List.mem_cons_self _ _, c1, hc1, hk1⟩
      · subst h
        exact ⟨_, List.mem_cons_of_mem _ (List.mem_singleton.2 rfl), c2, hc2, hk2⟩
  · intro hin
    have hs : D.comp_successors c a =
        [{ rabin_state := D.transition_matrix c.rabin_state a, in_initial_part := false,
            s1 := (D.track_described (D.transition_matrix c.rabin_state a) c.s1 c.s2).1,
            s2 := (D.track_described (D.transition_matrix c.rabin_state a) c.s1 c.s2).2,
            buchi_index := 0 }] := by
      unfold DRW.comp_successors
      rw [if_neg (by rw [hin]; simp), DRW.track_described_eq]
    obtain ⟨j1, c1, hc1, hk1, _⟩ :=
      inv.complete c hmem a ha
        { rabin_state := D.transition_matrix c.rabin_state a, in_initial_part := false,
          s1 := (D.track_described (D.transition_matrix c.rabin_state a) c.s1 c.s2).1,
          s2 := (D.track_described (D.transition_matrix c.rabin_state a) c.s1 c.s2).2,
          buchi_index := 0 }
        (by rw [hs]; exact List.mem_singleton.2 rfl)
    refine ⟨j1, c1, ?_, hc1, hk1⟩
    ext j
    rw [D.complement_delta_iff hT i a j c hc ha, hs, Finset.mem_singleton]
    constructor
    · rintro ⟨next, hnext, c3, hc3, hk3⟩
      rw [List.mem_singleton] at hnext
      subst hnext
      exact inv.good.index_unique hc3 hc1 (hk3.trans hk1.symm)
    · intro h
      subst h
      exact ⟨_, List.mem_singleton.2 rfl, c1, hc1, hk1⟩

/-- C24. For a DRW `D` with a total transition table, the states of
`D.complement()` are the positions of the list `seen`, distinct positions carry
distinct configurations, state 0 carries the initial-part configuration of the
initial state of `D` and is the only initial state, and a state is accepting iff
it is a tracking state with `s2` empty. From a state `i` that carries `c`, on a
symbol `a` with `q = delta(c.rabin_state, a)`: if `c` is an initial-part state,
its bookkeeping is empty and the successors are exactly the state carrying the
initial-part configuration of `q` and the state carrying the tracking
configuration `(q, ∅, ∅)`; if `c` is a tracking state, the only successor is the
state carrying the tracking configuration `(q, s1', s2')` with `(s1', s2')` the
described update of `(c.s1, c.s2)`. -/
theorem DRW.complement_transitions (D : DRW) (hT : D.Total) (i : ℕ) (c : CompState) (a : ℕ)
    (hc : D.complement_explore.seen[i]? = some c) (ha : a < D.alphabet_size) :
    (D.complement.size = D.complement_explore.seen.length ∧ D.complement.initial = {0} ∧
        D.complement_explore.seen[0]? =
          some { rabin_state := D.initial_state, in_initial_part := true, s1 := ∅, s2 := ∅,
                 buchi_index := 0 }) ∧
      (∀ (j : ℕ) (c2 : CompState), D.complement_explore.seen[j]? = some c2 → c2.key = c.key →
        j = i) ∧
      (i ∈ D.complement.final ↔ c.in_initial_part = false ∧ c.s2 = ∅) ∧
      (c.in_initial_part = true →
        c.s1 = ∅ ∧ c.s2 = ∅ ∧
          ∃ (j1 j2 : ℕ) (c1 c2 : CompState), D.complement.delta i a = {j1, j2} ∧
            D.complement_explore.seen[j1]? = some c1 ∧
            D.complement_explore.seen[j2]? = some c2 ∧
            c1.key = (D.transition_matrix c.rabin_state a, true, ∅, ∅) ∧
            c2.key = (D.transition_matrix c.rabin_state a, false, ∅, ∅)) ∧
      (c.in_initial_part = false →
        ∃ (j : ℕ) (c2 : CompState), D.complement.delta i a = {j} ∧
          D.complement_explore.seen[j]? = some c2 ∧
          c2.key =
            (D.transition_matrix c.rabin_state a, false,
              (D.track_described (D.transition_matrix c.rabin_state a) c.s1 c.s2).1,
              (D.track_described (D.transition_matrix c.rabin_state a) c.s1 c.s2).2)) :=
  D.complement_transitions_aux hT i c a hc ha

/-- Witness for C24: the automaton whose state is the last letter read, at state
0 of its complement and the symbol 1. -/
theorem DRW.complement_transitions_witness :
    (DRW.last_letter.Total ∧
        DRW.last_letter.complement_explore.seen[0]? =
          some { rabin_state := 0, in_initial_part := true, s1 := ∅, s2 := ∅,
                 buchi_index := 0 } ∧
        1 < DRW.last_letter.alphabet_size) ∧
      ((DRW.last_letter.complement.size = DRW.last_letter.complement_explore.seen.length ∧
          DRW.last_letter.complement.initial = {0} ∧
          DRW.last_letter.complement_explore.seen[0]? =
            some { rabin_state := DRW.last_letter.initial_state, in_initial_part := true,
                   s1 := ∅, s2 := ∅, buchi_index := 0 }) ∧
        (∀ (j : ℕ) (c2 : CompState),
          DRW.last_letter.complement_explore.seen[j]? = some c2 →
          c2.key =
            CompState.key
              { rabin_state := 0, in_initial_part := true, s1 := ∅, s2 := ∅,
                buchi_index := 0 } →
          j = 0) ∧
        (0 ∈ DRW.last_letter.complement.final ↔ true = false ∧ (∅ : Finset ℕ) = ∅) ∧
        (true = true →
          (∅ : Finset ℕ) = ∅ ∧ (∅ : Finset ℕ) = ∅ ∧
            ∃ (j1 j2 : ℕ) (c1 c2 : CompState),
              DRW.last_letter.complement.delta 0 1 = {j1, j2} ∧
              DRW.last_letter.complement_explore.seen[j1]? = some c1 ∧
              DRW.last_letter.complement_explore.seen[j2]? = some c2 ∧
              c1.key = (DRW.last_letter.transition_matrix 0 1, true, ∅, ∅) ∧
              c2.key = (DRW.last_letter.transition_matrix 0 1, false, ∅, ∅)) ∧
        (true = false →
          ∃ (j : ℕ) (c2 : CompState), DRW.last_letter.complement.delta 0 1 = {j} ∧
            DRW.last_letter.complement_explore.seen[j]? = some c2 ∧
            c2.key =
              (DRW.last_letter.transition_matrix 0 1, false,
                (DRW.last_letter.track_described (DRW.last_letter.transition_matrix 0 1) ∅ ∅).1,
                (DRW.last_letter.track_described (DRW.last_letter.transition_matrix 0 1) ∅
                  ∅).2))) :=
  ⟨⟨⟨Nat.two_pos, fun _ _ _ ha => ha⟩,
      (DRW.complement_explore_spec DRW.last_letter ⟨Nat.two_pos, fun _ _ _ ha => ha⟩).2,
      Nat.one_lt_two⟩,
    DRW.complement_transitions DRW.last_letter ⟨Nat.two_pos, fun _ _ _ ha => ha⟩ 0
      { rabin_state := 0, in_initial_part := true, s1 := ∅, s2 := ∅, buchi_index := 0 } 1
      (DRW.complement_explore_spec DRW.last_letter ⟨Nat.two_pos, fun _ _ _ ha => ha⟩).2
      Nat.one_lt_two⟩

/-! ## `operator==` on Safra trees -/

theorem SafraNode.beq_iff_unmarked :
    (∀ x y : SafraNode, SafraNode.beq x y = true ↔ x.unmarked = y.unmarked) ∧
      ∀ cs ds : List SafraNode,
        SafraNode.beq_children cs ds = true ↔
          SafraNode.unmarked_list cs = SafraNode.unmarked_list ds := by
  apply SafraNode.induction_both
  · intro name states marked children ih y
    cases y with
    | mk n2 s2 m2 c2 =>
      rw [SafraNode.beq, SafraNode.unmarked, SafraNode.unmarked]
      by_cases h1 : name = n2
      · by_cases h2 : states = s2
        · simp only [h1, h2, ne_eq, not_true_eq_false, if_false, ih c2, SafraNode.mk.injEq,
            true_and]
        · simp only [h1, h2, ne_eq, not_true_eq_false, if_false, not_false_eq_true, if_true,
            SafraNode.mk.injEq, true_and, false_and]
          exact ⟨fun h => absurd h (by simp), fun h => absurd h (by simp)⟩
      · simp only [h1, ne_eq, not_false_eq_true, if_true, SafraNode.mk.injEq, false_and]
        exact ⟨fun h => absurd h (by simp), fun h => absurd h (by simp)⟩
  · intro ds
    cases ds with
    | nil => simp [SafraNode.beq_children, SafraNode.unmarked_list]
    | cons d ds => simp [SafraNode.beq_children, SafraNode.unmarked_list]
  · intro c cs ihc ihcs ds
    cases ds with
    | nil => simp [SafraNode.beq_children, SafraNode.unmarked_list]
    | cons d ds =>
      rw [SafraNode.beq_children, SafraNode.unmarked_list, SafraNode.unmarked_list,
        Bool.and_eq_true, ihc d, ihcs ds, List.cons.injEq]

theorem SafraTree.tree_beq_iff_key (a b : SafraTree) : SafraTree.beq a b = true ↔ a.key = b.key := by
  unfold SafraTree.beq SafraTree.key
  cases ha : a.root with
  | none =>
    cases hb : b.root with
    | none => simp
    | some rb => simp
  | some ra =>
    cases hb : b.root with
    | none => simp
    | some rb =>
      simp only [Option.map_some', Option.some.injEq, Prod.mk.injEq]
      by_cases h1 : a.hvalue = b.hvalue
      · by_cases h2 : a.used_node_names = b.used_node_names
        · simp only [h1, h2, ne_eq, not_true_eq_false, if_false, and_true]
          exact SafraNode.beq_iff_unmarked.1 ra rb
        · simp only [h1, h2, ne_eq, not_true_eq_false, if_false, not_false_eq_true, if_true,
            and_false]
          exact ⟨fun h => absurd h (by simp), fun h => h.elim⟩
      · simp only [h1, ne_eq, not_false_eq_true, if_true, false_and, and_false]
        exact ⟨fun h => absurd h (by simp), fun h => h.elim⟩

theorem SafraTree.beq_refl (a : SafraTree) : SafraTree.beq a a = true :=
  (SafraTree.tree_beq_iff_key a a).2 rfl

theorem SafraTree.beq_symm {a b : SafraTree} (h : SafraTree.beq a b = true) :
    SafraTree.beq b a = true :=
  (SafraTree.tree_beq_iff_key b a).2 ((SafraTree.tree_beq_iff_key a b).1 h).symm

theorem SafraTree.beq_trans {a b c : SafraTree} (h1 : SafraTree.beq a b = true)
    (h2 : SafraTree.beq b c = true) : SafraTree.beq a c = true :=
  (SafraTree.tree_beq_iff_key a c).2
    (((SafraTree.tree_beq_iff_key a b).1 h1).trans ((SafraTree.tree_beq_iff_key b c).1 h2))

theorem SafraNode.unmarked_indices :
    (∀ x : SafraNode, x.unmarked.indices = x.indices) ∧
      ∀ cs : List SafraNode,
        SafraNode.indices_list (SafraNode.unmarked_list cs) = SafraNode.indices_list cs := by
  apply SafraNode.induction_both
  · intro name states marked children ih
    rw [SafraNode.unmarked, SafraNode.indices_mk, SafraNode.indices_mk, ih]
  · rw [SafraNode.unmarked_list]
  · intro c cs ihc ihcs
    rw [SafraNode.unmarked_list, SafraNode.indices_list_cons, SafraNode.indices_list_cons, ihc,
      ihcs]

theorem SafraNode.clone_unmarked (input : NBW) (character : ℕ) (F : Finset ℕ) :
    (∀ (x : SafraNode) (root : Bool) (T : SafraTree) (K : Finset ℕ),
        SafraNode.clone_spawn_and_transition input character F x.unmarked root T K =
          SafraNode.clone_spawn_and_transition input character F x root T K) ∧
      ∀ (cs : List SafraNode) (T : SafraTree) (K : Finset ℕ),
        SafraNode.clone_children input character F (SafraNode.unmarked_list cs) T K =
          SafraNode.clone_children input character F cs T K := by
  apply SafraNode.induction_both
  · intro name states marked children ih root T K
    have hacc : SafraNode.accumulate_subtree_names
          (.mk name states false (SafraNode.unmarked_list children)) ∅ =
        SafraNode.accumulate_subtree_names (.mk name states marked children) ∅ := by
      rw [SafraNode.accumulate_eq.1, SafraNode.accumulate_eq.1,
        ← SafraNode.unmarked_indices.1 (.mk name states marked children), SafraNode.unmarked]
    rw [SafraNode.unmarked, SafraNode.clone_spawn_and_transition,
      SafraNode.clone_spawn_and_transition]
    simp only [ih, hacc]
  · intro T K
    rw [SafraNode.unmarked_list]
  · intro c cs ihc ihcs T K
    rw [SafraNode.unmarked_list, SafraNode.clone_children, SafraNode.clone_children, ihc, ihcs]

theorem SafraTree.get_transition_congr {a b : SafraTree} (h : SafraTree.beq a b = true)
    (A : NBW) (c : ℕ) : SafraTree.get_transition a A c = SafraTree.get_transition b A c := by
  have hk := (SafraTree.tree_beq_iff_key a b).1 h
  unfold SafraTree.key at hk
  unfold SafraTree.get_transition
  cases ha : a.root with
  | none =>
    cases hb : b.root with
    | none => rfl
    | some rb => rw [ha, hb] at hk; exact absurd hk (by simp)
  | some ra =>
    cases hb : b.root with
    | none => rw [ha, hb] at hk; exact absurd hk (by simp)
    | some rb =>
      rw [ha, hb] at hk
      simp only [Option.map_some', Option.some.injEq, Prod.mk.injEq] at hk
      obtain ⟨h1, _, h3⟩ := hk
      simp only []
      rw [← (SafraNode.clone_unmarked A c A.final).1 ra, ← (SafraNode.clone_unmarked A c A.final).1 rb,
        h1, h3]

/-! ## The exploration loop of `NBW::determinize` -/

theorem DetState.targetOK_append (A : NBW) (st st2 : DetState) {i j : ℕ} (new : List SafraTree)
    (hl : st2.tree_list = st.tree_list ++ new) (ht : st2.targets i j = st.targets i j)
    (h : st.TargetOK A i j) : st2.TargetOK A i j := by
  obtain ⟨t, h1, h2⟩ := h
  have hi : i < st.tree_list.length := by
    by_contra hcon
    rw [List.getElem?_eq_none (not_lt.1 hcon)] at h1
    exact absurd h1 (by simp)
  refine ⟨t, ?_, ?_⟩
  · rw [hl, List.getElem?_append_left hi]
    exact h1
  · rw [hl, List.findIdx?_append, h2, ht]
    rfl

theorem NBW.determinize_step_spec (A : NBW) (i j : ℕ) (st : DetState) (nq : List ℕ)
    (hg : DetGood A st) (hi : i < st.tree_list.length) (hj : j < A.alphabet_size) :
    DetGood A (A.determinize_step i j (st, nq)).1 ∧
      (A.determinize_step i j (st, nq)).1.work_queue = st.work_queue ∧
      (∃ new, (A.determinize_step i j (st, nq)).1.tree_list = st.tree_list ++ new) ∧
      (∀ x, x ∈ (A.determinize_step i j (st, nq)).2 ↔
        x ∈ nq ∨ (st.tree_list.length ≤ x ∧
          x < (A.determinize_step i j (st, nq)).1.tree_list.length)) ∧
      (A.determinize_step i j (st, nq)).1.TargetOK A i j ∧
      ∀ i2 j2, (i2 ≠ i ∨ j2 ≠ j) → st.TargetOK A i2 j2 →
        (A.determinize_step i j (st, nq)).1.TargetOK A i2 j2 := by
  have hti : st.tree_list[i]? = some (st.tree_list.getD i SafraTree.fresh) := by
    rw [List.getD_eq_getElem?_getD, List.getElem?_eq_getElem hi]
    rfl
  have hreach : SafraTree.Reached A
      (SafraTree.get_transition (st.tree_list.getD i SafraTree.fresh) A (j + 1)) :=
    SafraTree.Reached.step _ _ (hg.reached _ (List.mem_iff_getElem?.2 ⟨i, hti⟩))
      (Nat.le_add_left 1 j) hj
  have hother : ∀ (v : ℕ) i2 j2, (i2 ≠ i ∨ j2 ≠ j) →
      Function.update st.targets i (Function.update (st.targets i) j v) i2 j2 =
        st.targets i2 j2 := by
    intro v i2 j2 hne
    by_cases h1 : i2 = i
    · subst h1
      rw [Function.update_same]
      rcases hne with h | h
      · exact absurd rfl h
      · rw [Function.update_noteq h]
    · rw [Function.update_noteq h1]
  cases hf : st.tree_list.findIdx?
      (fun t => SafraTree.beq t
        (SafraTree.get_transition (st.tree_list.getD i SafraTree.fresh) A (j + 1))) with
  | none =>
    have hstep : A.determinize_step i j (st, nq) =
        ({ st with
            tree_list := st.tree_list ++
              [SafraTree.get_transition (st.tree_list.getD i SafraTree.fresh) A (j + 1)]
            targets :=
              Function.update st.targets i
                (Function.update (st.targets i) j st.tree_list.length) },
          nq ++ [st.tree_list.length]) := by
      unfold NBW.determinize_step
      simp only [hf]
    rw [hstep]
    have hnone := List.findIdx?_eq_none_iff.1 hf
    refine ⟨⟨?_, ?_, ?_⟩, rfl, ⟨_, rfl⟩, ?_, ?_, ?_⟩
    · show (st.tree_list ++ _)[0]? = _
      rw [List.getElem?_append_left (by omega)]
      exact hg.first
    · intro t ht
      rcases List.mem_append.1 ht with h | h
      · exact hg.reached t h
      · rw [List.mem_singleton.1 h]
        exact hreach
    · show (st.tree_list ++ _).Pairwise _
      rw [List.pairwise_append]
      refine ⟨hg.distinct, List.pairwise_singleton _ _, ?_⟩
      intro a ha b hb
      rw [List.mem_singleton.1 hb]
      exact hnone a ha
    · intro x
      show x ∈ nq ++ [st.tree_list.length] ↔
        x ∈ nq ∨ (st.tree_list.length ≤ x ∧ x < (st.tree_list ++ [_]).length)
      rw [List.mem_append, List.mem_singleton, List.length_append, List.length_singleton]
      constructor
      · rintro (h | h)
        · exact Or.inl h
        · exact Or.inr (by omega)
      · rintro (h | h)
        · exact Or.inl h
        · exact Or.inr (by omega)
    · refine ⟨st.tree_list.getD i SafraTree.fresh, ?_, ?_⟩
      · show (st.tree_list ++ _)[i]? = _
        rw [List.getElem?_append_left hi]
        exact hti
      · show (st.tree_list ++ _).findIdx? _ = some (Function.update st.targets i _ i j)
        rw [List.findIdx?_append, hf, Function.update_same, Function.update_same]
        simp only [List.findIdx?_cons, SafraTree.beq_refl, if_true, Option.map_some', zero_add,
          Option.or]
    · intro i2 j2 hne h
      exact DetState.targetOK_append A st _ _ rfl (hother _ i2 j2 hne) h
  | some loc =>
    have hstep : A.determinize_step i j (st, nq) =
        ({ st with
            targets := Function.update st.targets i (Function.update (st.targets i) j loc) },
          nq) := by
      unfold NBW.determinize_step
      simp only [hf]
    rw [hstep]
    refine ⟨⟨hg.first, hg.reached, hg.distinct⟩, rfl, ⟨[], (List.append_nil _).symm⟩, ?_, ?_, ?_⟩
    · intro x
      show x ∈ nq ↔ x ∈ nq ∨ (st.tree_list.length ≤ x ∧ x < st.tree_list.length)
      constructor
      · intro h; exact Or.inl h
      · rintro (h | h)
        · exact h
        · omega
    · refine ⟨st.tree_list.getD i SafraTree.fresh, hti, ?_⟩
      show st.tree_list.findIdx? _ = some (Function.update st.targets i _ i j)
      rw [hf, Function.update_same, Function.update_same]
    · intro i2 j2 hne h
      exact DetState.targetOK_append A st _ [] (List.append_nil _).symm (hother _ i2 j2 hne) h

/-- How a run of steps changes the exploration state of `NBW::determinize`. -/
theorem NBW.determinize_chars_spec (A : NBW) (i : ℕ) (js : List ℕ) :
    ∀ (st : DetState) (nq : List ℕ), DetGood A st → i < st.tree_list.length →
      (∀ j ∈ js, j < A.alphabet_size) →
      DetGood A (js.foldl (fun acc j => A.determinize_step i j acc) (st, nq)).1 ∧
        (js.foldl (fun acc j => A.determinize_step i j acc) (st, nq)).1.work_queue =
          st.work_queue ∧
        (∃ new, (js.foldl (fun acc j => A.determinize_step i j acc) (st, nq)).1.tree_list =
          st.tree_list ++ new) ∧
        (∀ x, x ∈ (js.foldl (fun acc j => A.determinize_step i j acc) (st, nq)).2 ↔
          x ∈ nq ∨ (st.tree_list.length ≤ x ∧
            x < (js.foldl (fun acc j => A.determinize_step i j acc)
              (st, nq)).1.tree_list.length)) ∧
        (∀ j ∈ js,
          (js.foldl (fun acc j => A.determinize_step i j acc) (st, nq)).1.TargetOK A i j) ∧
        ∀ i2 j2, st.TargetOK A i2 j2 →
          (js.foldl (fun acc j => A.determinize_step i j acc) (st, nq)).1.TargetOK A i2 j2 := by
  induction js with
  | nil =>
    intro st nq hg hi _
    refine ⟨hg, rfl, ⟨[], (List.append_nil _).symm⟩, ?_, ?_, fun _ _ h => h⟩
    · intro x
      show x ∈ nq ↔ x ∈ nq ∨ (st.tree_list.length ≤ x ∧ x < st.tree_list.length)
      constructor
      · intro h; exact Or.inl h
      · rintro (h | h)
        · exact h
        · omega
    · intro j hj
      exact absurd hj (List.not_mem_nil j)
  | cons j js ih =>
    intro st nq hg hi hjs
    rw [List.foldl_cons]
    obtain ⟨g1, w1, ⟨new1, l1⟩, q1, t1, o1⟩ :=
      A.determinize_step_spec i j st nq hg hi (hjs j (List.mem_cons_self _ _))
    have hlen1 : st.tree_list.length ≤ (A.determinize_step i j (st, nq)).1.tree_list.length := by
      rw [l1, List.length_append]; omega
    obtain ⟨g2, w2, ⟨new2, l2⟩, q2, t2, o2⟩ :=
      ih (A.determinize_step i j (st, nq)).1 (A.determinize_step i j (st, nq)).2 g1
        (lt_of_lt_of_le hi hlen1) (fun j2 hj2 => hjs j2 (List.mem_cons_of_mem _ hj2))
    have hlen2 : (A.determinize_step i j (st, nq)).1.tree_list.length ≤
        (js.foldl (fun acc j => A.determinize_step i j acc)
          (A.determinize_step i j (st, nq))).1.tree_list.length := by
      rw [l2, List.length_append]; omega
    refine ⟨g2, w2.trans w1, ⟨new1 ++ new2, ?_⟩, ?_, ?_, ?_⟩
    · rw [l2, l1, List.append_assoc]
    · intro x
      rw [q2, q1]
      constructor
      · rintro ((h | h) | h)
        · exact Or.inl h
        · exact Or.inr ⟨h.1, lt_of_lt_of_le h.2 hlen2⟩
        · exact Or.inr ⟨le_trans hlen1 h.1, h.2⟩
      · rintro (h | h)
        · exact Or.inl (Or.inl h)
        · by_cases hx : x < (A.determinize_step i j (st, nq)).1.tree_list.length
          · exact Or.inl (Or.inr ⟨h.1, hx⟩)
          · exact Or.inr ⟨not_lt.1 hx, h.2⟩
    · intro j2 hj2
      rcases List.mem_cons.1 hj2 with h | h
      · rw [h]
        exact o2 i j t1
      · exact t2 j2 h
    · intro i2 j2 h
      by_cases hne : i2 ≠ i ∨ j2 ≠ j
      · exact o2 i2 j2 (o1 i2 j2 hne h)
      · have h1 : i2 = i := by
          by_contra hc; exact hne (Or.inl hc)
        have h2 : j2 = j := by
          by_contra hc; exact hne (Or.inr hc)
        rw [h1, h2]
        exact o2 i j t1

theorem NBW.determinize_queue_spec (A : NBW) (is : List ℕ) :
    ∀ (st : DetState) (nq : List ℕ), DetGood A st →
      (∀ i ∈ is, i < st.tree_list.length) →
      DetGood A
          (is.foldl
            (fun acc i =>
              (List.range A.alphabet_size).foldl (fun acc j => A.determinize_step i j acc) acc)
            (st, nq)).1 ∧
        (is.foldl
            (fun acc i =>
              (List.range A.alphabet_size).foldl (fun acc j => A.determinize_step i j acc) acc)
            (st, nq)).1.work_queue = st.work_queue ∧
        (∃ new,
          (is.foldl
            (fun acc i =>
              (List.range A.alphabet_size).foldl (fun acc j => A.determinize_step i j acc) acc)
            (st, nq)).1.tree_list = st.tree_list ++ new) ∧
        (∀ x,
          x ∈ (is.foldl
            (fun acc i =>
              (List.range A.alphabet_size).foldl (fun acc j => A.determinize_step i j acc) acc)
            (st, nq)).2 ↔
          x ∈ nq ∨ (st.tree_list.length ≤ x ∧
            x < (is.foldl
              (fun acc i =>
                (List.range A.alphabet_size).foldl (fun acc j => A.determinize_step i j acc)
                  acc)
              (st, nq)).1.tree_list.length)) ∧
        (∀ i ∈ is, ∀ j, j < A.alphabet_size →
          (is.foldl
            (fun acc i =>
              (List.range A.alphabet_size).foldl (fun acc j => A.determinize_step i j acc) acc)
            (st, nq)).1.TargetOK A i j) ∧
        ∀ i2 j2, st.TargetOK A i2 j2 →
          (is.foldl
            (fun acc i =>
              (List.range A.alphabet_size).foldl (fun acc j => A.determinize_step i j acc) acc)
            (st, nq)).1.TargetOK A i2 j2 := by
  induction is with
  | nil =>
    intro st nq hg _
    refine ⟨hg, rfl, ⟨[], (List.append_nil _).symm⟩, ?_, ?_, fun _ _ h => h⟩
    · intro x
      show x ∈ nq ↔ x ∈ nq ∨ (st.tree_list.length ≤ x ∧ x < st.tree_list.length)
      constructor
      · intro h; exact Or.inl h
      · rintro (h | h)
        · exact h
        · omega
    · intro i hi
      exact absurd hi (List.not_mem_nil i)
  | cons i is ih =>
    intro st nq hg his
    rw [List.foldl_cons]
    obtain ⟨g1, w1, ⟨new1, l1⟩, q1, t1, o1⟩ :=
      A.determinize_chars_spec i (List.range A.alphabet_size) st nq hg
        (his i (List.mem_cons_self _ _)) (fun j hj => List.mem_range.1 hj)
    generalize (List.range A.alphabet_size).foldl (fun acc j => A.determinize_step i j acc)
      (st, nq) = mid at g1 w1 l1 q1 t1 o1 ⊢
    have hlen1 : st.tree_list.length ≤ mid.1.tree_list.length := by
      rw [l1, List.length_append]; omega
    obtain ⟨g2, w2, ⟨new2, l2⟩, q2, t2, o2⟩ :=
      ih mid.1 mid.2 g1 (fun i2 hi2 => lt_of_lt_of_le (his i2 (List.mem_cons_of_mem _ hi2)) hlen1)
    have hlen2 : mid.1.tree_list.length ≤
        (is.foldl
          (fun acc i =>
            (List.range A.alphabet_size).foldl (fun acc j => A.determinize_step i j acc) acc)
          mid).1.tree_list.length := by
      rw [l2, List.length_append]; omega
    refine ⟨g2, w2.trans w1, ⟨new1 ++ new2, ?_⟩, ?_, ?_, ?_⟩
    · rw [l2, l1, List.append_assoc]
    · intro x
      rw [q2, q1]
      constructor
      · rintro ((h | h) | h)
        · exact Or.inl h
        · exact Or.inr ⟨h.1, lt_of_lt_of_le h.2 hlen2⟩
        · exact Or.inr ⟨le_trans hlen1 h.1, h.2⟩
      · rintro (h | h)
        · exact Or.inl (Or.inl h)
        · by_cases hx : x < mid.1.tree_list.length
          · exact Or.inl (Or.inr ⟨h.1, hx⟩)
          · exact Or.inr ⟨not_lt.1 hx, h.2⟩
    · intro i2 hi2 j hj
      rcases List.mem_cons.1 hi2 with h | h
      · rw [h]
        exact o2 i j (t1 j (List.mem_range.2 hj))
      · exact t2 i2 h j hj
    · intro i2 j2 h
      exact o2 i2 j2 (o1 i2 j2 h)

theorem NBW.determinize_round_inv (A : NBW) (st : DetState) (h : DetInv A st) :
    DetInv A (A.determinize_round st) := by
  obtain ⟨g, _, ⟨new, l⟩, q, t, o⟩ := A.determinize_queue_spec st.work_queue st [] h.good h.queue_lt
  unfold NBW.determinize_round
  simp only []
  generalize st.work_queue.foldl
    (fun acc i =>
      (List.range A.alphabet_size).foldl (fun acc j => A.determinize_step i j acc) acc)
    (st, []) = r at g l q t o ⊢
  refine ⟨⟨g.first, g.reached, g.distinct⟩, ?_, ?_⟩
  · intro i hi
    have hi2 : i ∈ r.2 := hi
    rcases (q i).1 hi2 with h1 | h1
    · exact absurd h1 (List.not_mem_nil i)
    · exact h1.2
  · intro i hi
    have hi2 : i < r.1.tree_list.length := hi
    by_cases hlt : i < st.tree_list.length
    · right
      intro j hj
      rcases h.done i hlt with h1 | h1
      · exact t i h1 j hj
      · exact o i j (h1 j hj)
    · left
      exact (q i).2 (Or.inr ⟨not_lt.1 hlt, hi2⟩)

theorem NBW.determinize_loop_inv (A : NBW) (fuel : ℕ) :
    ∀ st r, DetInv A st → A.determinize_loop fuel st = some r →
      DetInv A r ∧ r.work_queue = [] := by
  induction fuel with
  | zero =>
    intro st r h hr
    unfold NBW.determinize_loop at hr
    by_cases he : st.work_queue.isEmpty = true
    · rw [if_pos he] at hr
      rw [← Option.some.inj hr]
      exact ⟨h, List.isEmpty_iff.1 he⟩
    · rw [if_neg he] at hr
      exact absurd hr (by simp)
  | succ fuel ih =>
    intro st r h hr
    unfold NBW.determinize_loop at hr
    by_cases he : st.work_queue.isEmpty = true
    · rw [if_pos he] at hr
      rw [← Option.some.inj hr]
      exact ⟨h, List.isEmpty_iff.1 he⟩
    · rw [if_neg he] at hr
      exact ih _ r (A.determinize_round_inv st h) hr

theorem NBW.determinize_initial_inv (A : NBW) :
    DetInv A
      { tree_list := [SafraTree.build_initial_tree A], targets := fun _ _ => 0,
        work_queue := List.replicate A.alphabet_size 0 } := by
  refine ⟨⟨rfl, ?_, List.pairwise_singleton _ _⟩, ?_, ?_⟩
  · intro t ht
    rw [List.mem_singleton.1 ht]
    exact SafraTree.Reached.initial
  · intro i hi
    rw [List.eq_of_mem_replicate hi]
    exact Nat.one_pos
  · intro i hi
    have hi0 : i = 0 := by
      have : i < 1 := hi
      omega
    by_cases hs : A.alphabet_size = 0
    · right
      intro j hj
      omega
    · left
      rw [hi0]
      show 0 ∈ List.replicate A.alphabet_size 0
      rw [List.mem_replicate]
      exact ⟨hs, rfl⟩

/-- What the exploration of `NBW::determinize` leaves when it finishes. -/
theorem NBW.determinize_explore_spec (A : NBW) (fuel : ℕ) (st : DetState)
    (h : A.determinize_explore fuel = some st) :
    DetGood A st ∧
      ∀ i, i < st.tree_list.length → ∀ j, j < A.alphabet_size → st.TargetOK A i j := by
  obtain ⟨inv, hq⟩ := A.determinize_loop_inv fuel _ st A.determinize_initial_inv h
  refine ⟨inv.good, ?_⟩
  intro i hi j hj
  rcases inv.done i hi with h1 | h1
  · rw [hq] at h1
    exact absurd h1 (List.not_mem_nil i)
  · exact h1 j hj

theorem NBW.determinize_eq (A : NBW) (hN : 1 ≤ A.size) (fuel : ℕ) (st : DetState)
    (h : A.determinize_explore fuel = some st) :
    A.determinize fuel =
      some
        { size := st.tree_list.length
          alphabet_size := A.alphabet_size
          initial_state := 0
          pairs := rabin_pairs A.size st.tree_list
          transition_matrix := st.targets } := by
  unfold NBW.determinize_explore at h
  unfold NBW.determinize
  rw [if_neg (by omega)]
  simp only [h]

theorem DetState.targetOK_spec (A : NBW) (st : DetState) (i j : ℕ) (t : SafraTree)
    (ht : st.tree_list[i]? = some t) (h : st.TargetOK A i j) :
    st.targets i j < st.tree_list.length ∧
      ∃ u, st.tree_list[st.targets i j]? = some u ∧
        SafraTree.beq u (SafraTree.get_transition t A (j + 1)) = true ∧
        ∀ (k : ℕ) (v : SafraTree), k < st.targets i j → st.tree_list[k]? = some v →
          SafraTree.beq v (SafraTree.get_transition t A (j + 1)) = false := by
  obtain ⟨t2, h1, h2⟩ := h
  rw [ht] at h1
  rw [← Option.some.inj h1] at h2
  obtain ⟨hlt, hb, hfirst⟩ := List.findIdx?_eq_some_iff_getElem.1 h2
  refine ⟨hlt, st.tree_list[st.targets i j], List.getElem?_eq_getElem hlt, hb, ?_⟩
  intro k v hk hv
  have hklt : k < st.tree_list.length := lt_trans hk hlt
  rw [List.getElem?_eq_getElem hklt] at hv
  have := hfirst k hk
  rw [Option.some.inj hv] at this
  simpa using this

theorem NBW.determinize_explore_complete (A : NBW) (fuel : ℕ) (st : DetState)
    (h : A.determinize_explore fuel = some st) (t : SafraTree) (ht : SafraTree.Reached A t) :
    ∃ (k : ℕ) (u : SafraTree), st.tree_list[k]? = some u ∧ SafraTree.beq u t = true := by
  obtain ⟨hg, hdone⟩ := A.determinize_explore_spec fuel st h
  induction ht with
  | initial => exact ⟨0, _, hg.first, SafraTree.beq_refl _⟩
  | step t c _ hc1 hc2 ih =>
    obtain ⟨k, u, hu, hb⟩ := ih
    have hk : k < st.tree_list.length := by
      by_contra hcon
      rw [List.getElem?_eq_none (not_lt.1 hcon)] at hu
      exact absurd hu (by simp)
    obtain ⟨_, v, hv, hbv, _⟩ :=
      DetState.targetOK_spec A st k (c - 1) u hu (hdone k hk (c - 1) (by omega))
    rw [Nat.sub_add_cancel hc1, SafraTree.get_transition_congr hb] at hbv
    exact ⟨_, v, hv, hbv⟩

theorem DetGood.position_unique {A : NBW} {st : DetState} (hg : DetGood A st) {k1 k2 : ℕ}
    {u1 u2 t : SafraTree} (h1 : st.tree_list[k1]? = some u1) (h2 : st.tree_list[k2]? = some u2)
    (b1 : SafraTree.beq u1 t = true) (b2 : SafraTree.beq u2 t = true) : k1 = k2 := by
  have hk1 : k1 < st.tree_list.length := by
    by_contra hcon
    rw [List.getElem?_eq_none (not_lt.1 hcon)] at h1
    exact absurd h1 (by simp)
  have hk2 : k2 < st.tree_list.length := by
    by_contra hcon
    rw [List.getElem?_eq_none (not_lt.1 hcon)] at h2
    exact absurd h2 (by simp)
  rw [List.getElem?_eq_getElem hk1] at h1
  rw [List.getElem?_eq_getElem hk2] at h2
  have hp := List.pairwise_iff_getElem.1 hg.distinct
  have e12 : SafraTree.beq u1 u2 = true := SafraTree.beq_trans b1 (SafraTree.beq_symm b2)
  rcases Nat.lt_trichotomy k1 k2 with hlt | heq | hgt
  · have := hp k1 k2 hk1 hk2 hlt
    rw [Option.some.inj h1, Option.some.inj h2, e12] at this
    exact absurd this (by simp)
  · exact heq
  · have := hp k2 k1 hk2 hk1 hgt
    rw [Option.some.inj h1, Option.some.inj h2, SafraTree.beq_symm e12] at this
    exact absurd this (by simp)

theorem NBW.determinize_table_aux (A : NBW) (hN : 1 ≤ A.size) (fuel : ℕ)
    (hfin : (A.determinize_explore fuel).isSome = true) :
    ∃ (st : DetState) (D : DRW), A.determinize_explore fuel = some st ∧
      A.determinize fuel = some D ∧ D.initial_state = 0 ∧ D.size = st.tree_list.length ∧
      st.tree_list[0]? = some (SafraTree.build_initial_tree A) ∧
      (∀ t ∈ st.tree_list, SafraTree.Reached A t) ∧
      st.tree_list.Pairwise (fun a b => SafraTree.beq a b = false) ∧
      (∀ t, SafraTree.Reached A t →
        ∃ (k : ℕ) (u : SafraTree), st.tree_list[k]? = some u ∧ SafraTree.beq u t = true ∧
          ∀ (k2 : ℕ) (u2 : SafraTree), st.tree_list[k2]? = some u2 → SafraTree.beq u2 t = true → k2 = k) ∧
      ∀ (i : ℕ) (t : SafraTree), st.tree_list[i]? = some t → ∀ a, a < A.alphabet_size →
        D.transition_matrix i a < D.size ∧
          ∃ u, st.tree_list[D.transition_matrix i a]? = some u ∧
            SafraTree.beq u (SafraTree.get_transition t A (a + 1)) = true := by
  cases hst : A.determinize_explore fuel with
  | none => rw [hst] at hfin; exact absurd hfin (by simp)
  | some st =>
    obtain ⟨hg, hdone⟩ := A.determinize_explore_spec fuel st hst
    refine ⟨st, _, rfl, A.determinize_eq hN fuel st hst, rfl, rfl, hg.first, hg.reached,
      hg.distinct, ?_, ?_⟩
    · intro t ht
      obtain ⟨k, u, hu, hb⟩ := A.determinize_explore_complete fuel st hst t ht
      exact ⟨k, u, hu, hb, fun k2 u2 h2 b2 => hg.position_unique h2 hu b2 hb⟩
    · intro i t hi a ha
      have hlt : i < st.tree_list.length := by
        by_contra hcon
        rw [List.getElem?_eq_none (not_lt.1 hcon)] at hi
        exact absurd hi (by simp)
      obtain ⟨h1, u, hu, hb, _⟩ := DetState.targetOK_spec A st i a t hi (hdone i hlt a ha)
      exact ⟨h1, u, hu, hb⟩

/-- C23. For an NBW `A` with at least one state for which the exploration of
`determinize` finishes with the list `tree_list` of canonical trees, the
returned DRW has initial state 0, which stands for the initial tree, and as
many states as `tree_list` has trees; the listed trees are reached, pairwise
unequal under `operator==`, and every reached tree is equal to the tree of
exactly one position; and for every state `i` and every symbol `a`,
`delta(i, a)` is a state, the position of the listed tree that is equal to
`get_transition(tree_i, a)`. -/
theorem NBW.determinize_table (A : NBW) (hN : 1 ≤ A.size) (fuel : ℕ)
    (hfin : (A.determinize_explore fuel).isSome = true) :
    ∃ (st : DetState) (D : DRW), A.determinize_explore fuel = some st ∧
      A.determinize fuel = some D ∧ D.initial_state = 0 ∧ D.size = st.tree_list.length ∧
      st.tree_list[0]? = some (SafraTree.build_initial_tree A) ∧
      (∀ t ∈ st.tree_list, SafraTree.Reached A t) ∧
      st.tree_list.Pairwise (fun a b => SafraTree.beq a b = false) ∧
      (∀ t, SafraTree.Reached A t →
        ∃ (k : ℕ) (u : SafraTree), st.tree_list[k]? = some u ∧ SafraTree.beq u t = true ∧
          ∀ (k2 : ℕ) (u2 : SafraTree), st.tree_list[k2]? = some u2 → SafraTree.beq u2 t = true → k2 = k) ∧
      ∀ (i : ℕ) (t : SafraTree), st.tree_list[i]? = some t → ∀ a, a < A.alphabet_size →
        D.transition_matrix i a < D.size ∧
          ∃ u, st.tree_list[D.transition_matrix i a]? = some u ∧
            SafraTree.beq u (SafraTree.get_transition t A (a + 1)) = true :=
  A.determinize_table_aux hN fuel hfin

/-- Witness for C23: the automaton for "infinitely often a", whose exploration
finishes within two rounds. -/
theorem NBW.determinize_table_witness :
    (1 ≤ NBW.infinitely_often_a.size ∧
        (NBW.infinitely_often_a.determinize_explore 2).isSome = true) ∧
      ∃ (st : DetState) (D : DRW), NBW.infinitely_often_a.determinize_explore 2 = some st ∧
        NBW.infinitely_often_a.determinize 2 = some D ∧ D.initial_state = 0 ∧
        D.size = st.tree_list.length ∧
        st.tree_list[0]? = some (SafraTree.build_initial_tree NBW.infinitely_often_a) ∧
        (∀ t ∈ st.tree_list, SafraTree.Reached NBW.infinitely_often_a t) ∧
        st.tree_list.Pairwise (fun a b => SafraTree.beq a b = false) ∧
        (∀ t, SafraTree.Reached NBW.infinitely_often_a t →
          ∃ (k : ℕ) (u : SafraTree), st.tree_list[k]? = some u ∧ SafraTree.beq u t = true ∧
            ∀ (k2 : ℕ) (u2 : SafraTree), st.tree_list[k2]? = some u2 → SafraTree.beq u2 t = true → k2 = k) ∧
        ∀ (i : ℕ) (t : SafraTree), st.tree_list[i]? = some t → ∀ a, a < NBW.infinitely_often_a.alphabet_size →
          D.transition_matrix i a < D.size ∧
            ∃ u, st.tree_list[D.transition_matrix i a]? = some u ∧
              SafraTree.beq u (SafraTree.get_transition t NBW.infinitely_often_a (a + 1)) =
                true :=
  ⟨⟨by decide, by decide⟩,
    NBW.determinize_table NBW.infinitely_often_a (by decide) 2 (by decide)⟩

/-! ## The marked names of a reached tree are names of its nodes -/

theorem SafraNode.kill_marked :
    (∀ (x : SafraNode) (T : SafraTree),
        (SafraNode.kill_node x T).marked_nodes = T.marked_nodes \ x.indices.toFinset) ∧
      ∀ (cs : List SafraNode) (T : SafraTree),
        (SafraNode.kill_nodes cs T).marked_nodes =
          T.marked_nodes \ (SafraNode.indices_list cs).toFinset := by
  apply SafraNode.induction_both
  · intro name states marked children ih T
    rw [SafraNode.kill_node, ih, SafraNode.indices_mk, List.toFinset_cons]
    unfold SafraTree.free_node_name
    ext x
    simp only [Finset.mem_sdiff, Finset.mem_erase, Finset.mem_insert]
    tauto
  · intro T
    rw [SafraNode.kill_nodes, SafraNode.indices_list_nil]
    simp
  · intro c cs ihc ihcs T
    rw [SafraNode.kill_nodes, ihcs, ihc, SafraNode.indices_list_cons, List.toFinset_append]
    ext x
    simp only [Finset.mem_sdiff, Finset.mem_union]
    tauto

theorem SafraNode.clone_marks (input : NBW) (character : ℕ) (F : Finset ℕ) :
    (∀ (x : SafraNode) (T : SafraTree) (K : Finset ℕ),
        ∀ i ∈ (SafraNode.clone_spawn_and_transition input character F x false
            T K).2.1.marked_nodes,
          i ∈ T.marked_nodes ∨
            i ∈ SafraNode.indices_list
              (SafraNode.clone_spawn_and_transition input character F x false T K).1.toList) ∧
      ∀ (cs : List SafraNode) (T : SafraTree) (K : Finset ℕ),
        ∀ i ∈ (SafraNode.clone_children input character F cs T K).2.1.marked_nodes,
          i ∈ T.marked_nodes ∨
            i ∈ SafraNode.indices_list (SafraNode.clone_children input character F cs T K).1 := by
  apply SafraNode.induction_both
  · intro name states marked children ih T K
    by_cases hk : input.transition states character ⊆ K
    · rw [SafraNode.clone_killed input character F name states marked children T K hk]
      intro i hi
      exact Or.inl hi
    · generalize hrs : SafraNode.clone_children input character F children T.name_node.2 K = rs
      have ihr := ih T.name_node.2 K
      rw [hrs] at ihr
      have ihr2 : ∀ i ∈ rs.2.1.marked_nodes,
          i ∈ T.marked_nodes ∨ i ∈ SafraNode.indices_list rs.1 := ihr
      by_cases hm : input.transition states character \ K ⊆
          rs.2.2 ∪ ((input.transition states character \ K) ∩ F) \ rs.2.2
      · rw [SafraNode.clone_marked input character F name states marked children T K rs hrs hk hm]
        intro i hi
        have hi2 : i ∈ (SafraNode.kill_nodes rs.1 (rs.2.1.mark_node name)).marked_nodes := hi
        rw [SafraNode.kill_marked.2] at hi2
        obtain ⟨h1, h2⟩ := Finset.mem_sdiff.1 hi2
        have h1b : i ∈ insert (name - 1) rs.2.1.marked_nodes := h1
        rcases Finset.mem_insert.1 h1b with h | h
        · right
          show i ∈ SafraNode.indices_list [SafraNode.mk name _ true []]
          rw [SafraNode.indices_list_single, SafraNode.indices_mk, h]
          exact List.mem_cons_self _ _
        · rcases ihr2 i h with h3 | h3
          · exact Or.inl h3
          · exact absurd (List.mem_toFinset.2 h3) h2
      · by_cases hc : (((input.transition states character \ K) ∩ F) \ rs.2.2).Nonempty
        · rw [SafraNode.clone_spawned input character F name states marked children T K rs hrs hk
            hm hc]
          intro i hi
          have hi2 : i ∈ insert (T.name_node.1 - 1) rs.2.1.marked_nodes := hi
          show _ ∨ i ∈ SafraNode.indices_list [SafraNode.mk name _ false _]
          rw [SafraNode.indices_list_single, SafraNode.indices_mk, SafraNode.indices_list_append,
            SafraNode.indices_list_single, SafraNode.indices_mk, SafraNode.indices_list_nil]
          rcases Finset.mem_insert.1 hi2 with h | h
          · right
            rw [h]
            exact List.mem_cons_of_mem _
              (List.mem_append_right _ (List.mem_cons_self _ _))
          · rcases ihr2 i h with h3 | h3
            · exact Or.inl h3
            · exact Or.inr (List.mem_cons_of_mem _ (List.mem_append_left _ h3))
        · rw [SafraNode.clone_plain input character F name states marked children T K rs hrs hk
            hm hc]
          intro i hi
          have hi2 : i ∈ rs.2.1.marked_nodes := hi
          show _ ∨ i ∈ SafraNode.indices_list [SafraNode.mk name _ false _]
          rw [SafraNode.indices_list_single, SafraNode.indices_mk]
          rcases ihr2 i hi2 with h3 | h3
          · exact Or.inl h3
          · exact Or.inr (List.mem_cons_of_mem _ h3)
  · intro T K i hi
    rw [SafraNode.clone_children_nil] at hi
    exact Or.inl hi
  · intro c cs ihc ihcs T K i hi
    rw [SafraNode.clone_children_cons] at hi ⊢
    rw [SafraNode.indices_list_append]
    have hi2 : i ∈ (SafraNode.clone_children input character F cs
        (SafraNode.clone_spawn_and_transition input character F c false T K).2.1
        (SafraNode.clone_spawn_and_transition input character F c false T
          K).2.2).2.1.marked_nodes := hi
    rcases ihcs _ _ i hi2 with h | h
    · rcases ihc T K i h with h2 | h2
      · exact Or.inl h2
      · exact Or.inr (List.mem_append_left _ h2)
    · exact Or.inr (List.mem_append_right _ h)

theorem SafraTree.get_transition_marks (t : SafraTree) (A : NBW) (c : ℕ) :
    ∀ i ∈ (SafraTree.get_transition t A c).marked_nodes,
      ∃ r, (SafraTree.get_transition t A c).root = some r ∧ i ∈ r.indices := by
  intro i hi
  cases hr : t.root with
  | none =>
    have : SafraTree.get_transition t A c = { SafraTree.fresh with root := none, hvalue := 0 } := by
      unfold SafraTree.get_transition
      rw [hr]
    rw [this] at hi
    exact absurd hi (Finset.not_mem_empty i)
  | some r =>
    obtain ⟨h1, h2, h3⟩ := SafraNode.clone_root A c A.final r
      { SafraTree.fresh with used_node_names := t.used_node_names } ∅
    have hmarks := (SafraNode.clone_marks A c A.final).1 r
      { SafraTree.fresh with used_node_names := t.used_node_names } ∅
    have hgt : (SafraTree.get_transition t A c).marked_nodes =
          (SafraNode.clone_spawn_and_transition A c A.final r true
            { SafraTree.fresh with used_node_names := t.used_node_names } ∅).2.1.marked_nodes ∧
        (SafraTree.get_transition t A c).root =
          (SafraNode.clone_spawn_and_transition A c A.final r true
            { SafraTree.fresh with used_node_names := t.used_node_names } ∅).2.1.root := by
      unfold SafraTree.get_transition
      rw [hr]
      simp only []
      split <;> exact ⟨rfl, rfl⟩
    rw [hgt.1] at hi
    rw [hgt.2]
    rw [h3] at hi ⊢
    cases hcl : (SafraNode.clone_spawn_and_transition A c A.final r false
        { SafraTree.fresh with used_node_names := t.used_node_names } ∅).1 with
    | none =>
      rw [hcl] at hi
      exact absurd hi (Finset.not_mem_empty i)
    | some r2 =>
      rw [hcl] at hi
      have hi2 : i ∈ (SafraNode.clone_spawn_and_transition A c A.final r false
          { SafraTree.fresh with used_node_names := t.used_node_names } ∅).2.1.marked_nodes := hi
      rcases hmarks i hi2 with h | h
      · exact absurd h (Finset.not_mem_empty i)
      · rw [hcl, SafraNode.indices_toList] at h
        exact ⟨r2, rfl, h⟩

theorem SafraTree.build_initial_tree_marks (A : NBW) :
    (SafraTree.build_initial_tree A).marked_nodes = ∅ := by
  unfold SafraTree.build_initial_tree
  simp only []
  split_ifs <;> rfl

theorem SafraTree.reached_marks (A : NBW) {t : SafraTree} (h : SafraTree.Reached A t) :
    t.marked_nodes ⊆ t.used_node_names := by
  cases h with
  | initial =>
    rw [SafraTree.build_initial_tree_marks]
    exact Finset.empty_subset _
  | step t0 c h0 hc1 hc2 =>
    intro i hi
    obtain ⟨r, hr, hir⟩ := SafraTree.get_transition_marks t0 A c i hi
    exact ((SafraTree.reached_names A (SafraTree.Reached.step t0 c h0 hc1 hc2) r hr).2.2 i).2 hir

/-! ## The Rabin pairs built by `NBW::determinize` -/

theorem RabinPair.ext_sets {p q : RabinPair} (h1 : p.infinite = q.infinite)
    (h2 : p.finite = q.finite) : p = q := by
  cases p
  cases q
  simp only [RabinPair.mk.injEq]
  exact ⟨h1, h2⟩

theorem foldl_cond_append {α β : Type} (P : α → Prop) [DecidablePred P] (f : α → β)
    (l : List α) :
    ∀ acc : List β,
      l.foldl (fun pairs i => if P i then pairs ++ [f i] else pairs) acc =
        acc ++ (l.filter (fun i => decide (P i))).map f := by
  induction l with
  | nil => intro acc; simp
  | cons x xs ih =>
    intro acc
    rw [List.foldl_cons, ih]
    by_cases hx : P x
    · simp [hx, List.filter_cons]
    · simp [hx, List.filter_cons]

theorem rabin_pair_scan (tree_list : List SafraTree) (i : ℕ) (js : List ℕ) :
    ∀ p : RabinPair,
      (∀ s, s ∈ (js.foldl
            (fun pair j =>
              if i ∈ (tree_list.getD j SafraTree.fresh).marked_nodes then
                { pair with infinite := insert j pair.infinite }
              else if i ∉ (tree_list.getD j SafraTree.fresh).used_node_names then
                { pair with finite := insert j pair.finite }
              else pair)
            p).infinite ↔
          s ∈ p.infinite ∨ (s ∈ js ∧ i ∈ (tree_list.getD s SafraTree.fresh).marked_nodes)) ∧
        ∀ s, s ∈ (js.foldl
            (fun pair j =>
              if i ∈ (tree_list.getD j SafraTree.fresh).marked_nodes then
                { pair with infinite := insert j pair.infinite }
              else if i ∉ (tree_list.getD j SafraTree.fresh).used_node_names then
                { pair with finite := insert j pair.finite }
              else pair)
            p).finite ↔
          s ∈ p.finite ∨
            (s ∈ js ∧ i ∉ (tree_list.getD s SafraTree.fresh).marked_nodes ∧
              i ∉ (tree_list.getD s SafraTree.fresh).used_node_names) := by
  induction js with
  | nil => intro p; simp
  | cons j js ih =>
    intro p
    rw [List.foldl_cons]
    obtain ⟨h1, h2⟩ := ih
      (if i ∈ (tree_list.getD j SafraTree.fresh).marked_nodes then
        { p with infinite := insert j p.infinite }
      else if i ∉ (tree_list.getD j SafraTree.fresh).used_node_names then
        { p with finite := insert j p.finite }
      else p)
    constructor
    · intro s
      rw [h1 s]
      by_cases hm : i ∈ (tree_list.getD j SafraTree.fresh).marked_nodes
      · simp only [hm, if_true, Finset.mem_insert, List.mem_cons]
        constructor
        · rintro ((h | h) | h)
          · exact Or.inr ⟨Or.inl h, by rw [h]; exact hm⟩
          · exact Or.inl h
          · exact Or.inr ⟨Or.inr h.1, h.2⟩
        · rintro (h | ⟨h | h, h3⟩)
          · exact Or.inl (Or.inr h)
          · exact Or.inl (Or.inl h)
          · exact Or.inr ⟨h, h3⟩
      · have hsame : (if i ∈ (tree_list.getD j SafraTree.fresh).marked_nodes then
              { p with infinite := insert j p.infinite }
            else if i ∉ (tree_list.getD j SafraTree.fresh).used_node_names then
              { p with finite := insert j p.finite }
            else p).infinite = p.infinite := by
          rw [if_neg hm]
          split_ifs <;> rfl
        rw [hsame]
        simp only [List.mem_cons]
        constructor
        · rintro (h | h)
          · exact Or.inl h
          · exact Or.inr ⟨Or.inr h.1, h.2⟩
        · rintro (h | ⟨h | h, h3⟩)
          · exact Or.inl h
          · rw [h] at h3; exact absurd h3 hm
          · exact Or.inr ⟨h, h3⟩
    · intro s
      rw [h2 s]
      by_cases hm : i ∈ (tree_list.getD j SafraTree.fresh).marked_nodes
      · simp only [hm, if_true, List.mem_cons]
        constructor
        · rintro (h | h)
          · exact Or.inl h
          · exact Or.inr ⟨Or.inr h.1, h.2⟩
        · rintro (h | ⟨h | h, h3⟩)
          · exact Or.inl h
          · rw [h] at h3; exact absurd hm h3.1
          · exact Or.inr ⟨h, h3⟩
      · by_cases hu : i ∈ (tree_list.getD j SafraTree.fresh).used_node_names
        · simp only [hm, hu, if_false, not_true_eq_false, List.mem_cons]
          constructor
          · rintro (h | h)
            · exact Or.inl h
            · exact Or.inr ⟨Or.inr h.1, h.2⟩
          · rintro (h | ⟨h | h, h3⟩)
            · exact Or.inl h
            · rw [h] at h3; exact absurd hu h3.2
            · exact Or.inr ⟨h, h3⟩
        · simp only [hm, hu, if_false, not_false_eq_true, if_true, Finset.mem_insert,
            List.mem_cons]
          constructor
          · rintro ((h | h) | h)
            · exact Or.inr ⟨Or.inl h, by rw [h]; exact ⟨hm, hu⟩⟩
            · exact Or.inl h
            · exact Or.inr ⟨Or.inr h.1, h.2⟩
          · rintro (h | ⟨h | h, h3⟩)
            · exact Or.inl (Or.inr h)
            · exact Or.inl (Or.inl h)
            · exact Or.inr ⟨h, h3⟩

theorem rabin_pairs_eq (buchi_size : ℕ) (tree_list : List SafraTree)
    (hgood : ∀ t ∈ tree_list, t.marked_nodes ⊆ t.used_node_names) :
    rabin_pairs buchi_size tree_list =
      ((List.range' 1 (2 * buchi_size)).filter
          (fun k => decide (rabin_inf_described tree_list k).Nonempty)).map
        (fun k =>
          { infinite := rabin_inf_described tree_list k
            finite := rabin_fin_described tree_list k }) := by
  have hpair : ∀ i,
      (List.range tree_list.length).foldl
          (fun pair j =>
            if i ∈ (tree_list.getD j SafraTree.fresh).marked_nodes then
              { pair with infinite := insert j pair.infinite }
            else if i ∉ (tree_list.getD j SafraTree.fresh).used_node_names then
              { pair with finite := insert j pair.finite }
            else pair)
          ({ infinite := ∅, finite := ∅ } : RabinPair) =
        { infinite := rabin_inf_described tree_list (i + 1)
          finite := rabin_fin_described tree_list (i + 1) } := by
    intro i
    obtain ⟨h1, h2⟩ := rabin_pair_scan tree_list i (List.range tree_list.length)
      { infinite := ∅, finite := ∅ }
    apply RabinPair.ext_sets
    · ext s
      rw [h1 s]
      unfold rabin_inf_described
      simp only [Finset.not_mem_empty, false_or, List.mem_range, Finset.mem_filter,
        Finset.mem_range, Nat.add_sub_cancel]
    · ext s
      rw [h2 s]
      unfold rabin_fin_described
      simp only [Finset.not_mem_empty, false_or, List.mem_range, Finset.mem_filter,
        Finset.mem_range, Nat.add_sub_cancel]
      constructor
      · rintro ⟨h, _, h3⟩
        exact ⟨h, h3⟩
      · rintro ⟨h, h3⟩
        refine ⟨h, ?_, h3⟩
        intro hm
        have hmem : tree_list.getD s SafraTree.fresh ∈ tree_list := by
          rw [List.getD_eq_getElem?_getD, List.getElem?_eq_getElem h]
          exact List.getElem_mem h
        exact h3 (hgood _ hmem hm)
  unfold rabin_pairs
  simp only [hpair]
  rw [foldl_cond_append (fun i => (rabin_inf_described tree_list (i + 1)).Nonempty)
    (fun i =>
      ({ infinite := rabin_inf_described tree_list (i + 1)
         finite := rabin_fin_described tree_list (i + 1) } : RabinPair)),
    List.nil_append, List.range'_eq_map_range, List.filter_map, List.map_map]
  have hf : (fun k => decide (rabin_inf_described tree_list k).Nonempty) ∘ (fun x => 1 + x) =
      fun i => decide (rabin_inf_described tree_list (i + 1)).Nonempty := by
    funext i
    simp only [Function.comp, Nat.add_comm 1 i]
  have hg : (fun k =>
        ({ infinite := rabin_inf_described tree_list k
           finite := rabin_fin_described tree_list k } : RabinPair)) ∘ (fun x => 1 + x) =
      fun i =>
        ({ infinite := rabin_inf_described tree_list (i + 1)
           finite := rabin_fin_described tree_list (i + 1) } : RabinPair) := by
    funext i
    simp only [Function.comp, Nat.add_comm 1 i]
  rw [hf, hg]

theorem NBW.determinize_pairs_aux (A : NBW) (hN : 1 ≤ A.size) (fuel : ℕ)
    (hfin : (A.determinize_explore fuel).isSome = true) :
    ∃ (st : DetState) (D : DRW), A.determinize_explore fuel = some st ∧
      A.determinize fuel = some D ∧ D.size = st.tree_list.length ∧
      D.pairs =
        ((List.range' 1 (2 * A.size)).filter
            (fun k => decide (rabin_inf_described st.tree_list k).Nonempty)).map
          (fun k =>
            { infinite := rabin_inf_described st.tree_list k
              finite := rabin_fin_described st.tree_list k }) ∧
      D.pairs.length ≤ 2 * A.size ∧ ∀ p ∈ D.pairs, p.infinite.Nonempty := by
  cases hst : A.determinize_explore fuel with
  | none => rw [hst] at hfin; exact absurd hfin (by simp)
  | some st =>
    obtain ⟨hg, _⟩ := A.determinize_explore_spec fuel st hst
    have hp := rabin_pairs_eq A.size st.tree_list
      (fun t ht => SafraTree.reached_marks A (hg.reached t ht))
    refine ⟨st, _, rfl, A.determinize_eq hN fuel st hst, rfl, hp, ?_, ?_⟩
    · show (rabin_pairs A.size st.tree_list).length ≤ _
      rw [hp, List.length_map]
      refine le_trans (List.length_filter_le _ _) ?_
      rw [List.length_range']
    · intro p hpm
      have hpm2 : p ∈ rabin_pairs A.size st.tree_list := hpm
      rw [hp] at hpm2
      obtain ⟨k, hk, rfl⟩ := List.mem_map.1 hpm2
      have := (List.mem_filter.1 hk).2
      simpa using this

/-! ## More fuel for the loops of `build_automaton` -/

theorem NBW.build_helper_loop_add (f : Conjunction) (formula_tracks k fuel : ℕ)
    (st r : HelperState) (h : NBW.build_helper_loop f formula_tracks fuel st = some r) :
    NBW.build_helper_loop f formula_tracks (fuel + k) st = some r := by
  induction fuel generalizing st with
  | zero =>
    unfold NBW.build_helper_loop at h
    by_cases he : st.queue.isEmpty = true
    · rw [if_pos he] at h
      cases k with
      | zero => unfold NBW.build_helper_loop; rw [if_pos he]; exact h
      | succ k => rw [Nat.zero_add]; unfold NBW.build_helper_loop; rw [if_pos he]; exact h
    · rw [if_neg he] at h
      exact absurd h (by simp)
  | succ fuel ih =>
    rw [Nat.succ_add]
    unfold NBW.build_helper_loop at h ⊢
    by_cases he : st.queue.isEmpty = true
    · rw [if_pos he] at h ⊢
      exact h
    · rw [if_neg he] at h ⊢
      cases hr : NBW.build_helper_round f formula_tracks st.queue { st with queue := [] } with
      | none => rw [hr] at h; exact absurd h (by simp)
      | some st1 =>
        rw [hr] at h
        exact ih _ h

theorem NBW.build_helper_add (f : Conjunction) (formula_tracks : ℕ) (conditions : Boundary)
    (k fuel : ℕ) (A : NBW) (h : NBW.build_helper f formula_tracks conditions fuel = some A) :
    NBW.build_helper f formula_tracks conditions (fuel + k) = some A := by
  unfold NBW.build_helper at h ⊢
  cases hl : NBW.build_helper_loop f formula_tracks fuel
      (NBW.build_helper_start f formula_tracks conditions) with
  | none => rw [hl] at h; exact absurd h (by simp)
  | some st =>
    rw [hl] at h
    rw [NBW.build_helper_loop_add f formula_tracks k fuel _ st hl]
    exact h

theorem NBW.get_complement_add (A : NBW) (k fuel : ℕ) (C : NBW)
    (h : A.get_complement fuel = some C) : A.get_complement (fuel + k) = some C := by
  unfold NBW.get_complement at h ⊢
  cases hd : A.trim.2.determinize fuel with
  | none => simp only [hd] at h; exact absurd h (by simp)
  | some det =>
    simp only [hd] at h
    simp only [NBW.determinize_add _ k fuel det hd]
    exact h

theorem build_quantifiers_fuel (k fuel : ℕ) (qs : List Quantifier) (base base2 : Option NBW)
    (hb : ∀ X, base = some X → base2 = some X) :
    (qs.foldr
          (fun q st =>
            build_quantifier_step
              (fun ret : Option NBW => ret.bind (fun A => A.get_complement (fuel + k)))
              (fun track_index ret => ret.map (fun A => A.project track_index))
              (fun ret => ret.map (fun A => A.trim.2)) q st)
          (base2, false)).2 =
        (qs.foldr
          (fun q st =>
            build_quantifier_step
              (fun ret : Option NBW => ret.bind (fun A => A.get_complement fuel))
              (fun track_index ret => ret.map (fun A => A.project track_index))
              (fun ret => ret.map (fun A => A.trim.2)) q st)
          (base, false)).2 ∧
      ∀ X,
        (qs.foldr
          (fun q st =>
            build_quantifier_step
              (fun ret : Option NBW => ret.bind (fun A => A.get_complement fuel))
              (fun track_index ret => ret.map (fun A => A.project track_index))
              (fun ret => ret.map (fun A => A.trim.2)) q st)
          (base, false)).1 = some X →
        (qs.foldr
          (fun q st =>
            build_quantifier_step
              (fun ret : Option NBW => ret.bind (fun A => A.get_complement (fuel + k)))
              (fun track_index ret => ret.map (fun A => A.project track_index))
              (fun ret => ret.map (fun A => A.trim.2)) q st)
          (base2, false)).1 = some X := by
  induction qs with
  | nil => exact ⟨rfl, hb⟩
  | cons q qs ih =>
    rw [List.foldr_cons, List.foldr_cons, build_quantifier_step_eq, build_quantifier_step_eq]
    obtain ⟨ih1, ih2⟩ := ih
    generalize qs.foldr
      (fun q st =>
        build_quantifier_step
          (fun ret : Option NBW => ret.bind (fun A => A.get_complement fuel))
          (fun track_index ret => ret.map (fun A => A.project track_index))
          (fun ret => ret.map (fun A => A.trim.2)) q st)
      (base, false) = s at ih1 ih2 ⊢
    generalize qs.foldr
      (fun q st =>
        build_quantifier_step
          (fun ret : Option NBW => ret.bind (fun A => A.get_complement (fuel + k)))
          (fun track_index ret => ret.map (fun A => A.project track_index))
          (fun ret => ret.map (fun A => A.trim.2)) q st)
      (base2, false) = s2 at ih1 ih2 ⊢
    refine ⟨rfl, ?_⟩
    intro X hX
    simp only [] at hX ⊢
    rw [ih1]
    cases hs : s.1 with
    | none =>
      rw [hs] at hX
      by_cases hc : q.universal ≠ s.2
      · rw [if_pos hc] at hX
        exact absurd hX (by simp)
      · rw [if_neg hc] at hX
        exact absurd hX (by simp)
    | some W =>
      rw [ih2 W hs]
      rw [hs] at hX
      by_cases hc : q.universal ≠ s.2
      · rw [if_pos hc] at hX ⊢
        cases hg : W.get_complement fuel with
        | none =>
          simp only [Option.some_bind, hg, Option.map_none'] at hX
          exact absurd hX (by simp)
        | some C =>
          simp only [Option.some_bind, hg] at hX
          simp only [Option.some_bind, NBW.get_complement_add W k fuel C hg]
          exact hX
      · rw [if_neg hc] at hX ⊢
        exact hX

theorem NBW.build_conjunction_automaton_add (f : Conjunction) (formula_tracks : ℕ)
    (conditions : Boundary) (k fuel : ℕ) (A : NBW)
    (h : NBW.build_conjunction_automaton f formula_tracks conditions fuel = some A) :
    NBW.build_conjunction_automaton f formula_tracks conditions (fuel + k) = some A := by
  unfold NBW.build_conjunction_automaton build_quantifiers at h ⊢
  simp only [List.foldl_reverse] at h ⊢
  obtain ⟨h1, h2⟩ := build_quantifiers_fuel k fuel f.quantifiers
    (NBW.build_helper f formula_tracks conditions fuel)
    (NBW.build_helper f formula_tracks conditions (fuel + k))
    (fun X hX => NBW.build_helper_add f formula_tracks conditions k fuel X hX)
  generalize f.quantifiers.foldr
    (fun q st =>
      build_quantifier_step
        (fun ret : Option NBW => ret.bind (fun A => A.get_complement fuel))
        (fun track_index ret => ret.map (fun A => A.project track_index))
        (fun ret => ret.map (fun A => A.trim.2)) q st)
    (NBW.build_helper f formula_tracks conditions fuel, false) = s at h h1 h2
  generalize f.quantifiers.foldr
    (fun q st =>
      build_quantifier_step
        (fun ret : Option NBW => ret.bind (fun A => A.get_complement (fuel + k)))
        (fun track_index ret => ret.map (fun A => A.project track_index))
        (fun ret => ret.map (fun A => A.trim.2)) q st)
    (NBW.build_helper f formula_tracks conditions (fuel + k), false) = s2 at h1 h2 ⊢
  rw [h1]
  by_cases hp : s.2 = true
  · rw [if_pos hp] at h ⊢
    cases hs : s.1 with
    | none => rw [hs] at h; exact absurd h (by simp)
    | some W =>
      rw [hs] at h
      rw [h2 W hs]
      cases hg : W.get_complement fuel with
      | none =>
        simp only [Option.some_bind, hg, Option.map_none'] at h
        exact absurd h (by simp)
      | some C =>
        simp only [Option.some_bind, hg] at h
        simp only [Option.some_bind, NBW.get_complement_add W k fuel C hg]
        exact h
  · rw [if_neg hp] at h ⊢
    exact h2 A h

theorem NBW.build_automaton_single (f : Conjunction) (formula_tracks : ℕ)
    (conditions : Boundary) (fuel : ℕ) :
    NBW.build_automaton [f] formula_tracks conditions fuel =
      NBW.build_conjunction_automaton f formula_tracks conditions fuel := rfl

/-! ## Rule 110 at level 0 -/

theorem rule110_level0_eval :
    (NBW.build_automaton [nilpotency_formula_level0 110] 1 Boundary.OMEGA 50).any
      (fun A => A.is_empty.1) = true := by
  decide!

/-- C27. With the variable `a` alone in the symbol table (one track), for the
conjunction with the single positive literal `a -> a` under rule 110 and the
quantifier "for all a" (not negated), under OMEGA boundary conditions,
`build_automaton` returns, with any fuel of at least 50 rounds per loop, an
automaton on which `is_empty` returns true: `check_nilpotency(110, ..)` does not
succeed at level 0. -/
theorem NBW.build_automaton_rule110_level0 (k : ℕ) :
    ∃ A, NBW.build_automaton [nilpotency_formula_level0 110] 1 Boundary.OMEGA (50 + k) =
        some A ∧ A.is_empty.1 = true := by
  have h := rule110_level0_eval
  rw [NBW.build_automaton_single] at h ⊢
  generalize hA : NBW.build_conjunction_automaton (nilpotency_formula_level0 110) 1
    Boundary.OMEGA 50 = o at h
  cases o with
  | none => exact absurd h (by simp)
  | some A => exact ⟨A, NBW.build_conjunction_automaton_add _ 1 Boundary.OMEGA k 50 A hA, h⟩

/-! ## `to_string` followed by `parse` -/

theorem parse_two_initial_eval :
    (NBW.parse ((NBW.ctor 2 1 [] {0, 1} {1}).to_string [] [])).any
      (fun B => decide (B.size = 2) && decide (B.alphabet_size = 1) &&
        decide (B.initial = {0}) && decide (B.final = ∅)) = true := by
  decide!

theorem parse_infinitely_often_a_eval :
    (NBW.parse (NBW.infinitely_often_a.to_string [] [])).any
      (fun B => decide (B.size = 2) && decide (B.alphabet_size = 2) &&
        decide (B.initial = {0}) && decide (B.final = {1}) &&
        decide (B.num_transitions = 4) &&
        (List.range 4).all
          (fun x => decide (B.transition_matrix x =
            NBW.infinitely_often_a.transition_matrix x))) = true := by
  decide!

/-- C28 (failing input). The automaton built by the constructor with two states,
one symbol, no transition, both states initial and state 1 accepting: `to_string`
writes each initial state on a line of its own, and `parse` reads the line `1`
as the initial states and the line `2` as the final states, so the parsed
automaton has the initial set `{0}` instead of `{0, 1}` and an empty accepting
set instead of `{1}`. -/
theorem NBW.parse_to_string_loses_initial :
    ∃ B, NBW.parse ((NBW.ctor 2 1 [] {0, 1} {1}).to_string [] []) = some B ∧
      B.size = (NBW.ctor 2 1 [] {0, 1} {1}).size ∧
      B.alphabet_size = (NBW.ctor 2 1 [] {0, 1} {1}).alphabet_size ∧
      (NBW.ctor 2 1 [] {0, 1} {1}).initial = {0, 1} ∧ B.initial = {0} ∧
      (NBW.ctor 2 1 [] {0, 1} {1}).final = {1} ∧ B.final = ∅ ∧
      B.initial ≠ (NBW.ctor 2 1 [] {0, 1} {1}).initial ∧
      B.final ≠ (NBW.ctor 2 1 [] {0, 1} {1}).final := by
  have h := parse_two_initial_eval
  generalize hB : NBW.parse ((NBW.ctor 2 1 [] {0, 1} {1}).to_string [] []) = o at h
  cases o with
  | none => exact absurd h (by simp)
  | some B =>
    simp only [Option.any_some, Bool.and_eq_true, decide_eq_true_eq] at h
    obtain ⟨⟨⟨h1, h2⟩, h3⟩, h4⟩ := h
    refine ⟨B, rfl, h1, h2, rfl, h3, rfl, h4, ?_, ?_⟩
    · rw [h3]
      decide
    · rw [h4]
      decide

/-! ## The name sets of a reached tree -/

theorem SafraTree.reached_temp (A : NBW) {t : SafraTree} (h : SafraTree.Reached A t)
    (r : SafraNode) (hr : t.root = some r) : t.temp_node_names = ∅ := by
  cases h with
  | initial =>
    unfold SafraTree.build_initial_tree
    simp only []
    split_ifs <;> rfl
  | step t0 c h0 hc1 hc2 =>
    cases hr0 : t0.root with
    | none =>
      rw [SafraTree.get_transition_none t0 A c hr0] at hr
      exact absurd hr (by simp)
    | some r0 =>
      obtain ⟨h1, h2, h3⟩ := SafraNode.clone_root A c A.final r0
        { SafraTree.fresh with used_node_names := t0.used_node_names } ∅
      have hgt : (SafraTree.get_transition t0 A c).temp_node_names =
            (SafraNode.clone_spawn_and_transition A c A.final r0 true
              { SafraTree.fresh with used_node_names := t0.used_node_names }
              ∅).2.1.temp_node_names ∧
          (SafraTree.get_transition t0 A c).root =
            (SafraNode.clone_spawn_and_transition A c A.final r0 true
              { SafraTree.fresh with used_node_names := t0.used_node_names } ∅).2.1.root := by
        unfold SafraTree.get_transition
        rw [hr0]
        simp only []
        split <;> exact ⟨rfl, rfl⟩
      rw [hgt.2, h3] at hr
      rw [hgt.1, h3]
      cases hcl : (SafraNode.clone_spawn_and_transition A c A.final r0 false
          { SafraTree.fresh with used_node_names := t0.used_node_names } ∅).1 with
      | none =>
        rw [hcl] at hr
        exact absurd hr (by simp)
      | some r2 => rfl

/-- C33. In every non-empty Safra tree reached by `determinize(A)` the set
`used_node_names` is exactly the set of the names of the nodes of the tree (the
set holds `name - 1`, and every name is at least 1), and no temporary name is
left: names that were reserved and not consumed, names of subtrees that were
suppressed and names of removed children are absent. -/
theorem SafraTree.used_names_exact (A : NBW) (t : SafraTree) (h : SafraTree.Reached A t)
    (r : SafraNode) (hr : t.root = some r) :
    (∀ p ∈ r.subnodes, 1 ≤ p.name) ∧
      (∀ i, i ∈ t.used_node_names ↔ ∃ p ∈ r.subnodes, p.name = i + 1) ∧
      t.temp_node_names = ∅ := by
  obtain ⟨_, hpos, hex⟩ := SafraTree.reached_names A h r hr
  refine ⟨hpos, ?_, SafraTree.reached_temp A h r hr⟩
  intro i
  rw [hex i]
  unfold SafraNode.indices
  rw [List.mem_map]
  constructor
  · rintro ⟨p, hp, hpi⟩
    have := hpos p hp
    exact ⟨p, hp, by omega⟩
  · rintro ⟨p, hp, hpi⟩
    exact ⟨p, hp, by omega⟩

/-- Witness for C33: the tree of `branching` after two transitions, with the
names 1, 2, 3. -/
theorem SafraTree.used_names_exact_witness :
    (SafraTree.Reached NBW.branching
        (SafraTree.get_transition
          (SafraTree.get_transition (SafraTree.build_initial_tree NBW.branching)
            NBW.branching 1) NBW.branching 1) ∧
      (SafraTree.get_transition
          (SafraTree.get_transition (SafraTree.build_initial_tree NBW.branching)
            NBW.branching 1) NBW.branching 1).root =
        some (.mk 1 {1, 0, 2} false [.mk 2 {2} true [], .mk 3 {1} true []])) ∧
    ((∀ p ∈ (SafraNode.mk 1 {1, 0, 2} false [.mk 2 {2} true [], .mk 3 {1} true []]).subnodes,
        1 ≤ p.name) ∧
      (∀ i, i ∈ (SafraTree.get_transition
            (SafraTree.get_transition (SafraTree.build_initial_tree NBW.branching)
              NBW.branching 1) NBW.branching 1).used_node_names ↔
          ∃ p ∈ (SafraNode.mk 1 {1, 0, 2} false
              [.mk 2 {2} true [], .mk 3 {1} true []]).subnodes, p.name = i + 1) ∧
      (SafraTree.get_transition
          (SafraTree.get_transition (SafraTree.build_initial_tree NBW.branching)
            NBW.branching 1) NBW.branching 1).temp_node_names = ∅) :=
  ⟨⟨NBW.branching_reached, rfl⟩,
    SafraTree.used_names_exact NBW.branching _ NBW.branching_reached
      (.mk 1 {1, 0, 2} false [.mk 2 {2} true [], .mk 3 {1} true []]) rfl⟩

/-! ## Equal trees: successors and marks -/

/-- C35. For every NBW `A`, every character and any two Safra trees `T1`, `T2`
(whether or not they satisfy the Safra invariants): if `T1 == T2` under
`SafraTree::operator==`, then `get_transition` returns the same tree for both,
so the two successors are equal under `operator==` as well. -/
theorem SafraTree.get_transition_respects_eq (A : NBW) (c : ℕ) (T1 T2 : SafraTree)
    (h : SafraTree.beq T1 T2 = true) :
    SafraTree.get_transition T1 A c = SafraTree.get_transition T2 A c ∧
      SafraTree.beq (SafraTree.get_transition T1 A c) (SafraTree.get_transition T2 A c) =
        true := by
  have e := SafraTree.get_transition_congr h A c
  refine ⟨e, ?_⟩
  rw [e]
  exact SafraTree.beq_refl _

theorem fading_trees_eval :
    SafraTree.beq
        (SafraTree.get_transition (SafraTree.build_initial_tree NBW.fading) NBW.fading 1)
        (SafraTree.get_transition
          (SafraTree.get_transition (SafraTree.build_initial_tree NBW.fading) NBW.fading 1)
          NBW.fading 1) = true ∧
      (SafraTree.get_transition (SafraTree.build_initial_tree NBW.fading)
        NBW.fading 1).marked_nodes = {0} ∧
      (SafraTree.get_transition
        (SafraTree.get_transition (SafraTree.build_initial_tree NBW.fading) NBW.fading 1)
        NBW.fading 1).marked_nodes = ∅ := by
  decide!

/-- Witness for C35: the first two successors of the initial tree of `fading`,
which are equal under `operator==` and differ in their marks. -/
theorem SafraTree.get_transition_respects_eq_witness :
    SafraTree.beq
        (SafraTree.get_transition (SafraTree.build_initial_tree NBW.fading) NBW.fading 1)
        (SafraTree.get_transition
          (SafraTree.get_transition (SafraTree.build_initial_tree NBW.fading) NBW.fading 1)
          NBW.fading 1) = true ∧
      (SafraTree.get_transition
            (SafraTree.get_transition (SafraTree.build_initial_tree NBW.fading) NBW.fading 1)
            NBW.fading 1 =
          SafraTree.get_transition
            (SafraTree.get_transition
              (SafraTree.get_transition (SafraTree.build_initial_tree NBW.fading) NBW.fading 1)
              NBW.fading 1)
            NBW.fading 1 ∧
        SafraTree.beq
            (SafraTree.get_transition
              (SafraTree.get_transition (SafraTree.build_initial_tree NBW.fading) NBW.fading 1)
              NBW.fading 1)
            (SafraTree.get_transition
              (SafraTree.get_transition
                (SafraTree.get_transition (SafraTree.build_initial_tree NBW.fading)
                  NBW.fading 1)
                NBW.fading 1)
              NBW.fading 1) =
          true) :=
  ⟨fading_trees_eval.1,
    SafraTree.get_transition_respects_eq NBW.fading 1 _ _ fading_trees_eval.1⟩

theorem universal_trees_eval :
    SafraTree.beq (SafraTree.build_initial_tree (NBW.ctor 1 1 [(0, 0, 0)] {0} {0}))
        (SafraTree.get_transition
          (SafraTree.build_initial_tree (NBW.ctor 1 1 [(0, 0, 0)] {0} {0}))
          (NBW.ctor 1 1 [(0, 0, 0)] {0} {0}) 1) = true ∧
      (SafraTree.build_initial_tree (NBW.ctor 1 1 [(0, 0, 0)] {0} {0})).marked_nodes = ∅ ∧
      (SafraTree.get_transition
        (SafraTree.build_initial_tree (NBW.ctor 1 1 [(0, 0, 0)] {0} {0}))
        (NBW.ctor 1 1 [(0, 0, 0)] {0} {0}) 1).marked_nodes = {0} ∧
      (SafraTree.build_initial_tree (NBW.ctor 1 1 [(0, 0, 0)] {0} {0})).root =
        some (.mk 1 {0} true []) := by
  refine ⟨?_, ?_, ?_, rfl⟩ <;> decide!

/-- C34 (failing inputs). Two trees produced during `determinize(A)` that are
equal under `operator==` and have different `marked_nodes` sets. For the
universal one-state automaton: the initial tree (no marked name) and its
successor (name 1 marked). For `fading`: the first successor of the initial
tree (name 1 marked) and the second one (no marked name), both results of
`get_transition` on reached trees. -/
theorem SafraTree.equal_trees_different_marks :
    (SafraTree.Reached (NBW.ctor 1 1 [(0, 0, 0)] {0} {0})
        (SafraTree.build_initial_tree (NBW.ctor 1 1 [(0, 0, 0)] {0} {0})) ∧
      SafraTree.beq (SafraTree.build_initial_tree (NBW.ctor 1 1 [(0, 0, 0)] {0} {0}))
        (SafraTree.get_transition
          (SafraTree.build_initial_tree (NBW.ctor 1 1 [(0, 0, 0)] {0} {0}))
          (NBW.ctor 1 1 [(0, 0, 0)] {0} {0}) 1) = true ∧
      (SafraTree.build_initial_tree (NBW.ctor 1 1 [(0, 0, 0)] {0} {0})).marked_nodes ≠
        (SafraTree.get_transition
          (SafraTree.build_initial_tree (NBW.ctor 1 1 [(0, 0, 0)] {0} {0}))
          (NBW.ctor 1 1 [(0, 0, 0)] {0} {0}) 1).marked_nodes) ∧
    (SafraTree.Reached NBW.fading (SafraTree.build_initial_tree NBW.fading) ∧
      SafraTree.Reached NBW.fading
        (SafraTree.get_transition (SafraTree.build_initial_tree NBW.fading) NBW.fading 1) ∧
      SafraTree.beq
        (SafraTree.get_transition (SafraTree.build_initial_tree NBW.fading) NBW.fading 1)
        (SafraTree.get_transition
          (SafraTree.get_transition (SafraTree.build_initial_tree NBW.fading) NBW.fading 1)
          NBW.fading 1) = true ∧
      (SafraTree.get_transition (SafraTree.build_initial_tree NBW.fading)
          NBW.fading 1).marked_nodes ≠
        (SafraTree.get_transition
          (SafraTree.get_transition (SafraTree.build_initial_tree NBW.fading) NBW.fading 1)
          NBW.fading 1).marked_nodes) := by
  obtain ⟨u1, u2, u3, _⟩ := universal_trees_eval
  obtain ⟨f1, f2, f3⟩ := fading_trees_eval
  refine ⟨⟨SafraTree.Reached.initial, u1, ?_⟩, SafraTree.Reached.initial,
    SafraTree.Reached.step _ 1 SafraTree.Reached.initial (le_refl 1) (le_refl 1), f1, ?_⟩
  · rw [u2, u3]
    decide
  · rw [f2, f3]
    decide

/-! ## `DRW::is_empty` writes the transition table -/

/-- C36 (failing input). For the automaton `leave_once` (`1 -> 0 -> 0`, one pair
with `infinite = {1}`), whatever the component search returns, `is_empty` leaves
the table entry `delta(1, 0) = 1` where it was 0, so the transition table after
the call differs from the one before; the initial state and the pairs are the
same. -/
theorem DRW.is_empty_writes_table (sccs : ℕ → ℕ → ℕ) :
    DRW.leave_once.transition_matrix 1 0 = 0 ∧
      (DRW.leave_once.is_empty sccs).2.transition_matrix 1 0 = 1 ∧
      (DRW.leave_once.is_empty sccs).2.transition_matrix ≠ DRW.leave_once.transition_matrix ∧
      (DRW.leave_once.is_empty sccs).2.initial_state = DRW.leave_once.initial_state ∧
      (DRW.leave_once.is_empty sccs).2.pairs = DRW.leave_once.pairs := by
  have h1 : (DRW.leave_once.is_empty sccs).2.transition_matrix 1 0 = 1 := by
    simp [DRW.is_empty, DRW.leave_once, DRW.is_empty_pair, DRW.self_loop_scan, List.range_succ,
      List.range_zero]
  refine ⟨rfl, h1, ?_, rfl, rfl⟩
  intro h
  rw [h] at h1
  exact Nat.zero_ne_one h1

/-! ## The field `num_transitions` -/

theorem project_count_eval :
    ((NBW.ctor 1 2 [(0, 0, 0)] {0} {0}).project 0).num_transitions = 1 ∧
      ((NBW.ctor 1 2 [(0, 0, 0)] {0} {0}).project 0).count_transitions = 2 ∧
      (NBW.ctor 1 2 [(0, 0, 0)] {0} {0}).count_transitions = 1 := by
  decide!

theorem product_count_eval :
    (NBW.product (NBW.ctor 1 2 [(0, 0, 0)] {0} {0})
        (NBW.ctor 1 2 [(0, 1, 0)] {0} {0})).num_transitions = 2 ∧
      (NBW.product (NBW.ctor 1 2 [(0, 0, 0)] {0} {0})
        (NBW.ctor 1 2 [(0, 1, 0)] {0} {0})).count_transitions = 0 ∧
      (NBW.product (NBW.ctor 1 2 [(0, 0, 0)] {0} {0})
        (NBW.ctor 1 2 [(0, 1, 0)] {0} {0})).is_empty.1 = false ∧
      (NBW.product (NBW.ctor 1 2 [(0, 0, 0)] {0} {0})
        (NBW.ctor 1 2 [(0, 1, 0)] {0} {0})).size = 1 ∧
      (NBW.product (NBW.ctor 1 2 [(0, 0, 0)] {0} {0})
        (NBW.ctor 1 2 [(0, 1, 0)] {0} {0})).alphabet_size = 2 ∧
      (NBW.product (NBW.ctor 1 2 [(0, 0, 0)] {0} {0})
        (NBW.ctor 1 2 [(0, 1, 0)] {0} {0})).delta 0 0 = ∅ ∧
      (NBW.product (NBW.ctor 1 2 [(0, 0, 0)] {0} {0})
        (NBW.ctor 1 2 [(0, 1, 0)] {0} {0})).delta 0 1 = ∅ := by
  decide!

/-- C38 (failing inputs). After `project(0)` on the automaton built by the
constructor with one state, two symbols and the one triple `(0, 0, 0)` the
field `num_transitions` is still 1 while the automaton has 2 transitions. For
the product of the one-state automata with the loops `(0, 0, 0)` and
`(0, 1, 0)` the field is 2 while the product has no transition at all, and
`is_empty` on this product returns false although it accepts no word. -/
theorem NBW.num_transitions_stale :
    (((NBW.ctor 1 2 [(0, 0, 0)] {0} {0}).project 0).num_transitions = 1 ∧
        ((NBW.ctor 1 2 [(0, 0, 0)] {0} {0}).project 0).count_transitions = 2) ∧
      ((NBW.product (NBW.ctor 1 2 [(0, 0, 0)] {0} {0})
          (NBW.ctor 1 2 [(0, 1, 0)] {0} {0})).num_transitions = 2 ∧
        (NBW.product (NBW.ctor 1 2 [(0, 0, 0)] {0} {0})
          (NBW.ctor 1 2 [(0, 1, 0)] {0} {0})).count_transitions = 0 ∧
        (NBW.product (NBW.ctor 1 2 [(0, 0, 0)] {0} {0})
          (NBW.ctor 1 2 [(0, 1, 0)] {0} {0})).is_empty.1 = false ∧
        ∀ w,
          (NBW.product (NBW.ctor 1 2 [(0, 0, 0)] {0} {0})
            (NBW.ctor 1 2 [(0, 1, 0)] {0} {0})).IsWord w →
          ¬ (NBW.product (NBW.ctor 1 2 [(0, 0, 0)] {0} {0})
            (NBW.ctor 1 2 [(0, 1, 0)] {0} {0})).Accepts w) := by
  obtain ⟨p1, p2, _⟩ := project_count_eval
  obtain ⟨q1, q2, q3, q4, q5, q6, q7⟩ := product_count_eval
  refine ⟨⟨p1, p2⟩, q1, q2, q3, ?_⟩
  rintro w hw ⟨rho, ⟨hlt, _, hstep⟩, _⟩
  have h0 : ∀ n, rho n = 0 := by
    intro n
    have := hlt n
    rw [q4] at this
    omega
  have hs := hstep 0
  rw [h0 0, h0 1] at hs
  have hw0 := hw 0
  rw [q5] at hw0
  have hc : w 0 = 0 ∨ w 0 = 1 := by omega
  rcases hc with hc | hc
  · rw [hc, q6] at hs
    exact absurd hs (Finset.not_mem_empty 0)
  · rw [hc, q7] at hs
    exact absurd hs (Finset.not_mem_empty 0)

/-! ## The states made by `BuchiState::get_state` and `BuchiState::get_target` -/

theorem NBW.product_of_trimmed_sound (one two : NBW)
    (hsig : one.alphabet_size = two.alphabet_size) (w : ℕ → ℕ)
    (hw : ∀ n, w n < one.alphabet_size)
    (h : (NBW.product_of_trimmed one two).Accepts w) : one.Accepts w ∧ two.Accepts w := by
  obtain ⟨rho, ⟨hlt, h0, hstep⟩, hacc⟩ := h
  have hsize : (NBW.product_of_trimmed one two).size = one.size * two.size := rfl
  have hpos : 0 < two.size := by
    have := hlt 0
    rw [hsize] at this
    by_contra hcon
    have hz : two.size = 0 := by omega
    rw [hz, Nat.mul_zero] at this
    exact absurd this (Nat.not_lt_zero _)
  have hdiv : ∀ n, rho n / two.size < one.size := by
    intro n
    have := hlt n
    rw [hsize] at this
    exact Nat.div_lt_of_lt_mul (by rw [Nat.mul_comm]; exact this)
  have hmod : ∀ n, rho n % two.size < two.size := fun n => Nat.mod_lt _ hpos
  have hrho : ∀ n, rho n = rho n / two.size * two.size + rho n % two.size := by
    intro n
    rw [Nat.mul_comm]
    exact (Nat.div_add_mod _ _).symm
  have hspec := fun n => NBW.product_spec one two hsig (rho n / two.size) (rho n % two.size)
    (hdiv n) (hmod n)
  have hst : ∀ n, rho (n + 1) / two.size ∈ one.delta (rho n / two.size) (w n) ∧
      rho (n + 1) % two.size ∈ two.delta (rho n % two.size) (w n) := by
    intro n
    obtain ⟨_, hd, _, _⟩ := hspec n
    have hs := hstep n
    rw [hrho n] at hs
    obtain ⟨i2, j2, _, hj2, ht, hi2m, hj2m⟩ := (hd (w n) (hw n) (rho (n + 1))).1 hs
    rw [ht, pair_index_div hj2, pair_index_mod hj2]
    exact ⟨hi2m, hj2m⟩
  have hini : rho 0 / two.size ∈ one.initial ∧ rho 0 % two.size ∈ two.initial := by
    obtain ⟨_, _, hi, _⟩ := hspec 0
    rw [hrho 0] at h0
    exact hi.1 h0
  have hfin : ∀ m, rho m ∈ (NBW.product_of_trimmed one two).final →
      rho m / two.size ∈ one.final ∧ rho m % two.size ∈ two.final := by
    intro m hm
    obtain ⟨_, _, _, hf⟩ := hspec m
    rw [hrho m] at hm
    exact hf.1 hm
  constructor
  · refine ⟨fun n => rho n / two.size, ⟨hdiv, hini.1, fun n => (hst n).1⟩, ?_⟩
    intro n
    obtain ⟨m, hm, hmf⟩ := hacc n
    exact ⟨m, hm, (hfin m hmf).1⟩
  · refine ⟨fun n => rho n % two.size, ⟨hmod, hini.2, fun n => (hst n).2⟩, ?_⟩
    intro n
    obtain ⟨m, hm, hmf⟩ := hacc n
    exact ⟨m, hm, (hfin m hmf).2⟩

theorem NBW.product_sound (A B : NBW) (hsig : A.alphabet_size = B.alphabet_size)
    (w : ℕ → ℕ) (hw : ∀ n, w n < A.alphabet_size) (h : (NBW.product A B).Accepts w) :
    A.Accepts w ∧ B.Accepts w := by
  have hsig2 : A.trim.2.alphabet_size = B.trim.2.alphabet_size := by
    rw [NBW.trim_alphabet_size, NBW.trim_alphabet_size, hsig]
  have hw2 : ∀ n, w n < A.trim.2.alphabet_size := by
    intro n
    rw [NBW.trim_alphabet_size]
    exact hw n
  obtain ⟨h1, h2⟩ := NBW.product_of_trimmed_sound A.trim.2 B.trim.2 hsig2 w hw2 h
  exact ⟨(NBW.trim_language A w hw).1 h1,
    (NBW.trim_language B w (fun n => by rw [← hsig]; exact hw n)).1 h2⟩

/-- C37. For all NBWs `A` and `B` over the same alphabet (of any size, also
without states), every infinite word over the alphabet that
`NBW::product(A, B)` accepts is accepted by `A` and by `B`, as they were when
passed to the call. -/
theorem NBW.product_language_subset (A B : NBW) (hsig : A.alphabet_size = B.alphabet_size)
    (w : ℕ → ℕ) (hw : ∀ n, w n < A.alphabet_size) (h : (NBW.product A B).Accepts w) :
    A.Accepts w ∧ B.Accepts w :=
  NBW.product_sound A B hsig w hw h

theorem universal_product_eval :
    (NBW.product (NBW.ctor 1 1 [(0, 0, 0)] {0} {0})
        (NBW.ctor 1 1 [(0, 0, 0)] {0} {0})).size = 1 ∧
      0 ∈ (NBW.product (NBW.ctor 1 1 [(0, 0, 0)] {0} {0})
        (NBW.ctor 1 1 [(0, 0, 0)] {0} {0})).initial ∧
      0 ∈ (NBW.product (NBW.ctor 1 1 [(0, 0, 0)] {0} {0})
        (NBW.ctor 1 1 [(0, 0, 0)] {0} {0})).final ∧
      0 ∈ (NBW.product (NBW.ctor 1 1 [(0, 0, 0)] {0} {0})
        (NBW.ctor 1 1 [(0, 0, 0)] {0} {0})).delta 0 0 := by
  decide!

theorem universal_product_accepts :
    (NBW.product (NBW.ctor 1 1 [(0, 0, 0)] {0} {0})
      (NBW.ctor 1 1 [(0, 0, 0)] {0} {0})).Accepts (fun _ => 0) := by
  obtain ⟨h1, h2, h3, h4⟩ := universal_product_eval
  exact ⟨fun _ => 0, ⟨fun _ => by rw [h1]; exact Nat.one_pos, h2, fun _ => h4⟩,
    fun n => ⟨n, le_refl n, h3⟩⟩

/-- Witness for C37: the product of the universal one-state automaton with
itself, on the word `0 0 0 ..`. -/
theorem NBW.product_language_subset_witness :
    ((NBW.ctor 1 1 [(0, 0, 0)] {0} {0}).alphabet_size =
          (NBW.ctor 1 1 [(0, 0, 0)] {0} {0}).alphabet_size ∧
        (∀ n, (fun _ => 0 : ℕ → ℕ) n < (NBW.ctor 1 1 [(0, 0, 0)] {0} {0}).alphabet_size) ∧
        (NBW.product (NBW.ctor 1 1 [(0, 0, 0)] {0} {0})
          (NBW.ctor 1 1 [(0, 0, 0)] {0} {0})).Accepts (fun _ => 0)) ∧
      ((NBW.ctor 1 1 [(0, 0, 0)] {0} {0}).Accepts (fun _ => 0) ∧
        (NBW.ctor 1 1 [(0, 0, 0)] {0} {0}).Accepts (fun _ => 0)) :=
  ⟨⟨rfl, fun _ => Nat.one_pos, universal_product_accepts⟩,
    NBW.product_language_subset _ _ rfl (fun _ => 0) (fun _ => Nat.one_pos)
      universal_product_accepts⟩

/-! ## The flag `trimmed` and useful states -/

theorem sort_index_spec (K : Finset ℕ) (t : ℕ) (ht : t ∈ K) :
    (K.sort (· ≤ ·)).indexOf t < K.card ∧
      (K.sort (· ≤ ·)).getD ((K.sort (· ≤ ·)).indexOf t) 0 = t := by
  have hm : t ∈ K.sort (· ≤ ·) := (Finset.mem_sort _).2 ht
  have hlt : (K.sort (· ≤ ·)).indexOf t < (K.sort (· ≤ ·)).length := List.indexOf_lt_length.2 hm
  refine ⟨by rw [← Finset.length_sort (· ≤ ·)]; exact hlt, ?_⟩
  rw [List.getD_eq_getElem _ _ hlt]
  exact List.getElem_indexOf hlt

theorem sort_getD_mem (K : Finset ℕ) (i : ℕ) (hi : i < K.card) :
    (K.sort (· ≤ ·)).getD i 0 ∈ K ∧
      (K.sort (· ≤ ·)).indexOf ((K.sort (· ≤ ·)).getD i 0) = i := by
  have hlt : i < (K.sort (· ≤ ·)).length := by rw [Finset.length_sort]; exact hi
  rw [List.getD_eq_getElem _ _ hlt]
  refine ⟨(Finset.mem_sort (· ≤ ·)).1 (List.getElem_mem _), ?_⟩
  have := List.get_indexOf (Finset.sort_nodup (· ≤ ·) K) ⟨i, hlt⟩
  simpa using this

theorem NBW.accessible_step (A : NBW) {s t : ℕ} (hs : A.Accessible s) (h : A.Reach s t) :
    A.Accessible t := by
  obtain ⟨i, hi, hlt, hr⟩ := hs
  exact ⟨i, hi, hlt, hr.trans h⟩

theorem NBW.coaccessible_step (A : NBW) {s t : ℕ} (hs : s < A.size) (h : A.Reach s t)
    (ht : A.Coaccessible t) : A.Coaccessible s := by
  obtain ⟨_, f, hf, hr, hc⟩ := ht
  exact ⟨hs, f, hf, h.trans hr, hc⟩

/-- A path from an accessible state to a coaccessible state runs through
states that are both. -/
theorem NBW.reach_inside_keep (A : NBW) {s t : ℕ} (h : A.Reach s t) (hs : A.Accessible s)
    (ht : A.Coaccessible t) :
    Relation.ReflTransGen
      (fun a b => A.Edge a b ∧ (A.Accessible a ∧ A.Coaccessible a) ∧
        (A.Accessible b ∧ A.Coaccessible b)) s t := by
  induction h using Relation.ReflTransGen.head_induction_on with
  | refl => exact Relation.ReflTransGen.refl
  | head hab hbt ih =>
    have hb := A.accessible_step hs (Relation.ReflTransGen.single hab)
    have hbc := A.coaccessible_step hab.2.1 hbt ht
    exact Relation.ReflTransGen.head
      ⟨hab, ⟨hs, A.coaccessible_step hab.1 (Relation.ReflTransGen.single hab) hbc⟩, hb, hbc⟩
      (ih hb)

theorem NBW.trim_renumber_useful (A : NBW) (h1 : A.trimmed = false) (h2 : 1 < A.size)
    (hk : (A.accessible_states ∩ A.coaccessible_states).Nonempty) :
    (∀ s, s ∈ A.trim.2.initial → s < A.trim.2.size) ∧
      ∀ s, s < A.trim.2.size → A.trim.2.Accessible s ∧ A.trim.2.Coaccessible s := by
  obtain ⟨hsz, hsig, hd, hif, _⟩ := A.trim_renumber_spec h1 h2 hk
  constructor
  · intro s hs
    have hk' : (A.accessible_states ∩ A.coaccessible_states).card ≠ 0 :=
      Finset.card_ne_zero.2 hk
    rw [A.trim_renumber_eq h1 h2 hk'] at hs ⊢
    simp only at hs ⊢
    rw [mem_foldl_cond_insert (fun i => i)
      (fun i => (old_labels A.size (A.accessible_states ∩ A.coaccessible_states)).getD i 0 ∈
        A.initial)] at hs
    rcases hs with hs | ⟨i, hi, _, rfl⟩
    · exact absurd hs (Finset.not_mem_empty _)
    · exact List.mem_range.1 hi
  · have hidx : ∀ t, A.Accessible t ∧ A.Coaccessible t →
        ((A.accessible_states ∩ A.coaccessible_states).sort (· ≤ ·)).indexOf t < A.trim.2.size ∧
          ((A.accessible_states ∩ A.coaccessible_states).sort (· ≤ ·)).getD
            (((A.accessible_states ∩ A.coaccessible_states).sort (· ≤ ·)).indexOf t) 0 = t := by
      intro t ht
      rw [hsz]
      exact sort_index_spec _ t ((A.mem_keep t).2 ht)
    have hedge : ∀ a b, (A.Edge a b ∧ (A.Accessible a ∧ A.Coaccessible a) ∧
        (A.Accessible b ∧ A.Coaccessible b)) →
        A.trim.2.Edge
          (((A.accessible_states ∩ A.coaccessible_states).sort (· ≤ ·)).indexOf a)
          (((A.accessible_states ∩ A.coaccessible_states).sort (· ≤ ·)).indexOf b) := by
      rintro a b ⟨⟨_, _, c, hc, hm⟩, ha, hb⟩
      refine ⟨(hidx a ha).1, (hidx b hb).1, c, by rw [hsig]; exact hc, ?_⟩
      rw [hd _ (hidx a ha).1 c hc, (hidx a ha).2, (hidx b hb).2]
      exact ⟨(hidx b hb).1, hm⟩
    intro i hi
    have hi' : i < (A.accessible_states ∩ A.coaccessible_states).card := by
      rw [← hsz]; exact hi
    obtain ⟨htK, hti⟩ := sort_getD_mem _ i hi'
    generalize ((A.accessible_states ∩ A.coaccessible_states).sort (· ≤ ·)).getD i 0 = t
      at htK hti
    have ht := (A.mem_keep t).1 htK
    constructor
    · obtain ⟨i0, hi0, hlt0, hr0⟩ := ht.1
      have hacc0 : A.Accessible i0 := ⟨i0, hi0, hlt0, Relation.ReflTransGen.refl⟩
      have hk0 : A.Accessible i0 ∧ A.Coaccessible i0 :=
        ⟨hacc0, A.coaccessible_step hlt0 hr0 ht.2⟩
      refine ⟨_, ((hif _ (hidx i0 hk0).1).1).2 (by rw [(hidx i0 hk0).2]; exact hi0),
        (hidx i0 hk0).1, ?_⟩
      rw [← hti]
      exact Relation.ReflTransGen.lift _ hedge (A.reach_inside_keep hr0 hacc0 ht.2)
    · obtain ⟨_, f, hf, hrf, hcyc⟩ := ht.2
      obtain ⟨b, hfb, hbf⟩ := Relation.TransGen.head'_iff.1 hcyc
      have hfacc : A.Accessible f := A.accessible_step ht.1 hrf
      have hfco : A.Coaccessible f := ⟨hfb.1, f, hf, Relation.ReflTransGen.refl, hcyc⟩
      have hbacc : A.Accessible b := A.accessible_step hfacc (Relation.ReflTransGen.single hfb)
      have hbco : A.Coaccessible b := A.coaccessible_step hfb.2.1 hbf hfco
      refine ⟨hi, _, ((hif _ (hidx f ⟨hfacc, hfco⟩).1).2).2
        (by rw [(hidx f ⟨hfacc, hfco⟩).2]; exact hf), ?_, ?_⟩
      · rw [← hti]
        exact Relation.ReflTransGen.lift _ hedge (A.reach_inside_keep hrf ht.1 hfco)
      · exact Relation.TransGen.head' (hedge f b ⟨hfb, ⟨hfacc, hfco⟩, hbacc, hbco⟩)
          (Relation.ReflTransGen.lift _ hedge (A.reach_inside_keep hbf hbacc hfco))

theorem NBW.built_trimmed_useful (A : NBW) (h : NBW.Built A) (ht : A.trimmed = true) :
    (∀ s, s ∈ A.initial → s < A.size) ∧
      ∀ s, s < A.size → A.Accessible s ∧ A.Coaccessible s := by
  induction h with
  | ctor size sigma l I F => exact absurd ht (by simp [NBW.ctor])
  | project A k _ _ => exact absurd ht (by simp [NBW.project])
  | trim A _ ih =>
    by_cases h1 : A.trimmed = true
    · rw [A.trim_noop (Or.inl h1)]
      exact ih h1
    · rcases A.trim_trimmed_iff.1 ht with h | ⟨h2, s, hs⟩
      · exact absurd h h1
      · exact A.trim_renumber_useful (by simpa using h1) h2 ⟨s, (A.mem_keep s).2 hs⟩

theorem NBW.useful_full_sets (A : NBW) (hI : ∀ s, s ∈ A.initial → s < A.size)
    (h : ∀ s, s < A.size → A.Accessible s ∧ A.Coaccessible s) :
    A.accessible_states = Finset.range A.size ∧
      A.coaccessible_states = Finset.range A.size := by
  constructor
  · ext x
    rw [NBW.mem_accessible_states, Finset.mem_range]
    constructor
    · rintro (hx | hx)
      · exact hI x hx
      · obtain ⟨i, _, hlt, hr⟩ := hx
        rcases Relation.ReflTransGen.cases_tail hr with e | ⟨b, _, hb⟩
        · rw [e]; exact hlt
        · exact hb.2.1
    · intro hx
      exact Or.inr (h x hx).1
  · ext x
    rw [NBW.mem_coaccessible_states, Finset.mem_range]
    exact ⟨fun hx => hx.1, fun hx => (h x hx).2⟩

/-- C32. In every NBW obtained from the constructor by a sequence of `trim()`
and `project()` calls: if `trimmed` is true then every state is accessible
(reachable from an initial state) and coaccessible (it has a path to an
accepting state on a cycle, and so starts an infinite path that visits
accepting states infinitely often), and `accessible_states()` and
`coaccessible_states()` both return the full state set; and if `trimmed` is
false, there is more than one state and some state is kept, so that `trim()`
takes its renumbering branch, then after that `trim()` the flag is true and
both functions return the full state set of the new automaton. -/
theorem NBW.trimmed_all_useful (A : NBW) (h : NBW.Built A) :
    (A.trimmed = true →
      (∀ s, s < A.size → A.Accessible s ∧ A.Coaccessible s ∧ A.LivePath s) ∧
        A.accessible_states = Finset.range A.size ∧
        A.coaccessible_states = Finset.range A.size) ∧
      (A.trimmed = false → 1 < A.size →
        (A.accessible_states ∩ A.coaccessible_states).card ≠ 0 →
        A.trim.2.trimmed = true ∧
          (∀ s, s < A.trim.2.size →
            A.trim.2.Accessible s ∧ A.trim.2.Coaccessible s ∧ A.trim.2.LivePath s) ∧
          A.trim.2.accessible_states = Finset.range A.trim.2.size ∧
          A.trim.2.coaccessible_states = Finset.range A.trim.2.size) := by
  have key : ∀ B : NBW, NBW.Built B → B.trimmed = true →
      (∀ s, s < B.size → B.Accessible s ∧ B.Coaccessible s ∧ B.LivePath s) ∧
        B.accessible_states = Finset.range B.size ∧
        B.coaccessible_states = Finset.range B.size := by
    intro B hB ht
    obtain ⟨hI, hu⟩ := B.built_trimmed_useful hB ht
    exact ⟨fun s hs => ⟨(hu s hs).1, (hu s hs).2, B.live_path_of_coaccessible (hu s hs).2⟩,
      B.useful_full_sets hI hu⟩
  refine ⟨key A h, fun h1 h2 hk => ?_⟩
  have ht : A.trim.2.trimmed = true := by
    rw [A.trim_renumber_eq h1 h2 hk]
  exact ⟨ht, key _ (NBW.Built.trim A h) ht⟩

theorem trim_fixture_eval :
    (NBW.ctor 2 1 [(0, 0, 0), (0, 0, 1)] {0} {0}).trimmed = false ∧
      1 < (NBW.ctor 2 1 [(0, 0, 0), (0, 0, 1)] {0} {0}).size ∧
      ((NBW.ctor 2 1 [(0, 0, 0), (0, 0, 1)] {0} {0}).accessible_states ∩
        (NBW.ctor 2 1 [(0, 0, 0), (0, 0, 1)] {0} {0}).coaccessible_states).card ≠ 0 ∧
      (NBW.ctor 2 1 [(0, 0, 0), (0, 0, 1)] {0} {0}).trim.2.trimmed = true ∧
      (NBW.ctor 2 1 [(0, 0, 0), (0, 0, 1)] {0} {0}).trim.2.size = 1 := by
  decide!

/-- Witness for C32: the two-state automaton with the transitions `0 -> 0` and
`0 -> 1`, where state 0 is initial and accepting and state 1 is dead. Its
`trim()` takes the renumbering branch and keeps state 0 only. -/
theorem NBW.trimmed_all_useful_witness :
    (NBW.Built (NBW.ctor 2 1 [(0, 0, 0), (0, 0, 1)] {0} {0}).trim.2 ∧
        (NBW.ctor 2 1 [(0, 0, 0), (0, 0, 1)] {0} {0}).trim.2.trimmed = true ∧
        (NBW.ctor 2 1 [(0, 0, 0), (0, 0, 1)] {0} {0}).trimmed = false ∧
        1 < (NBW.ctor 2 1 [(0, 0, 0), (0, 0, 1)] {0} {0}).size ∧
        ((NBW.ctor 2 1 [(0, 0, 0), (0, 0, 1)] {0} {0}).accessible_states ∩
          (NBW.ctor 2 1 [(0, 0, 0), (0, 0, 1)] {0} {0}).coaccessible_states).card ≠ 0) ∧
      (NBW.ctor 2 1 [(0, 0, 0), (0, 0, 1)] {0} {0}).trim.2.accessible_states =
        Finset.range (NBW.ctor 2 1 [(0, 0, 0), (0, 0, 1)] {0} {0}).trim.2.size ∧
      (NBW.ctor 2 1 [(0, 0, 0), (0, 0, 1)] {0} {0}).trim.2.coaccessible_states =
        Finset.range (NBW.ctor 2 1 [(0, 0, 0), (0, 0, 1)] {0} {0}).trim.2.size ∧
      (∀ s, s < (NBW.ctor 2 1 [(0, 0, 0), (0, 0, 1)] {0} {0}).trim.2.size →
        (NBW.ctor 2 1 [(0, 0, 0), (0, 0, 1)] {0} {0}).trim.2.Accessible s) :=
  ⟨⟨NBW.Built.trim _ (NBW.Built.ctor 2 1 [(0, 0, 0), (0, 0, 1)] {0} {0}),
      trim_fixture_eval.2.2.2.1, trim_fixture_eval.1, trim_fixture_eval.2.1,
      trim_fixture_eval.2.2.1⟩,
    ((NBW.trimmed_all_useful _ (NBW.Built.ctor 2 1 [(0, 0, 0), (0, 0, 1)] {0} {0})).2
      trim_fixture_eval.1 trim_fixture_eval.2.1 trim_fixture_eval.2.2.1).2.2.1,
    ((NBW.trimmed_all_useful _
      (NBW.Built.trim _ (NBW.Built.ctor 2 1 [(0, 0, 0), (0, 0, 1)] {0} {0}))).1
      trim_fixture_eval.2.2.2.1).2.2,
    fun s hs => (((NBW.trimmed_all_useful _
      (NBW.Built.trim _ (NBW.Built.ctor 2 1 [(0, 0, 0), (0, 0, 1)] {0} {0}))).1
      trim_fixture_eval.2.2.2.1).1 s hs).1⟩

/-! ## Names given to new nodes -/

theorem collapsing_trees_eval :
    (SafraTree.get_transition
        (SafraTree.get_transition (SafraTree.build_initial_tree NBW.collapsing)
          NBW.collapsing 1)
        NBW.collapsing 1).root =
        some (.mk 1 {2, 1, 0, 3} false
          [.mk 2 {1, 0} false [.mk 5 {1} true []], .mk 3 {2} false []]) ∧
      (SafraTree.get_transition
        (SafraTree.get_transition
          (SafraTree.get_transition (SafraTree.build_initial_tree NBW.collapsing)
            NBW.collapsing 1)
          NBW.collapsing 1)
        NBW.collapsing 1).root =
        some (.mk 1 {2, 1, 0, 3} false
          [.mk 2 {2} true [], .mk 3 {1, 0} false [.mk 5 {1} true []]]) ∧
      5 - 1 ∈ (SafraTree.get_transition
        (SafraTree.get_transition (SafraTree.build_initial_tree NBW.collapsing)
          NBW.collapsing 1)
        NBW.collapsing 1).used_node_names ∧
      ¬ (({1} : Finset ℕ) ⊆ NBW.collapsing.transition {1} 1) := by
  refine ⟨rfl, rfl, ?_, ?_⟩ <;> decide!

/-- C39 (failing input). For the automaton `collapsing` (four states, one
symbol) the tree `T` reached from the initial tree by two transitions has the
nodes 1 (root), 2 and 3 (children of the root) and 5 (child of node 2), so the
name 5 is in its used-names set. In `get_transition(T, A, a)` node 2 is marked
and loses its child, and the node named 5 is the only child of node 3, which
has no child in `T`: it is the new rightmost child made for node 3, and its
label is not within the image of the label of the node named 5 of `T`. -/
theorem SafraTree.freed_name_reused :
    ∃ T : SafraTree, SafraTree.Reached NBW.collapsing T ∧ 1 ≤ NBW.collapsing.size ∧
      T.root =
        some (.mk 1 {2, 1, 0, 3} false
          [.mk 2 {1, 0} false [.mk 5 {1} true []], .mk 3 {2} false []]) ∧
      5 - 1 ∈ T.used_node_names ∧
      (SafraTree.get_transition T NBW.collapsing 1).root =
        some (.mk 1 {2, 1, 0, 3} false
          [.mk 2 {2} true [], .mk 3 {1, 0} false [.mk 5 {1} true []]]) ∧
      ¬ (({1} : Finset ℕ) ⊆ NBW.collapsing.transition {1} 1) :=
  ⟨_, SafraTree.Reached.step _ 1
      (SafraTree.Reached.step _ 1 SafraTree.Reached.initial (le_refl 1) (le_refl 1))
      (le_refl 1) (le_refl 1),
    by decide, collapsing_trees_eval.1, collapsing_trees_eval.2.2.1,
    collapsing_trees_eval.2.1, collapsing_trees_eval.2.2.2⟩

/-! ## The set `marked_nodes` after a transition -/

theorem SafraNode.mem_indices_list_of_mem {p : SafraNode} {rs : List SafraNode}
    (hp : p ∈ SafraNode.subnodes_list rs) : p.name - 1 ∈ SafraNode.indices_list rs :=
  List.mem_map.2 ⟨p, hp, rfl⟩

theorem SafraNode.clone_marks_exact (input : NBW) (character : ℕ) (F : Finset ℕ) :
    (∀ (x : SafraNode) (T : SafraTree) (K : Finset ℕ),
      x.indices.Nodup → (∀ p ∈ x.subnodes, 1 ≤ p.name) →
        (∀ i ∈ x.indices, i ∈ T.used_node_names) →
        (∀ i ∈ x.indices, i ∉ T.temp_node_names) →
        (∀ i ∈ T.temp_node_names, i ∈ T.used_node_names) →
        (∀ i ∈ T.marked_nodes, i ∈ T.used_node_names) →
        (∀ i ∈ x.indices, i ∉ T.marked_nodes) →
        ∀ j, j ∈ (SafraNode.clone_spawn_and_transition input character F x false
              T K).2.1.marked_nodes ↔
          j ∈ T.marked_nodes ∨
            ∃ p ∈ SafraNode.subnodes_list
                (SafraNode.clone_spawn_and_transition input character F x false T K).1.toList,
              p.marked = true ∧ p.name - 1 = j) ∧
      ∀ (cs : List SafraNode) (T : SafraTree) (K : Finset ℕ),
        (SafraNode.indices_list cs).Nodup → (∀ p ∈ SafraNode.subnodes_list cs, 1 ≤ p.name) →
          (∀ i ∈ SafraNode.indices_list cs, i ∈ T.used_node_names) →
          (∀ i ∈ SafraNode.indices_list cs, i ∉ T.temp_node_names) →
          (∀ i ∈ T.temp_node_names, i ∈ T.used_node_names) →
          (∀ i ∈ T.marked_nodes, i ∈ T.used_node_names) →
          (∀ i ∈ SafraNode.indices_list cs, i ∉ T.marked_nodes) →
          ∀ j, j ∈ (SafraNode.clone_children input character F cs T K).2.1.marked_nodes ↔
            j ∈ T.marked_nodes ∨
              ∃ p ∈ SafraNode.subnodes_list
                  (SafraNode.clone_children input character F cs T K).1,
                p.marked = true ∧ p.name - 1 = j := by
  apply SafraNode.induction_both
  · intro name states marked children ih T K hnd hpos hU hM hMU hKU hKO
    rw [SafraNode.indices_mk] at hnd hU hM hKO
    have hn0O : name - 1 ∉ SafraNode.indices_list children := (List.nodup_cons.1 hnd).1
    have hndc : (SafraNode.indices_list children).Nodup := (List.nodup_cons.1 hnd).2
    have hn0U : name - 1 ∈ T.used_node_names := hU _ (List.mem_cons_self _ _)
    have hOU : ∀ x ∈ SafraNode.indices_list children, x ∈ T.used_node_names :=
      fun x hx => hU x (List.mem_cons_of_mem _ hx)
    have hposc : ∀ p ∈ SafraNode.subnodes_list children, 1 ≤ p.name := by
      intro p hp
      apply hpos
      rw [SafraNode.subnodes_mk]
      exact List.mem_cons_of_mem _ hp
    by_cases hk : input.transition states character ⊆ K
    · rw [SafraNode.clone_killed input character F name states marked children T K hk]
      intro j
      show j ∈ T.marked_nodes ↔ j ∈ T.marked_nodes ∨
        ∃ p ∈ SafraNode.subnodes_list [], p.marked = true ∧ p.name - 1 = j
      rw [SafraNode.subnodes_list_nil]
      constructor
      · exact fun h => Or.inl h
      · rintro (h | ⟨p, hp, _⟩)
        · exact h
        · exact absurd hp (List.not_mem_nil p)
    · obtain ⟨hnm1, hfree, _, hUa, hMa⟩ := T.name_node_spec
      have hKa : T.name_node.2.marked_nodes = T.marked_nodes := rfl
      generalize hrs : SafraNode.clone_children input character F children T.name_node.2 K = rs
      have hc1 : ∀ x ∈ SafraNode.indices_list children, x ∈ T.name_node.2.used_node_names :=
        fun x hx => by rw [hUa]; exact Finset.mem_insert_of_mem (hOU x hx)
      have hc2 : ∀ x ∈ SafraNode.indices_list children, x ∉ T.name_node.2.temp_node_names :=
        fun x hx => by rw [hMa]; exact hM x (List.mem_cons_of_mem _ hx)
      have hc3 : ∀ x ∈ T.name_node.2.temp_node_names, x ∈ T.name_node.2.used_node_names :=
        fun x hx => by
          rw [hUa]; rw [hMa] at hx
          exact Finset.mem_insert_of_mem (hMU x hx)
      have fr := (SafraNode.clone_names input character F).2 children T.name_node.2 K hndc hposc
        hc1 hc2 hc3
      have im := ih T.name_node.2 K hndc hposc hc1 hc2 hc3
        (fun x hx => by rw [hUa]; exact Finset.mem_insert_of_mem (hKU x hx))
        (fun x hx => hKO x (List.mem_cons_of_mem _ hx))
      rw [hrs, hUa, hMa] at fr
      rw [hrs, hKa] at im
      have hdead : ∀ x ∈ SafraNode.indices_list rs.1, x ∉ T.marked_nodes ∧ x ≠ name - 1 := by
        intro x hx
        rcases fr.res_new x hx with h | h
        · exact ⟨hKO x (List.mem_cons_of_mem _ h), fun e => hn0O (e ▸ h)⟩
        · exact ⟨fun hc => h (Finset.mem_insert_of_mem (hKU x hc)),
            fun e => h (Finset.mem_insert_of_mem (e ▸ hn0U))⟩
      by_cases hm : input.transition states character \ K ⊆
          rs.2.2 ∪ ((input.transition states character \ K) ∩ F) \ rs.2.2
      · rw [SafraNode.clone_marked input character F name states marked children T K rs hrs
          hk hm]
        have hK2 : ((SafraNode.kill_nodes rs.1 (rs.2.1.mark_node name)).temp_name_node
            T.name_node.1).marked_nodes =
            insert (name - 1) rs.2.1.marked_nodes \ (SafraNode.indices_list rs.1).toFinset :=
          SafraNode.kill_marked.2 rs.1 (rs.2.1.mark_node name)
        intro j
        show j ∈ ((SafraNode.kill_nodes rs.1 (rs.2.1.mark_node name)).temp_name_node
            T.name_node.1).marked_nodes ↔ j ∈ T.marked_nodes ∨
          ∃ p ∈ SafraNode.subnodes_list [SafraNode.mk name _ true []],
            p.marked = true ∧ p.name - 1 = j
        rw [hK2, Finset.mem_sdiff, Finset.mem_insert, List.mem_toFinset,
          SafraNode.subnodes_list_cons, SafraNode.subnodes_list_nil, List.append_nil,
          SafraNode.subnodes_mk, SafraNode.subnodes_list_nil]
        constructor
        · rintro ⟨h | h, hno⟩
          · exact Or.inr ⟨_, List.mem_singleton.2 rfl, rfl, h.symm⟩
          · rcases (im j).1 h with h2 | ⟨p, hp, _, hpj⟩
            · exact Or.inl h2
            · exact absurd (hpj ▸ SafraNode.mem_indices_list_of_mem hp) hno
        · rintro (h | ⟨p, hp, _, hpj⟩)
          · exact ⟨Or.inr ((im j).2 (Or.inl h)), fun hc => (hdead j hc).1 h⟩
          · rw [List.mem_singleton] at hp
            subst hp
            exact ⟨Or.inl hpj.symm, fun hc => (hdead j hc).2 hpj.symm⟩
      · by_cases hc : (((input.transition states character \ K) ∩ F) \ rs.2.2).Nonempty
        · rw [SafraNode.clone_spawned input character F name states marked children T K rs hrs
            hk hm hc]
          intro j
          show j ∈ insert (T.name_node.1 - 1) rs.2.1.marked_nodes ↔ j ∈ T.marked_nodes ∨
            ∃ p ∈ SafraNode.subnodes_list
                [SafraNode.mk name _ false (rs.1 ++ [SafraNode.mk T.name_node.1 _ true []])],
              p.marked = true ∧ p.name - 1 = j
          rw [Finset.mem_insert, SafraNode.subnodes_list_cons, SafraNode.subnodes_list_nil,
            List.append_nil, SafraNode.subnodes_mk, SafraNode.subnodes_list_append,
            SafraNode.subnodes_list_cons, SafraNode.subnodes_list_nil, List.append_nil,
            SafraNode.subnodes_mk, SafraNode.subnodes_list_nil]
          constructor
          · rintro (h | h)
            · exact Or.inr ⟨_, List.mem_cons_of_mem _ (List.mem_append_right _
                (List.mem_singleton.2 rfl)), rfl, h.symm⟩
            · rcases (im j).1 h with h2 | ⟨p, hp, hpm, hpj⟩
              · exact Or.inl h2
              · exact Or.inr ⟨p, List.mem_cons_of_mem _ (List.mem_append_left _ hp), hpm, hpj⟩
          · rintro (h | ⟨p, hp, hpm, hpj⟩)
            · exact Or.inr ((im j).2 (Or.inl h))
            · rcases List.mem_cons.1 hp with h1 | h1
              · subst h1
                exact absurd hpm (by simp [SafraNode.marked])
              · rcases List.mem_append.1 h1 with h2 | h2
                · exact Or.inr ((im j).2 (Or.inr ⟨p, h2, hpm, hpj⟩))
                · rw [List.mem_singleton] at h2
                  subst h2
                  exact Or.inl hpj.symm
        · rw [SafraNode.clone_plain input character F name states marked children T K rs hrs
            hk hm hc]
          intro j
          show j ∈ rs.2.1.marked_nodes ↔ j ∈ T.marked_nodes ∨
            ∃ p ∈ SafraNode.subnodes_list [SafraNode.mk name _ false rs.1],
              p.marked = true ∧ p.name - 1 = j
          rw [SafraNode.subnodes_list_cons, SafraNode.subnodes_list_nil, List.append_nil,
            SafraNode.subnodes_mk, im j]
          constructor
          · rintro (h | ⟨p, hp, hpm, hpj⟩)
            · exact Or.inl h
            · exact Or.inr ⟨p, List.mem_cons_of_mem _ hp, hpm, hpj⟩
          · rintro (h | ⟨p, hp, hpm, hpj⟩)
            · exact Or.inl h
            · rcases List.mem_cons.1 hp with h1 | h1
              · subst h1
                exact absurd hpm (by simp [SafraNode.marked])
              · exact Or.inr ⟨p, h1, hpm, hpj⟩
  · intro T K _ _ _ _ _ _ _ j
    rw [SafraNode.clone_children_nil]
    show j ∈ T.marked_nodes ↔ j ∈ T.marked_nodes ∨
      ∃ p ∈ SafraNode.subnodes_list [], p.marked = true ∧ p.name - 1 = j
    rw [SafraNode.subnodes_list_nil]
    constructor
    · exact fun h => Or.inl h
    · rintro (h | ⟨p, hp, _⟩)
      · exact h
      · exact absurd hp (List.not_mem_nil p)
  · intro c cs ihc ihcs T K hnd hpos hU hM hMU hKU hKO
    rw [SafraNode.indices_list_cons] at hnd hU hM hKO
    rw [SafraNode.clone_children_cons]
    obtain ⟨hnd1, hnd2, hdis⟩ := List.nodup_append.1 hnd
    have hp1 : ∀ p ∈ c.subnodes, 1 ≤ p.name := fun p hp => hpos p (by
      rw [SafraNode.subnodes_list_cons]; exact List.mem_append_left _ hp)
    have hp2 : ∀ p ∈ SafraNode.subnodes_list cs, 1 ≤ p.name := fun p hp => hpos p (by
      rw [SafraNode.subnodes_list_cons]; exact List.mem_append_right _ hp)
    have fr1 := (SafraNode.clone_names input character F).1 c T K hnd1 hp1
      (fun x hx => hU x (List.mem_append_left _ hx))
      (fun x hx => hM x (List.mem_append_left _ hx)) hMU
    have im1 := ihc T K hnd1 hp1
      (fun x hx => hU x (List.mem_append_left _ hx))
      (fun x hx => hM x (List.mem_append_left _ hx)) hMU hKU
      (fun x hx => hKO x (List.mem_append_left _ hx))
    generalize SafraNode.clone_spawn_and_transition input character F c false T K = R1
      at fr1 im1 ⊢
    have im2 := ihcs R1.2.1 R1.2.2 hnd2 hp2
      (fun x hx => fr1.keep x (hU x (List.mem_append_right _ hx))
        (fun hc => hdis hc hx))
      (fun x hx hxM => by
        rcases fr1.temp_new x hxM with h | h | h
        · exact hM x (List.mem_append_right _ hx) h
        · exact h (hU x (List.mem_append_right _ hx))
        · exact hdis h hx)
      fr1.temp_used
      (fun x hx => by
        rcases (im1 x).1 hx with h | ⟨p, hp, _, hpx⟩
        · exact fr1.keep x (hKU x h) (fun hc => hKO x (List.mem_append_left _ hc) h)
        · exact fr1.res_used x (hpx ▸ SafraNode.mem_indices_list_of_mem hp))
      (fun x hx hxK => by
        rcases (im1 x).1 hxK with h | ⟨p, hp, _, hpx⟩
        · exact hKO x (List.mem_append_right _ hx) h
        · rcases fr1.res_new x (hpx ▸ SafraNode.mem_indices_list_of_mem hp) with h | h
          · exact hdis h hx
          · exact h (hU x (List.mem_append_right _ hx)))
    generalize SafraNode.clone_children input character F cs R1.2.1 R1.2.2 = R2 at im2 ⊢
    intro j
    show j ∈ R2.2.1.marked_nodes ↔ j ∈ T.marked_nodes ∨
      ∃ p ∈ SafraNode.subnodes_list (R1.1.toList ++ R2.1), p.marked = true ∧ p.name - 1 = j
    rw [im2 j, im1 j, SafraNode.subnodes_list_append]
    constructor
    · rintro ((h | ⟨p, hp, hpm, hpj⟩) | ⟨p, hp, hpm, hpj⟩)
      · exact Or.inl h
      · exact Or.inr ⟨p, List.mem_append_left _ hp, hpm, hpj⟩
      · exact Or.inr ⟨p, List.mem_append_right _ hp, hpm, hpj⟩
    · rintro (h | ⟨p, hp, hpm, hpj⟩)
      · exact Or.inl (Or.inl h)
      · rcases List.mem_append.1 hp with h1 | h1
        · exact Or.inl (Or.inr ⟨p, h1, hpm, hpj⟩)
        · exact Or.inr ⟨p, h1, hpm, hpj⟩

theorem SafraTree.get_transition_marks_exact (A : NBW) (t : SafraTree)
    (h : SafraTree.Reached A t) (c : ℕ) (r2 : SafraNode)
    (hr2 : (SafraTree.get_transition t A c).root = some r2) (j : ℕ) :
    j ∈ (SafraTree.get_transition t A c).marked_nodes ↔
      ∃ p ∈ r2.subnodes, p.marked = true ∧ p.name - 1 = j := by
  cases hr : t.root with
  | none =>
    rw [SafraTree.get_transition_none t A c hr] at hr2
    exact absurd hr2 (by simp)
  | some r =>
    obtain ⟨hnd, hpos, hused⟩ := SafraTree.reached_names A h r hr
    obtain ⟨h1, h2, h3⟩ := SafraNode.clone_root A c A.final r
      { SafraTree.fresh with used_node_names := t.used_node_names } ∅
    have hex := (SafraNode.clone_marks_exact A c A.final).1 r
      { SafraTree.fresh with used_node_names := t.used_node_names } ∅ hnd hpos
      (fun i hi => (hused i).2 hi)
      (fun i _ hc => absurd hc (Finset.not_mem_empty i))
      (fun i hc => absurd hc (Finset.not_mem_empty i))
      (fun i hc => absurd hc (Finset.not_mem_empty i))
      (fun i _ hc => absurd hc (Finset.not_mem_empty i)) j
    have hgt : (SafraTree.get_transition t A c).marked_nodes =
          (SafraNode.clone_spawn_and_transition A c A.final r true
            { SafraTree.fresh with used_node_names := t.used_node_names } ∅).2.1.marked_nodes ∧
        (SafraTree.get_transition t A c).root =
          (SafraNode.clone_spawn_and_transition A c A.final r true
            { SafraTree.fresh with used_node_names := t.used_node_names } ∅).2.1.root := by
      unfold SafraTree.get_transition
      rw [hr]
      simp only []
      split <;> exact ⟨rfl, rfl⟩
    rw [hgt.2, h3] at hr2
    rw [hgt.1, h3]
    cases hcl : (SafraNode.clone_spawn_and_transition A c A.final r false
        { SafraTree.fresh with used_node_names := t.used_node_names } ∅).1 with
    | none =>
      rw [hcl] at hr2
      exact absurd hr2 (by simp)
    | some r3 =>
      rw [hcl] at hr2 hex
      have e : r3 = r2 := Option.some.inj hr2
      subst e
      have hm : ({ (SafraNode.clone_spawn_and_transition A c A.final r false
              { SafraTree.fresh with used_node_names := t.used_node_names }
              ∅).2.1.free_temp_names with root := some r3 } : SafraTree).marked_nodes =
          (SafraNode.clone_spawn_and_transition A c A.final r false
            { SafraTree.fresh with used_node_names := t.used_node_names } ∅).2.1.marked_nodes :=
        rfl
      show j ∈ ({ (SafraNode.clone_spawn_and_transition A c A.final r false
              { SafraTree.fresh with used_node_names := t.used_node_names }
              ∅).2.1.free_temp_names with root := some r3 } : SafraTree).marked_nodes ↔ _
      rw [hm, hex]
      have hl : SafraNode.subnodes_list (some r3).toList = r3.subnodes := by
        show SafraNode.subnodes_list [r3] = _
        rw [SafraNode.subnodes_list_cons, SafraNode.subnodes_list_nil, List.append_nil]
      rw [hl]
      constructor
      · rintro (hc | hp)
        · exact absurd hc (Finset.not_mem_empty j)
        · exact hp
      · exact fun hp => Or.inr hp

theorem fading_successor_eval :
    (SafraTree.get_transition (SafraTree.build_initial_tree NBW.fading) NBW.fading 1).root =
      some (.mk 1 {2} true []) :=
  rfl

/-- C40 (failing input, and the part that holds). The initial tree of the
universal one-state automaton has the root named 1 with the marked flag set,
and its `marked_nodes` set is empty: the name 1 (position 0 of the set) is
missing. For every tree with a root that `get_transition` builds from a reached
tree on a symbol of the alphabet, `marked_nodes` holds the name `k >= 1`
(position `k - 1`) if and only if the tree has a node named `k` whose marked
flag is true. -/
theorem SafraTree.marks_exact_except_initial :
    (∃ r, (SafraTree.build_initial_tree (NBW.ctor 1 1 [(0, 0, 0)] {0} {0})).root = some r ∧
      r ∈ r.subnodes ∧ r.name = 1 ∧ r.marked = true ∧
      r.name - 1 ∉
        (SafraTree.build_initial_tree (NBW.ctor 1 1 [(0, 0, 0)] {0} {0})).marked_nodes) ∧
      ∀ (A : NBW) (t : SafraTree), SafraTree.Reached A t →
        ∀ c, 1 ≤ c → c ≤ A.alphabet_size →
          ∀ r2, (SafraTree.get_transition t A c).root = some r2 →
            ∀ k, 1 ≤ k →
              (k - 1 ∈ (SafraTree.get_transition t A c).marked_nodes ↔
                ∃ p ∈ r2.subnodes, p.name = k ∧ p.marked = true) := by
  constructor
  · refine ⟨.mk 1 {0} true [], universal_trees_eval.2.2.2, SafraNode.self_mem_subnodes _, rfl,
      rfl, ?_⟩
    rw [SafraTree.build_initial_tree_marks]
    exact Finset.not_mem_empty _
  · intro A t h c hc1 hc2 r2 hr2 k hk
    have hpos := (SafraTree.reached_names A (SafraTree.Reached.step t c h hc1 hc2) r2 hr2).2.1
    rw [SafraTree.get_transition_marks_exact A t h c r2 hr2 (k - 1)]
    constructor
    · rintro ⟨p, hp, hpm, hpk⟩
      have := hpos p hp
      exact ⟨p, hp, by omega, hpm⟩
    · rintro ⟨p, hp, hpk, hpm⟩
      exact ⟨p, hp, hpm, by rw [hpk]⟩

/-- Witness for C40: the first successor of the initial tree of `fading`, the
single root named 1 with label `{2}` and the marked flag set, and the name 1. -/
theorem SafraTree.marks_exact_except_initial_witness :
    SafraTree.Reached NBW.fading (SafraTree.build_initial_tree NBW.fading) ∧
      (SafraTree.get_transition (SafraTree.build_initial_tree NBW.fading) NBW.fading 1).root =
        some (.mk 1 {2} true []) ∧
      (1 - 1 ∈ (SafraTree.get_transition (SafraTree.build_initial_tree NBW.fading)
          NBW.fading 1).marked_nodes ↔
        ∃ p ∈ (SafraNode.mk 1 {2} true []).subnodes, p.name = 1 ∧ p.marked = true) :=
  ⟨SafraTree.Reached.initial, fading_successor_eval,
    SafraTree.marks_exact_except_initial.2 NBW.fading _ SafraTree.Reached.initial 1
      (le_refl 1) (le_refl 1) _ fading_successor_eval 1 (le_refl 1)⟩

/-! ## The exploration of `determinize` terminates -/

theorem finite_lists_of_bounded_length {α : Type} (s : Set α) (hs : s.Finite) (n : ℕ) :
    {l : List α | l.length ≤ n ∧ ∀ x ∈ l, x ∈ s}.Finite := by
  induction n with
  | zero =>
    refine (Set.finite_singleton []).subset ?_
    rintro l ⟨hl, _⟩
    exact List.length_eq_zero.1 (Nat.le_zero.1 hl)
  | succ n ih =>
    refine ((Set.finite_singleton []).union (Set.Finite.image2 List.cons hs ih)).subset ?_
    rintro l ⟨hl, hm⟩
    cases l with
    | nil => exact Or.inl rfl
    | cons a l =>
      refine Or.inr ⟨a, hm a (List.mem_cons_self _ _), l,
        ⟨?_, fun x hx => hm x (List.mem_cons_of_mem _ hx)⟩, rfl⟩
      simpa using hl

theorem SafraNode.subnodes_length_le_of_mem {c : SafraNode} {cs : List SafraNode}
    (h : c ∈ cs) : c.subnodes.length ≤ (SafraNode.subnodes_list cs).length := by
  induction cs with
  | nil => exact absurd h (List.not_mem_nil c)
  | cons d ds ih =>
    rw [SafraNode.subnodes_list_cons, List.length_append]
    rcases List.mem_cons.1 h with e | h2
    · rw [e]; omega
    · have := ih h2
      omega

theorem SafraNode.length_le_subnodes_list (cs : List SafraNode) :
    cs.length ≤ (SafraNode.subnodes_list cs).length := by
  induction cs with
  | nil => exact Nat.zero_le _
  | cons d ds ih =>
    rw [SafraNode.subnodes_list_cons, List.length_append, List.length_cons]
    have := List.length_pos_of_mem (SafraNode.self_mem_subnodes d)
    omega

/-- There are finitely many trees with at most `n` nodes, names up to `M` and
labels inside `{0, .., N - 1}`. -/
theorem SafraNode.finite_bounded (M N n : ℕ) :
    {r : SafraNode | r.subnodes.length ≤ n ∧
      ∀ p ∈ r.subnodes, p.name ≤ M ∧ ∀ s ∈ p.states, s < N}.Finite := by
  induction n with
  | zero =>
    refine Set.finite_empty.subset ?_
    rintro r ⟨hl, _⟩
    have := List.length_pos_of_mem (SafraNode.self_mem_subnodes r)
    omega
  | succ n ih =>
    have hL := finite_lists_of_bounded_length _ ih n
    have hB : (Set.univ : Set Bool).Finite := Set.finite_univ
    have hprod := (Set.finite_Iic M).prod
      (((Finset.range N).powerset.finite_toSet).prod (hB.prod hL))
    refine (hprod.image (fun q : ℕ × Finset ℕ × Bool × List SafraNode =>
      SafraNode.mk q.1 q.2.1 q.2.2.1 q.2.2.2)).subset ?_
    rintro ⟨name, states, marked, children⟩ ⟨hl, hb⟩
    rw [SafraNode.subnodes_mk] at hl hb
    have hself := hb _ (List.mem_cons_self _ _)
    have hlen : (SafraNode.subnodes_list children).length ≤ n := by
      rw [List.length_cons] at hl
      omega
    refine ⟨(name, states, marked, children), ⟨hself.1, ?_, Set.mem_univ _, ?_, ?_⟩, rfl⟩
    · show states ∈ ((Finset.range N).powerset : Set (Finset ℕ))
      rw [Finset.mem_coe, Finset.mem_powerset]
      intro s hs
      exact Finset.mem_range.2 (hself.2 s hs)
    · exact le_trans (SafraNode.length_le_subnodes_list children) hlen
    · intro c hc
      refine ⟨le_trans (SafraNode.subnodes_length_le_of_mem hc) hlen, fun p hp => ?_⟩
      exact hb p (List.mem_cons_of_mem _ (SafraNode.mem_subnodes_list.2 ⟨c, hc, hp⟩))

theorem SafraNode.nested_states :
    (∀ x : SafraNode, x.Nested → ∀ p ∈ x.subnodes, p.states ⊆ x.states) ∧
      ∀ cs : List SafraNode, (∀ c ∈ cs, c.Nested) →
        ∀ p ∈ SafraNode.subnodes_list cs, ∃ c ∈ cs, p.states ⊆ c.states := by
  apply SafraNode.induction_both
  · intro name states marked children ih hn p hp
    rw [SafraNode.nested_mk] at hn
    rw [SafraNode.subnodes_mk] at hp
    rcases List.mem_cons.1 hp with e | h2
    · rw [e]
    · obtain ⟨c, hc, hpc⟩ := ih hn.2 p h2
      exact fun s hs => hn.1 c hc (hpc hs)
  · intro _ p hp
    rw [SafraNode.subnodes_list_nil] at hp
    exact absurd hp (List.not_mem_nil p)
  · intro c cs ihc ihcs hn p hp
    rw [SafraNode.subnodes_list_cons] at hp
    rcases List.mem_append.1 hp with h1 | h1
    · exact ⟨c, List.mem_cons_self _ _, ihc (hn c (List.mem_cons_self _ _)) p h1⟩
    · obtain ⟨d, hd, hpd⟩ := ihcs (fun x hx => hn x (List.mem_cons_of_mem _ hx)) p h1
      exact ⟨d, List.mem_cons_of_mem _ hd, hpd⟩

theorem SafraTree.reached_root_bounded (A : NBW) (hN : 1 ≤ A.size)
    (hcache : A.use_cache = false) (hwf : A.WellFormed) {t : SafraTree}
    (h : SafraTree.Reached A t) (r : SafraNode) (hr : t.root = some r) :
    r.subnodes.length ≤ A.size ∧
      ∀ p ∈ r.subnodes, p.name ≤ 2 * A.size ∧ ∀ s ∈ p.states, s < A.size := by
  obtain ⟨hlen, hused⟩ := SafraTree.reached_bound A hN hcache hwf h r hr
  obtain ⟨_, _, hex⟩ := SafraTree.reached_names A h r hr
  have hnest := SafraTree.reached_nested A hcache h r hr
  have hroot : ∀ s ∈ r.states, s < A.size := by
    cases h with
    | initial =>
      obtain ⟨_, _, h3, _⟩ := SafraTree.initial_tree_inv A r hr
      rw [h3]
      exact hwf.1
    | step t0 c h0 hc1 hc2 =>
      cases hr0 : t0.root with
      | none =>
        rw [SafraTree.get_transition_none t0 A c hr0] at hr
        exact absurd hr (by simp)
      | some r0 =>
        obtain ⟨hrt, _⟩ := SafraTree.get_transition_root t0 A c r0 hr0
        rw [hrt] at hr
        obtain ⟨hst, _⟩ := ((SafraNode.clone_labels A c A.final).1 r0 _ ∅).2 r hr
        intro s hs
        rw [hst] at hs
        exact A.transition_lt hcache hwf _ hc1 hc2 s (Finset.mem_sdiff.1 hs).1
  refine ⟨hlen, fun p hp => ⟨?_, fun s hs => hroot s (SafraNode.nested_states.1 r hnest p hp hs)⟩⟩
  have hi : p.name - 1 ∈ r.indices := List.mem_map.2 ⟨p, hp, rfl⟩
  have := hused _ ((hex _).2 hi)
  omega

theorem SafraTree.reached_hvalue (A : NBW) {t : SafraTree} (h : SafraTree.Reached A t)
    (r : SafraNode) (hr : t.root = some r) : t.hvalue = SafraNode.hash_value A.size r := by
  cases h with
  | initial =>
    unfold SafraTree.build_initial_tree at hr ⊢
    simp only [] at hr ⊢
    rw [Option.some.inj hr]
  | step t0 c h0 hc1 hc2 =>
    unfold SafraTree.get_transition at hr ⊢
    split at hr
    · exact absurd hr (by simp)
    · simp only [] at hr ⊢
      split at hr
      · rename_i hnone
        simp [hnone] at hr
      · rename_i r1 hr1
        simp only [hr1] at hr ⊢
        rw [Option.some.inj hr]

theorem SafraTree.reached_beq_of_root (A : NBW) {a b : SafraTree}
    (ha : SafraTree.Reached A a) (hb : SafraTree.Reached A b) (h : a.root = b.root) :
    SafraTree.beq a b = true := by
  rw [SafraTree.tree_beq_iff_key]
  unfold SafraTree.key
  cases hra : a.root with
  | none =>
    rw [hra] at h
    rw [← h]
    rfl
  | some r =>
    have hrb : b.root = some r := by rw [← h, hra]
    rw [hrb]
    have h1 := SafraTree.reached_hvalue A ha r hra
    have h2 := SafraTree.reached_hvalue A hb r hrb
    have h3 : a.used_node_names = b.used_node_names := by
      ext i
      rw [(SafraTree.reached_names A ha r hra).2.2 i, (SafraTree.reached_names A hb r hrb).2.2 i]
    rw [h1, h2, h3]

/-- The list of canonical trees of `determinize` never grows beyond a bound
that depends on the automaton only. -/
theorem NBW.tree_list_bounded (A : NBW) (hN : 1 ≤ A.size) (hcache : A.use_cache = false)
    (hwf : A.WellFormed) : ∃ B, ∀ st, DetGood A st → st.tree_list.length ≤ B := by
  classical
  have hF := SafraNode.finite_bounded (2 * A.size) A.size A.size
  have hR := (hF.image some).insert none
  refine ⟨hR.toFinset.card, fun st hg => ?_⟩
  have hnd : (st.tree_list.map SafraTree.root).Nodup := by
    rw [List.Nodup, List.pairwise_map]
    refine hg.distinct.imp_of_mem ?_
    intro a b ha hb hab hroot
    rw [SafraTree.reached_beq_of_root A (hg.reached a ha) (hg.reached b hb) hroot] at hab
    exact absurd hab (by simp)
  have hsub : (st.tree_list.map SafraTree.root).toFinset ⊆ hR.toFinset := by
    intro o ho
    rw [List.mem_toFinset] at ho
    obtain ⟨t, ht, rfl⟩ := List.mem_map.1 ho
    rw [Set.Finite.mem_toFinset]
    cases hr : t.root with
    | none => exact Set.mem_insert _ _
    | some r =>
      exact Set.mem_insert_of_mem _
        ⟨r, SafraTree.reached_root_bounded A hN hcache hwf (hg.reached t ht) r hr, rfl⟩
  have := Finset.card_le_card hsub
  rw [List.toFinset_card_of_nodup hnd, List.length_map] at this
  exact this

theorem NBW.determinize_round_progress (A : NBW) (st : DetState) (h : DetInv A st)
    (hq : (A.determinize_round st).work_queue ≠ []) :
    st.tree_list.length < (A.determinize_round st).tree_list.length := by
  obtain ⟨x, hx⟩ := List.exists_mem_of_ne_nil _ hq
  have hspec := (A.determinize_queue_spec st.work_queue st [] h.good h.queue_lt).2.2.2.1 x
  have hx2 : x ∈ (st.work_queue.foldl
      (fun acc i =>
        (List.range A.alphabet_size).foldl (fun acc j => A.determinize_step i j acc) acc)
      (st, [])).2 := hx
  rcases hspec.1 hx2 with hc | ⟨h1, h2⟩
  · exact absurd hc (List.not_mem_nil x)
  · exact lt_of_le_of_lt h1 h2

theorem NBW.determinize_loop_done (A : NBW) (fuel : ℕ) (st : DetState)
    (h : st.work_queue = []) : A.determinize_loop fuel st = some st := by
  cases fuel with
  | zero => unfold NBW.determinize_loop; rw [h]; rfl
  | succ fuel => unfold NBW.determinize_loop; rw [h]; rfl

theorem NBW.determinize_loop_terminates (A : NBW) (B : ℕ)
    (hB : ∀ st, DetGood A st → st.tree_list.length ≤ B) :
    ∀ (fuel : ℕ) (st : DetState), DetInv A st → B < st.tree_list.length + fuel →
      (A.determinize_loop fuel st).isSome = true := by
  intro fuel
  induction fuel with
  | zero =>
    intro st h hlt
    have := hB st h.good
    omega
  | succ fuel ih =>
    intro st h hlt
    by_cases he : st.work_queue = []
    · rw [A.determinize_loop_done _ st he]
      rfl
    · have hstep : A.determinize_loop (fuel + 1) st =
          A.determinize_loop fuel (A.determinize_round st) := by
        rw [NBW.determinize_loop]
        have : st.work_queue.isEmpty = false := by
          cases hq : st.work_queue with
          | nil => exact absurd hq he
          | cons a l => rfl
        rw [this]
        rfl
      rw [hstep]
      have hinv := A.determinize_round_inv st h
      by_cases hq : (A.determinize_round st).work_queue = []
      · rw [A.determinize_loop_done _ _ hq]
        rfl
      · have := A.determinize_round_progress st h hq
        exact ih _ hinv (by omega)

theorem NBW.determinize_terminates (A : NBW) (hN : 1 ≤ A.size) (hcache : A.use_cache = false)
    (hwf : A.WellFormed) :
    ∃ fuel0, ∀ fuel, fuel0 ≤ fuel → (A.determinize_explore fuel).isSome = true := by
  obtain ⟨B, hB⟩ := A.tree_list_bounded hN hcache hwf
  refine ⟨B, fun fuel hf => ?_⟩
  exact A.determinize_loop_terminates B hB fuel _ A.determinize_initial_inv (by
    show B < 1 + fuel
    omega)

theorem NBW.determinize_pairs_total (A : NBW) (hN : 1 ≤ A.size)
    (hcache : A.use_cache = false) (hwf : A.WellFormed) :
    ∃ fuel0, ∀ fuel, fuel0 ≤ fuel →
      ∃ (st : DetState) (D : DRW), A.determinize_explore fuel = some st ∧
        A.determinize fuel = some D ∧ D.size = st.tree_list.length ∧
        D.pairs =
          ((List.range' 1 (2 * A.size)).filter
              (fun k => decide (rabin_inf_described st.tree_list k).Nonempty)).map
            (fun k =>
              { infinite := rabin_inf_described st.tree_list k
                finite := rabin_fin_described st.tree_list k }) ∧
        D.pairs.length ≤ 2 * A.size ∧ ∀ p ∈ D.pairs, p.infinite.Nonempty := by
  obtain ⟨f0, h⟩ := A.determinize_terminates hN hcache hwf
  exact ⟨f0, fun fuel hf => A.determinize_pairs_aux hN fuel (h fuel hf)⟩

/-- C22. For an NBW `A` with `N >= 1` states, whose initial set and successor
sets hold states only (bitsets of width `N`) and whose cache flag is the one
the program sets, the exploration of `determinize` finishes: there is a number
of rounds of the loop `while(!work_queue.empty())` from which on the loop has
ended with a list `tree_list` of canonical trees and `determinize` returns a
DRW. The Rabin pairs of that DRW are, in increasing order of `k`, exactly the
pairs `(Fin_k, Inf_k)` for the names `k` in `[1, 2N]` with `Inf_k` non-empty,
where `Inf_k` is the set of states whose tree has `k` in its marked-names set
and `Fin_k` the set of states whose tree does not have `k` in its used-names
set; there are at most `2N` pairs and no pair has an empty `Inf`. -/
theorem NBW.determinize_pairs (A : NBW) (hN : 1 ≤ A.size)
    (hcache : A.use_cache = (NBW_USE_CACHE && decide (A.size ≤ NBW_MAX_CACHED_SIZE)))
    (hwf : A.WellFormed) :
    ∃ fuel0, ∀ fuel, fuel0 ≤ fuel →
      ∃ (st : DetState) (D : DRW), A.determinize_explore fuel = some st ∧
        A.determinize fuel = some D ∧ D.size = st.tree_list.length ∧
        D.pairs =
          ((List.range' 1 (2 * A.size)).filter
              (fun k => decide (rabin_inf_described st.tree_list k).Nonempty)).map
            (fun k =>
              { infinite := rabin_inf_described st.tree_list k
                finite := rabin_fin_described st.tree_list k }) ∧
        D.pairs.length ≤ 2 * A.size ∧ ∀ p ∈ D.pairs, p.infinite.Nonempty :=
  A.determinize_pairs_total hN (by rw [hcache]; rfl) hwf

/-- Witness for C22: the automaton for "infinitely often a", with two states. -/
theorem NBW.determinize_pairs_witness :
    (1 ≤ NBW.infinitely_often_a.size ∧
        NBW.infinitely_often_a.use_cache =
          (NBW_USE_CACHE && decide (NBW.infinitely_often_a.size ≤ NBW_MAX_CACHED_SIZE)) ∧
        NBW.infinitely_often_a.WellFormed) ∧
      ∃ fuel0, ∀ fuel, fuel0 ≤ fuel →
        ∃ (st : DetState) (D : DRW),
          NBW.infinitely_often_a.determinize_explore fuel = some st ∧
          NBW.infinitely_often_a.determinize fuel = some D ∧ D.size = st.tree_list.length ∧
          D.pairs =
            ((List.range' 1 (2 * NBW.infinitely_often_a.size)).filter
                (fun k => decide (rabin_inf_described st.tree_list k).Nonempty)).map
              (fun k =>
                { infinite := rabin_inf_described st.tree_list k
                  finite := rabin_fin_described st.tree_list k }) ∧
          D.pairs.length ≤ 2 * NBW.infinitely_often_a.size ∧
          ∀ p ∈ D.pairs, p.infinite.Nonempty :=
  have hwf : NBW.infinitely_often_a.WellFormed := by
    unfold NBW.WellFormed
    decide
  ⟨⟨by decide, rfl, hwf⟩, NBW.determinize_pairs NBW.infinitely_often_a (by decide) rfl hwf⟩

end MCOCA
